import Mathlib

/-!
# BWT sequence index (`src/libgtmatch/eis-bwtseq.c`)

A shallow embedding of the BWT sequence object of the enhanced inverted
suffix index: construction of the cumulative `count` table
(`initBWTSeqFromEncSeqIdx`, `newBWTSeq`), backward search (`getMatchBound`,
`BWTSeqMatchCount`), the exact-match iterator, the forward scans of a query
and the integrity verification (`BWTSeqVerifyIntegrity`).

Conventions of the embedding.

* Values of the C types `Symbol` (alphabet symbols and internal codes) and
  `Seqpos` (sequence positions, SA-coordinates) are natural numbers, so both
  types are `Nat` here.  `Seqpos` is an unsigned machine
  integer whose width is declared in a header outside the sources at hand
  (`seqpos-def.h`); the width is the field `seqposBits` of `Config` and every
  `Seqpos` addition and subtraction of the code is taken modulo
  `2 ^ seqposBits`.
* Loop counters and array indices of the types `Symbol` and `size_t` are
  natural numbers; a `for` loop from `a` to `b` runs `b - a` times.
* A C function that can read or write outside an array, or trip an `assert`,
  returns in `Except Fault`.
* The rank index (`encIdxSeq`) and the alphabet (`MRAEnc`) are collaborators
  whose code is not part of the sources at hand; they are modelled from their
  contract.
-/

namespace EisBwtSeq

/-- Compile-time constants and macros declared in headers that are not part
of the sources at hand: the width of `Seqpos`, the width of `unsigned long`,
the symbol inserted for the BWT terminator, the symbol the rank index stores
in its place, and the test `ISSPECIAL` for a symbol outside the normal
alphabet. -/
structure Config where
  seqposBits : Nat
  ulongBits : Nat
  bwtTerminatorSym : Nat
  UNDEFBWTCHAR : Nat
  ISSPECIAL : Nat → Bool

/-- Number of values of the type `Seqpos`. -/
def Config.seqposMod (K : Config) : Nat := 2 ^ K.seqposBits

/-- The ways a run can leave defined behaviour. -/
inductive Fault where
  | assertion
  | outOfBounds
  deriving DecidableEq, Repr

/-! ## Collaborators -/

/-- Modelled from the spec: the Alphabet Remapper.  It maps raw symbols to
internal codes (`mappings`), groups the codes into consecutive ranges
(`symbolsPerRange` holds the number of codes of each range) and supports
inserting a symbol into an existing range. -/
structure MRAEnc where
  symbolsPerRange : List Nat
  mappings : Nat → Nat

/-- Modelled from the spec: alphabet size, the number of internal codes. -/
def MRAEncGetSize (alphabet : MRAEnc) : Nat := alphabet.symbolsPerRange.sum

/-- Modelled from the spec: number of symbol ranges. -/
def MRAEncGetNumRanges (alphabet : MRAEnc) : Nat := alphabet.symbolsPerRange.length

/-- Modelled from the spec: symbol to internal code mapping. -/
def MRAEncMapSymbol (alphabet : MRAEnc) (sym : Nat) : Nat := alphabet.mappings sym

/-- Modelled from the spec: the range table of the alphabet with one more
code in range `range`. -/
def bumpRange : List Nat → Nat → List Nat
  | [], _ => []
  | k :: t, 0 => (k + 1) :: t
  | k :: t, r + 1 => k :: bumpRange t r

/-- Modelled from the spec: inserting a symbol into an existing range.  The
new code is placed at the end of the range, codes of later ranges move up by
one; a range that does not exist leaves the alphabet as it is. -/
def MRAEncAddSymbolToRange (alphabet : MRAEnc) (sym : Nat) (range : Nat) : MRAEnc :=
  if range < alphabet.symbolsPerRange.length then
    let insertPos := (alphabet.symbolsPerRange.take (range + 1)).sum
    { symbolsPerRange := bumpRange alphabet.symbolsPerRange range
      mappings := fun s =>
        if s = sym then insertPos
        else if insertPos ≤ alphabet.mappings s then alphabet.mappings s + 1
        else alphabet.mappings s }
  else alphabet

/-- Modelled from the spec: the Compact Rank Index, consumed through its
interface: total sequence length, rank of a symbol code up to a position, and
the locate header (sampling interval, feature flags) stored with the index. -/
structure encIdxSeq where
  seqLen : Nat
  symRank : Nat → Nat → Nat
  locateSampleInterval : Nat
  featureToggles : Nat

/-- Modelled from the spec: total sequence length. -/
def EISLength (seqIdx : encIdxSeq) : Nat := seqIdx.seqLen

/-- Modelled from the spec: rank of the code `tSym` up to position `pos`
(the lookup hint is scratch state and has no effect on the value). -/
def EISSymTransformedRank (seqIdx : encIdxSeq) (tSym : Nat) (pos : Nat) : Nat :=
  seqIdx.symRank tSym pos

/-- Modelled from the spec: a rank index holding the code sequence `syms`;
the rank of a code up to a position is the number of its occurrences in
positions `[0, pos)`. -/
def encIdxSeqOfSymbols (syms : List Nat) (locateSampleInterval featureToggles : Nat) :
    encIdxSeq where
  seqLen := syms.length
  symRank := fun s p => (syms.take p).count s
  locateSampleInterval := locateSampleInterval
  featureToggles := featureToggles

/-! ## The BWT sequence object -/

/-- The struct `BWTSeq`. -/
structure BWTSeq where
  alphabet : MRAEnc
  seqIdx : encIdxSeq
  alphabetSize : Nat
  count : List Nat
  bwtTerminatorFallback : Nat
  bwtTerminatorFallbackRange : Nat
  rangeSort : List Nat
  locateSampleInterval : Nat
  featureToggles : Nat

/-- The struct `matchBound`: a half-open interval of SA-coordinates (the
field `end` of the source is `end_`). -/
structure matchBound where
  start : Nat
  end_ : Nat
  deriving DecidableEq, Repr

/-- Read of `a[i]`. -/
def readAt (a : List Nat) (i : Nat) : Except Fault Nat :=
  match a[i]? with
  | some v => .ok v
  | none => .error .outOfBounds

/-- Write `a[i] = v`. -/
def writeAt (a : List Nat) (i : Nat) (v : Nat) : Except Fault (List Nat) :=
  if i < a.length then .ok (a.set i v) else .error .outOfBounds

/-- The statement `assert(cond)`. -/
def assertThat (cond : Bool) : Except Fault Unit :=
  if cond then .ok () else .error .assertion

/-- The loop `for (i = 0; i < bwtTerminatorFlat; ++i)
count[i + 1] = count[i] + EISSymTransformedRank(seqIdx, i, len, hint)`;
the first argument is the number of iterations left. -/
def countLoopBelow (K : Config) (seqIdx : encIdxSeq) (len : Nat) :
    Nat → Nat → List Nat → Except Fault (List Nat)
  | 0, _, count => .ok count
  | n + 1, i, count => do
    let ci ← readAt count i
    let count ← writeAt count (i + 1)
      ((ci + EISSymTransformedRank seqIdx i len) % K.seqposMod)
    countLoopBelow K seqIdx len n (i + 1) count

/-- The loop `for (i += 2; i < alphabetSize; ++i)
count[i] = count[i - 1] + EISSymTransformedRank(seqIdx, i - 1, len, hint)`;
the first argument is the number of iterations left. -/
def countLoopAbove (K : Config) (seqIdx : encIdxSeq) (len : Nat) :
    Nat → Nat → List Nat → Except Fault (List Nat)
  | 0, _, count => .ok count
  | n + 1, i, count => do
    let c ← readAt count (i - 1)
    let count ← writeAt count i
      ((c + EISSymTransformedRank seqIdx (i - 1) len) % K.seqposMod)
    countLoopAbove K seqIdx len n (i + 1) count

/-- Modelled from the spec: `BWTSeqInitLocateHandling` records the locate
sampling interval and the feature flags of the index and the default sort
modes of the ranges. -/
def BWTSeqInitLocateHandling (bwtSeq : BWTSeq) (defaultRangeSort : List Nat) : BWTSeq :=
  { bwtSeq with
    rangeSort := defaultRangeSort
    locateSampleInterval := bwtSeq.seqIdx.locateSampleInterval
    featureToggles := bwtSeq.seqIdx.featureToggles }

/-- The block of `initBWTSeqFromEncSeqIdx` that fills the `count` table. -/
def fillCount (K : Config) (seqIdx : encIdxSeq) (alphabetSize : Nat)
    (bwtTerminatorFlat : Nat) (counts : List Nat) : Except Fault (List Nat) := do
  let len := EISLength seqIdx
  let count ← writeAt counts 0 0
  let count ← countLoopBelow K seqIdx len bwtTerminatorFlat 0 count
  let i := bwtTerminatorFlat
  let ci ← readAt count i
  let count ← writeAt count (i + 1)
    ((ci + EISSymTransformedRank seqIdx i len + (K.seqposMod - 1)) % K.seqposMod)
  let ci1 ← readAt count (i + 1)
  let ci ← readAt count i
  assertThat (decide (ci1 ≥ ci))
  let count ← countLoopAbove K seqIdx len (alphabetSize - (i + 2)) (i + 2) count
  let i := if i + 2 < alphabetSize then alphabetSize else i + 2
  let c ← readAt count (i - 1)
  let count ← writeAt count i ((c + 1) % K.seqposMod)
  let last ← readAt count alphabetSize
  assertThat (decide (last = len))
  return count

/-- The function `initBWTSeqFromEncSeqIdx`.  The result is the return value
(`none` for `return 0`, the initialised object for `return 1`) together with
the state of the caller's alphabet object after the call. -/
def initBWTSeqFromEncSeqIdx (K : Config) (seqIdx : encIdxSeq) (alphabet : MRAEnc)
    (counts : List Nat) (defaultRangeSort : List Nat) :
    Except Fault (Option BWTSeq × MRAEnc) := do
  let alphabetSize := MRAEncGetSize alphabet
  if alphabetSize = 0 then return (none, alphabet)
  let alphabet1 := MRAEncAddSymbolToRange alphabet K.bwtTerminatorSym 1
  assertThat (decide (MRAEncGetSize alphabet1 = alphabetSize + 1))
  let alphabetSize := MRAEncGetSize alphabet1
  let bwtTerminatorFlat := MRAEncMapSymbol alphabet1 K.UNDEFBWTCHAR
  let count ← fillCount K seqIdx alphabetSize bwtTerminatorFlat counts
  let bwtSeq : BWTSeq :=
    { alphabet := alphabet1
      seqIdx := seqIdx
      alphabetSize := alphabetSize
      count := count
      bwtTerminatorFallback := bwtTerminatorFlat
      bwtTerminatorFallbackRange := 1
      rangeSort := []
      locateSampleInterval := 0
      featureToggles := 0 }
  return (some (BWTSeqInitLocateHandling bwtSeq defaultRangeSort), alphabet1)

/-- What a caller of `newBWTSeq` sees after the call: the returned pointer
(`none` is `NULL`) and the states of the alphabet and of the rank index it
passed in. -/
structure NewBWTSeqResult where
  bwtSeq : Option BWTSeq
  alphabet : MRAEnc
  seqIdx : encIdxSeq

/-- The function `newBWTSeq`: allocates the object with a `count` table of
`alphabetSize + 1` entries, `alphabetSize` being the size of the alphabet
plus one, and initialises it. -/
def newBWTSeq (K : Config) (seqIdx : encIdxSeq) (alphabet : MRAEnc)
    (defaultRangeSort : List Nat) : Except Fault NewBWTSeqResult := do
  let alphabetSize := MRAEncGetSize alphabet + 1
  let counts : List Nat := List.replicate (alphabetSize + 1) 0
  let (r, alphabet1) ← initBWTSeqFromEncSeqIdx K seqIdx alphabet counts defaultRangeSort
  match r with
  | none => return { bwtSeq := none, alphabet := alphabet1, seqIdx := seqIdx }
  | some bwtSeq => return { bwtSeq := some bwtSeq, alphabet := alphabet1, seqIdx := seqIdx }

/-! ## Backward search -/

/-- Modelled from the spec: `BWTSeqTransformedPosPairOcc`, the rank of a code
at both interval endpoints in one operation. -/
def BWTSeqTransformedPosPairOcc (bwtSeq : BWTSeq) (tSym : Nat) (posA posB : Nat) :
    Nat × Nat :=
  (EISSymTransformedRank bwtSeq.seqIdx tSym posA, EISSymTransformedRank bwtSeq.seqIdx tSym posB)

/-- Read of `query[i]`. -/
def readQuery (query : List Nat) (i : Nat) : Except Fault Nat :=
  match query[i]? with
  | some v => .ok v
  | none => .error .outOfBounds

/-- The loop `while ((match->start <= match->end) && (i > 0))` of
`getMatchBound`; the first argument is the index `i`. -/
def getMatchBoundLoop (K : Config) (bwtSeq : BWTSeq) (query : List Nat) :
    Nat → matchBound → Except Fault matchBound
  | 0, m => .ok m
  | i + 1, m =>
    if m.start ≤ m.end_ then do
      let q ← readQuery query i
      let curSym := MRAEncMapSymbol bwtSeq.alphabet q
      let occPair := BWTSeqTransformedPosPairOcc bwtSeq curSym m.start m.end_
      let c ← readAt bwtSeq.count curSym
      getMatchBoundLoop K bwtSeq query i
        { start := (c + occPair.1) % K.seqposMod, end_ := (c + occPair.2) % K.seqposMod }
    else .ok m

/-- The function `getMatchBound`.  For `queryLen = 0` the index `--i` wraps
around and the first read lies outside the query. -/
def getMatchBound (K : Config) (bwtSeq : BWTSeq) (query : List Nat) (queryLen : Nat) :
    Except Fault matchBound :=
  match queryLen with
  | 0 => .error .outOfBounds
  | i + 1 => do
    let q ← readQuery query i
    let curSym := MRAEncMapSymbol bwtSeq.alphabet q
    let s ← readAt bwtSeq.count curSym
    let e ← readAt bwtSeq.count (curSym + 1)
    getMatchBoundLoop K bwtSeq query i { start := s, end_ := e }

/-- The function `BWTSeqMatchCount`. -/
def BWTSeqMatchCount (K : Config) (bwtSeq : BWTSeq) (query : List Nat) (queryLen : Nat) :
    Except Fault Nat := do
  let m ← getMatchBound K bwtSeq query queryLen
  if m.end_ < m.start then return 0 else return m.end_ - m.start

/-! ## Backward search with the reads of the query recorded -/

/-- The struct `BWTSeqExactMatchesIterator` (the `extBits` scratch state is
kept as an uninterpreted number). -/
structure BWTSeqExactMatchesIterator where
  bounds : matchBound
  nextMatchBWTPos : Nat
  extBits : Nat

/-- The function `initEMIterator`: `none` is the return value `false`. -/
def initEMIterator (K : Config) (bwtSeq : BWTSeq) (query : List Nat) (queryLen : Nat) :
    Except Fault (Option BWTSeqExactMatchesIterator) :=
  if bwtSeq.locateSampleInterval = 0 then .ok none
  else do
    let bounds ← getMatchBound K bwtSeq query queryLen
    return some { bounds := bounds, nextMatchBWTPos := bounds.start, extBits := 0 }

/-- The function `EMINumMatchesTotal`. -/
def EMINumMatchesTotal (iter : BWTSeqExactMatchesIterator) : Nat :=
  if iter.bounds.start > iter.bounds.end_ then 0 else iter.bounds.end_ - iter.bounds.start

/-- The function `newEMIterator`: `none` is the return value `NULL`. -/
def newEMIterator (K : Config) (bwtSeq : BWTSeq) (query : List Nat) (queryLen : Nat) :
    Except Fault (Option BWTSeqExactMatchesIterator) := do
  let r ← initEMIterator K bwtSeq query queryLen
  match r with
  | some iter => return some iter
  | none => return none

/-- The function `initEmptyEMIterator`: `none` is the return value `false`. -/
def initEmptyEMIterator (bwtSeq : BWTSeq) : Option BWTSeqExactMatchesIterator :=
  if bwtSeq.locateSampleInterval = 0 then none
  else some { bounds := { start := 0, end_ := 0 }, nextMatchBWTPos := 0, extBits := 0 }

/-- The function `reinitEMIterator`: the return value and the iterator after
the call. -/
def reinitEMIterator (K : Config) (iter : BWTSeqExactMatchesIterator) (bwtSeq : BWTSeq)
    (query : List Nat) (queryLen : Nat) : Except Fault (Bool × BWTSeqExactMatchesIterator) := do
  let bounds ← getMatchBound K bwtSeq query queryLen
  return (true, { iter with bounds := bounds, nextMatchBWTPos := bounds.start })

/-- The function `EMINumMatchesLeft`.  The difference `end - start` is taken
in `Seqpos`: no test keeps `start` at or below `end` here, so it wraps when
`start` lies above `end`. -/
def EMINumMatchesLeft (K : Config) (iter : BWTSeqExactMatchesIterator) : Nat :=
  if iter.nextMatchBWTPos > iter.bounds.end_ then 0
  else (iter.bounds.end_ + (K.seqposMod - iter.bounds.start)) % K.seqposMod

/-! ## Forward scans of a query -/

/-- The statements after the loop of `packedindexuniqueforward`: the value
`qptr - qstart` if the bound holds exactly one element, else 0. -/
def uniqueResult (K : Config) (bwtbound : matchBound) (qptr : Nat) : Nat :=
  if (bwtbound.start + 1) % K.seqposMod = bwtbound.end_ then qptr else 0

/-- The loop `while (qptr < qend && bwtbound.start + 1 < bwtbound.end)` of
`packedindexuniqueforward` with the statements after it; the first argument
is the number of characters left, `qend - qptr`, the second the index
`qptr - qstart`. -/
def packedindexuniqueforwardLoop (K : Config) (bwtSeq : BWTSeq) (query : List Nat) :
    Nat → Nat → matchBound → Except Fault Nat
  | 0, qptr, bwtbound => .ok (uniqueResult K bwtbound qptr)
  | n + 1, qptr, bwtbound =>
    if (bwtbound.start + 1) % K.seqposMod < bwtbound.end_ then do
      let cc ← readQuery query qptr
      if K.ISSPECIAL cc = true then .ok 0
      else do
        let curSym := MRAEncMapSymbol bwtSeq.alphabet cc
        let seqpospair := BWTSeqTransformedPosPairOcc bwtSeq curSym bwtbound.start bwtbound.end_
        let c ← readAt bwtSeq.count curSym
        packedindexuniqueforwardLoop K bwtSeq query n (qptr + 1)
          { start := (c + seqpospair.1) % K.seqposMod
            end_ := (c + seqpospair.2) % K.seqposMod }
    else .ok (uniqueResult K bwtbound qptr)

/-- The function `packedindexuniqueforward`; `query` holds the characters
from `qstart` up to `qend`. -/
def packedindexuniqueforward (K : Config) (bwtSeq : BWTSeq) (query : List Nat) :
    Except Fault Nat := do
  let cc ← readQuery query 0
  if K.ISSPECIAL cc = true then .ok 0
  else do
    let curSym := MRAEncMapSymbol bwtSeq.alphabet cc
    let s ← readAt bwtSeq.count curSym
    let e ← readAt bwtSeq.count (curSym + 1)
    packedindexuniqueforwardLoop K bwtSeq query (query.length - 1) 1 { start := s, end_ := e }

/-- The loop `for (qptr++; qptr < qend; qptr++)` of
`packedindexmstatsforward`; the first argument is the number of characters
left, the second the index `qptr - qstart`; the result is the index at which
the loop ends and the value of `prevlbound`. -/
def packedindexmstatsforwardLoop (K : Config) (bwtSeq : BWTSeq) (query : List Nat) :
    Nat → Nat → matchBound → Nat → Except Fault (Nat × Nat)
  | 0, qptr, _, prevlbound => .ok (qptr, prevlbound)
  | n + 1, qptr, bwtbound, prevlbound => do
    let cc ← readQuery query qptr
    if K.ISSPECIAL cc = true then .ok (qptr, prevlbound)
    else do
      let curSym := MRAEncMapSymbol bwtSeq.alphabet cc
      let seqpospair := BWTSeqTransformedPosPairOcc bwtSeq curSym bwtbound.start bwtbound.end_
      let c ← readAt bwtSeq.count curSym
      let start := (c + seqpospair.1) % K.seqposMod
      let end_ := (c + seqpospair.2) % K.seqposMod
      if start ≥ end_ then .ok (qptr, prevlbound)
      else
        packedindexmstatsforwardLoop K bwtSeq query n (qptr + 1)
          { start := start, end_ := end_ } start

/-- The function `packedindexmstatsforward`; `query` holds the characters
from `qstart` up to `qend`, `pckfindfirstmatch` is the function of that name,
declared outside the sources at hand, and `witnessposition` is `none` for a
`NULL` pointer and else the value the pointer refers to.  The result is the
return value and the value behind `witnessposition` after the call.  The
value of `pckfindfirstmatch` is stored in a `Seqpos`; the sum
`startpos + matchlength` is taken in the wider of the types `Seqpos` and
`unsigned long` and wraps there, and so do the comparison and the difference
of the two statements that use it. -/
def packedindexmstatsforward (K : Config) (bwtSeq : BWTSeq)
    (pckfindfirstmatch : BWTSeq → Nat → Nat) (witnessposition : Option Nat)
    (query : List Nat) : Except Fault (Nat × Option Nat) := do
  assertThat (decide (0 < query.length))
  let cc ← readQuery query 0
  if K.ISSPECIAL cc = true then .ok (0, witnessposition)
  else do
    let curSym := MRAEncMapSymbol bwtSeq.alphabet cc
    let s ← readAt bwtSeq.count curSym
    let e ← readAt bwtSeq.count (curSym + 1)
    if s ≥ e then .ok (0, witnessposition)
    else do
      let (matchlength, prevlbound) ←
        packedindexmstatsforwardLoop K bwtSeq query (query.length - 1) 1
          { start := s, end_ := e } s
      match witnessposition with
      | none => .ok (matchlength, none)
      | some _ => do
        let startpos := pckfindfirstmatch bwtSeq prevlbound % K.seqposMod
        let last := (bwtSeq.seqIdx.seqLen + (K.seqposMod - 1)) % K.seqposMod
        let sum := (startpos + matchlength) % 2 ^ max K.seqposBits K.ulongBits
        assertThat (decide (last ≥ sum))
        .ok (matchlength, some ((last - sum) % K.seqposMod))

/-! ## Backward search with the lookup hint made explicit -/

/-- Modelled from the spec: a rank lookup through the reusable lookup hint of
the rank index.  `lookup hint tSym pos` is the rank returned and the state of
the hint the lookup leaves behind. -/
structure EISHint where
  lookup : Nat → Nat → Nat → Nat × Nat

/-- Modelled from the spec: `BWTSeqTransformedPosPairOcc` through the hint,
the rank at both positions and the hint left behind. -/
def BWTSeqTransformedPosPairOccHint (R : EISHint) (hint : Nat) (tSym : Nat) (posA posB : Nat) :
    (Nat × Nat) × Nat :=
  (((R.lookup hint tSym posA).1, (R.lookup (R.lookup hint tSym posA).2 tSym posB).1),
    (R.lookup (R.lookup hint tSym posA).2 tSym posB).2)

/-- The loop of `getMatchBound` with the state of `bwtSeq->hint` carried
along. -/
def getMatchBoundLoopHint (K : Config) (bwtSeq : BWTSeq) (R : EISHint) (query : List Nat) :
    Nat → matchBound → Nat → Except Fault (matchBound × Nat)
  | 0, m, hint => .ok (m, hint)
  | i + 1, m, hint =>
    if m.start ≤ m.end_ then do
      let q ← readQuery query i
      let curSym := MRAEncMapSymbol bwtSeq.alphabet q
      let occPair := BWTSeqTransformedPosPairOccHint R hint curSym m.start m.end_
      let c ← readAt bwtSeq.count curSym
      getMatchBoundLoopHint K bwtSeq R query i
        { start := (c + occPair.1.1) % K.seqposMod, end_ := (c + occPair.1.2) % K.seqposMod }
        occPair.2
    else .ok (m, hint)

/-- The function `getMatchBound` with the state of `bwtSeq->hint` before the
call as an argument and the state after the call in the result. -/
def getMatchBoundHint (K : Config) (bwtSeq : BWTSeq) (R : EISHint) (query : List Nat)
    (queryLen : Nat) (hint : Nat) : Except Fault (matchBound × Nat) :=
  match queryLen with
  | 0 => .error .outOfBounds
  | i + 1 => do
    let q ← readQuery query i
    let curSym := MRAEncMapSymbol bwtSeq.alphabet q
    let s ← readAt bwtSeq.count curSym
    let e ← readAt bwtSeq.count (curSym + 1)
    getMatchBoundLoopHint K bwtSeq R query i { start := s, end_ := e } hint

/-! ## Integrity verification -/

/-- The values of `enum verifyBWTSeqErrCode` that `BWTSeqVerifyIntegrity`
assigns to `retval`; the enum is declared in a header that is not part of the
sources at hand. -/
inductive verifyBWTSeqErrCode where
  | VERIFY_BWTSEQ_NO_ERROR
  | VERIFY_BWTSEQ_REFLOAD_ERROR
  | VERIFY_BWTSEQ_LENCOMPARE_ERROR
  | VERIFY_BWTSEQ_SUFVAL_ERROR
  | VERIFY_BWTSEQ_LFMAPWALK_ERROR
  | VERIFY_BWTSEQ_TERMPOS_ERROR
  deriving DecidableEq, Repr

/-- The struct `DefinedSeqpos` of the field `longest` of a suffix array. -/
structure DefinedSeqpos where
  defined : Bool
  valueseqpos : Nat

/-- The parts of the struct `Suffixarray` that verification reads: the table
`suftab`, the field `longest`, and the characters
`getencodedchar(encseq, pos, readmode)` of its encoded sequence under its
read mode. -/
structure Suffixarray where
  suftab : List Nat
  longest : DefinedSeqpos
  getencodedchar : Nat → Nat

/-- The functions and constants used by `BWTSeqVerifyIntegrity` whose code is
declared outside the sources at hand, as parameters: the outcome of
`mapsuffixarray` for the project (`none` when it fails, else the suffix array
and the value it stores in `len`), the feature bit `BWTReversiblySorted`, and
the accessors of the BWT sequence and of its rank index.  The scratch state
`extBits` and the lookup hint are passed to these accessors in the source;
they have no effect on the values returned. -/
structure VerifyEnv where
  mapsuffixarray : Option (Suffixarray × Nat)
  BWTReversiblySorted : Nat
  BWTSeqLength : BWTSeq → Nat
  BWTSeqHasLocateInformation : BWTSeq → Bool
  BWTSeqPosHasLocateInfo : BWTSeq → Nat → Bool
  BWTSeqLocateMatch : BWTSeq → Nat → Nat
  BWTSeqTerminatorPos : BWTSeq → Nat
  EISGetSym : encIdxSeq → Nat → Nat
  BWTSeqLFMap : BWTSeq → Nat → Nat

/-- What the caller of `BWTSeqVerifyIntegrity` sees: the value returned, the
numbers written into the message of `error_set` (none for the two messages
that name the project only), and which of the two release functions were
called. -/
structure VerifyRun where
  retval : verifyBWTSeqErrCode
  errorArgs : List Nat
  freesuffixarray : Bool
  destructExtBitsRetrieval : Bool
  deriving DecidableEq, Repr

/-- The loop `for (i = 0; i < len && retval == VERIFY_BWTSEQ_NO_ERROR; ++i)`
of the locate-value check; the first argument is the number of coordinates
left, `len - i`.  The result is the value of `retval` after the loop and the
numbers of the error message.  The progress dots written to `fp` are left
out. -/
def locateCheckLoop (E : VerifyEnv) (bwtSeq : BWTSeq) (suftab : List Nat) :
    Nat → Nat → Except Fault (verifyBWTSeqErrCode × List Nat)
  | 0, _ => .ok (.VERIFY_BWTSEQ_NO_ERROR, [])
  | n + 1, i =>
    if E.BWTSeqPosHasLocateInfo bwtSeq i = true then do
      let sfxArrayValue := E.BWTSeqLocateMatch bwtSeq i
      let ref ← readAt suftab i
      if sfxArrayValue ≠ ref then
        .ok (.VERIFY_BWTSEQ_SUFVAL_ERROR, [i, sfxArrayValue, ref])
      else locateCheckLoop E bwtSeq suftab n (i + 1)
    else locateCheckLoop E bwtSeq suftab n (i + 1)

/-- The statement `if (BWTSeqHasLocateInformation(bwtSeq)) ... else ...`: the
locate-value check is made only when locate information is present; the
note written to `stderr` otherwise is left out. -/
def locateCheck (E : VerifyEnv) (bwtSeq : BWTSeq) (suffixArray : Suffixarray) (len : Nat) :
    Except Fault (verifyBWTSeqErrCode × List Nat) :=
  if E.BWTSeqHasLocateInformation bwtSeq = true then
    locateCheckLoop E bwtSeq suffixArray.suftab len 0
  else .ok (.VERIFY_BWTSEQ_NO_ERROR, [])

/-- The loop `while (i > 0)` of the LF walk; the first argument is `i`, the
second `nextLocate`. -/
def lfWalkLoop (E : VerifyEnv) (bwtSeq : BWTSeq) (suffixArray : Suffixarray) :
    Nat → Nat → verifyBWTSeqErrCode × List Nat
  | 0, _ => (.VERIFY_BWTSEQ_NO_ERROR, [])
  | i + 1, nextLocate =>
    let symRef := suffixArray.getencodedchar i
    let symCmp := E.EISGetSym bwtSeq.seqIdx nextLocate
    if symCmp ≠ symRef then (.VERIFY_BWTSEQ_LFMAPWALK_ERROR, [i, symCmp, symRef])
    else lfWalkLoop E bwtSeq suffixArray i (E.BWTSeqLFMap bwtSeq nextLocate)

/-- The statements of the block `do { ... } while (0)` of
`BWTSeqVerifyIntegrity` after the suffix array is loaded and `len` is
incremented: the value of `retval` when the block is left and the numbers of
the error message. -/
def verifyChecks (K : Config) (E : VerifyEnv) (bwtSeq : BWTSeq) (suffixArray : Suffixarray)
    (len : Nat) : Except Fault (verifyBWTSeqErrCode × List Nat) :=
  if E.BWTSeqLength bwtSeq ≠ len then .ok (.VERIFY_BWTSEQ_LENCOMPARE_ERROR, [])
  else do
    let r ← locateCheck E bwtSeq suffixArray len
    if r.1 ≠ .VERIFY_BWTSEQ_NO_ERROR then .ok r
    else if bwtSeq.featureToggles &&& E.BWTReversiblySorted ≠ 0 ∧ len ≠ 0 then
      let nextLocate := E.BWTSeqTerminatorPos bwtSeq
      let i := len
      if suffixArray.longest.defined = true
          ∧ suffixArray.longest.valueseqpos ≠ nextLocate then
        .ok (.VERIFY_BWTSEQ_TERMPOS_ERROR, [suffixArray.longest.valueseqpos, nextLocate])
      else
        let sym := E.EISGetSym bwtSeq.seqIdx nextLocate
        if sym ≠ K.UNDEFBWTCHAR then
          .ok (.VERIFY_BWTSEQ_LFMAPWALK_ERROR, [i - 1, sym, K.UNDEFBWTCHAR])
        else
          .ok (lfWalkLoop E bwtSeq suffixArray (i - 1) (E.BWTSeqLFMap bwtSeq nextLocate))
    else .ok (.VERIFY_BWTSEQ_NO_ERROR, [])

/-- The function `BWTSeqVerifyIntegrity`.  `initExtBitsRetrieval` is called
at entry; the flag `extBitsAreInitialized` keeps its initial value `false`,
no statement of the function assigns to it.  The assertion on the pointer
arguments and `error_check` at entry are left out: the arguments are values
here. -/
def BWTSeqVerifyIntegrity (K : Config) (E : VerifyEnv) (bwtSeq : BWTSeq) :
    Except Fault VerifyRun :=
  let extBitsAreInitialized := false
  match E.mapsuffixarray with
  | none =>
    let suffixArrayIsInitialized := false
    .ok { retval := .VERIFY_BWTSEQ_REFLOAD_ERROR
          errorArgs := []
          freesuffixarray := suffixArrayIsInitialized
          destructExtBitsRetrieval := extBitsAreInitialized }
  | some (suffixArray, len) => do
    let suffixArrayIsInitialized := true
    let len := (len + 1) % K.seqposMod
    let r ← verifyChecks K E bwtSeq suffixArray len
    .ok { retval := r.1
          errorArgs := r.2
          freesuffixarray := suffixArrayIsInitialized
          destructExtBitsRetrieval := extBitsAreInitialized }

/-! ## The Burrows-Wheeler transform of a text

The text is a sequence of internal codes.  Suffixes are compared
lexicographically by code; the terminator carries the largest code
`alphabetSize - 1`, as in the `count` table, whose last slot is the one of
the terminator. -/

/-- Strict lexicographic order on code sequences. -/
def lexLt : List Nat → List Nat → Bool
  | [], [] => false
  | [], _ :: _ => true
  | _ :: _, [] => false
  | a :: x, b :: y => decide (a < b) || (a == b && lexLt x y)

/-- Order of two positions of `S` by the suffixes starting there. -/
def suffixLe (S : List Nat) (i j : Nat) : Prop := lexLt (S.drop j) (S.drop i) = false

instance (S : List Nat) : DecidableRel (suffixLe S) := fun i j =>
  inferInstanceAs (Decidable (lexLt (S.drop j) (S.drop i) = false))

/-- The suffix array of `S`: the start positions of the non-empty suffixes of
`S` in ascending lexicographic order of the suffixes. -/
def suffixArray (S : List Nat) : List Nat :=
  List.insertionSort (suffixLe S) (List.range S.length)

/-- The text followed by the terminator, whose code is `alphabetSize - 1`. -/
def withTerminator (alphabetSize : Nat) (T : List Nat) : List Nat :=
  T ++ [alphabetSize - 1]

/-- The symbol of the BWT at the row of the suffix starting at `j`: the symbol
before the suffix; the row of the whole sequence holds the terminator, which
the rank index stores as the code `fallback`. -/
def bwtSymbol (fallback : Nat) (S : List Nat) (j : Nat) : Nat :=
  if j = 0 then fallback else S.getD (j - 1) 0

/-- The BWT of the text `T` plus terminator as the rank index stores it. -/
def bwtStored (alphabetSize : Nat) (fallback : Nat) (T : List Nat) : List Nat :=
  (suffixArray (withTerminator alphabetSize T)).map
    (bwtSymbol fallback (withTerminator alphabetSize T))

/-- The symbol before each non-empty suffix of a sequence, paired with the
suffix; `p` stands before the whole sequence. -/
def prevSuffixPairs : Nat → List Nat → List (Nat × List Nat)
  | _, [] => []
  | p, a :: y => (p, a :: y) :: prevSuffixPairs a y

/-- The set of sequences below a pattern `P`: for `β = false` the sequences
strictly less than `P`, for `β = true` those less than `P` or starting with
`P`. -/
def dom (β : Bool) : List Nat → List Nat → Bool
  | [], _ => β
  | _ :: _, [] => true
  | c :: P, a :: y => decide (a < c) || (a == c && dom β P y)

/-- Number of non-empty suffixes of `S` in `dom β P`. -/
def domCount (β : Bool) (P S : List Nat) (p : Nat) : Nat :=
  (prevSuffixPairs p S).countP (fun pr => dom β P pr.2)

/-- Modelled from the spec: `BWTSeqLocateMatch` resolves the SA-coordinate
`pos` to the text position of the match, which is the start of the suffix in
row `pos` of the suffix array of the text plus terminator `S`.  Its code is
not part of the sources at hand. -/
def BWTSeqLocateMatch (S : List Nat) (pos : Nat) : Nat :=
  (suffixArray S).getD pos 0

/-! ## Definitions used to state and prove the properties -/

/-- The codes a stored sequence really holds: one occurrence of the fallback
code stands for the terminator, whose code is `alphabetSize - 1`. -/
def trueCodes (alphabetSize fallback : Nat) (syms : List Nat) : List Nat :=
  syms.erase fallback ++ [alphabetSize - 1]

/-- Number of positions whose true code is strictly less than `i`. -/
def countBelow (alphabetSize fallback : Nat) (syms : List Nat) (i : Nat) : Nat :=
  (trueCodes alphabetSize fallback syms).countP (fun a => decide (a < i))

/-- One narrowing step as the specification words it: `[start, end)` becomes
`[count[c] + rank(c, start), count[c] + rank(c, end))` with `c` the code of
the query character. -/
def narrowStep (bwtSeq : BWTSeq) (m : matchBound) (q : Nat) : matchBound :=
  { start := bwtSeq.count.getD (MRAEncMapSymbol bwtSeq.alphabet q) 0
      + EISSymTransformedRank bwtSeq.seqIdx (MRAEncMapSymbol bwtSeq.alphabet q) m.start
    end_ := bwtSeq.count.getD (MRAEncMapSymbol bwtSeq.alphabet q) 0
      + EISSymTransformedRank bwtSeq.seqIdx (MRAEncMapSymbol bwtSeq.alphabet q) m.end_ }

/-- The interval of the specification: start with the slot of the code of
the last query character, then narrow by each preceding character, taken
right to left. -/
def narrowedBound (bwtSeq : BWTSeq) (query : List Nat) : matchBound :=
  match query.reverse with
  | [] => { start := 0, end_ := 0 }
  | last :: before =>
    before.foldl (narrowStep bwtSeq)
      { start := bwtSeq.count.getD (MRAEncMapSymbol bwtSeq.alphabet last) 0
        end_ := bwtSeq.count.getD (MRAEncMapSymbol bwtSeq.alphabet last + 1) 0 }

/-- The standing assumptions on a BWT sequence and a query under which the
search never leaves the table and never wraps: the table has
`alphabetSize + 1` non-decreasing entries, the rank is monotone in the
position, the query codes lie in the alphabet, and the sums of a table entry
and a rank are `Seqpos` values. -/
structure SearchReady (K : Config) (bwtSeq : BWTSeq) (query : List Nat) : Prop where
  length_count : bwtSeq.count.length = bwtSeq.alphabetSize + 1
  count_mono : ∀ i, i < bwtSeq.alphabetSize →
    bwtSeq.count.getD i 0 ≤ bwtSeq.count.getD (i + 1) 0
  rank_mono : ∀ c p q, p ≤ q →
    EISSymTransformedRank bwtSeq.seqIdx c p ≤ EISSymTransformedRank bwtSeq.seqIdx c q
  in_alphabet : ∀ q ∈ query, MRAEncMapSymbol bwtSeq.alphabet q < bwtSeq.alphabetSize
  no_wrap : ∀ q ∈ query, ∀ p, bwtSeq.count.getD (MRAEncMapSymbol bwtSeq.alphabet q) 0
    + EISSymTransformedRank bwtSeq.seqIdx (MRAEncMapSymbol bwtSeq.alphabet q) p < K.seqposMod

/-- The alphabet after `MRAEncAddSymbolToRange(alphabet, bwtTerminatorSym, 1)`. -/
def terminatedAlphabet (K : Config) (alphabet : MRAEnc) : MRAEnc :=
  MRAEncAddSymbolToRange alphabet K.bwtTerminatorSym 1

/-- The code `MRAEncMapSymbol(alphabet, UNDEFBWTCHAR)` read after the
terminator has been added: the fallback code. -/
def fallbackCode (K : Config) (alphabet : MRAEnc) : Nat :=
  MRAEncMapSymbol (terminatedAlphabet K alphabet) K.UNDEFBWTCHAR

/-- The object that `newBWTSeq` builds over a rank index holding `syms`. -/
def builtBWTSeq (K : Config) (alphabet : MRAEnc) (syms : List Nat) (a b : Nat)
    (defaultRangeSort : List Nat) : BWTSeq where
  alphabet := terminatedAlphabet K alphabet
  seqIdx := encIdxSeqOfSymbols syms a b
  alphabetSize := MRAEncGetSize alphabet + 1
  count := (List.range (MRAEncGetSize alphabet + 1 + 1)).map
    (countBelow (MRAEncGetSize alphabet + 1) (fallbackCode K alphabet) syms)
  bwtTerminatorFallback := fallbackCode K alphabet
  bwtTerminatorFallbackRange := 1
  rangeSort := defaultRangeSort
  locateSampleInterval := a
  featureToggles := b

/-- Whether the sequence `x` starts with the pattern `P`. -/
def startsWith : List Nat → List Nat → Bool
  | [], _ => true
  | _ :: _, [] => false
  | c :: P, a :: y => a == c && startsWith P y

/-- Number of positions of `S` at which the pattern `P` starts. -/
def occurrenceCount (P S : List Nat) : Nat :=
  (prevSuffixPairs 0 S).countP (fun pr => startsWith P pr.2)

/-- The interval narrowed by the characters of `l` scanned first to last:
the slot of the code of the first character, narrowed by each following
character in turn. -/
def forwardBound (bwtSeq : BWTSeq) (l : List Nat) : matchBound :=
  narrowedBound bwtSeq l.reverse

/-- The interval narrowed by the first `k` characters of the query holds
exactly one element. -/
def uniqueAt (bwtSeq : BWTSeq) (query : List Nat) (k : Nat) : Prop :=
  (forwardBound bwtSeq (query.take k)).start + 1 = (forwardBound bwtSeq (query.take k)).end_

/-- The interval narrowed by the first `k` characters of the query is not
empty. -/
def nonEmptyAt (bwtSeq : BWTSeq) (query : List Nat) (k : Nat) : Prop :=
  (forwardBound bwtSeq (query.take k)).start < (forwardBound bwtSeq (query.take k)).end_

/-- The value of `startpos + matchlength` in `packedindexmstatsforward` for
the value `located` of `pckfindfirstmatch`: `startpos` is `located` as a
`Seqpos`, and the sum wraps in the wider of `Seqpos` and `unsigned long`. -/
def witnessSum (K : Config) (located matchlength : Nat) : Nat :=
  (located % K.seqposMod + matchlength) % 2 ^ max K.seqposBits K.ulongBits

/-- None of the first `k` characters of the query is special. -/
def specialFree (K : Config) (query : List Nat) (k : Nat) : Prop :=
  ∀ q ∈ query.take k, K.ISSPECIAL q = false

/-- The standing assumptions of a forward scan: the characters that are not
special have their codes in the table, the sums of a table entry and a rank
are `Seqpos` values, and the interval of every prefix without special
characters is ordered and ends below the largest `Seqpos` value. -/
structure ScanReady (K : Config) (bwtSeq : BWTSeq) (query : List Nat) : Prop where
  in_table : ∀ q ∈ query, K.ISSPECIAL q = false →
    MRAEncMapSymbol bwtSeq.alphabet q + 1 < bwtSeq.count.length
  no_wrap : ∀ q ∈ query, K.ISSPECIAL q = false →
    ∀ p, bwtSeq.count.getD (MRAEncMapSymbol bwtSeq.alphabet q) 0
      + EISSymTransformedRank bwtSeq.seqIdx (MRAEncMapSymbol bwtSeq.alphabet q) p
      < K.seqposMod
  ordered : ∀ k, 1 ≤ k → k ≤ query.length → specialFree K query k →
    (forwardBound bwtSeq (query.take k)).start ≤ (forwardBound bwtSeq (query.take k)).end_ ∧
    (forwardBound bwtSeq (query.take k)).end_ + 1 < K.seqposMod

/-- The SA-coordinate `i` carries locate information whose resolved value
differs from `suftab[i]`. -/
def sufvalMismatch (E : VerifyEnv) (bwtSeq : BWTSeq) (suffixArray : Suffixarray) (i : Nat) :
    Prop :=
  E.BWTSeqPosHasLocateInfo bwtSeq i = true
    ∧ E.BWTSeqLocateMatch bwtSeq i ≠ suffixArray.suftab.getD i 0

instance (E : VerifyEnv) (bwtSeq : BWTSeq) (suffixArray : Suffixarray) (i : Nat) :
    Decidable (sufvalMismatch E bwtSeq suffixArray i) :=
  inferInstanceAs (Decidable (_ ∧ _))

/-- The `k`-th LF-image of the terminator position. -/
def lfImage (E : VerifyEnv) (bwtSeq : BWTSeq) (k : Nat) : Nat :=
  Nat.iterate (E.BWTSeqLFMap bwtSeq) k (E.BWTSeqTerminatorPos bwtSeq)

/-- The reference of comparison `k` of the LF walk: the marker `UNDEFBWTCHAR`
for `k = 0`, the reference character at text position `len - 1 - k` after
that. -/
def lfWalkReference (K : Config) (suffixArray : Suffixarray) (len k : Nat) : Nat :=
  if k = 0 then K.UNDEFBWTCHAR else suffixArray.getencodedchar (len - 1 - k)

/-- Comparison `k` of the LF walk fails: the symbol at the `k`-th LF-image of
the terminator position differs from its reference. -/
def lfWalkMismatch (K : Config) (E : VerifyEnv) (bwtSeq : BWTSeq) (suffixArray : Suffixarray)
    (len k : Nat) : Prop :=
  E.EISGetSym bwtSeq.seqIdx (lfImage E bwtSeq k) ≠ lfWalkReference K suffixArray len k

instance (K : Config) (E : VerifyEnv) (bwtSeq : BWTSeq) (suffixArray : Suffixarray)
    (len k : Nat) : Decidable (lfWalkMismatch K E bwtSeq suffixArray len k) :=
  inferInstanceAs (Decidable (_ ≠ _))

/-- The length comparison fails. -/
def lengthFails (E : VerifyEnv) (bwtSeq : BWTSeq) (len : Nat) : Prop :=
  E.BWTSeqLength bwtSeq ≠ len

instance (E : VerifyEnv) (bwtSeq : BWTSeq) (len : Nat) : Decidable (lengthFails E bwtSeq len) :=
  inferInstanceAs (Decidable (_ ≠ _))

/-- The locate-value comparison applies and fails at some coordinate. -/
def sufvalFails (E : VerifyEnv) (bwtSeq : BWTSeq) (suffixArray : Suffixarray) (len : Nat) :
    Prop :=
  E.BWTSeqHasLocateInformation bwtSeq = true
    ∧ ∃ i, i < len ∧ sufvalMismatch E bwtSeq suffixArray i

instance (E : VerifyEnv) (bwtSeq : BWTSeq) (suffixArray : Suffixarray) (len : Nat) :
    Decidable (sufvalFails E bwtSeq suffixArray len) :=
  inferInstanceAs (Decidable (_ ∧ ∃ i, i < len ∧ sufvalMismatch E bwtSeq suffixArray i))

/-- The reversibility check applies: the index is reversibly sorted and the
sequence is not empty. -/
def walkApplies (E : VerifyEnv) (bwtSeq : BWTSeq) (len : Nat) : Prop :=
  bwtSeq.featureToggles &&& E.BWTReversiblySorted ≠ 0 ∧ len ≠ 0

instance (E : VerifyEnv) (bwtSeq : BWTSeq) (len : Nat) : Decidable (walkApplies E bwtSeq len) :=
  inferInstanceAs (Decidable (_ ∧ _))

/-- The terminator-position comparison applies and fails. -/
def termposFails (E : VerifyEnv) (bwtSeq : BWTSeq) (suffixArray : Suffixarray) (len : Nat) :
    Prop :=
  walkApplies E bwtSeq len ∧ suffixArray.longest.defined = true
    ∧ suffixArray.longest.valueseqpos ≠ E.BWTSeqTerminatorPos bwtSeq

instance (E : VerifyEnv) (bwtSeq : BWTSeq) (suffixArray : Suffixarray) (len : Nat) :
    Decidable (termposFails E bwtSeq suffixArray len) :=
  inferInstanceAs (Decidable (_ ∧ _ ∧ _))

/-- The LF walk applies and one of its comparisons fails. -/
def lfwalkFails (K : Config) (E : VerifyEnv) (bwtSeq : BWTSeq) (suffixArray : Suffixarray)
    (len : Nat) : Prop :=
  walkApplies E bwtSeq len ∧ ∃ k, k < len ∧ lfWalkMismatch K E bwtSeq suffixArray len k

instance (K : Config) (E : VerifyEnv) (bwtSeq : BWTSeq) (suffixArray : Suffixarray)
    (len : Nat) : Decidable (lfwalkFails K E bwtSeq suffixArray len) :=
  inferInstanceAs (Decidable (_ ∧ ∃ k, k < len ∧ lfWalkMismatch K E bwtSeq suffixArray len k))

/-- The row of the suffix starting at `i` in the suffix array of `S`: the
number of suffixes of `S` that are less than it. -/
def suffixRow (S : List Nat) (f : Nat) (i : Nat) : Nat :=
  domCount false (S.drop i) S f

/-- The text of symbols `text` as the sequence of its codes followed by the
terminator code. -/
def textSequence (K : Config) (alphabet : MRAEnc) (text : List Nat) : List Nat :=
  withTerminator (MRAEncGetSize alphabet + 1)
    (text.map (MRAEncMapSymbol (terminatedAlphabet K alphabet)))

/-- Modelled from the spec: `BWTSeqTerminatorPos`, the position of the
terminator rotation, which is the row of the suffix array of the sequence `S`
that holds the whole sequence. -/
def BWTSeqTerminatorPos (S : List Nat) : Nat :=
  (suffixArray S).indexOf 0

/-- Modelled from the spec: the symbol the rank index returns for the row of
the suffix starting at `j` of the text of symbols `text`: the symbol before
the suffix, and the marker `UNDEFBWTCHAR` for the row of the whole text,
where the BWT holds the terminator. -/
def storedSymbol (K : Config) (text : List Nat) (j : Nat) : Nat :=
  if j = 0 then K.UNDEFBWTCHAR else text.getD (j - 1) 0

/-- Modelled from the spec: the LF-mapping, the position in the first column
of the character the BWT holds at `pos`: the `count` entry of its code plus
the number of its occurrences before `pos`.  `stored` is the code sequence of
the rank index; the terminator position holds the terminator, whose slot is
the last one, and the fallback code stored there is not counted as an
occurrence of the fallback code. -/
def BWTSeqLFMap (bwtSeq : BWTSeq) (stored : List Nat) (terminatorPos : Nat) (pos : Nat) : Nat :=
  if pos = terminatorPos then bwtSeq.count.getD (bwtSeq.alphabetSize - 1) 0
  else
    bwtSeq.count.getD (stored.getD pos 0) 0
      + (EISSymTransformedRank bwtSeq.seqIdx (stored.getD pos 0) pos
        - (if stored.getD pos 0 = bwtSeq.bwtTerminatorFallback ∧ terminatorPos < pos
            then 1 else 0))

/-- Modelled from the spec: the reference suffix array of the text of symbols
`text`: the suffix array of the text plus terminator, the row of the whole
text as `longest`, and the symbols of the text as its encoded sequence. -/
def textReference (K : Config) (alphabet : MRAEnc) (text : List Nat) : Suffixarray where
  suftab := suffixArray (textSequence K alphabet text)
  longest := { defined := true
               valueseqpos := BWTSeqTerminatorPos (textSequence K alphabet text) }
  getencodedchar := fun pos => text.getD pos 0

/-- Modelled from the spec: the reference loaded for the text of symbols
`text`, whose length is the length of the text, and the accessors of the
index built from the text.  The index reports the length of its rank index,
has locate information when its sampling interval is not 0, stores locate
information at the rows `sampled` selects, and resolves a row to the text
position of its suffix. -/
def textVerifyEnv (K : Config) (alphabet : MRAEnc) (text : List Nat) (reversiblySorted : Nat)
    (sampled : Nat → Bool) : VerifyEnv where
  mapsuffixarray := some (textReference K alphabet text, text.length)
  BWTReversiblySorted := reversiblySorted
  BWTSeqLength := fun bwtSeq => EISLength bwtSeq.seqIdx
  BWTSeqHasLocateInformation := fun bwtSeq => decide (bwtSeq.locateSampleInterval ≠ 0)
  BWTSeqPosHasLocateInfo := fun _ pos => sampled pos
  BWTSeqLocateMatch := fun _ pos => BWTSeqLocateMatch (textSequence K alphabet text) pos
  BWTSeqTerminatorPos := fun _ => BWTSeqTerminatorPos (textSequence K alphabet text)
  EISGetSym := fun _ pos =>
    storedSymbol K text (BWTSeqLocateMatch (textSequence K alphabet text) pos)
  BWTSeqLFMap := fun bwtSeq pos =>
    BWTSeqLFMap bwtSeq
      (bwtStored (MRAEncGetSize alphabet + 1) (fallbackCode K alphabet)
        (text.map (MRAEncMapSymbol (terminatedAlphabet K alphabet))))
      (BWTSeqTerminatorPos (textSequence K alphabet text)) pos

/-! ## The scenario `banana$` -/

/-- A configuration with a 32 bit `Seqpos`, the terminator symbol `$` (36),
the wildcard 254 as the symbol stored for the terminator, and the symbols
from 254 on special. -/
def bananaConfig : Config where
  seqposBits := 32
  ulongBits := 64
  bwtTerminatorSym := 36
  UNDEFBWTCHAR := 254
  ISSPECIAL := fun c => decide (254 ≤ c)

/-- The alphabet of the scenario: range 0 holds `a`, `b`, `n` with the codes
0, 1, 2, range 1 holds the wildcard 254 with the code 3; a symbol that is not
in the alphabet has the code 255. -/
def bananaAlphabet : MRAEnc where
  symbolsPerRange := [3, 1]
  mappings := fun s =>
    if s = 97 then 0 else if s = 98 then 1 else if s = 110 then 2
    else if s = 254 then 3 else 255

/-- The codes of the text `banana`. -/
def bananaText : List Nat := [1, 0, 2, 0, 2, 0]

/-- The symbols of the query `ana`. -/
def anaQuery : List Nat := [97, 110, 97]

/-- The symbols of the text `banana`. -/
def bananaSymbols : List Nat := [98, 97, 110, 97, 110, 97]

/-- The index of `banana` with the locate sampling interval 2 and the feature
bit 1 set. -/
def bananaIndex : BWTSeq :=
  builtBWTSeq bananaConfig bananaAlphabet (bwtStored 5 3 bananaText) 2 1 []

/-- The reference of `banana` and the accessors of its index, with the
feature bit 1 for reversible sorting and locate information at the even
rows. -/
def bananaVerifyEnv : VerifyEnv :=
  textVerifyEnv bananaConfig bananaAlphabet bananaSymbols 1 (fun pos => pos % 2 == 0)

/-- The reference of the shorter text `banan` with the accessors of an
index. -/
def bananVerifyEnv : VerifyEnv :=
  textVerifyEnv bananaConfig bananaAlphabet [98, 97, 110, 97, 110] 1 (fun pos => pos % 2 == 0)

/-- The reference of `banana` with locate data that resolves row 4 to the
text position 9. -/
def bananaBadLocateEnv : VerifyEnv :=
  { bananaVerifyEnv with
    BWTSeqLocateMatch := fun bwtSeq pos =>
      if pos = 4 then 9 else bananaVerifyEnv.BWTSeqLocateMatch bwtSeq pos }

/-- The reference of `banana` with a rank index that returns the symbol 7 at
row 5. -/
def bananaBadSymbolEnv : VerifyEnv :=
  { bananaVerifyEnv with
    EISGetSym := fun seqIdx pos =>
      if pos = 5 then 7 else bananaVerifyEnv.EISGetSym seqIdx pos }

/-- The accessors of the index of `banana` with a reference that fails to
load. -/
def bananaNoReferenceEnv : VerifyEnv :=
  { bananaVerifyEnv with mapsuffixarray := none }

/-- A configuration in which the symbol stored for the terminator is the
terminator symbol itself, so that the fallback code is the code of the
terminator, `alphabetSize - 1`. -/
def terminatorFallbackConfig : Config :=
  { bananaConfig with UNDEFBWTCHAR := 36 }

/-- The configuration of the scenario with a 64 bit `Seqpos`. -/
def wideConfig : Config :=
  { bananaConfig with seqposBits := 64 }

/-- A lookup hint for the index of `banana`: the rank of the index, the hint
counting the lookups made. -/
def bananaHint : EISHint where
  lookup := fun h c p =>
    (EISSymTransformedRank (encIdxSeqOfSymbols (bwtStored 5 3 bananaText) 1 0) c p, h + 1)

end EisBwtSeq

/-!
# Doubly linked list (`src/libgtcore/dlist.c`)

A shallow embedding of the list functions with the memory made explicit.

* A pointer to a list element is the address of its block, `none` is `NULL`.
  The memory is the sequence of the blocks that were allocated, a block that
  was freed is `none`; `env_ma_calloc` returns a block at a fresh address.
* The pointer `data` of an element is a natural number, the value returned by
  the compare function an integer.
* A function that dereferences `NULL` or a freed block, or trips an `assert`,
  returns in `Except Fault`.  A loop that follows the pointers of the elements
  runs at most once per block of the memory; a run that would take more
  steps returns the fault `endless`.
* The counter `size` is an `unsigned long` of `w` bits.
-/

namespace Gtcore

/-- The ways a run can leave defined behaviour. -/
inductive Fault where
  | assertion
  | invalidPointer
  | endless
  deriving DecidableEq, Repr

/-- The struct `Dlistelem`. -/
structure Dlistelem where
  previous : Option Nat
  next : Option Nat
  data : Nat
  deriving DecidableEq, Repr

/-- The struct `Dlist`. -/
structure Dlist where
  cmp_func : Option (Nat → Nat → Int)
  first : Option Nat
  last : Option Nat
  size : Nat

/-- The statement `assert(cond)`. -/
def assertThat (cond : Bool) : Except Fault Unit :=
  if cond then .ok () else .error .assertion

/-- Read of the block `*p`. -/
def load (mem : List (Option Dlistelem)) (p : Option Nat) : Except Fault Dlistelem :=
  match p with
  | none => .error .invalidPointer
  | some a =>
    match mem[a]? with
    | some (some e) => .ok e
    | _ => .error .invalidPointer

/-- Write of the block `*p`. -/
def store (mem : List (Option Dlistelem)) (p : Option Nat) (e : Dlistelem) :
    Except Fault (List (Option Dlistelem)) :=
  match p with
  | none => .error .invalidPointer
  | some a =>
    match mem[a]? with
    | some (some _) => .ok (mem.set a (some e))
    | _ => .error .invalidPointer

/-- The assignment `p->next = v`. -/
def writeNext (mem : List (Option Dlistelem)) (p : Option Nat) (v : Option Nat) :
    Except Fault (List (Option Dlistelem)) := do
  let e ← load mem p
  store mem p { e with next := v }

/-- The assignment `p->previous = v`. -/
def writePrevious (mem : List (Option Dlistelem)) (p : Option Nat) (v : Option Nat) :
    Except Fault (List (Option Dlistelem)) := do
  let e ← load mem p
  store mem p { e with previous := v }

/-- The assignment `p->data = v`. -/
def writeData (mem : List (Option Dlistelem)) (p : Option Nat) (v : Nat) :
    Except Fault (List (Option Dlistelem)) := do
  let e ← load mem p
  store mem p { e with data := v }

/-- The call `env_ma_calloc(env, 1, sizeof (Dlistelem))`: a zeroed block at a
fresh address. -/
def env_ma_calloc (mem : List (Option Dlistelem)) : Nat × List (Option Dlistelem) :=
  (mem.length, mem ++ [some { previous := none, next := none, data := 0 }])

/-- The call `env_ma_free(p, env)` for a pointer that is not `NULL`. -/
def env_ma_free (mem : List (Option Dlistelem)) (a : Nat) :
    Except Fault (List (Option Dlistelem)) :=
  match mem[a]? with
  | some (some _) => .ok (mem.set a none)
  | _ => .error .invalidPointer

/-- The function `dlist_new`: a zeroed struct with the compare function. -/
def dlist_new (cmp_func : Option (Nat → Nat → Int)) : Dlist :=
  { cmp_func := cmp_func, first := none, last := none, size := 0 }

/-- The function `dlist_first`. -/
def dlist_first (dlist : Dlist) : Option Nat := dlist.first

/-- The function `dlist_last`. -/
def dlist_last (dlist : Dlist) : Option Nat := dlist.last

/-- The function `dlist_size`; `none` is the `NULL` list. -/
def dlist_size (dlist : Option Dlist) : Nat :=
  match dlist with
  | some d => d.size
  | none => 0

/-- The function `dlistelem_next`. -/
def dlistelem_next (mem : List (Option Dlistelem)) (dlistelem : Option Nat) :
    Except Fault (Option Nat) :=
  match dlistelem with
  | none => .error .assertion
  | some a => (load mem (some a)).map (fun e => e.next)

/-- The function `dlistelem_get_data`. -/
def dlistelem_get_data (mem : List (Option Dlistelem)) (dlistelem : Option Nat) :
    Except Fault Nat :=
  match dlistelem with
  | none => .error .assertion
  | some a => (load mem (some a)).map (fun e => e.data)

/-- The loop of `dlist_find`; the first argument bounds the number of
steps, the second is `dlistelem`. -/
def dlist_findLoop (mem : List (Option Dlistelem)) (cmp_func : Option (Nat → Nat → Int))
    (new_data : Nat) : Nat → Option Nat → Except Fault (Option Nat)
  | _, none => .ok none
  | 0, some _ => .error .endless
  | fuel + 1, some a => do
    let old_data ← dlistelem_get_data mem (some a)
    let equal : Bool :=
      match cmp_func with
      | some cmp => decide (cmp old_data new_data = 0)
      | none => false
    if equal = true then .ok (some a)
    else if old_data = new_data then .ok (some a)
    else do
      let next ← dlistelem_next mem (some a)
      dlist_findLoop mem cmp_func new_data fuel next

/-- The function `dlist_find`. -/
def dlist_find (mem : List (Option Dlistelem)) (dlist : Dlist) (new_data : Nat) :
    Except Fault (Option Nat) :=
  dlist_findLoop mem dlist.cmp_func new_data mem.length (dlist_first dlist)

/-- The statements of `dlist_add` for a new element smaller than the first
one: the new element is linked in before `first`. -/
def linkBeforeFirst (mem : List (Option Dlistelem)) (first newelem : Nat) :
    Except Fault (List (Option Dlistelem)) := do
  let fe ← load mem (some first)
  assertThat fe.previous.isNone
  let mem ← writePrevious mem (some first) (some newelem)
  writeNext mem (some newelem) (some first)

/-- The statements of `dlist_add` that add the new element to the end: the
new element is linked in after `last`. -/
def linkAfterLast (mem : List (Option Dlistelem)) (last newelem : Nat) :
    Except Fault (List (Option Dlistelem)) := do
  let le ← load mem (some last)
  assertThat le.next.isNone
  let mem ← writeNext mem (some last) (some newelem)
  writePrevious mem (some newelem) (some last)

/-- The statements of `dlist_add` under `position found`: the new element is
linked in between `oldelem` and `oldelem->next`. -/
def linkAfter (mem : List (Option Dlistelem)) (oldelem newelem : Nat) :
    Except Fault (List (Option Dlistelem)) := do
  let oe ← load mem (some oldelem)
  assertThat oe.next.isSome
  let mem ← writeNext mem (some newelem) oe.next
  let mem ← writePrevious mem (some newelem) (some oldelem)
  let oe ← load mem (some oldelem)
  let mem ← writePrevious mem oe.next (some newelem)
  writeNext mem (some oldelem) (some newelem)

/-- The loop `while (oldelem)` of `dlist_add` with the assertion
`assert(oldelem)` after it; the first argument bounds the number of steps,
the second is `oldelem`. -/
def dlist_addLoop (mem : List (Option Dlistelem)) (cmp : Nat → Nat → Int)
    (data newelem : Nat) : Nat → Option Nat → Except Fault (List (Option Dlistelem))
  | _, none => .error .assertion
  | 0, some _ => .error .endless
  | fuel + 1, some oldelem =>
    match load mem (some oldelem) with
    | .error e => .error e
    | .ok oe =>
      if cmp oe.data data ≤ 0 then linkAfter mem oldelem newelem
      else dlist_addLoop mem cmp data newelem fuel oe.previous

/-- The statement `if (!dlist->first) ... else ...` of `dlist_add`, which
links the new element in. -/
def dlist_addLink (mem : List (Option Dlistelem)) (dlist : Dlist) (data newelem : Nat) :
    Except Fault (List (Option Dlistelem) × Dlist) :=
  match dlist.first with
  | none =>
    match dlist.last with
    | none => .ok (mem, { dlist with first := some newelem, last := some newelem })
    | some _ => .error .assertion
  | some first =>
    match dlist.last with
    | none => .error .assertion
    | some last =>
      match dlist.cmp_func with
      | some cmp =>
        match load mem (some first) with
        | .error e => .error e
        | .ok fe =>
          if cmp data fe.data < 0 then
            (linkBeforeFirst mem first newelem).map
              (fun mem => (mem, { dlist with first := some newelem }))
          else
            match load mem (some last) with
            | .error e => .error e
            | .ok le =>
              if cmp le.data data ≤ 0 then
                (linkAfterLast mem last newelem).map
                  (fun mem => (mem, { dlist with last := some newelem }))
              else
                (dlist_addLoop mem cmp data newelem mem.length le.previous).map
                  (fun mem => (mem, dlist))
      | none =>
        (linkAfterLast mem last newelem).map
          (fun mem => (mem, { dlist with last := some newelem }))

/-- The function `dlist_add`. -/
def dlist_add (w : Nat) (mem : List (Option Dlistelem)) (dlist : Dlist) (data : Nat) :
    Except Fault (List (Option Dlistelem) × Dlist) := do
  let newelem := (env_ma_calloc mem).1
  let mem := (env_ma_calloc mem).2
  let mem ← writeData mem (some newelem) data
  let r ← dlist_addLink mem dlist data newelem
  .ok (r.1, { r.2 with size := (r.2.size + 1) % 2 ^ w })

/-- The assertion `assert(!p || p->next == dlistelem)`. -/
def checkNextIs (mem : List (Option Dlistelem)) (p : Option Nat) (dlistelem : Nat) :
    Except Fault Unit :=
  match p with
  | none => .ok ()
  | some a => do
    let e ← load mem (some a)
    assertThat (decide (e.next = some dlistelem))

/-- The assertion `assert(!p || p->previous == dlistelem)`. -/
def checkPreviousIs (mem : List (Option Dlistelem)) (p : Option Nat) (dlistelem : Nat) :
    Except Fault Unit :=
  match p with
  | none => .ok ()
  | some a => do
    let e ← load mem (some a)
    assertThat (decide (e.previous = some dlistelem))

/-- The statement `if (p) p->next = v`. -/
def setNextIf (mem : List (Option Dlistelem)) (p : Option Nat) (v : Option Nat) :
    Except Fault (List (Option Dlistelem)) :=
  match p with
  | none => .ok mem
  | some a => writeNext mem (some a) v

/-- The statement `if (p) p->previous = v`. -/
def setPreviousIf (mem : List (Option Dlistelem)) (p : Option Nat) (v : Option Nat) :
    Except Fault (List (Option Dlistelem)) :=
  match p with
  | none => .ok mem
  | some a => writePrevious mem (some a) v

/-- The function `dlist_remove`. -/
def dlist_remove (w : Nat) (mem : List (Option Dlistelem)) (dlist : Dlist) (dlistelem : Nat) :
    Except Fault (List (Option Dlistelem) × Dlist) := do
  let e ← load mem (some dlistelem)
  checkNextIs mem e.previous dlistelem
  checkPreviousIs mem e.next dlistelem
  let mem ← setNextIf mem e.previous e.next
  let e ← load mem (some dlistelem)
  let mem ← setPreviousIf mem e.next e.previous
  let e ← load mem (some dlistelem)
  let first := if dlist.first = some dlistelem then e.next else dlist.first
  let last := if dlist.last = some dlistelem then e.previous else dlist.last
  let mem ← env_ma_free mem dlistelem
  .ok (mem, { dlist with first := first, last := last, size := (dlist.size + 2 ^ w - 1) % 2 ^ w })

/-- The function `intcompare` of the unit test on values for which the
subtraction does not overflow. -/
def intcompare (a b : Nat) : Int := (a : Int) - (b : Int)

/-! ## Definitions used to state and prove the properties -/

/-- The loop `for (dlistelem = dlist_first(dlist); dlistelem != NULL;
dlistelem = dlistelem_next(dlistelem))` of the unit test, collecting the
elements visited with their data; the first argument bounds the number of
steps. -/
def traverseLoop (mem : List (Option Dlistelem)) :
    Nat → Option Nat → Except Fault (List (Nat × Nat))
  | _, none => .ok []
  | 0, some _ => .error .endless
  | fuel + 1, some a => do
    let data ← dlistelem_get_data mem (some a)
    let next ← dlistelem_next mem (some a)
    let rest ← traverseLoop mem fuel next
    .ok ((a, data) :: rest)

/-- The traversal of a list from `dlist_first` through `dlistelem_next`. -/
def traverse (mem : List (Option Dlistelem)) (dlist : Dlist) :
    Except Fault (List (Nat × Nat)) :=
  traverseLoop mem mem.length (dlist_first dlist)

/-- A sequence of `dlist_add` calls, one for each datum. -/
def dlist_addAll (w : Nat) :
    List (Option Dlistelem) → Dlist → List Nat → Except Fault (List (Option Dlistelem) × Dlist)
  | mem, dlist, [] => .ok (mem, dlist)
  | mem, dlist, data :: rest =>
    match dlist_add w mem dlist data with
    | .error e => .error e
    | .ok r => dlist_addAll w r.1 r.2 rest

/-- The address that follows the elements `l`: the first of `l`, or `nxt` for
no element. -/
def headAddr (l : List (Nat × Nat)) (nxt : Option Nat) : Option Nat :=
  match l with
  | [] => nxt
  | x :: _ => some x.1

/-- The address that precedes what follows the elements `l`: the last of
`l`, or `prev` for no element. -/
def lastAddr (l : List (Nat × Nat)) (prev : Option Nat) : Option Nat :=
  match l.getLast? with
  | none => prev
  | some x => some x.1

/-- The elements `l` (address and data) are linked one after the other in the
memory, the first one after `prev` and the last one before `nxt`. -/
def Linked (mem : List (Option Dlistelem)) : Option Nat → List (Nat × Nat) → Option Nat → Prop
  | _, [], _ => True
  | prev, x :: rest, nxt =>
    mem[x.1]? = some (some { previous := prev, next := headAddr rest nxt, data := x.2 })
      ∧ Linked mem (some x.1) rest nxt

instance (mem : List (Option Dlistelem)) :
    ∀ (prev : Option Nat) (l : List (Nat × Nat)) (nxt : Option Nat),
      Decidable (Linked mem prev l nxt)
  | _, [], _ => isTrue trivial
  | prev, x :: rest, nxt =>
    have : Decidable (Linked mem (some x.1) rest nxt) := by
      exact instDecidableLinked mem (some x.1) rest nxt
    inferInstanceAs (Decidable (_ ∧ _))

/-- The list object `dlist` holds the elements `l` in this order: they are
linked from `first` to `last`, their addresses differ, and `size` is their
number. -/
structure WellFormed (mem : List (Option Dlistelem)) (dlist : Dlist) (l : List (Nat × Nat)) :
    Prop where
  linked : Linked mem none l none
  first_eq : dlist.first = headAddr l none
  last_eq : dlist.last = lastAddr l none
  nodup : (l.map Prod.fst).Nodup
  size_eq : dlist.size = l.length

/-- The compare function is a total preorder: the sign of `cmp a b` is the
opposite of the sign of `cmp b a`, and `cmp a b ≤ 0` is transitive. -/
structure TotalPreorder (cmp : Nat → Nat → Int) : Prop where
  sign : ∀ a b, cmp a b < 0 ↔ 0 < cmp b a
  trans : ∀ a b c, cmp a b ≤ 0 → cmp b c ≤ 0 → cmp a c ≤ 0

/-- The element `x` placed after the last element of `l` that compares less
than or equal to it; `none` if `l` has no such element. -/
def insertAfterLastLe (cmp : Nat → Nat → Int) (x : Nat × Nat) :
    List (Nat × Nat) → Option (List (Nat × Nat))
  | [] => none
  | e :: t =>
    match insertAfterLastLe cmp x t with
    | some t2 => some (e :: t2)
    | none => if cmp e.2 x.2 ≤ 0 then some (e :: x :: t) else none

/-- The places at which `dlist_add` with a compare function puts the new
element `x` into the elements `l`, giving `l2`: alone into no elements;
before the first element when it is smaller than that; after the last
element when that is less than or equal to it; else right after an element
less than or equal to it that only greater elements follow. -/
def addShape (cmp : Nat → Nat → Int) (x : Nat × Nat) (l l2 : List (Nat × Nat)) : Prop :=
  (l = [] ∧ l2 = [x]) ∨
  (∃ f rest, l = f :: rest ∧ cmp x.2 f.2 < 0 ∧ l2 = x :: l) ∨
  (∃ init la, l = init ++ [la] ∧ cmp la.2 x.2 ≤ 0 ∧ l2 = l ++ [x]) ∨
  (∃ A o B, l = A ++ o :: B ∧ B ≠ [] ∧ cmp o.2 x.2 ≤ 0 ∧ (∀ e ∈ B, ¬ cmp e.2 x.2 ≤ 0)
    ∧ l2 = A ++ o :: x :: B)

/-- The datum `x` placed into the sorted sequence `l` after the data that
compare less than or equal to it. -/
def sortedInsert (cmp : Nat → Nat → Int) (x : Nat) (l : List Nat) : List Nat :=
  List.orderedInsert (fun a b => cmp a b < 0) x l

/-- The data `xs` sorted by inserting them one after the other. -/
def sortedInserts (cmp : Nat → Nat → Int) (xs : List Nat) : List Nat :=
  xs.foldl (fun acc x => sortedInsert cmp x acc) []

/-- The datum `old_data` of an element is equal to `new_data` for
`dlist_find`: it compares equal under the compare function of the list, or it
is the same pointer. -/
def findEqual (cmp_func : Option (Nat → Nat → Int)) (old_data new_data : Nat) : Prop :=
  (∃ cmp, cmp_func = some cmp ∧ cmp old_data new_data = 0) ∨ old_data = new_data

/-! ## The scenario of the data 7, 6 and 9 -/

/-- The memory after `dlist_add` of the data 7, 6 and 9, in this order, to a
new list with the compare function `intcompare`. -/
def sevenSixNineMem : List (Option Dlistelem) :=
  [some (Dlistelem.mk (some 1) (some 2) 7), some (Dlistelem.mk none (some 0) 6),
    some (Dlistelem.mk (some 0) none 9)]

/-- The list object after these calls. -/
def sevenSixNineList : Dlist :=
  { cmp_func := some intcompare, first := some 1, last := some 2, size := 3 }

/-- The elements of this list in their order, each with its address and its
datum. -/
def sevenSixNineElems : List (Nat × Nat) := [(1, 6), (0, 7), (2, 9)]

end Gtcore

/-!
# Multiset matching (`src/libgtext/multiset_matching.c`)

A shallow embedding of `multiset_matching`.

* A byte of the multiset string or of the text is a natural number; the
  counting table `multiset` is a list of integers, the counters of type `long`
  are integers.
* The constants `UCHAR_MAX` and `UNDEF_CHAR` come from headers outside the
  sources at hand and are fields of `Limits`, as is the width of an
  `unsigned long`.
* The calls of the callback `procmatchfunc` are the list of the positions
  passed to it, in the order of the calls.
* A run that trips the `assert` or accesses the table outside its entries
  returns in `Except Fault`.
-/

namespace Gtext

/-- The constants that `multiset_matching` takes from the headers: `UCHAR_MAX`,
the largest value of an `unsigned char`, the marker `UNDEF_CHAR`, and the
width of an `unsigned long`. -/
structure Limits where
  UCHAR_MAX : Nat
  UNDEF_CHAR : Int
  ulongBits : Nat

/-- The outcome of a statement that does not complete: a failed `assert` or
an access outside an array. -/
inductive Fault where
  | assertion
  | outOfBounds
  deriving DecidableEq, Repr

/-- The statement `assert(cond)`. -/
def assertThat (cond : Bool) : Except Fault Unit :=
  if cond then .ok () else .error .assertion

/-- Read of `multiset[i]`. -/
def readAt (a : List Int) (i : Nat) : Except Fault Int :=
  match a[i]? with
  | some v => .ok v
  | none => .error .outOfBounds

/-- Write `multiset[i] = v`. -/
def writeAt (a : List Int) (i : Nat) (v : Int) : Except Fault (List Int) :=
  if i < a.length then .ok (a.set i v) else .error .outOfBounds

/-- Read of `text[i]`. -/
def readByte (a : List Nat) (i : Nat) : Except Fault Nat :=
  match a[i]? with
  | some v => .ok v
  | none => .error .outOfBounds

/-- The local variables `multiset`, `exhausted_characters` and
`alphabet_size`; the counts are of type `long` and stay far below its
bounds. -/
structure Counters where
  multiset : List Int
  exhausted_characters : Int
  alphabet_size : Int

/-- The statement
`if (multiset[c] == UNDEF_CHAR) { multiset[c] = 0; alphabet_size++; }`. -/
def defineChar (L : Limits) (s : Counters) (c : Nat) : Except Fault Counters := do
  let v ← readAt s.multiset c
  if v = L.UNDEF_CHAR then do
    let m ← writeAt s.multiset c 0
    return { s with multiset := m, alphabet_size := s.alphabet_size + 1 }
  else return s

/-- The statement `multiset[c]++`. -/
def addOne (s : Counters) (c : Nat) : Except Fault Counters := do
  let v ← readAt s.multiset c
  let m ← writeAt s.multiset c (v + 1)
  return { s with multiset := m }

/-- The statement `if (multiset[c] == 0) exhausted_characters += d`, with `d`
one of -1 and 1. -/
def ifZero (s : Counters) (c : Nat) (d : Int) : Except Fault Counters := do
  let v ← readAt s.multiset c
  if v = 0 then return { s with exhausted_characters := s.exhausted_characters + d }
  else return s

/-- The statement `if (multiset[c] != UNDEF_CHAR) multiset[c] += d`, with `d`
one of -1 and 1. -/
def ifDefined (L : Limits) (s : Counters) (c : Nat) (d : Int) : Except Fault Counters := do
  let v ← readAt s.multiset c
  if v ≠ L.UNDEF_CHAR then do
    let m ← writeAt s.multiset c (v + d)
    return { s with multiset := m }
  else return s

/-- The three statements that take the character `c` into the window
(`d = -1`) or out of it (`d = 1`). -/
def adjust (L : Limits) (s : Counters) (c : Nat) (d : Int) : Except Fault Counters := do
  let s ← ifZero s c (-1)
  let s ← ifDefined L s c d
  ifZero s c 1

/-- The loop that constructs the multiset; the first argument holds the
characters of `multiset_string` from index `i` on. -/
def constructLoop (L : Limits) : List Nat → Counters → Except Fault Counters
  | [], s => .ok s
  | c :: rest, s => do
    let s ← defineChar L s c
    let s ← addOne s c
    constructLoop L rest s

/-- The statement `if (i >= multiset_size) { ... }` that undoes the first
character of the window. -/
def undoFirst (L : Limits) (multiset_size : Nat) (text : List Nat) (i : Nat) (s : Counters) :
    Except Fault Counters :=
  if i ≥ multiset_size then do
    let c ← readByte text (i - multiset_size)
    adjust L s c 1
  else .ok s

/-- The statement `if (exhausted_characters == alphabet_size)
procmatchfunc(i - multiset_size + 1, data)`: the calls of `procmatchfunc` made
so far are kept as the list of the positions passed; the position is computed
in `unsigned long`. -/
def report (L : Limits) (multiset_size i : Nat) (s : Counters) (calls : List Nat) : List Nat :=
  if s.exhausted_characters = s.alphabet_size then
    calls ++ [(i + (2 ^ L.ulongBits - multiset_size) + 1) % 2 ^ L.ulongBits]
  else calls

/-- The matching loop; the first argument is the number of passes left, the
second the index `i`. -/
def matchLoop (L : Limits) (multiset_size : Nat) (text : List Nat) :
    Nat → Nat → Counters → List Nat → Except Fault (List Nat)
  | 0, _, _, calls => .ok calls
  | n + 1, i, s, calls => do
    let s ← undoFirst L multiset_size text i s
    let c ← readByte text i
    let s ← adjust L s c (-1)
    assertThat (decide (s.exhausted_characters ≤ s.alphabet_size))
    matchLoop L multiset_size text n (i + 1) s (report L multiset_size i s calls)

/-- The function `multiset_matching`, with `multiset_size` and `text_length`
the lengths of the two arrays: the positions passed to `procmatchfunc`, in the
order of the calls. -/
def multiset_matching (L : Limits) (multiset_string text : List Nat) :
    Except Fault (List Nat) := do
  let s ← constructLoop L multiset_string
    { multiset := List.replicate L.UCHAR_MAX L.UNDEF_CHAR
      exhausted_characters := 0
      alphabet_size := 0 }
  matchLoop L multiset_string.length text text.length 0 s []

/-! ## Definitions used to state and prove the properties -/

/-- Number of entries of the table that are 0. -/
def zeros (l : List Int) : Int := (l.countP (fun x => decide (x = 0)) : Nat)

/-- Number of entries of the table that are not the marker. -/
def defined (L : Limits) (l : List Int) : Int :=
  (l.countP (fun x => decide (x ≠ L.UNDEF_CHAR)) : Nat)

/-- The window at index `i`: the last `m` characters of `text[0..i)`, or all
of them when there are fewer. -/
def window (m : Nat) (text : List Nat) (i : Nat) : List Nat :=
  (text.take i).drop (i - m)

/-- The table for the multiset string `ms` and the window `W`: the number of
occurrences in `ms` less those in `W` for the characters of `ms`, the marker
for the others. -/
def tableOf (L : Limits) (ms W : List Nat) : List Int :=
  (List.range L.UCHAR_MAX).map
    (fun c => if c ∈ ms then (ms.count c : Int) - (W.count c : Int) else L.UNDEF_CHAR)

/-- The state after the three statements of `adjust` on a character inside
the table. -/
def adjusted (L : Limits) (s : Counters) (c : Nat) (d : Int) : Counters where
  multiset :=
    if s.multiset.getD c 0 ≠ L.UNDEF_CHAR then s.multiset.set c (s.multiset.getD c 0 + d)
    else s.multiset
  exhausted_characters :=
    s.exhausted_characters + (if s.multiset.getD c 0 = 0 then -1 else 0)
      + (if (if s.multiset.getD c 0 ≠ L.UNDEF_CHAR then
            s.multiset.set c (s.multiset.getD c 0 + d)
          else s.multiset).getD c 0 = 0 then 1 else 0)
  alphabet_size := s.alphabet_size

/-- The state after the two statements of a pass of the loop that constructs
the multiset, on a character inside the table. -/
def constructed (L : Limits) (s : Counters) (c : Nat) : Counters where
  multiset :=
    s.multiset.set c ((if s.multiset.getD c 0 = L.UNDEF_CHAR then 0 else s.multiset.getD c 0) + 1)
  exhausted_characters := s.exhausted_characters
  alphabet_size :=
    if s.multiset.getD c 0 = L.UNDEF_CHAR then s.alphabet_size + 1 else s.alphabet_size

/-- The invariant of the matching loop: the table has `UCHAR_MAX` entries,
`exhausted_characters` is the number of its entries that are 0, and
`alphabet_size` is at least the number of its entries that are not the
marker. -/
structure Counted (L : Limits) (s : Counters) : Prop where
  length_eq : s.multiset.length = L.UCHAR_MAX
  exhausted_eq : s.exhausted_characters = zeros s.multiset
  defined_le : defined L s.multiset ≤ s.alphabet_size

/-- The invariant of the loop that constructs the multiset: the table has
`UCHAR_MAX` entries, each the marker or at least 1, `exhausted_characters` is
0, and `alphabet_size` is at least the number of entries that are not the
marker. -/
structure Built (L : Limits) (s : Counters) : Prop where
  length_eq : s.multiset.length = L.UCHAR_MAX
  fresh : ∀ x ∈ s.multiset, x = L.UNDEF_CHAR ∨ 1 ≤ x
  exhausted_eq : s.exhausted_characters = 0
  defined_le : defined L s.multiset ≤ s.alphabet_size

/-- The invariant of the matching loop on a multiset string whose counts
stay below the marker: besides the counts of `Counted`, the table is the one
of the multiset string and the window, and `alphabet_size` is the number of
its entries that are not the marker. -/
structure Tracked (L : Limits) (ms W : List Nat) (s : Counters) : Prop where
  counted : Counted L s
  table_eq : s.multiset = tableOf L ms W
  alphabet_eq : s.alphabet_size = defined L s.multiset

/-- The calls of `procmatchfunc` made before index `i`: the positions rise,
and they are the positions `p` with `p + m <= i` at which the `m` characters
of the text are a permutation of the multiset string. -/
def Reported (ms text : List Nat) (i : Nat) (calls : List Nat) : Prop :=
  calls.Pairwise (fun a b => a < b) ∧
  ∀ p, p ∈ calls ↔ (p + ms.length ≤ i ∧ List.Perm ((text.drop p).take ms.length) ms)

/-! ## A scenario -/

/-- The limits of a machine with 8 bit characters and a 64 bit
`unsigned long`, and `CHAR_MAX` as the marker. -/
def byteLimits : Limits where
  UCHAR_MAX := 255
  UNDEF_CHAR := 127
  ulongBits := 64

end Gtext

/-!
# Copy sort and table of suffixes (`src/match/sfx-copysort.c`, `src/match/spmsuftab.h`)

A shallow embedding of the functions of the copy sort that compute the flags
of the subbuckets (`resetsorted`, `determinehardwork`, `gt_copysort_new`), of
`gt_copysort_derivesorting` with `forwardderive` and `backwardderive`, and of
the two accessors of the table of suffixes (`gt_spmsuftab_set`,
`gt_spmsuftab_get`).

* Characters, indices and bucket ends are natural numbers; an `unsigned long`
  has `w` bits.
* The library sort `gt_qsort_r`, the suffix sort space, the encoded sequence,
  the macro `ISNOTSPECIAL` and the compact store behind a table of suffixes
  are declared outside the sources at hand; they are parameters.
* A function that trips a `gt_assert` or accesses an array outside its
  entries returns in `Except Fault`.
-/

namespace Match

/-- The outcome of a statement that does not complete: a failed `gt_assert`,
an access outside an array, or, kept apart from the other assertions, a failed
`gt_assert` on the flag `hardworktodo` in `gt_copysort_derivesorting`. -/
inductive Fault where
  | assertion
  | outOfBounds
  | hardworkAssertion
  deriving DecidableEq, Repr

/-- The statement `gt_assert(cond)`. -/
def assertThat (cond : Bool) : Except Fault Unit :=
  if cond then .ok () else .error .assertion

/-- The statement `gt_assert(cond)` on the flag `hardworktodo` in
`gt_copysort_derivesorting`. -/
def assertHardwork (cond : Bool) : Except Fault Unit :=
  if cond then .ok () else .error .hardworkAssertion

/-- The read `a[i]` of an array of `unsigned long`. -/
def readAt (a : List Nat) (i : Nat) : Except Fault Nat :=
  match a[i]? with
  | some v => .ok v
  | none => .error .outOfBounds

/-- The assignment `a[i] = v` to an array of `unsigned long`. -/
def writeAt (a : List Nat) (i : Nat) (v : Nat) : Except Fault (List Nat) :=
  if i < a.length then .ok (a.set i v) else .error .outOfBounds

/-! ## Copy sort (`sfx-copysort.c`) -/

/-- The struct `Bucketinfo`. -/
structure Bucketinfo where
  hardworktodo : Bool
  sorted : Bool
  bucketend : Nat
  deriving DecidableEq, Repr

/-- The members of the struct `GtBucketspec2` that the functions at hand
use.  The array `order` has `numofchars` entries; the tables `superbuckettab`
and `subbuckettab` are kept as maps from their indices to their entries, and
are accessed at indices below `numofchars` only, as long as `order` holds
numbers below `numofchars`. -/
structure GtBucketspec2 where
  numofchars : Nat
  order : List Nat
  superbuckettab : Nat → Bucketinfo
  subbuckettab : Nat → Nat → Bucketinfo

/-- A loop `for (i = start; i < start + k; i++)` whose body does not fail;
the first argument is the number of passes left, the second the index. -/
def forLoop {S : Type} (body : Nat → S → S) : Nat → Nat → S → S
  | 0, _, s => s
  | k + 1, i, s => forLoop body k (i + 1) (body i s)

/-- A loop `for (i = start; i < start + k; i++)` whose body may fail; the
first argument is the number of passes left, the second the index. -/
def forLoopM {S : Type} (body : Nat → S → Except Fault S) : Nat → Nat → S → Except Fault S
  | 0, _, s => .ok s
  | k + 1, i, s => do
    let s ← body i s
    forLoopM body k (i + 1) s

/-- The function `superbucketsize`; the difference is taken in an
`unsigned long` of `w` bits. -/
def superbucketsize (w : Nat) (bucketspec2 : GtBucketspec2) (bucketnum : Nat) : Nat :=
  if bucketnum = 0 then (bucketspec2.superbuckettab 0).bucketend
  else ((bucketspec2.superbuckettab bucketnum).bucketend
    + (2 ^ w - (bucketspec2.superbuckettab (bucketnum - 1)).bucketend)) % 2 ^ w

/-- The function `comparesuperbucketsizes`. -/
def comparesuperbucketsizes (w : Nat) (bucketspec2 : GtBucketspec2) (a b : Nat) : Int :=
  if superbucketsize w bucketspec2 a < superbucketsize w bucketspec2 b then -1
  else if superbucketsize w bucketspec2 a > superbucketsize w bucketspec2 b then 1
  else 0

/-- The function `getstartidx`. -/
def getstartidx (bucketspec2 : GtBucketspec2) (first second : Nat) : Except Fault Nat := do
  assertThat (decide (first < bucketspec2.numofchars))
  assertThat (decide (second ≤ bucketspec2.numofchars))
  if second > 0 then return (bucketspec2.subbuckettab first (second - 1)).bucketend
  else if first > 0 then return (bucketspec2.superbuckettab (first - 1)).bucketend
  else return 0

/-- The function `getendidx`. -/
def getendidx (bucketspec2 : GtBucketspec2) (first second : Nat) : Except Fault Nat := do
  assertThat (decide (first < bucketspec2.numofchars))
  assertThat (decide (second ≤ bucketspec2.numofchars))
  if second < bucketspec2.numofchars then
    return (bucketspec2.subbuckettab first second).bucketend
  else return (bucketspec2.superbuckettab first).bucketend

/-- The assignment `bucketspec2->subbuckettab[i][j].sorted = v`. -/
def setSubSorted (b : GtBucketspec2) (i j : Nat) (v : Bool) : GtBucketspec2 :=
  { b with subbuckettab := fun x y =>
      if x = i ∧ y = j then { b.subbuckettab x y with sorted := v } else b.subbuckettab x y }

/-- The assignment `bucketspec2->subbuckettab[i][j].hardworktodo = v`. -/
def setSubHardwork (b : GtBucketspec2) (i j : Nat) (v : Bool) : GtBucketspec2 :=
  { b with subbuckettab := fun x y =>
      if x = i ∧ y = j then { b.subbuckettab x y with hardworktodo := v }
      else b.subbuckettab x y }

/-- The assignment `bucketspec2->superbuckettab[i].sorted = v`. -/
def setSuperSorted (b : GtBucketspec2) (i : Nat) (v : Bool) : GtBucketspec2 :=
  { b with superbuckettab := fun x =>
      if x = i then { b.superbuckettab x with sorted := v } else b.superbuckettab x }

/-- The body of the inner loop of `resetsorted`. -/
def resetsortedEntry (idx idx2 : Nat) (b : GtBucketspec2) : Except Fault GtBucketspec2 := do
  let startidx ← getstartidx b idx idx2
  let endidx ← getendidx b idx idx2
  return setSubSorted b idx idx2 (if startidx < endidx then false else true)

/-- The body of the outer loop of `resetsorted`. -/
def resetsortedRow (idx : Nat) (b : GtBucketspec2) : Except Fault GtBucketspec2 :=
  forLoopM (resetsortedEntry idx) b.numofchars 0 (setSuperSorted b idx false)

/-- The function `resetsorted`. -/
def resetsorted (bucketspec2 : GtBucketspec2) : Except Fault GtBucketspec2 :=
  forLoopM resetsortedRow bucketspec2.numofchars 0 bucketspec2

/-- The body of the loop over `second` in `determinehardwork`. -/
def hardworkEntry (source second : Nat) (b : GtBucketspec2) : GtBucketspec2 :=
  if (!(b.subbuckettab source second).sorted && source != second) = true then
    setSubSorted (setSubHardwork b source second true) source second true
  else setSubHardwork b source second false

/-- The body of the loop over `idx` in `determinehardwork`. -/
def markSorted (source idx : Nat) (b : GtBucketspec2) : GtBucketspec2 :=
  setSubSorted b idx source true

/-- The body of the loop over `idxsource` in `determinehardwork`. -/
def hardworkSource (idxsource : Nat) (b : GtBucketspec2) : GtBucketspec2 :=
  forLoop (markSorted (b.order.getD idxsource 0)) b.numofchars 0
    (setSuperSorted
      (forLoop (hardworkEntry (b.order.getD idxsource 0)) b.numofchars 0 b)
      (b.order.getD idxsource 0) true)

/-- The function `determinehardwork`. -/
def determinehardwork (bucketspec2 : GtBucketspec2) : GtBucketspec2 :=
  forLoop hardworkSource bucketspec2.numofchars 0 bucketspec2

/-- The function `gt_copysort_new` from the loop that fills `order` on.
`filled` is the object after the allocations and the call of `fill2subbuckets`
or `fillanysubbuckets`, which set the members `bucketend`, and `gt_qsort_r` is
the sort function of the library, declared outside the sources at hand: it
takes the array and the comparison and returns the array after the sort. -/
def gt_copysort_new (gt_qsort_r : List Nat → (Nat → Nat → Int) → List Nat) (w : Nat)
    (filled : GtBucketspec2) : Except Fault GtBucketspec2 := do
  assertThat (decide (filled.numofchars > 0))
  let bucketspec2 := { filled with order := List.range filled.numofchars }
  let bucketspec2 := { bucketspec2 with
    order := gt_qsort_r bucketspec2.order (comparesuperbucketsizes w bucketspec2) }
  let bucketspec2 ← resetsorted bucketspec2
  let bucketspec2 := determinehardwork bucketspec2
  resetsorted bucketspec2

/-- The functions and the macro that `forwardderive` and `backwardderive`
use and that are declared outside the sources at hand, over the states `S` of
a suffix sort space; `gt_encseq_get_encoded_char` stands for the call with
the encoded sequence and the read mode of the object. -/
structure DeriveCalls (S : Type) where
  gt_suffixsortspace_getdirect : S → Nat → Nat
  gt_suffixsortspace_setdirect : S → Nat → Nat → S
  gt_encseq_get_encoded_char : Nat → Nat
  ISNOTSPECIAL : Nat → Bool

/-- The body of the loop of `forwardderive`; the state is the suffix sort
space and the array `targetoffset`, which has as many entries as
`superbuckettab`, `numofchars`, and holds `unsigned long` values of `w`
bits. -/
def forwardderiveBody {S : Type} (C : DeriveCalls S) (w : Nat) (bucketspec2 : GtBucketspec2)
    (idx : Nat) (st : S × List Nat) : Except Fault (S × List Nat) :=
  if C.gt_suffixsortspace_getdirect st.1 idx > 0 then
    if C.ISNOTSPECIAL (C.gt_encseq_get_encoded_char
        (C.gt_suffixsortspace_getdirect st.1 idx - 1)) = true then
      if C.gt_encseq_get_encoded_char (C.gt_suffixsortspace_getdirect st.1 idx - 1)
          < bucketspec2.numofchars then
        if (bucketspec2.superbuckettab (C.gt_encseq_get_encoded_char
            (C.gt_suffixsortspace_getdirect st.1 idx - 1))).sorted = false then do
          let t ← readAt st.2
            (C.gt_encseq_get_encoded_char (C.gt_suffixsortspace_getdirect st.1 idx - 1))
          let targetoffset ← writeAt st.2
            (C.gt_encseq_get_encoded_char (C.gt_suffixsortspace_getdirect st.1 idx - 1))
            ((t + 1) % 2 ^ w)
          return (C.gt_suffixsortspace_setdirect st.1 t
            (C.gt_suffixsortspace_getdirect st.1 idx - 1), targetoffset)
        else return st
      else .error .outOfBounds
    else return st
  else return st

/-- The loop `for (; idx < targetoffset[source]; idx++)` of `forwardderive`;
the first argument is the number of passes left.  As `idx` stays below an
`unsigned long` value, `2^w - idx` passes are enough. -/
def forwardderiveLoop {S : Type} (C : DeriveCalls S) (w : Nat) (bucketspec2 : GtBucketspec2)
    (source : Nat) : Nat → Nat → S × List Nat → Except Fault (S × List Nat)
  | 0, _, st => .ok st
  | n + 1, idx, st => do
    let t ← readAt st.2 source
    if idx < t then do
      let st ← forwardderiveBody C w bucketspec2 idx st
      forwardderiveLoop C w bucketspec2 source n (idx + 1) st
    else return st

/-- The function `forwardderive`. -/
def forwardderive {S : Type} (C : DeriveCalls S) (w : Nat) (bucketspec2 : GtBucketspec2)
    (st : S × List Nat) (source idx : Nat) : Except Fault (S × List Nat) := do
  let t ← readAt st.2 source
  assertThat (decide (idx < t))
  forwardderiveLoop C w bucketspec2 source (2 ^ w - idx) idx st

/-- The body of the loop of `backwardderive`. -/
def backwardderiveBody {S : Type} (C : DeriveCalls S) (w : Nat) (bucketspec2 : GtBucketspec2)
    (idx : Nat) (st : S × List Nat) : Except Fault (S × List Nat) :=
  if C.gt_suffixsortspace_getdirect st.1 idx > 0 then
    if C.ISNOTSPECIAL (C.gt_encseq_get_encoded_char
        (C.gt_suffixsortspace_getdirect st.1 idx - 1)) = true then
      if C.gt_encseq_get_encoded_char (C.gt_suffixsortspace_getdirect st.1 idx - 1)
          < bucketspec2.numofchars then
        if (bucketspec2.superbuckettab (C.gt_encseq_get_encoded_char
            (C.gt_suffixsortspace_getdirect st.1 idx - 1))).sorted = false then do
          let t ← readAt st.2
            (C.gt_encseq_get_encoded_char (C.gt_suffixsortspace_getdirect st.1 idx - 1))
          let targetoffset ← writeAt st.2
            (C.gt_encseq_get_encoded_char (C.gt_suffixsortspace_getdirect st.1 idx - 1))
            ((t + (2 ^ w - 1)) % 2 ^ w)
          return (C.gt_suffixsortspace_setdirect st.1 t
            (C.gt_suffixsortspace_getdirect st.1 idx - 1), targetoffset)
        else return st
      else .error .outOfBounds
    else return st
  else return st

/-- The loop `for (; idx + 1 > targetoffset[source] + 1; idx--)` of
`backwardderive`, by recursion on `idx`; both sums wrap.  After the pass with
`idx == 0` the index wraps to `2^w - 1`, `idx + 1` is 0 and the loop ends. -/
def backwardderiveLoop {S : Type} (C : DeriveCalls S) (w : Nat) (bucketspec2 : GtBucketspec2)
    (source : Nat) : Nat → S × List Nat → Except Fault (S × List Nat)
  | 0, st => do
    let t ← readAt st.2 source
    if (0 + 1) % 2 ^ w > (t + 1) % 2 ^ w then backwardderiveBody C w bucketspec2 0 st
    else return st
  | idx + 1, st => do
    let t ← readAt st.2 source
    if (idx + 1 + 1) % 2 ^ w > (t + 1) % 2 ^ w then do
      let st ← backwardderiveBody C w bucketspec2 (idx + 1) st
      backwardderiveLoop C w bucketspec2 source idx st
    else return st

/-- The function `backwardderive`. -/
def backwardderive {S : Type} (C : DeriveCalls S) (w : Nat) (bucketspec2 : GtBucketspec2)
    (st : S × List Nat) (source idx : Nat) : Except Fault (S × List Nat) := do
  let t ← readAt st.2 source
  assertThat (decide (idx > t))
  backwardderiveLoop C w bucketspec2 source idx st

/-- The body of the loop over `second` in `gt_copysort_derivesorting`; the
state is the object and the counter `hardwork`, an `unsigned long` of `w`
bits.  The calls of `gt_logger_log` are left out. -/
def derivesortingEntry (w : Nat) (source second : Nat) (st : GtBucketspec2 × Nat) :
    Except Fault (GtBucketspec2 × Nat) :=
  if (!(st.1.subbuckettab source second).sorted && source != second) = true then do
    assertHardwork (st.1.subbuckettab source second).hardworktodo
    let endidx ← getendidx st.1 source second
    let startidx ← getstartidx st.1 source second
    return (setSubSorted st.1 source second true,
      (st.2 + (endidx + (2 ^ w - startidx)) % 2 ^ w) % 2 ^ w)
  else do
    assertHardwork (!(st.1.subbuckettab source second).hardworktodo)
    return st

/-- The body of the loop
`targetoffset[idx] = getstartidx(bucketspec2,idx,source)`. -/
def forwardTarget (bucketspec2 : GtBucketspec2) (source idx : Nat) (targetoffset : List Nat) :
    Except Fault (List Nat) := do
  let startidx ← getstartidx bucketspec2 idx source
  writeAt targetoffset idx startidx

/-- The statement `if (getstartidx(bucketspec2,source,0) <
getstartidx(bucketspec2,source,source)) { ... }` of
`gt_copysort_derivesorting`. -/
def forwardBlock {S : Type} (C : DeriveCalls S) (w : Nat) (bucketspec2 : GtBucketspec2)
    (source : Nat) (st : S × List Nat) : Except Fault (S × List Nat) := do
  let first ← getstartidx bucketspec2 source 0
  let own ← getstartidx bucketspec2 source source
  if first < own then do
    let targetoffset ←
      forLoopM (forwardTarget bucketspec2 source) bucketspec2.numofchars 0 st.2
    let idx ← getstartidx bucketspec2 source 0
    forwardderive C w bucketspec2 (st.1, targetoffset) source idx
  else return st

/-- The body of the loop that sets `targetoffset[idx]` to
`getendidx(bucketspec2,idx,source) - 1`, with its assertion. -/
def backwardTarget (bucketspec2 : GtBucketspec2) (source idx : Nat) (targetoffset : List Nat) :
    Except Fault (List Nat) := do
  let endidx ← getendidx bucketspec2 idx source
  assertThat (decide (endidx > 0))
  writeAt targetoffset idx (endidx - 1)

/-- The statement `if (getendidx(bucketspec2,source,source) <
getendidx(bucketspec2,source,bucketspec2->numofchars)) { ... }` of
`gt_copysort_derivesorting`. -/
def backwardBlock {S : Type} (C : DeriveCalls S) (w : Nat) (bucketspec2 : GtBucketspec2)
    (source : Nat) (st : S × List Nat) : Except Fault (S × List Nat) := do
  let own ← getendidx bucketspec2 source source
  let last ← getendidx bucketspec2 source bucketspec2.numofchars
  if own < last then do
    let targetoffset ←
      forLoopM (backwardTarget bucketspec2 source) bucketspec2.numofchars 0 st.2
    let last ← getendidx bucketspec2 source bucketspec2.numofchars
    assertThat (decide (last > 0))
    let idx ← getendidx bucketspec2 source bucketspec2.numofchars
    backwardderive C w bucketspec2 (st.1, targetoffset) source (idx - 1)
  else return st

/-- The body of the loop over `idxsource` in `gt_copysort_derivesorting`;
the state is the object with the counter `hardwork`, and the suffix sort space
with the array `targetoffset`. -/
def derivesortingSource {S : Type} (C : DeriveCalls S) (w : Nat) (idxsource : Nat)
    (st : (GtBucketspec2 × Nat) × (S × List Nat)) :
    Except Fault ((GtBucketspec2 × Nat) × (S × List Nat)) := do
  let source := st.1.1.order.getD idxsource 0
  let flagged ← forLoopM (derivesortingEntry w source) st.1.1.numofchars 0 st.1
  let derived ← forwardBlock C w flagged.1 source st.2
  let derived ← backwardBlock C w flagged.1 source derived
  return ((setSuperSorted (forLoop (markSorted source) flagged.1.numofchars 0 flagged.1)
    source true, flagged.2), derived)

/-- The function `gt_copysort_derivesorting`: the object, the value of
`hardwork` and the suffix sort space at its end.  The array `targetoffset`
has `numofchars` entries; every entry is written before it is read, and the
entries start as 0 here. -/
def gt_copysort_derivesorting {S : Type} (C : DeriveCalls S) (w : Nat)
    (bucketspec2 : GtBucketspec2) (suffixsortspace : S) :
    Except Fault (GtBucketspec2 × Nat × S) := do
  let st ← forLoopM (derivesortingSource C w) bucketspec2.numofchars 0
    ((bucketspec2, 0), (suffixsortspace, List.replicate bucketspec2.numofchars 0))
  return (st.1.1, st.1.2, st.2.1)

/-! ## Table of suffixes (`spmsuftab.h`) -/

/-- The two accessors of the compact store of `core/compactulongstore.h`,
declared outside the sources at hand, over the states `S` of a store. -/
structure CompactUlongstoreCalls (S : Type) where
  gt_GtCompactulongstore_update : S → Nat → Nat → S
  gt_GtCompactulongstore_get : S → Nat → Nat

/-- The struct `GtSpmsuftab`; a pointer that is `NULL` is `none`, the array
behind `suftab` holds `uint32_t` values. -/
structure GtSpmsuftab (S : Type) where
  partoffset : Nat
  numofentries : Nat
  maxvalue : Nat
  bitpackarray : Option S
  suftab : Option (List Nat)

/-- The constant `UINT32_MAX`. -/
def UINT32_MAX : Nat := 2 ^ 32 - 1

/-- The statement `spmsuftab->suftab[idx] = (uint32_t) value` with the
assertion before it. -/
def storePlain {S : Type} (spmsuftab : GtSpmsuftab S) (idx value : Nat) :
    Except Fault (GtSpmsuftab S) :=
  match spmsuftab.suftab with
  | none => .error .assertion
  | some a => do
    assertThat (decide (value ≤ UINT32_MAX))
    if idx < a.length then
      .ok { spmsuftab with suftab := some (a.set idx (value % 2 ^ 32)) }
    else .error .outOfBounds

/-- The function `gt_spmsuftab_set`: the table after the call. -/
def gt_spmsuftab_set {S : Type} (A : CompactUlongstoreCalls S) (spmsuftab : GtSpmsuftab S)
    (idx value : Nat) : Except Fault (GtSpmsuftab S) := do
  assertThat (decide (idx ≥ spmsuftab.partoffset))
  let idx := idx - spmsuftab.partoffset
  assertThat (decide (idx < spmsuftab.numofentries ∧ value ≤ spmsuftab.maxvalue))
  match spmsuftab.bitpackarray with
  | some b =>
    .ok { spmsuftab with bitpackarray := some (A.gt_GtCompactulongstore_update b idx value) }
  | none => storePlain spmsuftab idx value

/-- The statement `return (unsigned long) spmsuftab->suftab[idx]` with the
assertion before it. -/
def loadPlain {S : Type} (spmsuftab : GtSpmsuftab S) (idx : Nat) : Except Fault Nat :=
  match spmsuftab.suftab with
  | none => .error .assertion
  | some a =>
    match a[idx]? with
    | some v => .ok v
    | none => .error .outOfBounds

/-- The function `gt_spmsuftab_get`. -/
def gt_spmsuftab_get {S : Type} (A : CompactUlongstoreCalls S) (spmsuftab : GtSpmsuftab S)
    (idx : Nat) : Except Fault Nat := do
  assertThat (decide (idx ≥ spmsuftab.partoffset))
  let idx := idx - spmsuftab.partoffset
  assertThat (decide (idx < spmsuftab.numofentries))
  match spmsuftab.bitpackarray with
  | some b => .ok (A.gt_GtCompactulongstore_get b idx)
  | none => loadPlain spmsuftab idx

/-! ## Definitions used to state and prove the properties -/

/-- The value `getstartidx` returns when its assertions hold. -/
def startidx (b : GtBucketspec2) (first second : Nat) : Nat :=
  if second > 0 then (b.subbuckettab first (second - 1)).bucketend
  else if first > 0 then (b.superbuckettab (first - 1)).bucketend
  else 0

/-- The value `getendidx` returns when its assertions hold. -/
def endidx (b : GtBucketspec2) (first second : Nat) : Nat :=
  if second < b.numofchars then (b.subbuckettab first second).bucketend
  else (b.superbuckettab first).bucketend

/-- The subbucket `(first, second)` is empty. -/
def emptyBucket (b : GtBucketspec2) (first second : Nat) : Bool :=
  !decide (startidx b first second < endidx b first second)

/-- The character `a` comes before the character `c` in `order`. -/
def precedes (order : List Nat) (a c : Nat) : Prop :=
  order.indexOf a < order.indexOf c

instance (order : List Nat) (a c : Nat) : Decidable (precedes order a c) :=
  inferInstanceAs (Decidable (_ < _))

/-- The object `b` has the size, the order and the bucket ends of `b0`. -/
structure SameEnds (b0 b : GtBucketspec2) : Prop where
  numofchars_eq : b.numofchars = b0.numofchars
  order_eq : b.order = b0.order
  super_eq : ∀ i, (b.superbuckettab i).bucketend = (b0.superbuckettab i).bucketend
  sub_eq : ∀ i j, (b.subbuckettab i j).bucketend = (b0.subbuckettab i j).bucketend

/-- The flag `hardworktodo` of the subbucket `(x, y)` as the loops of
`determinehardwork` leave it: the characters differ, the subbucket is not
empty, and `y` is not among the characters that come before `x` in
`order`. -/
def hardworkValue (b : GtBucketspec2) (x y : Nat) : Bool :=
  decide (x ≠ y) && !emptyBucket b x y && !decide (y ∈ b.order.take (b.order.indexOf x))

/-- The flag `sorted` of the subbucket `(x, y)` after `k` passes of the loop
over `order`: the subbucket is empty, or one of the two characters is among
the first `k` of `order`. -/
def sortedValue (b : GtBucketspec2) (k x y : Nat) : Bool :=
  emptyBucket b x y || decide (x ∈ b.order.take k) || decide (y ∈ b.order.take k)

/-- The run does not end at a failed assertion on `hardworktodo`. -/
def Spared {α : Type} (r : Except Fault α) : Prop :=
  r ≠ .error .hardworkAssertion

/-- What the accessors assume of the compact store `b` of a table with
`numofentries` entries for values up to `maxvalue`: after an update of an
entry with such a value the entry holds it and the other entries are as
before. -/
def StoreHolds {S : Type} (A : CompactUlongstoreCalls S) (numofentries maxvalue : Nat)
    (b : S) : Prop :=
  ∀ i v, i < numofentries → v ≤ maxvalue →
    A.gt_GtCompactulongstore_get (A.gt_GtCompactulongstore_update b i v) i = v ∧
    ∀ j, j < numofentries → j ≠ i →
      A.gt_GtCompactulongstore_get (A.gt_GtCompactulongstore_update b i v) j
        = A.gt_GtCompactulongstore_get b j

/-- A table is set up when it has a compact store that holds its entries, or
no compact store and an array of `numofentries` entries. -/
def SetUp {S : Type} (A : CompactUlongstoreCalls S) (t : GtSpmsuftab S) : Prop :=
  match t.bitpackarray with
  | some b => StoreHolds A t.numofentries t.maxvalue b
  | none => ∃ a, t.suftab = some a ∧ a.length = t.numofentries

/-! ## Scenarios -/

/-- A sort function for the scenarios: insertion sort by the comparison. -/
def insertionQsort (l : List Nat) (cmp : Nat → Nat → Int) : List Nat :=
  l.insertionSort (fun a b => cmp a b ≤ 0)

/-- An object over two characters after the buckets have been filled:
superbucket 0 ends at 4 and holds the subbuckets `[0, 1)` and `[1, 3)`,
superbucket 1 ends at 10 and holds the subbuckets `[4, 6)` and `[6, 9)`. -/
def twoCharBuckets : GtBucketspec2 where
  numofchars := 2
  order := []
  superbuckettab := fun i => Bucketinfo.mk false false (if i = 0 then 4 else 10)
  subbuckettab := fun i j =>
    Bucketinfo.mk true false
      (if i = 0 then (if j = 0 then 1 else 3) else (if j = 0 then 6 else 9))

/-- Collaborators for the scenarios: the suffix sort space is a list of
positions, the encoded sequence is `0 1 1 0 1 1 1 0 0 1`, and the characters
0 and 1 are not special. -/
def listCalls : DeriveCalls (List Nat) where
  gt_suffixsortspace_getdirect := fun s i => s.getD i 0
  gt_suffixsortspace_setdirect := fun s i v => s.set i v
  gt_encseq_get_encoded_char := fun pos => [0, 1, 1, 0, 1, 1, 1, 0, 0, 1].getD pos 2
  ISNOTSPECIAL := fun cc => decide (cc < 2)

/-- The object of `twoCharBuckets` with the subbucket `(0, 0)` ending at
0. -/
def zeroEndBuckets : GtBucketspec2 :=
  { twoCharBuckets with
    subbuckettab := fun i j =>
      Bucketinfo.mk true false
        (if i = 0 then (if j = 0 then 0 else 3) else (if j = 0 then 6 else 9)) }

/-- A compact store kept as a list of numbers. -/
def listStore : CompactUlongstoreCalls (List Nat) where
  gt_GtCompactulongstore_update := fun b i v => b.set i v
  gt_GtCompactulongstore_get := fun b i => b.getD i 0

/-- A table for the entries 10, 11, 12 in a compact store. -/
def packedTable : GtSpmsuftab (List Nat) where
  partoffset := 10
  numofentries := 3
  maxvalue := 100
  bitpackarray := some [5, 6, 7]
  suftab := none

/-- A table for the entries 10, 11, 12 in a plain array. -/
def plainTable : GtSpmsuftab (List Nat) where
  partoffset := 10
  numofentries := 3
  maxvalue := 100
  bitpackarray := none
  suftab := some [5, 6, 7]

end Match

/-!
# Sketching a line (`src/annotationsketch/line.c`)

A shallow embedding of `gt_line_sketch`.  The canvas, the blocks and the
error object belong to other modules: the visits of the canvas and the sketch
of a block are parameters that take and return the state of the canvas and of
the error object.
-/

namespace Annotationsketch

/-- The struct `GtLine`; a block is referred to by a number. -/
structure GtLine where
  has_captions : Bool
  blocks : List Nat

/-- The functions that `gt_line_sketch` calls, declared outside the sources
at hand: each takes the state of the canvas and the error object and returns
its `int` result and the state after the call. -/
structure SketchCalls (σ : Type) where
  gt_canvas_visit_line_pre : σ → GtLine → Int × σ
  gt_block_sketch : Nat → σ → Int × σ
  gt_canvas_visit_line_post : σ → GtLine → Int × σ

/-- The loop `for (i = 0; i < gt_array_size(line->blocks); i++)` of
`gt_line_sketch`: every pass assigns the result of `gt_block_sketch` to
`had_err`.  The first argument holds the blocks from index `i` on. -/
def sketchBlocks {σ : Type} (E : SketchCalls σ) : List Nat → Int → σ → Int × σ
  | [], had_err, canvas => (had_err, canvas)
  | block :: rest, _, canvas =>
    sketchBlocks E rest (E.gt_block_sketch block canvas).1 (E.gt_block_sketch block canvas).2

/-- The statement `if (!had_err) { for ... }` of `gt_line_sketch`. -/
def sketchBlocksUnlessError {σ : Type} (E : SketchCalls σ) (line : GtLine) (had_err : Int)
    (canvas : σ) : Int × σ :=
  if had_err = 0 then sketchBlocks E line.blocks had_err canvas else (had_err, canvas)

/-- The function `gt_line_sketch`: its return value and the state of the
canvas and the error object after the call. -/
def gt_line_sketch {σ : Type} (E : SketchCalls σ) (line : GtLine) (canvas : σ) : Int × σ :=
  let pre := E.gt_canvas_visit_line_pre canvas line
  let r := sketchBlocksUnlessError E line pre.1 pre.2
  if r.1 = 0 then (r.1, (E.gt_canvas_visit_line_post r.2 line).2) else r

/-! ## Definitions used to state and prove the properties -/

/-- The calls made on a canvas: the pre-visit of the line, the sketch of a
block, the post-visit of the line. -/
inductive SketchEvent where
  | linePre
  | blockSketch (block : Nat)
  | linePost
  deriving DecidableEq, Repr

/-- Collaborators that record every call and in which the sketch of block 1
fails with the code -1 and everything else succeeds. -/
def blockOneFails : SketchCalls (List SketchEvent) where
  gt_canvas_visit_line_pre := fun canvas _ => (0, canvas ++ [.linePre])
  gt_block_sketch := fun block canvas =>
    (if block = 1 then -1 else 0, canvas ++ [.blockSketch block])
  gt_canvas_visit_line_post := fun canvas _ => (0, canvas ++ [.linePost])

end Annotationsketch

namespace EisBwtSeq

/-! ## Order lemmas -/

theorem dom_false_eq_lexLt (P x : List Nat) : dom false P x = lexLt x P := by
  induction P generalizing x with
  | nil => cases x <;> simp [dom, lexLt]
  | cons c P ih =>
    cases x with
    | nil => simp [dom, lexLt]
    | cons a y => simp [dom, lexLt, ih]

theorem dom_mono (β : Bool) (P : List Nat) :
    ∀ x y : List Nat, lexLt y x = false → dom β P y = true → dom β P x = true := by
  induction P with
  | nil => intro x y _ h; simpa [dom] using h
  | cons c P ih =>
    intro x y hxy hy
    cases x with
    | nil => simp [dom]
    | cons a x' =>
      cases y with
      | nil => simp [lexLt] at hxy
      | cons b y' =>
        simp only [lexLt, Bool.or_eq_false_iff, decide_eq_false_iff_not, not_lt,
          Bool.and_eq_false_imp, beq_iff_eq] at hxy
        simp only [dom, Bool.or_eq_true, decide_eq_true_eq, Bool.and_eq_true, beq_iff_eq] at hy ⊢
        obtain ⟨hab, hrest⟩ := hxy
        rcases Nat.lt_or_eq_of_le hab with hlt | heq
        · left
          rcases hy with h | ⟨h, _⟩ <;> omega
        · subst heq
          rcases hy with h | ⟨h, hd⟩
          · exact Or.inl h
          · exact Or.inr ⟨h, ih x' y' (hrest rfl) hd⟩

theorem dom_false_le_true (P x : List Nat) (h : dom false P x = true) :
    dom true P x = true := by
  induction P generalizing x with
  | nil => simp [dom]
  | cons c P ih =>
    cases x with
    | nil => simp [dom]
    | cons a y =>
      simp only [dom, Bool.or_eq_true, decide_eq_true_eq, Bool.and_eq_true, beq_iff_eq] at h ⊢
      rcases h with h | ⟨h, hd⟩
      · exact Or.inl h
      · exact Or.inr ⟨h, ih y hd⟩

theorem lexLt_asymm (x y : List Nat) (h : lexLt x y = true) : lexLt y x = false := by
  induction x generalizing y with
  | nil => cases y <;> simp [lexLt] at h ⊢
  | cons a x ih =>
    cases y with
    | nil => simp [lexLt] at h
    | cons b y =>
      simp only [lexLt, Bool.or_eq_true, decide_eq_true_eq, Bool.and_eq_true, beq_iff_eq] at h
      simp only [lexLt, Bool.or_eq_false_iff, decide_eq_false_iff_not, not_lt,
        Bool.and_eq_false_imp, beq_iff_eq]
      rcases h with h | ⟨h, hl⟩
      · exact ⟨by omega, fun e => by omega⟩
      · exact ⟨by omega, fun _ => ih y hl⟩

theorem suffixLe_total (S : List Nat) (i j : Nat) : suffixLe S i j ∨ suffixLe S j i := by
  unfold suffixLe
  cases h : lexLt (S.drop j) (S.drop i)
  · exact Or.inl rfl
  · exact Or.inr (lexLt_asymm _ _ h)

theorem suffixLe_trans (S : List Nat) (i j k : Nat) (h1 : suffixLe S i j)
    (h2 : suffixLe S j k) : suffixLe S i k := by
  unfold suffixLe at *
  cases h : lexLt (S.drop k) (S.drop i)
  · rfl
  · have h3 := dom_mono false (S.drop i) (S.drop j) (S.drop k) h2
      (by rw [dom_false_eq_lexLt]; exact h)
    rw [dom_false_eq_lexLt, h1] at h3
    exact absurd h3 (by simp)

theorem suffixArray_perm (S : List Nat) : (suffixArray S).Perm (List.range S.length) :=
  List.perm_insertionSort _ _

theorem suffixArray_sorted (S : List Nat) : (suffixArray S).Pairwise (suffixLe S) :=
  @List.sorted_insertionSort Nat (suffixLe S) _ ⟨suffixLe_total S⟩ ⟨suffixLe_trans S⟩ _

/-! ## Counting lemmas on lists -/

theorem take_countP_eq_filter {α : Type} (p : α → Bool) (l : List α)
    (h : l.Pairwise (fun a b => p b = true → p a = true)) :
    l.take (l.countP p) = l.filter p := by
  induction l with
  | nil => simp
  | cons a t ih =>
    rw [List.pairwise_cons] at h
    obtain ⟨ha, ht⟩ := h
    by_cases hp : p a = true
    · simp [List.countP_cons_of_pos, hp, List.filter_cons_of_pos, ih ht]
    · have hall : ∀ b ∈ t, ¬ p b = true := fun b hb hpb => hp (ha b hb hpb)
      have h0 : t.countP p = 0 := by
        rw [List.countP_eq_zero]; exact hall
      have hf : t.filter p = [] := by
        rw [List.filter_eq_nil_iff]; exact hall
      simp [List.countP_cons_of_neg, hp, List.filter_cons_of_neg, h0, hf]

theorem range_map_prevSuffixPairs (S : List Nat) (p : Nat) :
    (List.range S.length).map (fun j => (bwtSymbol p S j, S.drop j)) = prevSuffixPairs p S := by
  induction S generalizing p with
  | nil => simp [prevSuffixPairs]
  | cons a y ih =>
    rw [List.length_cons, List.range_succ_eq_map, List.map_cons, List.map_map, prevSuffixPairs,
      ← ih a]
    congr 1
    apply List.map_congr_left
    intro j _
    cases j with
    | zero => simp [bwtSymbol]
    | succ k => simp [bwtSymbol]

/-! ## Rank on the stored BWT and the suffixes below a pattern -/

/-- The rows of the suffix array whose suffix lies in `dom β P` are the first
`domCount β P S f` rows, so the rank of `c` at that position counts the
suffixes in `dom β P` that are preceded by `c`. -/
theorem stored_rank (S : List Nat) (f c : Nat) (β : Bool) (P : List Nat) :
    (((suffixArray S).map (bwtSymbol f S)).take (domCount β P S f)).count c
      = (prevSuffixPairs f S).countP (fun pr => dom β P pr.2 && pr.1 == c) := by
  have hperm : ((suffixArray S).map (fun j => (bwtSymbol f S j, S.drop j))).Perm
      (prevSuffixPairs f S) := by
    rw [← range_map_prevSuffixPairs]
    exact (suffixArray_perm S).map _
  have hpw : ((suffixArray S).map (fun j => (bwtSymbol f S j, S.drop j))).Pairwise
      (fun a b => dom β P b.2 = true → dom β P a.2 = true) := by
    rw [List.pairwise_map]
    exact (suffixArray_sorted S).imp (fun {i j} h => dom_mono β P (S.drop i) (S.drop j) h)
  have hmap : (suffixArray S).map (bwtSymbol f S)
      = ((suffixArray S).map (fun j => (bwtSymbol f S j, S.drop j))).map Prod.fst := by
    rw [List.map_map]; rfl
  have hcnt : domCount β P S f
      = ((suffixArray S).map (fun j => (bwtSymbol f S j, S.drop j))).countP
          (fun pr => dom β P pr.2) := by
    unfold domCount
    exact (hperm.countP_eq _).symm
  rw [hmap, hcnt, ← List.map_take, take_countP_eq_filter _ _ hpw, List.count, List.countP_map,
    List.countP_filter, ← hperm.countP_eq]
  apply List.countP_congr
  intro pr _
  simp [Bool.and_comm]

/-- One step of backward search on the suffixes: the suffixes in
`dom β (c :: P)` are those that start with a code below `c` and those that
start with `c` and continue in `dom β P`. -/
theorem domCount_cons_aux (β : Bool) (c : Nat) (P T : List Nat) (t : Nat) (ht : t ≠ c) :
    ∀ p : Nat, domCount β (c :: P) (T ++ [t]) p
        + (if p = c ∧ dom β P (T ++ [t]) = true then 1 else 0)
      = (T ++ [t]).countP (fun a => decide (a < c))
        + (prevSuffixPairs p (T ++ [t])).countP (fun pr => dom β P pr.2 && pr.1 == c) := by
  induction T with
  | nil =>
    intro p
    simp only [domCount, List.nil_append, prevSuffixPairs, List.countP_cons, List.countP_nil,
      dom, zero_add]
    by_cases h1 : t < c <;> by_cases h2 : p = c <;> by_cases h3 : dom β P [t] = true <;>
      simp [h1, h2, h3, ht]
  | cons a T ih =>
    intro p
    have ih' := ih a
    simp only [domCount, List.cons_append, prevSuffixPairs, List.countP_cons, dom] at ih' ⊢
    by_cases h1 : a < c <;> by_cases h2 : p = c <;> by_cases h3 : a = c <;>
      by_cases h4 : dom β P (T ++ [t]) = true <;>
      by_cases h5 : dom β P (a :: (T ++ [t])) = true <;>
      simp [h1, h2, h3, h4, h5] at ih' ⊢ <;> omega

theorem domCount_cons (β : Bool) (c : Nat) (P T : List Nat) (t f : Nat) (ht : t ≠ c)
    (hf : f ≠ c) :
    domCount β (c :: P) (T ++ [t]) f
      = (T ++ [t]).countP (fun a => decide (a < c))
        + (((suffixArray (T ++ [t])).map (bwtSymbol f (T ++ [t]))).take
            (domCount β P (T ++ [t]) f)).count c := by
  have h := domCount_cons_aux β c P T t ht f
  rw [stored_rank]
  simpa [hf] using h

theorem prevSuffixPairs_length (S : List Nat) : ∀ p, (prevSuffixPairs p S).length = S.length := by
  induction S with
  | nil => intro p; rfl
  | cons a y ih => intro p; simp [prevSuffixPairs, ih a]

theorem domCount_nil (β : Bool) (S : List Nat) (p : Nat) :
    domCount β [] S p = if β then S.length else 0 := by
  unfold domCount
  cases β
  · simp [dom]
  · simp [dom, prevSuffixPairs_length]

theorem domCount_le_length (β : Bool) (P S : List Nat) (p : Nat) :
    domCount β P S p ≤ S.length := by
  unfold domCount
  exact (List.countP_le_length _).trans (by rw [prevSuffixPairs_length])

theorem domCount_false_le_true (P S : List Nat) (p : Nat) :
    domCount false P S p ≤ domCount true P S p := by
  unfold domCount
  apply List.countP_mono_left
  intro pr _ h
  exact dom_false_le_true P pr.2 h

/-! ## The loops that fill the `count` table -/

theorem readAt_of_getElem? (a : List Nat) (i v : Nat) (h : a[i]? = some v) :
    readAt a i = .ok v := by
  simp [readAt, h]

theorem writeAt_of_lt (a : List Nat) (i v : Nat) (h : i < a.length) :
    writeAt a i v = .ok (a.set i v) := by
  simp [writeAt, h]

theorem countLoopBelow_spec (K : Config) (seqIdx : encIdxSeq) (len : Nat) (g : Nat → Nat) :
    ∀ (n i : Nat) (count : List Nat), i + n < count.length →
      (∀ j, j ≤ i → count[j]? = some (g j)) →
      (∀ j, i ≤ j → j < i + n →
        g (j + 1) = (g j + EISSymTransformedRank seqIdx j len) % K.seqposMod) →
      ∃ count', countLoopBelow K seqIdx len n i count = .ok count' ∧
        count'.length = count.length ∧ ∀ j, j ≤ i + n → count'[j]? = some (g j) := by
  intro n
  induction n with
  | zero =>
    intro i count _ hinv _
    exact ⟨count, rfl, rfl, by simpa using hinv⟩
  | succ n ih =>
    intro i count hlen hinv hrec
    have hw : i + 1 < count.length := by omega
    obtain ⟨count', h1, h2, h3⟩ := ih (i + 1)
      (count.set (i + 1) ((g i + EISSymTransformedRank seqIdx i len) % K.seqposMod))
      (by rw [List.length_set]; omega)
      (by
        intro j hj
        rcases Nat.lt_or_eq_of_le hj with hlt | heq
        · rw [List.getElem?_set_ne (by omega)]
          exact hinv j (by omega)
        · subst heq
          rw [List.getElem?_set_self hw, hrec i (le_refl _) (by omega)])
      (by intro j hj1 hj2; exact hrec j (by omega) (by omega))
    refine ⟨count', ?_, ?_, ?_⟩
    · simp only [countLoopBelow, readAt_of_getElem? _ _ _ (hinv i (le_refl _)),
        writeAt_of_lt _ _ _ hw]
      exact h1
    · rw [h2, List.length_set]
    · intro j hj
      exact h3 j (by omega)

theorem countLoopAbove_spec (K : Config) (seqIdx : encIdxSeq) (len : Nat) (g : Nat → Nat) :
    ∀ (n i : Nat) (count : List Nat), i + n < count.length →
      (∀ j, j ≤ i → count[j]? = some (g j)) →
      (∀ j, i ≤ j → j < i + n →
        g (j + 1) = (g j + EISSymTransformedRank seqIdx j len) % K.seqposMod) →
      ∃ count', countLoopAbove K seqIdx len n (i + 1) count = .ok count' ∧
        count'.length = count.length ∧ ∀ j, j ≤ i + n → count'[j]? = some (g j) := by
  intro n
  induction n with
  | zero =>
    intro i count _ hinv _
    exact ⟨count, rfl, rfl, by simpa using hinv⟩
  | succ n ih =>
    intro i count hlen hinv hrec
    have hw : i + 1 < count.length := by omega
    obtain ⟨count', h1, h2, h3⟩ := ih (i + 1)
      (count.set (i + 1) ((g i + EISSymTransformedRank seqIdx i len) % K.seqposMod))
      (by rw [List.length_set]; omega)
      (by
        intro j hj
        rcases Nat.lt_or_eq_of_le hj with hlt | heq
        · rw [List.getElem?_set_ne (by omega)]
          exact hinv j (by omega)
        · subst heq
          rw [List.getElem?_set_self hw, hrec i (le_refl _) (by omega)])
      (by intro j hj1 hj2; exact hrec j (by omega) (by omega))
    refine ⟨count', ?_, ?_, ?_⟩
    · simp only [countLoopAbove, Nat.add_sub_cancel,
        readAt_of_getElem? _ _ _ (hinv i (le_refl _)), writeAt_of_lt _ _ _ hw]
      exact h1
    · rw [h2, List.length_set]
    · intro j hj
      exact h3 j (by omega)

/-- The table written by `fillCount`, for any function `g` that satisfies
the recurrences of the three assignments and the two assertions. -/
theorem fillCount_eq (K : Config) (seqIdx : encIdxSeq) (σ f : Nat) (counts : List Nat)
    (g : Nat → Nat) (hσ : f + 2 ≤ σ) (hlen : counts.length = σ + 1) (g0 : g 0 = 0)
    (hbelow : ∀ j, j < f →
      g (j + 1) = (g j + EISSymTransformedRank seqIdx j (EISLength seqIdx)) % K.seqposMod)
    (hf : g (f + 1) = (g f + EISSymTransformedRank seqIdx f (EISLength seqIdx)
      + (K.seqposMod - 1)) % K.seqposMod)
    (hmono : g f ≤ g (f + 1))
    (habove : ∀ j, f < j → j + 1 < σ →
      g (j + 1) = (g j + EISSymTransformedRank seqIdx j (EISLength seqIdx)) % K.seqposMod)
    (hlast : g σ = (g (σ - 1) + 1) % K.seqposMod)
    (hfinal : g σ = EISLength seqIdx) :
    fillCount K seqIdx σ f counts = .ok ((List.range (σ + 1)).map g) := by
  -- count[0] = 0
  have hw0 : writeAt counts 0 0 = .ok (counts.set 0 0) := writeAt_of_lt _ _ _ (by omega)
  -- first loop
  obtain ⟨c1, hc1, hl1, hi1⟩ := countLoopBelow_spec K seqIdx (EISLength seqIdx) g f 0
    (counts.set 0 0) (by rw [List.length_set]; omega)
    (by
      intro j hj
      have : j = 0 := by omega
      subst this
      rw [List.getElem?_set_self (by omega), g0])
    (by intro j _ hj; exact hbelow j (by omega))
  rw [List.length_set] at hl1
  simp only [zero_add] at hi1
  -- the slot of the fallback code
  have hwf : f + 1 < c1.length := by omega
  let c2 := c1.set (f + 1)
    ((g f + EISSymTransformedRank seqIdx f (EISLength seqIdx) + (K.seqposMod - 1))
      % K.seqposMod)
  have hi2 : ∀ j, j ≤ f + 1 → c2[j]? = some (g j) := by
    intro j hj
    rcases Nat.lt_or_eq_of_le hj with hlt | heq
    · rw [List.getElem?_set_ne (by omega)]
      exact hi1 j (by omega)
    · subst heq
      rw [List.getElem?_set_self hwf, hf]
  have hl2 : c2.length = σ + 1 := by rw [List.length_set]; omega
  -- second loop
  obtain ⟨c3, hc3, hl3, hi3⟩ := countLoopAbove_spec K seqIdx (EISLength seqIdx) g
    (σ - (f + 2)) (f + 1) c2 (by omega) hi2
    (by intro j hj1 hj2; exact habove j (by omega) (by omega))
  have hσ' : f + 1 + (σ - (f + 2)) = σ - 1 := by omega
  rw [hσ'] at hi3
  -- the slot of the terminator
  have hi : (if f + 2 < σ then σ else f + 2) = σ := by
    split <;> omega
  have hwl : σ < c3.length := by omega
  let c4 := c3.set σ ((g (σ - 1) + 1) % K.seqposMod)
  have hi4 : ∀ j, j ≤ σ → c4[j]? = some (g j) := by
    intro j hj
    rcases Nat.lt_or_eq_of_le hj with hlt | heq
    · rw [List.getElem?_set_ne (by omega)]
      exact hi3 j (by omega)
    · subst heq
      rw [List.getElem?_set_self hwl, hlast]
  have hl4 : c4.length = σ + 1 := by rw [List.length_set]; omega
  have hres : c4 = (List.range (σ + 1)).map g := by
    apply List.ext_getElem?
    intro j
    by_cases hj : j ≤ σ
    · rw [hi4 j hj, List.getElem?_map, List.getElem?_range (by omega)]
      rfl
    · rw [List.getElem?_eq_none (by omega), List.getElem?_eq_none (by simp; omega)]
  have hge : assertThat (decide (g (f + 1) ≥ g f)) = .ok () := by
    simp [assertThat, hmono]
  have hfin : assertThat (decide (g σ = EISLength seqIdx)) = .ok () := by
    simp [assertThat, hfinal]
  simp only [fillCount, hw0, hc1, readAt_of_getElem? _ _ _ (hi1 f (le_refl _)),
    writeAt_of_lt _ _ _ hwf, readAt_of_getElem? _ _ _ (hi2 (f + 1) (le_refl _)),
    readAt_of_getElem? _ _ _ (hi2 f (by omega)), hc3, hi,
    readAt_of_getElem? _ _ _ (hi3 (σ - 1) (le_refl _)), writeAt_of_lt _ _ _ hwl,
    readAt_of_getElem? _ _ _ (hi4 σ (le_refl _)), hge, hfin, bind, Except.bind]
  rw [← hres]
  rfl

/-! ## The `count` table of a stored sequence -/

theorem countP_lt_succ (l : List Nat) (j : Nat) :
    l.countP (fun a => decide (a < j + 1))
      = l.countP (fun a => decide (a < j)) + l.count j := by
  induction l with
  | nil => simp
  | cons a t ih =>
    simp only [List.countP_cons, List.count_cons, ih]
    by_cases h1 : a < j <;> by_cases h2 : a = j <;> by_cases h3 : a < j + 1 <;>
      simp [h1, h2, h3] <;> omega

theorem rank_full (syms : List Nat) (a b c : Nat) :
    EISSymTransformedRank (encIdxSeqOfSymbols syms a b) c
      (EISLength (encIdxSeqOfSymbols syms a b)) = syms.count c := by
  simp [EISSymTransformedRank, EISLength, encIdxSeqOfSymbols]

theorem count_erase_fallback (syms : List Nat) (f j : Nat) (hf : f ∈ syms) :
    syms.count j = (syms.erase f).count j + (if j = f then 1 else 0) := by
  have h := (List.perm_cons_erase hf).count_eq j
  rw [h, List.count_cons]
  by_cases hj : j = f
  · subst hj; simp
  · have : ¬ f = j := fun e => hj e.symm
    simp [hj, this]

theorem countBelow_of_le (σ f : Nat) (syms : List Nat) (i : Nat) (hi : i ≤ σ - 1) :
    countBelow σ f syms i = (syms.erase f).countP (fun a => decide (a < i)) := by
  simp only [countBelow, trueCodes, List.countP_append, List.countP_cons, List.countP_nil]
  have : ¬ σ - 1 < i := by omega
  simp [this]

theorem countP_lt_eq_length (l : List Nat) (b : Nat) (h : ∀ x ∈ l, x < b) :
    l.countP (fun a => decide (a < b)) = l.length := by
  rw [List.countP_eq_length]
  intro x hx
  simpa using h x hx

theorem countBelow_le_length (σ f : Nat) (syms : List Nat) (i : Nat) (hf : f ∈ syms) :
    countBelow σ f syms i ≤ syms.length := by
  unfold countBelow trueCodes
  refine (List.countP_le_length _).trans ?_
  rw [List.length_append, List.length_erase_of_mem hf]
  have := List.length_pos_of_mem hf
  simp only [List.length_singleton]
  omega

theorem countBelow_succ (σ f : Nat) (syms : List Nat) (j : Nat) (hj : j + 1 ≤ σ - 1) :
    countBelow σ f syms (j + 1) = countBelow σ f syms j + (syms.erase f).count j := by
  rw [countBelow_of_le σ f syms (j + 1) hj, countBelow_of_le σ f syms j (by omega),
    countP_lt_succ]

theorem countBelow_last (σ f : Nat) (syms : List Nat) (hσ : 2 ≤ σ) (hf : f ∈ syms)
    (hL : ∀ x ∈ syms, x < σ - 1) :
    countBelow σ f syms (σ - 1) + 1 = syms.length ∧ countBelow σ f syms σ = syms.length := by
  have hE : ∀ x ∈ syms.erase f, x < σ - 1 := fun x hx => hL x (List.mem_of_mem_erase hx)
  have hE' : ∀ x ∈ syms.erase f, x < σ := fun x hx => by have := hE x hx; omega
  have hlen := List.length_erase_of_mem hf
  have hpos := List.length_pos_of_mem hf
  constructor
  · rw [countBelow_of_le σ f syms (σ - 1) (le_refl _), countP_lt_eq_length _ _ hE]
    omega
  · simp only [countBelow, trueCodes, List.countP_append, List.countP_cons, List.countP_nil,
      countP_lt_eq_length _ _ hE']
    have : σ - 1 < σ := by omega
    simp [this]
    omega

/-- The table `fillCount` writes for a rank index holding the codes `syms`:
entry `i` is the number of positions whose true code is below `i`. -/
theorem fillCount_stored (K : Config) (syms : List Nat) (σ f a b : Nat) (counts : List Nat)
    (hL : ∀ x ∈ syms, x < σ - 1) (hf : f ∈ syms) (hM : syms.length < K.seqposMod)
    (hlen : counts.length = σ + 1) :
    fillCount K (encIdxSeqOfSymbols syms a b) σ f counts
      = .ok ((List.range (σ + 1)).map (countBelow σ f syms)) := by
  have hfσ : f < σ - 1 := hL f hf
  have hbound : ∀ i, countBelow σ f syms i ≤ syms.length :=
    fun i => countBelow_le_length σ f syms i hf
  obtain ⟨hl1, hl2⟩ := countBelow_last σ f syms (by omega) hf hL
  have hMpos : 0 < K.seqposMod := by omega
  apply fillCount_eq K _ σ f counts (countBelow σ f syms) (by omega) hlen
  · simp [countBelow]
  · intro j hj
    rw [rank_full, count_erase_fallback syms f j hf, if_neg (by omega), add_zero,
      ← countBelow_succ σ f syms j (by omega), Nat.mod_eq_of_lt]
    exact lt_of_le_of_lt (hbound _) hM
  · rw [rank_full, count_erase_fallback syms f f hf, if_pos rfl]
    have h1 : countBelow σ f syms f + ((syms.erase f).count f + 1) + (K.seqposMod - 1)
        = countBelow σ f syms (f + 1) + K.seqposMod := by
      rw [countBelow_succ σ f syms f (by omega)]
      omega
    rw [h1, Nat.add_mod_right, Nat.mod_eq_of_lt]
    exact lt_of_le_of_lt (hbound _) hM
  · rw [countBelow_succ σ f syms f (by omega)]
    omega
  · intro j hj1 hj2
    rw [rank_full, count_erase_fallback syms f j hf, if_neg (by omega), add_zero,
      ← countBelow_succ σ f syms j (by omega), Nat.mod_eq_of_lt]
    exact lt_of_le_of_lt (hbound _) hM
  · rw [hl2, hl1, Nat.mod_eq_of_lt hM]
  · rw [hl2]
    rfl

/-! ## Backward search as a fold over the query -/

theorem readAt_getD (a : List Nat) (i : Nat) (h : i < a.length) :
    readAt a i = .ok (a.getD i 0) := by
  apply readAt_of_getElem?
  rw [List.getD_eq_getElem?_getD, List.getElem?_eq_getElem h]
  rfl

theorem narrowStep_le (bwtSeq : BWTSeq) (m : matchBound) (q : Nat)
    (hr : ∀ c p q, p ≤ q →
      EISSymTransformedRank bwtSeq.seqIdx c p ≤ EISSymTransformedRank bwtSeq.seqIdx c q)
    (hm : m.start ≤ m.end_) :
    (narrowStep bwtSeq m q).start ≤ (narrowStep bwtSeq m q).end_ := by
  simp only [narrowStep]
  exact Nat.add_le_add_left (hr _ _ _ hm) _

theorem foldl_narrowStep_le (bwtSeq : BWTSeq)
    (hr : ∀ c p q, p ≤ q →
      EISSymTransformedRank bwtSeq.seqIdx c p ≤ EISSymTransformedRank bwtSeq.seqIdx c q) :
    ∀ (l : List Nat) (m : matchBound), m.start ≤ m.end_ →
      (l.foldl (narrowStep bwtSeq) m).start ≤ (l.foldl (narrowStep bwtSeq) m).end_ := by
  intro l
  induction l with
  | nil => intro m hm; exact hm
  | cons a t ih =>
    intro m hm
    rw [List.foldl_cons]
    exact ih _ (narrowStep_le bwtSeq m a hr hm)

/-- The loop of `getMatchBound` applies every remaining character when the
standing assumptions hold. -/
theorem getMatchBoundLoop_eq (K : Config) (bwtSeq : BWTSeq) (query : List Nat)
    (h : SearchReady K bwtSeq query) :
    ∀ (i : Nat) (m : matchBound), i ≤ query.length → m.start ≤ m.end_ →
      getMatchBoundLoop K bwtSeq query i m
        = .ok ((query.take i).reverse.foldl (narrowStep bwtSeq) m) := by
  intro i
  induction i with
  | zero => intro m _ _; simp [getMatchBoundLoop]
  | succ i ih =>
    intro m hi hm
    have hi' : i < query.length := by omega
    have hq : query[i]? = some query[i] := List.getElem?_eq_getElem hi'
    have hmem : query[i] ∈ query := List.getElem_mem hi'
    have hc := h.in_alphabet _ hmem
    have hread : readAt bwtSeq.count (MRAEncMapSymbol bwtSeq.alphabet query[i])
        = .ok (bwtSeq.count.getD (MRAEncMapSymbol bwtSeq.alphabet query[i]) 0) :=
      readAt_getD _ _ (by rw [h.length_count]; omega)
    have hstep : matchBound.mk
        ((bwtSeq.count.getD (MRAEncMapSymbol bwtSeq.alphabet query[i]) 0
          + EISSymTransformedRank bwtSeq.seqIdx (MRAEncMapSymbol bwtSeq.alphabet query[i])
              m.start) % K.seqposMod)
        ((bwtSeq.count.getD (MRAEncMapSymbol bwtSeq.alphabet query[i]) 0
          + EISSymTransformedRank bwtSeq.seqIdx (MRAEncMapSymbol bwtSeq.alphabet query[i])
              m.end_) % K.seqposMod) = narrowStep bwtSeq m query[i] := by
      simp only [narrowStep]
      rw [Nat.mod_eq_of_lt (h.no_wrap _ hmem _), Nat.mod_eq_of_lt (h.no_wrap _ hmem _)]
    rw [List.take_succ, hq]
    simp only [getMatchBoundLoop, if_pos hm, readQuery, hq, hread, bind, Except.bind,
      BWTSeqTransformedPosPairOcc, hstep, Option.toList, List.reverse_append,
      List.reverse_cons, List.reverse_nil, List.nil_append, List.singleton_append,
      List.foldl_cons]
    exact ih _ (by omega) (narrowStep_le bwtSeq m _ h.rank_mono hm)

/-- Under the standing assumptions `getMatchBound` returns the interval of
the specification. -/
theorem getMatchBound_eq (K : Config) (bwtSeq : BWTSeq) (query : List Nat)
    (hne : query ≠ []) (h : SearchReady K bwtSeq query) :
    getMatchBound K bwtSeq query query.length = .ok (narrowedBound bwtSeq query) := by
  obtain ⟨i, hi⟩ : ∃ i, query.length = i + 1 :=
    ⟨query.length - 1, by have := List.length_pos.mpr hne; omega⟩
  have hi' : i < query.length := by omega
  have hq : query[i]? = some query[i] := List.getElem?_eq_getElem hi'
  have hmem : query[i] ∈ query := List.getElem_mem hi'
  have hc := h.in_alphabet _ hmem
  have hrev : query.reverse = query[i] :: (query.take i).reverse := by
    have h1 : query = query.take i ++ [query[i]] := by
      have h2 := List.take_succ (l := query) (n := i)
      rw [hq, ← hi, List.take_length] at h2
      simpa using h2
    conv_lhs => rw [h1]
    simp
  have hs : readAt bwtSeq.count (MRAEncMapSymbol bwtSeq.alphabet query[i])
      = .ok (bwtSeq.count.getD (MRAEncMapSymbol bwtSeq.alphabet query[i]) 0) :=
    readAt_getD _ _ (by rw [h.length_count]; omega)
  have he : readAt bwtSeq.count (MRAEncMapSymbol bwtSeq.alphabet query[i] + 1)
      = .ok (bwtSeq.count.getD (MRAEncMapSymbol bwtSeq.alphabet query[i] + 1) 0) :=
    readAt_getD _ _ (by rw [h.length_count]; omega)
  rw [hi]
  simp only [getMatchBound, readQuery, hq, hs, he, bind, Except.bind, narrowedBound, hrev]
  exact getMatchBoundLoop_eq K bwtSeq query h i _ (by omega) (h.count_mono _ hc)

theorem narrowedBound_le (K : Config) (bwtSeq : BWTSeq) (query : List Nat)
    (h : SearchReady K bwtSeq query) :
    (narrowedBound bwtSeq query).start ≤ (narrowedBound bwtSeq query).end_ := by
  unfold narrowedBound
  cases hrev : query.reverse with
  | nil => simp
  | cons last before =>
    simp only
    apply foldl_narrowStep_le bwtSeq h.rank_mono
    apply h.count_mono
    apply h.in_alphabet
    have : last ∈ query.reverse := by rw [hrev]; simp
    simpa using this

/-! ## The object `newBWTSeq` returns for a stored sequence -/

theorem rank_take_mono (syms : List Nat) (c p q : Nat) (h : p ≤ q) :
    (syms.take p).count c ≤ (syms.take q).count c :=
  (List.take_sublist_take_left syms h).count_le c

theorem rank_take_le (syms : List Nat) (c p : Nat) : (syms.take p).count c ≤ syms.count c :=
  (List.take_sublist p syms).count_le c

theorem countBelow_mono (σ f : Nat) (syms : List Nat) (i j : Nat) (h : i ≤ j) :
    countBelow σ f syms i ≤ countBelow σ f syms j := by
  unfold countBelow
  apply List.countP_mono_left
  intro x _ hx
  simp only [decide_eq_true_eq] at hx ⊢
  omega

theorem countBelow_add_count_le (σ f : Nat) (syms : List Nat) (c : Nat) (hf : f ∈ syms)
    (hL : ∀ x ∈ syms, x < σ - 1) :
    countBelow σ f syms c + syms.count c ≤ syms.length := by
  have hfσ : f < σ - 1 := hL f hf
  obtain ⟨hl1, hl2⟩ := countBelow_last σ f syms (by omega) hf hL
  by_cases hc : c + 1 ≤ σ - 1
  · have h1 := countBelow_succ σ f syms c hc
    have h2 := countBelow_mono σ f syms (c + 1) (σ - 1) hc
    have h3 := count_erase_fallback syms f c hf
    split at h3 <;> omega
  · have h0 : syms.count c = 0 := by
      rw [List.count_eq_zero]
      intro hmem
      have := hL c hmem
      omega
    have := countBelow_le_length σ f syms c hf
    omega

theorem getD_map_range (g : Nat → Nat) (n i : Nat) (h : i < n) :
    ((List.range n).map g).getD i 0 = g i := by
  rw [List.getD_eq_getElem?_getD, List.getElem?_map, List.getElem?_range h]
  rfl

/-- The standing assumptions hold for every object built by `newBWTSeq` and
every query whose codes lie in the alphabet. -/
theorem searchReady_built (K : Config) (alphabet : MRAEnc) (syms : List Nat) (a b : Nat)
    (drs : List Nat) (query : List Nat)
    (hL : ∀ x ∈ syms, x < MRAEncGetSize alphabet) (hf : fallbackCode K alphabet ∈ syms)
    (hM : syms.length < K.seqposMod)
    (hq : ∀ q ∈ query,
      MRAEncMapSymbol (terminatedAlphabet K alphabet) q < MRAEncGetSize alphabet + 1) :
    SearchReady K (builtBWTSeq K alphabet syms a b drs) query where
  length_count := by simp [builtBWTSeq]
  count_mono := by
    intro i hi
    simp only [builtBWTSeq] at hi ⊢
    rw [getD_map_range _ _ _ (by omega), getD_map_range _ _ _ (by omega)]
    exact countBelow_mono _ _ _ _ _ (by omega)
  rank_mono := by
    intro c p q hpq
    simp only [builtBWTSeq, EISSymTransformedRank, encIdxSeqOfSymbols]
    exact rank_take_mono syms c p q hpq
  in_alphabet := by
    intro q hmem
    simpa [builtBWTSeq] using hq q hmem
  no_wrap := by
    intro q hmem p
    have hc := hq q hmem
    simp only [builtBWTSeq, EISSymTransformedRank, encIdxSeqOfSymbols]
    rw [getD_map_range _ _ _ (by omega)]
    have h1 := countBelow_add_count_le (MRAEncGetSize alphabet + 1) (fallbackCode K alphabet)
      syms (MRAEncMapSymbol (terminatedAlphabet K alphabet) q) hf (by simpa using hL)
    have h2 := rank_take_le syms (MRAEncMapSymbol (terminatedAlphabet K alphabet) q) p
    omega

/-! ## The stored BWT of a text -/

theorem prevSuffixPairs_map_fst (T : List Nat) (t : Nat) :
    ∀ p, (prevSuffixPairs p (T ++ [t])).map Prod.fst = p :: T := by
  induction T with
  | nil => intro p; simp [prevSuffixPairs]
  | cons a T ih => intro p; simp [prevSuffixPairs, ih a]

theorem bwtStored_perm (σ f : Nat) (T : List Nat) : (bwtStored σ f T).Perm (f :: T) := by
  unfold bwtStored
  have h1 := (suffixArray_perm (withTerminator σ T)).map (bwtSymbol f (withTerminator σ T))
  refine h1.trans ?_
  have h2 := congrArg (List.map Prod.fst) (range_map_prevSuffixPairs (withTerminator σ T) f)
  rw [List.map_map] at h2
  have h3 : (Prod.fst ∘ fun j => (bwtSymbol f (withTerminator σ T) j,
      (withTerminator σ T).drop j)) = bwtSymbol f (withTerminator σ T) := rfl
  rw [h3] at h2
  rw [h2]
  unfold withTerminator
  rw [prevSuffixPairs_map_fst]

theorem bwtStored_length (σ f : Nat) (T : List Nat) : (bwtStored σ f T).length = T.length + 1 := by
  rw [(bwtStored_perm σ f T).length_eq]
  rfl

theorem countBelow_bwtStored (σ f : Nat) (T : List Nat) (c : Nat) :
    countBelow σ f (bwtStored σ f T) c
      = (withTerminator σ T).countP (fun a => decide (a < c)) := by
  unfold countBelow trueCodes withTerminator
  have h : ((bwtStored σ f T).erase f).Perm T := by
    have := (bwtStored_perm σ f T).erase f
    simpa using this
  rw [List.countP_append, List.countP_append, h.countP_eq]

theorem count_bwtStored (σ f : Nat) (T : List Nat) (c : Nat) (hcf : c ≠ f) (hcσ : c ≠ σ - 1) :
    (bwtStored σ f T).count c = (withTerminator σ T).count c := by
  rw [(bwtStored_perm σ f T).count_eq]
  unfold withTerminator
  rw [List.count_cons, List.count_append]
  have h1 : ¬ f = c := fun e => hcf e.symm
  have h2 : ¬ σ - 1 = c := fun e => hcσ e.symm
  simp [h1, h2, List.count_singleton]

/-! ## Occurrences of a pattern -/

theorem startsWith_iff (P x : List Nat) : startsWith P x = true ↔ P <+: x := by
  induction P generalizing x with
  | nil => simp [startsWith]
  | cons c P ih =>
    cases x with
    | nil => simp [startsWith]
    | cons a y =>
      simp only [startsWith, Bool.and_eq_true, beq_iff_eq, ih, List.cons_prefix_cons]
      constructor
      · rintro ⟨h1, h2⟩; exact ⟨h1.symm, h2⟩
      · rintro ⟨h1, h2⟩; exact ⟨h1.symm, h2⟩

theorem dom_true_split (P x : List Nat) (hP : P ≠ []) :
    dom true P x = (dom false P x || startsWith P x)
      ∧ (dom false P x = true → startsWith P x = false) := by
  induction P generalizing x with
  | nil => exact absurd rfl hP
  | cons c P ih =>
    cases x with
    | nil => simp [dom, startsWith]
    | cons a y =>
      by_cases hPn : P = []
      · subst hPn
        simp only [dom, startsWith, Bool.and_true, Bool.and_false, Bool.or_false]
        constructor
        · trivial
        · intro h
          simp only [decide_eq_true_eq] at h
          simp only [beq_eq_false_iff_ne, ne_eq]
          omega
      · obtain ⟨h1, h2⟩ := ih y hPn
        simp only [dom, startsWith, h1]
        constructor
        · by_cases hac : a < c <;> by_cases hac' : a = c <;>
            simp [hac, hac', Bool.and_or_distrib_left]
        · intro h
          simp only [Bool.or_eq_true, decide_eq_true_eq, Bool.and_eq_true, beq_iff_eq] at h
          rcases h with h | ⟨h, hd⟩
          · have : ¬ a = c := by omega
            simp [this]
          · simp [h2 hd]

theorem prevSuffixPairs_countP_snd (q : List Nat → Bool) (S : List Nat) :
    ∀ p p', (prevSuffixPairs p S).countP (fun pr => q pr.2)
      = (prevSuffixPairs p' S).countP (fun pr => q pr.2) := by
  induction S with
  | nil => intro p p'; rfl
  | cons a y _ => intro p p'; simp [prevSuffixPairs, List.countP_cons]

theorem domCount_true_eq (P S : List Nat) (p : Nat) (hP : P ≠ []) :
    domCount true P S p = domCount false P S p + occurrenceCount P S := by
  unfold domCount occurrenceCount
  rw [prevSuffixPairs_countP_snd (startsWith P) S 0 p]
  induction (prevSuffixPairs p S) with
  | nil => rfl
  | cons pr l ih =>
    obtain ⟨h1, h2⟩ := dom_true_split P pr.2 hP
    simp only [List.countP_cons, ih, h1]
    cases hd : dom false P pr.2
    · cases hs : startsWith P pr.2
      · simp
      · simp; omega
    · simp [h2 hd]
      omega

theorem mem_prevSuffixPairs_snd (S x : List Nat) :
    ∀ p, (∃ pr ∈ prevSuffixPairs p S, pr.2 = x) ↔ (x ≠ [] ∧ x <:+ S) := by
  induction S with
  | nil =>
    intro p
    simp only [prevSuffixPairs, List.not_mem_nil, false_and, exists_false, List.suffix_nil,
      false_iff, not_and]
    intro h1 h2
    exact h1 h2
  | cons a y ih =>
    intro p
    simp only [prevSuffixPairs, List.mem_cons, List.suffix_cons_iff]
    constructor
    · rintro ⟨pr, hpr | hpr, rfl⟩
      · subst hpr
        exact ⟨by simp, Or.inl rfl⟩
      · obtain ⟨h1, h2⟩ := (ih a).mp ⟨pr, hpr, rfl⟩
        exact ⟨h1, Or.inr h2⟩
    · rintro ⟨h1, h2 | h2⟩
      · exact ⟨(p, a :: y), Or.inl rfl, h2.symm⟩
      · obtain ⟨pr, hpr, hx⟩ := (ih a).mpr ⟨h1, h2⟩
        exact ⟨pr, Or.inr hpr, hx⟩

theorem occurrenceCount_pos_iff (P S : List Nat) (hP : P ≠ []) :
    0 < occurrenceCount P S ↔ P <:+: S := by
  unfold occurrenceCount
  rw [List.countP_pos_iff, List.infix_iff_prefix_suffix]
  constructor
  · rintro ⟨pr, hpr, hs⟩
    refine ⟨pr.2, (startsWith_iff _ _).mp hs, ?_⟩
    exact ((mem_prevSuffixPairs_snd S pr.2 0).mp ⟨pr, hpr, rfl⟩).2
  · rintro ⟨t, h1, h2⟩
    have hne : t ≠ [] := by
      rintro rfl
      exact hP (List.prefix_nil.mp h1)
    obtain ⟨pr, hpr, hx⟩ := (mem_prevSuffixPairs_snd S t 0).mpr ⟨hne, h2⟩
    exact ⟨pr, hpr, by rw [hx]; exact (startsWith_iff _ _).mpr h1⟩

theorem infix_append_terminator (P T : List Nat) (t : Nat) (hP : P ≠ []) (ht : t ∉ P) :
    P <:+: T ++ [t] ↔ P <:+: T := by
  constructor
  · rintro ⟨u, v, h⟩
    rcases List.eq_nil_or_concat v with rfl | ⟨v', b, rfl⟩
    · rcases List.eq_nil_or_concat P with rfl | ⟨P', q, rfl⟩
      · exact absurd rfl hP
      · rw [List.append_nil, List.concat_eq_append, ← List.append_assoc] at h
        have := List.append_inj_right' h rfl
        simp only [List.cons.injEq, and_true] at this
        subst this
        exact absurd (by simp) ht
    · rw [List.concat_eq_append, ← List.append_assoc] at h
      have := List.append_inj_left' h rfl
      exact ⟨u, v', this⟩
  · intro h
    exact h.trans (List.infix_append' [] T [t])

/-! ## Backward search on the index of a text -/

theorem builtBWTSeq_alphabet (K : Config) (alphabet : MRAEnc) (syms : List Nat) (a b : Nat)
    (drs : List Nat) :
    (builtBWTSeq K alphabet syms a b drs).alphabet = terminatedAlphabet K alphabet := rfl

theorem builtBWTSeq_rank (K : Config) (alphabet : MRAEnc) (syms : List Nat) (a b : Nat)
    (drs : List Nat) (c p : Nat) :
    EISSymTransformedRank (builtBWTSeq K alphabet syms a b drs).seqIdx c p
      = (syms.take p).count c := rfl

theorem narrowedBound_cons (bwtSeq : BWTSeq) (q : Nat) (rest : List Nat) (h : rest ≠ []) :
    narrowedBound bwtSeq (q :: rest) = narrowStep bwtSeq (narrowedBound bwtSeq rest) q := by
  unfold narrowedBound
  cases hrev : rest.reverse with
  | nil => exact absurd (List.reverse_eq_nil_iff.mp hrev) h
  | cons last before =>
    simp [List.reverse_cons, hrev, List.foldl_append]

/-- The interval of the specification on the index of the text `T`: its
lower end is the number of suffixes less than the pattern, its upper end the
number of suffixes less than the pattern or starting with it. -/
theorem narrowedBound_text (K : Config) (alphabet : MRAEnc) (T : List Nat) (a b : Nat)
    (drs : List Nat) (query : List Nat) (hne : query ≠ [])
    (hq : ∀ q ∈ query,
      MRAEncMapSymbol (terminatedAlphabet K alphabet) q < MRAEncGetSize alphabet ∧
      MRAEncMapSymbol (terminatedAlphabet K alphabet) q ≠ fallbackCode K alphabet) :
    narrowedBound (builtBWTSeq K alphabet
        (bwtStored (MRAEncGetSize alphabet + 1) (fallbackCode K alphabet) T) a b drs) query
      = { start := domCount false (query.map (MRAEncMapSymbol (terminatedAlphabet K alphabet)))
            (withTerminator (MRAEncGetSize alphabet + 1) T) (fallbackCode K alphabet)
          end_ := domCount true (query.map (MRAEncMapSymbol (terminatedAlphabet K alphabet)))
            (withTerminator (MRAEncGetSize alphabet + 1) T) (fallbackCode K alphabet) } := by
  induction query with
  | nil => exact absurd rfl hne
  | cons q rest ih =>
    obtain ⟨hc1, hc2⟩ := hq q (List.mem_cons_self _ _)
    have hstep : ∀ β P, domCount β (MRAEncMapSymbol (terminatedAlphabet K alphabet) q :: P)
          (withTerminator (MRAEncGetSize alphabet + 1) T) (fallbackCode K alphabet)
        = (withTerminator (MRAEncGetSize alphabet + 1) T).countP
            (fun x => decide (x < MRAEncMapSymbol (terminatedAlphabet K alphabet) q))
          + ((bwtStored (MRAEncGetSize alphabet + 1) (fallbackCode K alphabet) T).take
              (domCount β P (withTerminator (MRAEncGetSize alphabet + 1) T)
                (fallbackCode K alphabet))).count
              (MRAEncMapSymbol (terminatedAlphabet K alphabet) q) := by
      intro β P
      unfold bwtStored withTerminator
      exact domCount_cons β _ P T _ _ (by simp only [Nat.add_sub_cancel]; omega)
        (fun e => hc2 e.symm)
    have hcount : (builtBWTSeq K alphabet
          (bwtStored (MRAEncGetSize alphabet + 1) (fallbackCode K alphabet) T) a b drs).count.getD
          (MRAEncMapSymbol (terminatedAlphabet K alphabet) q) 0
        = (withTerminator (MRAEncGetSize alphabet + 1) T).countP
            (fun x => decide (x < MRAEncMapSymbol (terminatedAlphabet K alphabet) q)) := by
      simp only [builtBWTSeq]
      rw [getD_map_range _ _ _ (by omega), countBelow_bwtStored]
    by_cases hrest : rest = []
    · subst hrest
      have hcount1 : (builtBWTSeq K alphabet
            (bwtStored (MRAEncGetSize alphabet + 1) (fallbackCode K alphabet) T) a b
              drs).count.getD
            (MRAEncMapSymbol (terminatedAlphabet K alphabet) q + 1) 0
          = (withTerminator (MRAEncGetSize alphabet + 1) T).countP
              (fun x => decide (x < MRAEncMapSymbol (terminatedAlphabet K alphabet) q + 1)) := by
        simp only [builtBWTSeq]
        rw [getD_map_range _ _ _ (by omega), countBelow_bwtStored]
      have hlen : (withTerminator (MRAEncGetSize alphabet + 1) T).length
          = (bwtStored (MRAEncGetSize alphabet + 1) (fallbackCode K alphabet) T).length := by
        rw [bwtStored_length]; simp [withTerminator]
      simp only [narrowedBound, List.reverse_cons, List.reverse_nil, List.nil_append,
        List.foldl_nil, List.map_cons, List.map_nil, hstep, domCount_nil, builtBWTSeq_alphabet,
        hcount, hcount1,
        countP_lt_succ, hlen, List.take_length, List.take_zero, List.count_nil, Nat.add_zero,
        if_true, Bool.false_eq_true, if_false]
      rw [count_bwtStored _ _ _ _ hc2 (by simp only [Nat.add_sub_cancel]; omega)]
    · rw [narrowedBound_cons _ _ _ hrest,
        ih hrest (fun x hx => hq x (List.mem_cons_of_mem _ hx))]
      simp only [narrowStep, List.map_cons, hstep, builtBWTSeq_alphabet, builtBWTSeq_rank,
        hcount]

/-- On the index of the text `T`, `BWTSeqMatchCount` returns the number of
positions at which the coded query starts in the text plus terminator. -/
theorem matchCount_text (K : Config) (alphabet : MRAEnc) (T : List Nat) (a b : Nat)
    (drs : List Nat) (query : List Nat) (hne : query ≠ [])
    (hT : ∀ x ∈ T, x < MRAEncGetSize alphabet)
    (hf : fallbackCode K alphabet < MRAEncGetSize alphabet)
    (hM : T.length + 1 < K.seqposMod)
    (hq : ∀ q ∈ query,
      MRAEncMapSymbol (terminatedAlphabet K alphabet) q < MRAEncGetSize alphabet ∧
      MRAEncMapSymbol (terminatedAlphabet K alphabet) q ≠ fallbackCode K alphabet) :
    BWTSeqMatchCount K (builtBWTSeq K alphabet
        (bwtStored (MRAEncGetSize alphabet + 1) (fallbackCode K alphabet) T) a b drs)
        query query.length
      = .ok (occurrenceCount (query.map (MRAEncMapSymbol (terminatedAlphabet K alphabet)))
          (withTerminator (MRAEncGetSize alphabet + 1) T)) := by
  have hperm := bwtStored_perm (MRAEncGetSize alphabet + 1) (fallbackCode K alphabet) T
  have hL : ∀ x ∈ bwtStored (MRAEncGetSize alphabet + 1) (fallbackCode K alphabet) T,
      x < MRAEncGetSize alphabet := by
    intro x hx
    rcases List.mem_cons.mp (hperm.mem_iff.mp hx) with h | h
    · rw [h]; exact hf
    · exact hT x h
  have hfm : fallbackCode K alphabet
      ∈ bwtStored (MRAEncGetSize alphabet + 1) (fallbackCode K alphabet) T :=
    hperm.mem_iff.mpr (List.mem_cons_self _ _)
  have hready := searchReady_built K alphabet
    (bwtStored (MRAEncGetSize alphabet + 1) (fallbackCode K alphabet) T) a b drs query hL hfm
    (by rw [bwtStored_length]; exact hM)
    (fun q hmem => by have := (hq q hmem).1; omega)
  have hbound := getMatchBound_eq K _ query hne hready
  have hle := narrowedBound_le K _ query hready
  have hmapne : query.map (MRAEncMapSymbol (terminatedAlphabet K alphabet)) ≠ [] := by
    simpa using hne
  rw [narrowedBound_text K alphabet T a b drs query hne hq] at hbound hle
  simp only at hle
  simp only [BWTSeqMatchCount, hbound, bind, Except.bind, pure, Except.pure,
    if_neg (Nat.not_lt.mpr hle)]
  rw [domCount_true_eq _ _ _ hmapne, Nat.add_sub_cancel_left]

/-! ## The alphabet with the terminator -/

theorem bumpRange_sum (l : List Nat) : ∀ r, r < l.length → (bumpRange l r).sum = l.sum + 1 := by
  induction l with
  | nil => intro r h; simp at h
  | cons k t ih =>
    intro r h
    cases r with
    | zero => simp [bumpRange]; omega
    | succ r =>
      simp only [bumpRange, List.sum_cons, ih r (by simpa using h)]
      omega

/-- The assertion `MRAEncGetSize(alphabet) == alphabetSize + 1` holds for
every alphabet that has a range 1. -/
theorem terminatedAlphabet_size (K : Config) (alphabet : MRAEnc)
    (h : 1 < MRAEncGetNumRanges alphabet) :
    MRAEncGetSize (terminatedAlphabet K alphabet) = MRAEncGetSize alphabet + 1 := by
  unfold MRAEncGetNumRanges at h
  simp only [terminatedAlphabet, MRAEncAddSymbolToRange, if_pos h, MRAEncGetSize]
  exact bumpRange_sum _ 1 h

/-- The result of `initBWTSeqFromEncSeqIdx` over a rank index holding `syms`. -/
theorem init_stored (K : Config) (alphabet : MRAEnc) (syms : List Nat) (a b : Nat)
    (counts drs : List Nat) (hr : 1 < MRAEncGetNumRanges alphabet)
    (hL : ∀ x ∈ syms, x < MRAEncGetSize alphabet) (hf : fallbackCode K alphabet ∈ syms)
    (hM : syms.length < K.seqposMod) (hlen : counts.length = MRAEncGetSize alphabet + 1 + 1) :
    initBWTSeqFromEncSeqIdx K (encIdxSeqOfSymbols syms a b) alphabet counts drs
      = .ok (some (builtBWTSeq K alphabet syms a b drs), terminatedAlphabet K alphabet) := by
  have h0 : MRAEncGetSize alphabet ≠ 0 := by
    have := hL _ hf
    omega
  have hadd := terminatedAlphabet_size K alphabet hr
  have hfill := fillCount_stored K syms (MRAEncGetSize alphabet + 1) (fallbackCode K alphabet)
    a b counts (by simpa using hL) hf hM hlen
  have hassert : assertThat (decide (MRAEncGetSize (MRAEncAddSymbolToRange alphabet
      K.bwtTerminatorSym 1) = MRAEncGetSize alphabet + 1)) = .ok () := by
    have := hadd
    unfold terminatedAlphabet at this
    simp [assertThat, this]
  have hadd' : MRAEncGetSize (MRAEncAddSymbolToRange alphabet K.bwtTerminatorSym 1)
      = MRAEncGetSize alphabet + 1 := hadd
  unfold fallbackCode terminatedAlphabet at hfill
  simp only [initBWTSeqFromEncSeqIdx, if_neg h0, hassert, hadd', hfill, bind,
    Except.bind, pure, Except.pure]
  rfl

/-- The result of `newBWTSeq` over a rank index holding `syms`. -/
theorem newBWTSeq_built (K : Config) (alphabet : MRAEnc) (syms : List Nat) (a b : Nat)
    (drs : List Nat) (hr : 1 < MRAEncGetNumRanges alphabet)
    (hL : ∀ x ∈ syms, x < MRAEncGetSize alphabet) (hf : fallbackCode K alphabet ∈ syms)
    (hM : syms.length < K.seqposMod) :
    newBWTSeq K (encIdxSeqOfSymbols syms a b) alphabet drs
      = .ok { bwtSeq := some (builtBWTSeq K alphabet syms a b drs)
              alphabet := terminatedAlphabet K alphabet
              seqIdx := encIdxSeqOfSymbols syms a b } := by
  have h := init_stored K alphabet syms a b
    (List.replicate (MRAEncGetSize alphabet + 1 + 1) 0) drs hr hL hf hM (by simp)
  simp only [newBWTSeq, h, bind, Except.bind, pure, Except.pure]

/-- The result of `newBWTSeq` over the stored BWT of the text `T`. -/
theorem newBWTSeq_text (K : Config) (alphabet : MRAEnc) (T : List Nat) (a b : Nat)
    (drs : List Nat) (hr : 1 < MRAEncGetNumRanges alphabet)
    (hT : ∀ x ∈ T, x < MRAEncGetSize alphabet)
    (hf : fallbackCode K alphabet < MRAEncGetSize alphabet)
    (hM : T.length + 1 < K.seqposMod) :
    newBWTSeq K (encIdxSeqOfSymbols
        (bwtStored (MRAEncGetSize alphabet + 1) (fallbackCode K alphabet) T) a b) alphabet drs
      = .ok { bwtSeq := some (builtBWTSeq K alphabet
                (bwtStored (MRAEncGetSize alphabet + 1) (fallbackCode K alphabet) T) a b drs)
              alphabet := terminatedAlphabet K alphabet
              seqIdx := encIdxSeqOfSymbols
                (bwtStored (MRAEncGetSize alphabet + 1) (fallbackCode K alphabet) T) a b } := by
  have hperm := bwtStored_perm (MRAEncGetSize alphabet + 1) (fallbackCode K alphabet) T
  apply newBWTSeq_built K alphabet _ a b drs hr
  · intro x hx
    rcases List.mem_cons.mp (hperm.mem_iff.mp hx) with h | h
    · rw [h]; exact hf
    · exact hT x h
  · exact hperm.mem_iff.mpr (List.mem_cons_self _ _)
  · rw [bwtStored_length]; exact hM

/-! ## Queries with a symbol that does not occur -/

theorem narrowStep_of_empty (bwtSeq : BWTSeq) (m : matchBound) (q : Nat)
    (hm : m.start = m.end_) :
    (narrowStep bwtSeq m q).start = (narrowStep bwtSeq m q).end_ := by
  simp only [narrowStep, hm]

theorem init_returns_none_iff (K : Config) (seqIdx : encIdxSeq) (alphabet : MRAEnc)
    (counts drs : List Nat) (r : Option BWTSeq) (alphabet1 : MRAEnc)
    (h : initBWTSeqFromEncSeqIdx K seqIdx alphabet counts drs = .ok (r, alphabet1)) :
    r = none ↔ MRAEncGetSize alphabet = 0 := by
  by_cases h0 : MRAEncGetSize alphabet = 0
  · simp only [initBWTSeqFromEncSeqIdx, if_pos h0, pure, Except.pure, Except.ok.injEq,
      Prod.mk.injEq] at h
    simp [h0, h.1.symm]
  · simp only [initBWTSeqFromEncSeqIdx, if_neg h0, bind, Except.bind, pure, Except.pure] at h
    cases hA : assertThat (decide (MRAEncGetSize (MRAEncAddSymbolToRange alphabet
        K.bwtTerminatorSym 1) = MRAEncGetSize alphabet + 1)) with
    | error e => rw [hA] at h; simp at h
    | ok u =>
      rw [hA] at h
      simp only at h
      cases hF : fillCount K seqIdx
          (MRAEncGetSize (MRAEncAddSymbolToRange alphabet K.bwtTerminatorSym 1))
          (MRAEncMapSymbol (MRAEncAddSymbolToRange alphabet K.bwtTerminatorSym 1)
            K.UNDEFBWTCHAR) counts with
      | error e => rw [hF] at h; simp at h
      | ok c =>
        rw [hF] at h
        simp only [Except.ok.injEq, Prod.mk.injEq] at h
        simp [h0, h.1.symm]

/-! ## Width of the match bound -/

theorem rank_take_lipschitz (syms : List Nat) (c p q : Nat) (h : p ≤ q) :
    (syms.take q).count c ≤ (syms.take p).count c + (q - p) := by
  obtain ⟨d, rfl⟩ : ∃ d, q = p + d := ⟨q - p, by omega⟩
  rw [List.take_add, List.count_append]
  have h1 : ((syms.drop p).take d).count c ≤ ((syms.drop p).take d).length :=
    List.count_le_length _ _
  have h2 : ((syms.drop p).take d).length ≤ d := by
    rw [List.length_take]; omega
  omega

/-- One narrowing step on a built index does not widen an ordered bound. -/
theorem narrowStep_width_le (K : Config) (alphabet : MRAEnc) (syms : List Nat) (a b : Nat)
    (drs : List Nat) (m : matchBound) (q : Nat) (hm : m.start ≤ m.end_) :
    (narrowStep (builtBWTSeq K alphabet syms a b drs) m q).end_
        - (narrowStep (builtBWTSeq K alphabet syms a b drs) m q).start
      ≤ m.end_ - m.start := by
  simp only [narrowStep, builtBWTSeq_alphabet, builtBWTSeq_rank]
  have h := rank_take_lipschitz syms (MRAEncMapSymbol (terminatedAlphabet K alphabet) q)
    m.start m.end_ hm
  omega

/-! ## The lookup hint -/

theorem getMatchBoundLoopHint_fst (K : Config) (bwtSeq : BWTSeq) (R : EISHint)
    (query : List Nat)
    (hR : ∀ h c p, (R.lookup h c p).1 = EISSymTransformedRank bwtSeq.seqIdx c p) :
    ∀ (i : Nat) (m : matchBound) (hint : Nat),
      (getMatchBoundLoopHint K bwtSeq R query i m hint).map Prod.fst
        = getMatchBoundLoop K bwtSeq query i m := by
  intro i
  induction i with
  | zero => intro m hint; rfl
  | succ i ih =>
    intro m hint
    by_cases hm : m.start ≤ m.end_
    · simp only [getMatchBoundLoopHint, getMatchBoundLoop, if_pos hm, bind, Except.bind]
      cases hq : readQuery query i with
      | error e => rfl
      | ok q =>
        simp only
        cases hc : readAt bwtSeq.count (MRAEncMapSymbol bwtSeq.alphabet q) with
        | error e => rfl
        | ok c =>
          simp only [BWTSeqTransformedPosPairOccHint, BWTSeqTransformedPosPairOcc, hR]
          exact ih _ _
    · simp only [getMatchBoundLoopHint, getMatchBoundLoop, if_neg hm]
      rfl

theorem getMatchBoundHint_fst (K : Config) (bwtSeq : BWTSeq) (R : EISHint)
    (query : List Nat) (queryLen : Nat)
    (hR : ∀ h c p, (R.lookup h c p).1 = EISSymTransformedRank bwtSeq.seqIdx c p)
    (hint : Nat) :
    (getMatchBoundHint K bwtSeq R query queryLen hint).map Prod.fst
      = getMatchBound K bwtSeq query queryLen := by
  cases queryLen with
  | zero => rfl
  | succ i =>
    simp only [getMatchBoundHint, getMatchBound, bind, Except.bind]
    cases hq : readQuery query i with
    | error e => rfl
    | ok q =>
      simp only
      cases hs : readAt bwtSeq.count (MRAEncMapSymbol bwtSeq.alphabet q) with
      | error e => rfl
      | ok c =>
        simp only
        cases he : readAt bwtSeq.count (MRAEncMapSymbol bwtSeq.alphabet q + 1) with
        | error e => rfl
        | ok e =>
          simp only
          exact getMatchBoundLoopHint_fst K bwtSeq R query hR i _ hint

/-! ## Forward scans on a built index -/

theorem forwardBound_snoc (bwtSeq : BWTSeq) (l : List Nat) (q : Nat) (h : l ≠ []) :
    forwardBound bwtSeq (l ++ [q]) = narrowStep bwtSeq (forwardBound bwtSeq l) q := by
  unfold forwardBound
  rw [List.reverse_append, List.reverse_singleton, List.singleton_append]
  exact narrowedBound_cons bwtSeq q l.reverse (by simpa using h)

theorem forwardBound_take_succ (bwtSeq : BWTSeq) (query : List Nat) (i : Nat) (h1 : 1 ≤ i)
    (h2 : i < query.length) :
    forwardBound bwtSeq (query.take (i + 1))
      = narrowStep bwtSeq (forwardBound bwtSeq (query.take i)) query[i] := by
  rw [List.take_succ, List.getElem?_eq_getElem h2]
  exact forwardBound_snoc bwtSeq (query.take i) query[i]
    (by
      intro h
      rcases List.take_eq_nil_iff.mp h with h0 | h0
      · omega
      · rw [h0] at h2
        simp at h2)

theorem forwardBound_take_one (bwtSeq : BWTSeq) (query : List Nat) (h : 0 < query.length) :
    forwardBound bwtSeq (query.take 1)
      = { start := bwtSeq.count.getD (MRAEncMapSymbol bwtSeq.alphabet query[0]) 0
          end_ := bwtSeq.count.getD (MRAEncMapSymbol bwtSeq.alphabet query[0] + 1) 0 } := by
  cases query with
  | nil => simp at h
  | cons q rest => simp [forwardBound, narrowedBound]

/-- An empty interval stays empty under every further character. -/
theorem forwardBound_empty_mono (bwtSeq : BWTSeq) (query : List Nat) (i : Nat) (h1 : 1 ≤ i)
    (he : (forwardBound bwtSeq (query.take i)).start
      = (forwardBound bwtSeq (query.take i)).end_) :
    ∀ d, (forwardBound bwtSeq (query.take (i + d))).start
      = (forwardBound bwtSeq (query.take (i + d))).end_ := by
  intro d
  induction d with
  | zero => exact he
  | succ d ih =>
    by_cases hlt : i + d < query.length
    · rw [← Nat.add_assoc, forwardBound_take_succ bwtSeq query (i + d) (by omega) hlt]
      exact narrowStep_of_empty _ _ _ ih
    · rw [← Nat.add_assoc, List.take_of_length_le (by omega)]
      rw [List.take_of_length_le (by omega)] at ih
      exact ih

/-- On a built index the interval of a non-empty sequence of alphabet
characters is ordered and ends within the sequence. -/
theorem narrowedBound_built_le (K : Config) (alphabet : MRAEnc) (syms : List Nat) (a b : Nat)
    (drs : List Nat) (query : List Nat) (hne : query ≠ [])
    (hL : ∀ x ∈ syms, x < MRAEncGetSize alphabet) (hf : fallbackCode K alphabet ∈ syms)
    (hq : ∀ q ∈ query,
      MRAEncMapSymbol (terminatedAlphabet K alphabet) q < MRAEncGetSize alphabet + 1) :
    (narrowedBound (builtBWTSeq K alphabet syms a b drs) query).end_ ≤ syms.length := by
  have hL' : ∀ x ∈ syms, x < MRAEncGetSize alphabet + 1 - 1 := by simpa using hL
  cases query with
  | nil => exact absurd rfl hne
  | cons q rest =>
    have hc := hq q (List.mem_cons_self _ _)
    by_cases hrest : rest = []
    · subst hrest
      simp only [narrowedBound, List.reverse_cons, List.reverse_nil, List.nil_append,
        List.foldl_nil, builtBWTSeq_alphabet]
      simp only [builtBWTSeq]
      rw [getD_map_range _ _ _ (by omega)]
      exact countBelow_le_length _ _ _ _ hf
    · rw [narrowedBound_cons _ _ _ hrest]
      simp only [narrowStep, builtBWTSeq_alphabet, builtBWTSeq_rank]
      simp only [builtBWTSeq]
      rw [getD_map_range _ _ _ (by omega)]
      have h1 := countBelow_add_count_le (MRAEncGetSize alphabet + 1) (fallbackCode K alphabet)
        syms (MRAEncMapSymbol (terminatedAlphabet K alphabet) q) hf hL'
      have h2 := rank_take_le syms (MRAEncMapSymbol (terminatedAlphabet K alphabet) q)
        (narrowedBound (builtBWTSeq K alphabet syms a b drs) rest).end_
      simp only [builtBWTSeq] at h2
      omega

/-- Facts on the interval of a prefix of the query without special
characters, on a built index: it is ordered and ends within the sequence. -/
theorem forwardBound_built_facts (K : Config) (alphabet : MRAEnc) (syms : List Nat) (a b : Nat)
    (drs : List Nat) (query : List Nat) (k : Nat) (h1 : 1 ≤ k) (hk : k ≤ query.length)
    (hL : ∀ x ∈ syms, x < MRAEncGetSize alphabet) (hf : fallbackCode K alphabet ∈ syms)
    (hM : syms.length < K.seqposMod)
    (hq : ∀ q ∈ query, K.ISSPECIAL q = false →
      MRAEncMapSymbol (terminatedAlphabet K alphabet) q < MRAEncGetSize alphabet + 1)
    (hfree : specialFree K query k) :
    (forwardBound (builtBWTSeq K alphabet syms a b drs) (query.take k)).start
        ≤ (forwardBound (builtBWTSeq K alphabet syms a b drs) (query.take k)).end_ ∧
      (forwardBound (builtBWTSeq K alphabet syms a b drs) (query.take k)).end_
        ≤ syms.length := by
  have hcodes : ∀ q ∈ (query.take k).reverse,
      MRAEncMapSymbol (terminatedAlphabet K alphabet) q < MRAEncGetSize alphabet + 1 := by
    intro q hmem
    have hmem' : q ∈ query.take k := List.mem_reverse.mp hmem
    exact hq q (List.mem_of_mem_take hmem') (hfree q hmem')
  have hne : (query.take k).reverse ≠ [] := by
    intro h
    rcases List.take_eq_nil_iff.mp (List.reverse_eq_nil_iff.mp h) with h0 | h0
    · omega
    · rw [h0] at hk
      simp at hk
      omega
  have hready := searchReady_built K alphabet syms a b drs (query.take k).reverse hL hf hM hcodes
  exact ⟨narrowedBound_le K _ _ hready,
    narrowedBound_built_le K alphabet syms a b drs _ hne hL hf hcodes⟩

theorem mem_take_of_lt (query : List Nat) (i k : Nat) (hi : i < query.length) (hik : i < k) :
    query[i] ∈ query.take k := by
  have hlen : i < (query.take k).length := by
    rw [List.length_take]
    omega
  have h := List.getElem_mem hlen
  rwa [List.getElem_take] at h

theorem specialFree_mono (K : Config) (query : List Nat) (j k : Nat) (hjk : j ≤ k)
    (h : specialFree K query k) : specialFree K query j := by
  intro q hq
  exact h q ((List.take_subset_take_left query hjk) hq)

theorem specialFree_succ (K : Config) (query : List Nat) (i : Nat) (hi : i < query.length)
    (h : specialFree K query i) (hs : K.ISSPECIAL query[i] = false) :
    specialFree K query (i + 1) := by
  intro q hq
  rw [List.take_succ, List.getElem?_eq_getElem hi] at hq
  rcases List.mem_append.mp hq with h1 | h1
  · exact h q h1
  · have : q = query[i] := by simpa using h1
    rw [this]
    exact hs

/-- One pass through the body of a forward scan: the bound computed from the
interval of the first `i` characters and the character `query[i]` is the
interval of the first `i + 1` characters. -/
theorem scan_step (K : Config) (bwtSeq : BWTSeq) (query : List Nat)
    (h : ScanReady K bwtSeq query) (i : Nat) (h1 : 1 ≤ i) (hi : i < query.length)
    (hs : K.ISSPECIAL query[i] = false) :
    readQuery query i = .ok query[i] ∧
    readAt bwtSeq.count (MRAEncMapSymbol bwtSeq.alphabet query[i])
      = .ok (bwtSeq.count.getD (MRAEncMapSymbol bwtSeq.alphabet query[i]) 0) ∧
    matchBound.mk
        ((bwtSeq.count.getD (MRAEncMapSymbol bwtSeq.alphabet query[i]) 0
          + EISSymTransformedRank bwtSeq.seqIdx (MRAEncMapSymbol bwtSeq.alphabet query[i])
              (forwardBound bwtSeq (query.take i)).start) % K.seqposMod)
        ((bwtSeq.count.getD (MRAEncMapSymbol bwtSeq.alphabet query[i]) 0
          + EISSymTransformedRank bwtSeq.seqIdx (MRAEncMapSymbol bwtSeq.alphabet query[i])
              (forwardBound bwtSeq (query.take i)).end_) % K.seqposMod)
      = forwardBound bwtSeq (query.take (i + 1)) := by
  have hmem : query[i] ∈ query := List.getElem_mem hi
  refine ⟨?_, ?_, ?_⟩
  · simp [readQuery, List.getElem?_eq_getElem hi]
  · exact readAt_getD _ _ (by have := h.in_table _ hmem hs; omega)
  · rw [forwardBound_take_succ bwtSeq query i h1 hi, Nat.mod_eq_of_lt (h.no_wrap _ hmem hs _),
      Nat.mod_eq_of_lt (h.no_wrap _ hmem hs _)]
    rfl

/-- The loop of `packedindexuniqueforward` started at the interval of the
first `qptr` characters, all earlier intervals holding at least two
elements. -/
theorem uniqueLoop_spec (K : Config) (bwtSeq : BWTSeq) (query : List Nat)
    (h : ScanReady K bwtSeq query) :
    ∀ (n qptr : Nat), qptr + n = query.length → 1 ≤ qptr → specialFree K query qptr →
      (∀ i, 1 ≤ i → i < qptr →
        (forwardBound bwtSeq (query.take i)).start + 1
          < (forwardBound bwtSeq (query.take i)).end_) →
      ∃ res, packedindexuniqueforwardLoop K bwtSeq query n qptr
          (forwardBound bwtSeq (query.take qptr)) = .ok res ∧
        res ≤ query.length ∧
        ∀ k, 1 ≤ k → (res = k ↔ k ≤ query.length ∧ specialFree K query k ∧
          uniqueAt bwtSeq query k ∧ ∀ i, 1 ≤ i → i < k → ¬ uniqueAt bwtSeq query i) := by
  have hstop : ∀ qptr, 1 ≤ qptr → qptr ≤ query.length → specialFree K query qptr →
      (∀ i, 1 ≤ i → i < qptr →
        (forwardBound bwtSeq (query.take i)).start + 1
          < (forwardBound bwtSeq (query.take i)).end_) →
      ¬ (forwardBound bwtSeq (query.take qptr)).start + 1
          < (forwardBound bwtSeq (query.take qptr)).end_ →
      uniqueResult K (forwardBound bwtSeq (query.take qptr)) qptr ≤ query.length ∧
      ∀ k, 1 ≤ k → (uniqueResult K (forwardBound bwtSeq (query.take qptr)) qptr = k ↔
        k ≤ query.length ∧ specialFree K query k ∧
          uniqueAt bwtSeq query k ∧ ∀ i, 1 ≤ i → i < k → ¬ uniqueAt bwtSeq query i) := by
    intro qptr h1 hqm hfree hearly hcont
    obtain ⟨hle, hend⟩ := h.ordered qptr h1 hqm hfree
    have hmod : ((forwardBound bwtSeq (query.take qptr)).start + 1) % K.seqposMod
        = (forwardBound bwtSeq (query.take qptr)).start + 1 := Nat.mod_eq_of_lt (by omega)
    simp only [uniqueResult, hmod]
    by_cases hu : (forwardBound bwtSeq (query.take qptr)).start + 1
        = (forwardBound bwtSeq (query.take qptr)).end_
    · rw [if_pos hu]
      refine ⟨hqm, ?_⟩
      intro k hk
      constructor
      · intro hkq
        subst hkq
        refine ⟨hqm, hfree, hu, ?_⟩
        intro i hi1 hi2 hui
        have := hearly i hi1 hi2
        unfold uniqueAt at hui
        omega
      · rintro ⟨_, _, huk, hleast⟩
        by_contra hne
        rcases Nat.lt_or_gt_of_ne hne with hlt | hgt
        · exact hleast qptr h1 hlt hu
        · have := hearly k hk hgt
          unfold uniqueAt at huk
          omega
    · rw [if_neg hu]
      refine ⟨by omega, ?_⟩
      intro k hk
      constructor
      · intro h0
        omega
      · rintro ⟨_, _, huk, _⟩
        exfalso
        have hempty : (forwardBound bwtSeq (query.take qptr)).start
            = (forwardBound bwtSeq (query.take qptr)).end_ := by omega
        by_cases hlt : k < qptr
        · have := hearly k hk hlt
          unfold uniqueAt at huk
          omega
        · have hke := forwardBound_empty_mono bwtSeq query qptr h1 hempty (k - qptr)
          rw [show qptr + (k - qptr) = k by omega] at hke
          unfold uniqueAt at huk
          omega
  intro n
  induction n with
  | zero =>
    intro qptr hlen h1 hfree hearly
    by_cases hcont : (forwardBound bwtSeq (query.take qptr)).start + 1
        < (forwardBound bwtSeq (query.take qptr)).end_
    · obtain ⟨hle, hend⟩ := h.ordered qptr h1 (by omega) hfree
      have hmod : ((forwardBound bwtSeq (query.take qptr)).start + 1) % K.seqposMod
          = (forwardBound bwtSeq (query.take qptr)).start + 1 := Nat.mod_eq_of_lt (by omega)
      have hu : ¬ (forwardBound bwtSeq (query.take qptr)).start + 1
          = (forwardBound bwtSeq (query.take qptr)).end_ := by omega
      refine ⟨0, ?_, by omega, ?_⟩
      · simp only [packedindexuniqueforwardLoop, uniqueResult, hmod, if_neg hu]
      · intro k hk
        constructor
        · intro h0
          omega
        · rintro ⟨hkm, _, huk, _⟩
          exfalso
          by_cases hlt : k < qptr
          · have := hearly k hk hlt
            unfold uniqueAt at huk
            omega
          · have hkq : k = qptr := by omega
            subst hkq
            exact hu huk
    · exact ⟨_, rfl, hstop qptr h1 (by omega) hfree hearly hcont⟩
  | succ n ih =>
    intro qptr hlen h1 hfree hearly
    have hlt : qptr < query.length := by omega
    obtain ⟨hle, hend⟩ := h.ordered qptr h1 (by omega) hfree
    have hmod : ((forwardBound bwtSeq (query.take qptr)).start + 1) % K.seqposMod
        = (forwardBound bwtSeq (query.take qptr)).start + 1 := Nat.mod_eq_of_lt (by omega)
    by_cases hcont : (forwardBound bwtSeq (query.take qptr)).start + 1
        < (forwardBound bwtSeq (query.take qptr)).end_
    · by_cases hsp : K.ISSPECIAL query[qptr] = true
      · have hqr : readQuery query qptr = .ok query[qptr] := by
          simp [readQuery, List.getElem?_eq_getElem hlt]
        refine ⟨0, ?_, by omega, ?_⟩
        · simp only [packedindexuniqueforwardLoop, hmod, if_pos hcont, hqr, bind, Except.bind,
            if_pos hsp]
        · intro k hk
          constructor
          · intro h0
            omega
          · rintro ⟨hkm, hfk, huk, _⟩
            exfalso
            by_cases hkq : k ≤ qptr
            · rcases Nat.lt_or_eq_of_le hkq with hk1 | hk1
              · have := hearly k hk hk1
                unfold uniqueAt at huk
                omega
              · subst hk1
                unfold uniqueAt at huk
                omega
            · have := hfk _ (mem_take_of_lt query qptr k hlt (by omega))
              rw [this] at hsp
              exact Bool.false_ne_true hsp
      · have hsp' : K.ISSPECIAL query[qptr] = false := by simpa using hsp
        obtain ⟨hqr, hread, hstep⟩ := scan_step K bwtSeq query h qptr h1 hlt hsp'
        obtain ⟨res, hres, hresle, hchar⟩ := ih (qptr + 1) (by omega) (by omega)
          (specialFree_succ K query qptr hlt hfree hsp')
          (by
            intro i hi1 hi2
            rcases Nat.lt_or_eq_of_le (Nat.lt_succ_iff.mp hi2) with hi3 | hi3
            · exact hearly i hi1 hi3
            · subst hi3
              exact hcont)
        refine ⟨res, ?_, hresle, hchar⟩
        simp only [packedindexuniqueforwardLoop, hmod, if_pos hcont, hqr, bind, Except.bind,
          if_neg hsp, hread, BWTSeqTransformedPosPairOcc, hstep]
        exact hres
    · refine ⟨_, ?_, hstop qptr h1 (by omega) hfree hearly hcont⟩
      simp only [packedindexuniqueforwardLoop, hmod, if_neg hcont]

/-- The loop of `packedindexmstatsforward` started at the interval of the
first `qptr` characters. -/
theorem mstatsLoop_spec (K : Config) (bwtSeq : BWTSeq) (query : List Nat)
    (h : ScanReady K bwtSeq query) :
    ∀ (n qptr prev : Nat), qptr + n = query.length → 1 ≤ qptr → specialFree K query qptr →
      ∃ res prev1, packedindexmstatsforwardLoop K bwtSeq query n qptr
          (forwardBound bwtSeq (query.take qptr)) prev = .ok (res, prev1) ∧
        qptr ≤ res ∧ res ≤ query.length ∧ specialFree K query res ∧
        (∀ i, qptr < i → i ≤ res → nonEmptyAt bwtSeq query i) ∧
        (res < query.length →
          (∃ cc, query[res]? = some cc ∧ K.ISSPECIAL cc = true) ∨
            ¬ nonEmptyAt bwtSeq query (res + 1)) ∧
        prev1 = (if res = qptr then prev
          else (forwardBound bwtSeq (query.take res)).start) := by
  intro n
  induction n with
  | zero =>
    intro qptr prev hlen h1 hfree
    refine ⟨qptr, prev, rfl, le_refl _, by omega, hfree, ?_, ?_, by simp⟩
    · intro i hi1 hi2
      omega
    · intro hlt
      omega
  | succ n ih =>
    intro qptr prev hlen h1 hfree
    have hlt : qptr < query.length := by omega
    by_cases hsp : K.ISSPECIAL query[qptr] = true
    · have hqr : readQuery query qptr = .ok query[qptr] := by
        simp [readQuery, List.getElem?_eq_getElem hlt]
      refine ⟨qptr, prev, ?_, le_refl _, by omega, hfree, ?_, ?_, by simp⟩
      · simp only [packedindexmstatsforwardLoop, hqr, bind, Except.bind, if_pos hsp]
      · intro i hi1 hi2
        omega
      · intro _
        exact Or.inl ⟨query[qptr], List.getElem?_eq_getElem hlt, hsp⟩
    · have hsp' : K.ISSPECIAL query[qptr] = false := by simpa using hsp
      obtain ⟨hqr, hread, hstep⟩ := scan_step K bwtSeq query h qptr h1 hlt hsp'
      have hs1 := congrArg matchBound.start hstep
      have hs2 := congrArg matchBound.end_ hstep
      simp only at hs1 hs2
      by_cases hne : (forwardBound bwtSeq (query.take (qptr + 1))).start
          ≥ (forwardBound bwtSeq (query.take (qptr + 1))).end_
      · refine ⟨qptr, prev, ?_, le_refl _, by omega, hfree, ?_, ?_, by simp⟩
        · simp only [packedindexmstatsforwardLoop, hqr, bind, Except.bind, if_neg hsp, hread,
            BWTSeqTransformedPosPairOcc, hs1, hs2, if_pos hne]
        · intro i hi1 hi2
          omega
        · intro _
          right
          unfold nonEmptyAt
          omega
      · obtain ⟨res, prev1, hres, hr1, hr2, hr3, hr4, hr5, hr6⟩ :=
          ih (qptr + 1) (forwardBound bwtSeq (query.take (qptr + 1))).start (by omega)
            (by omega) (specialFree_succ K query qptr hlt hfree hsp')
        refine ⟨res, prev1, ?_, by omega, hr2, hr3, ?_, hr5, ?_⟩
        · simp only [packedindexmstatsforwardLoop, hqr, bind, Except.bind, if_neg hsp, hread,
            BWTSeqTransformedPosPairOcc, hs1, hs2, if_neg hne]
          exact hres
        · intro i hi1 hi2
          by_cases hi3 : qptr + 1 < i
          · exact hr4 i hi3 hi2
          · have hi4 : i = qptr + 1 := by omega
            subst hi4
            unfold nonEmptyAt
            omega
        · have hrq : ¬ res = qptr := by omega
          rw [hr6, if_neg hrq]
          split
          · next he => rw [he]
          · rfl

/-- The standing assumptions of a forward scan hold on every built index
whose length is below the largest `Seqpos` value, for every query whose
characters are special or have their code in the alphabet. -/
theorem scanReady_built (K : Config) (alphabet : MRAEnc) (syms : List Nat) (a b : Nat)
    (drs : List Nat) (query : List Nat)
    (hL : ∀ x ∈ syms, x < MRAEncGetSize alphabet) (hf : fallbackCode K alphabet ∈ syms)
    (hM : syms.length + 1 < K.seqposMod)
    (hq : ∀ q ∈ query, K.ISSPECIAL q = false →
      MRAEncMapSymbol (terminatedAlphabet K alphabet) q < MRAEncGetSize alphabet + 1) :
    ScanReady K (builtBWTSeq K alphabet syms a b drs) query where
  in_table := by
    intro q hmem hs
    have := hq q hmem hs
    simp only [builtBWTSeq, List.length_map, List.length_range]
    omega
  no_wrap := by
    intro q hmem hs p
    exact (searchReady_built K alphabet syms a b drs [q] hL hf (by omega)
      (by
        intro x hx
        have : x = q := by simpa using hx
        rw [this]
        exact hq q hmem hs)).no_wrap q (by simp) p
  ordered := by
    intro k h1 hk hfree
    obtain ⟨h2, h3⟩ := forwardBound_built_facts K alphabet syms a b drs query k h1 hk hL hf
      (by omega) hq hfree
    exact ⟨h2, by omega⟩

/-- The result of `packedindexuniqueforward` under the standing assumptions
of a forward scan. -/
theorem packedindexuniqueforward_spec (K : Config) (bwtSeq : BWTSeq) (query : List Nat)
    (hne : query ≠ []) (h : ScanReady K bwtSeq query) :
    ∃ res, packedindexuniqueforward K bwtSeq query = .ok res ∧
      res ≤ query.length ∧
      ∀ k, 1 ≤ k → (res = k ↔ k ≤ query.length ∧ specialFree K query k ∧
        uniqueAt bwtSeq query k ∧ ∀ i, 1 ≤ i → i < k → ¬ uniqueAt bwtSeq query i) := by
  have hpos : 0 < query.length := List.length_pos.mpr hne
  have hqr : readQuery query 0 = .ok query[0] := by
    simp [readQuery, List.getElem?_eq_getElem hpos]
  by_cases hsp : K.ISSPECIAL query[0] = true
  · refine ⟨0, ?_, by omega, ?_⟩
    · simp only [packedindexuniqueforward, hqr, bind, Except.bind, if_pos hsp]
    · intro k hk
      constructor
      · intro h0
        omega
      · rintro ⟨_, hfk, _, _⟩
        exfalso
        have := hfk _ (mem_take_of_lt query 0 k hpos (by omega))
        rw [this] at hsp
        exact Bool.false_ne_true hsp
  · have hsp' : K.ISSPECIAL query[0] = false := by simpa using hsp
    have hmem : query[0] ∈ query := List.getElem_mem hpos
    have hin := h.in_table _ hmem hsp'
    have hs := readAt_getD bwtSeq.count (MRAEncMapSymbol bwtSeq.alphabet query[0]) (by omega)
    have he := readAt_getD bwtSeq.count (MRAEncMapSymbol bwtSeq.alphabet query[0] + 1) hin
    have hfree1 : specialFree K query 1 := by
      intro q hq
      have hq' : q = query[0] := by
        cases query with
        | nil => simp at hpos
        | cons x rest => simpa using hq
      rw [hq']
      exact hsp'
    obtain ⟨res, hres, hresle, hchar⟩ := uniqueLoop_spec K bwtSeq query h (query.length - 1) 1
      (by omega) (le_refl _) hfree1 (by intro i hi1 hi2; omega)
    refine ⟨res, ?_, hresle, hchar⟩
    rw [forwardBound_take_one bwtSeq query hpos] at hres
    simp only [packedindexuniqueforward, hqr, bind, Except.bind, if_neg hsp, hs, he]
    exact hres

/-- The result of `packedindexmstatsforward` under the standing assumptions
of a forward scan: the return value is the length of the longest prefix
without special characters whose interval is not empty, and the value of
`prevlbound` at the end is the lower end of the interval of that prefix. -/
theorem packedindexmstatsforward_spec (K : Config) (bwtSeq : BWTSeq) (query : List Nat)
    (hne : query ≠ []) (h : ScanReady K bwtSeq query) :
    ∃ res, (∀ pck, packedindexmstatsforward K bwtSeq pck none query = .ok (res, none)) ∧
      (∀ pck w r, packedindexmstatsforward K bwtSeq pck w query = .ok r → r.1 = res) ∧
      res ≤ query.length ∧ specialFree K query res ∧
      (1 ≤ res → nonEmptyAt bwtSeq query res) ∧
      (∀ k, k ≤ query.length → specialFree K query k → (1 ≤ k → nonEmptyAt bwtSeq query k) →
        k ≤ res) ∧
      (res = 0 ↔ (K.ISSPECIAL query[0]! = true ∨ ¬ nonEmptyAt bwtSeq query 1)) := by
  have hpos : 0 < query.length := List.length_pos.mpr hne
  have hqr : readQuery query 0 = .ok query[0] := by
    simp [readQuery, List.getElem?_eq_getElem hpos]
  have hq0 : query[0]! = query[0] := by
    simp [getElem!_pos, hpos]
  have hassert : assertThat (decide (0 < query.length)) = .ok () := by
    simp [assertThat, hpos]
  have hfree0 : specialFree K query 0 := by
    intro q hq
    simp at hq
  -- an empty interval at `i` excludes every longer prefix
  have hlonger : ∀ i k, 1 ≤ i → i ≤ k → k ≤ query.length → specialFree K query k →
      ¬ nonEmptyAt bwtSeq query i → ¬ nonEmptyAt bwtSeq query k := by
    intro i k hi1 hik hkm hfk hni hnk
    obtain ⟨hle, _⟩ := h.ordered i hi1 (by omega) (specialFree_mono K query i k hik hfk)
    unfold nonEmptyAt at hni hnk
    have hke := forwardBound_empty_mono bwtSeq query i hi1 (by omega) (k - i)
    rw [show i + (k - i) = k by omega] at hke
    omega
  by_cases hsp : K.ISSPECIAL query[0] = true
  · refine ⟨0, ?_, ?_, by omega, hfree0, by omega, ?_, ?_⟩
    · intro pck
      simp only [packedindexmstatsforward, hassert, hqr, bind, Except.bind, if_pos hsp]
    · intro pck w r hr
      simp only [packedindexmstatsforward, hassert, hqr, bind, Except.bind, if_pos hsp,
        Except.ok.injEq] at hr
      rw [← hr]
    · intro k hkm hfk _
      by_contra hk
      have := hfk _ (mem_take_of_lt query 0 k hpos (by omega))
      rw [this] at hsp
      exact Bool.false_ne_true hsp
    · rw [hq0]
      simp [hsp]
  · have hsp' : K.ISSPECIAL query[0] = false := by simpa using hsp
    have hmem : query[0] ∈ query := List.getElem_mem hpos
    have hin := h.in_table _ hmem hsp'
    have hs := readAt_getD bwtSeq.count (MRAEncMapSymbol bwtSeq.alphabet query[0]) (by omega)
    have he := readAt_getD bwtSeq.count (MRAEncMapSymbol bwtSeq.alphabet query[0] + 1) hin
    have hfree1 : specialFree K query 1 := by
      intro q hq
      have hq' : q = query[0] := by
        cases query with
        | nil => simp at hpos
        | cons x rest => simpa using hq
      rw [hq']
      exact hsp'
    have hone := forwardBound_take_one bwtSeq query hpos
    by_cases hempty : bwtSeq.count.getD (MRAEncMapSymbol bwtSeq.alphabet query[0]) 0
        ≥ bwtSeq.count.getD (MRAEncMapSymbol bwtSeq.alphabet query[0] + 1) 0
    · have hn1 : ¬ nonEmptyAt bwtSeq query 1 := by
        unfold nonEmptyAt
        rw [hone]
        simp only
        omega
      refine ⟨0, ?_, ?_, by omega, hfree0, by omega, ?_, ?_⟩
      · intro pck
        simp only [packedindexmstatsforward, hassert, hqr, bind, Except.bind, if_neg hsp, hs, he,
          if_pos hempty]
      · intro pck w r hr
        simp only [packedindexmstatsforward, hassert, hqr, bind, Except.bind, if_neg hsp, hs,
          he, if_pos hempty, Except.ok.injEq] at hr
        rw [← hr]
      · intro k hkm hfk hnk
        by_contra hk
        exact hlonger 1 k (le_refl _) (by omega) hkm hfk hn1 (hnk (by omega))
      · simp [hn1]
    · have hn1 : nonEmptyAt bwtSeq query 1 := by
        unfold nonEmptyAt
        rw [hone]
        simp only
        omega
      obtain ⟨res, prev1, hres, hr1, hr2, hr3, hr4, hr5, hr6⟩ :=
        mstatsLoop_spec K bwtSeq query h (query.length - 1) 1
          (bwtSeq.count.getD (MRAEncMapSymbol bwtSeq.alphabet query[0]) 0)
          (by omega) (le_refl _) hfree1
      rw [hone] at hres
      have hnonempty : ∀ i, 1 ≤ i → i ≤ res → nonEmptyAt bwtSeq query i := by
        intro i hi1 hi2
        by_cases hi3 : 1 < i
        · exact hr4 i hi3 hi2
        · have hi4 : i = 1 := by omega
          subst hi4
          exact hn1
      refine ⟨res, ?_, ?_, hr2, hr3, fun _ => hnonempty res hr1 (le_refl _), ?_, ?_⟩
      · intro pck
        simp only [packedindexmstatsforward, hassert, hqr, bind, Except.bind, if_neg hsp, hs, he,
          if_neg hempty, hres]
      · intro pck w r hr
        simp only [packedindexmstatsforward, hassert, hqr, bind, Except.bind, if_neg hsp, hs,
          he, if_neg hempty, hres] at hr
        cases w with
        | none =>
          simp only [Except.ok.injEq] at hr
          rw [← hr]
        | some w0 =>
          simp only at hr
          split at hr
          · simp at hr
          · simp only [Except.ok.injEq] at hr
            rw [← hr]
      · intro k hkm hfk hnk
        by_contra hk
        have hlt : res < query.length := by omega
        rcases hr5 hlt with ⟨cc, hcc, hspc⟩ | hnot
        · rw [List.getElem?_eq_getElem hlt, Option.some.injEq] at hcc
          have := hfk _ (mem_take_of_lt query res k hlt (by omega))
          rw [hcc, hspc] at this
          exact Bool.false_ne_true this.symm
        · exact hlonger (res + 1) k (by omega) (by omega) hkm hfk hnot (hnk (by omega))
      · constructor
        · intro h0
          omega
        · rintro (hx | hx)
          · rw [hq0, hsp'] at hx
            exact absurd hx (by simp)
          · exact absurd hn1 hx

/-! ## Rows of the suffix array inside a match bound -/

theorem pairwise_getElem_iff_lt_countP {α : Type} (p : α → Bool) (l : List α)
    (h : l.Pairwise (fun a b => p b = true → p a = true)) (j : Nat) (hj : j < l.length) :
    p (l.get ⟨j, hj⟩) = true ↔ j < l.countP p := by
  induction l generalizing j with
  | nil => simp at hj
  | cons a t ih =>
    rw [List.pairwise_cons] at h
    obtain ⟨ha, ht⟩ := h
    by_cases hp : p a = true
    · cases j with
      | zero => simp [hp]
      | succ k =>
        have hk : k < t.length := by simpa using hj
        have := ih ht k hk
        simp only [List.get_eq_getElem, List.getElem_cons_succ, List.countP_cons_of_pos _ _ hp,
          Nat.add_lt_add_iff_right] at this ⊢
        exact this
    · have hall : ∀ b ∈ t, ¬ p b = true := fun b hb hpb => hp (ha b hb hpb)
      have h0 : t.countP p = 0 := by
        rw [List.countP_eq_zero]; exact hall
      rw [List.countP_cons_of_neg _ _ hp, h0]
      constructor
      · intro hpj
        cases j with
        | zero => exact absurd hpj hp
        | succ k =>
          have hk : k < t.length := by simpa using hj
          exact absurd hpj (hall _ (List.getElem_mem hk))
      · intro h; omega

theorem suffixArray_length (S : List Nat) : (suffixArray S).length = S.length := by
  rw [(suffixArray_perm S).length_eq, List.length_range]

/-- The suffix in row `j` of the suffix array lies in `dom β P` exactly when
`j` is below the number of suffixes in `dom β P`. -/
theorem suffixArray_row_dom (β : Bool) (P S : List Nat) (f j : Nat) (hj : j < S.length) :
    dom β P (S.drop (BWTSeqLocateMatch S j)) = true ↔ j < domCount β P S f := by
  have hlen := suffixArray_length S
  have hj2 : j < (suffixArray S).length := by omega
  have hpw : (suffixArray S).Pairwise
      (fun x y => (fun i => dom β P (S.drop i)) y = true
        → (fun i => dom β P (S.drop i)) x = true) :=
    (suffixArray_sorted S).imp (fun {i j} h => dom_mono β P (S.drop i) (S.drop j) h)
  have hcnt : domCount β P S f = (suffixArray S).countP (fun i => dom β P (S.drop i)) := by
    unfold domCount
    rw [← range_map_prevSuffixPairs, List.countP_map, (suffixArray_perm S).countP_eq]
    rfl
  have hget : BWTSeqLocateMatch S j = (suffixArray S).get ⟨j, hj2⟩ := by
    unfold BWTSeqLocateMatch
    rw [List.getD_eq_getElem _ _ hj2]
    rfl
  rw [hcnt, hget]
  exact pairwise_getElem_iff_lt_countP (fun i => dom β P (S.drop i)) _ hpw j hj2

/-- A pattern without the terminator code that starts a suffix of the text
plus terminator lies inside the text. -/
theorem prefix_withTerminator (σ : Nat) (T P : List Nat) (p : Nat) (hP : P ≠ [])
    (hlt : ∀ c ∈ P, c ≠ σ - 1) (h : P <+: (withTerminator σ T).drop p) :
    p + P.length ≤ T.length ∧ (T.drop p).take P.length = P := by
  unfold withTerminator at h
  have hpre : P <+: T.drop p := by
    by_cases hp : p ≤ T.length
    · rw [List.drop_append_of_le_length hp] at h
      obtain ⟨t, ht⟩ := h
      rcases List.eq_nil_or_concat t with rfl | ⟨t1, x, rfl⟩
      · rw [List.append_nil] at ht
        exact absurd rfl (hlt (σ - 1) (by rw [ht]; simp))
      · rw [List.concat_eq_append, ← List.append_assoc] at ht
        have := List.append_inj_left' ht rfl
        exact ⟨t1, this⟩
    · have hsub : ∀ c ∈ P, c ∈ (T ++ [σ - 1]).drop p := fun c hc => h.subset hc
      obtain ⟨c, hc⟩ := List.exists_mem_of_ne_nil P hP
      have hmem := hsub c hc
      rw [List.drop_append_eq_append_drop, List.drop_eq_nil_of_le (by omega),
        List.nil_append] at hmem
      have := List.mem_of_mem_drop hmem
      rw [List.mem_singleton] at this
      exact absurd this (hlt c hc)
  have hle := hpre.length_le
  rw [List.length_drop] at hle
  have hpos : 0 < P.length := List.length_pos.mpr hP
  refine ⟨by omega, ?_⟩
  exact (List.prefix_iff_eq_take.mp hpre).symm

/-- On the index of the text `T`, `getMatchBound` returns the interval of the
rows whose suffix starts with the coded query. -/
theorem getMatchBound_text (K : Config) (alphabet : MRAEnc) (T : List Nat) (a b : Nat)
    (drs : List Nat) (query : List Nat) (hne : query ≠ [])
    (hT : ∀ x ∈ T, x < MRAEncGetSize alphabet)
    (hf : fallbackCode K alphabet < MRAEncGetSize alphabet)
    (hM : T.length + 1 < K.seqposMod)
    (hq : ∀ q ∈ query,
      MRAEncMapSymbol (terminatedAlphabet K alphabet) q < MRAEncGetSize alphabet ∧
      MRAEncMapSymbol (terminatedAlphabet K alphabet) q ≠ fallbackCode K alphabet) :
    getMatchBound K (builtBWTSeq K alphabet
        (bwtStored (MRAEncGetSize alphabet + 1) (fallbackCode K alphabet) T) a b drs)
        query query.length
      = .ok (matchBound.mk
          (domCount false (query.map (MRAEncMapSymbol (terminatedAlphabet K alphabet)))
            (withTerminator (MRAEncGetSize alphabet + 1) T) (fallbackCode K alphabet))
          (domCount true (query.map (MRAEncMapSymbol (terminatedAlphabet K alphabet)))
            (withTerminator (MRAEncGetSize alphabet + 1) T) (fallbackCode K alphabet))) := by
  have hperm := bwtStored_perm (MRAEncGetSize alphabet + 1) (fallbackCode K alphabet) T
  have hL : ∀ x ∈ bwtStored (MRAEncGetSize alphabet + 1) (fallbackCode K alphabet) T,
      x < MRAEncGetSize alphabet := by
    intro x hx
    rcases List.mem_cons.mp (hperm.mem_iff.mp hx) with h | h
    · rw [h]; exact hf
    · exact hT x h
  have hfm : fallbackCode K alphabet
      ∈ bwtStored (MRAEncGetSize alphabet + 1) (fallbackCode K alphabet) T :=
    hperm.mem_iff.mpr (List.mem_cons_self _ _)
  have hready := searchReady_built K alphabet
    (bwtStored (MRAEncGetSize alphabet + 1) (fallbackCode K alphabet) T) a b drs query hL hfm
    (by rw [bwtStored_length]; exact hM)
    (fun q hmem => by have := (hq q hmem).1; omega)
  have hbound := getMatchBound_eq K _ query hne hready
  rw [narrowedBound_text K alphabet T a b drs query hne hq] at hbound
  exact hbound

/-- The rows inside the interval of a pattern hold the suffixes that start
with the pattern. -/
theorem row_in_bound_startsWith (P S : List Nat) (f j : Nat) (hP : P ≠ [])
    (hlo : domCount false P S f ≤ j) (hhi : j < domCount true P S f) :
    P <+: S.drop (BWTSeqLocateMatch S j) := by
  have hj : j < S.length := lt_of_lt_of_le hhi (domCount_le_length true P S f)
  have h1 := (suffixArray_row_dom true P S f j hj).mpr hhi
  have h0 : ¬ dom false P (S.drop (BWTSeqLocateMatch S j)) = true := fun h =>
    absurd ((suffixArray_row_dom false P S f j hj).mp h) (by omega)
  obtain ⟨hsplit, _⟩ := dom_true_split P (S.drop (BWTSeqLocateMatch S j)) hP
  rw [hsplit, Bool.or_eq_true] at h1
  rcases h1 with h | h
  · exact absurd h h0
  · exact (startsWith_iff _ _).mp h

/-! ## The checks of the integrity verification -/

theorem exists_least_lt {P : Nat → Prop} (n : Nat) (h : ∃ i, i < n ∧ P i) :
    ∃ i, i < n ∧ P i ∧ ∀ j, j < i → ¬ P j := by
  classical
  obtain ⟨i, hi, hp⟩ := h
  have hex : ∃ i, P i := ⟨i, hp⟩
  exact ⟨Nat.find hex, lt_of_le_of_lt (Nat.find_min' hex hp) hi, Nat.find_spec hex,
    fun j hj => Nat.find_min hex hj⟩

/-- The locate-value loop runs through when no coordinate fails. -/
theorem locateCheckLoop_pass (E : VerifyEnv) (bwtSeq : BWTSeq) (sa : Suffixarray) :
    ∀ n i, i + n ≤ sa.suftab.length →
      (∀ j, i ≤ j → j < i + n → ¬ sufvalMismatch E bwtSeq sa j) →
      locateCheckLoop E bwtSeq sa.suftab n i = .ok (.VERIFY_BWTSEQ_NO_ERROR, []) := by
  intro n
  induction n with
  | zero => intro i _ _; rfl
  | succ n ih =>
    intro i hlen hno
    have hi := hno i (le_refl _) (by omega)
    have hrest := ih (i + 1) (by omega) (fun j h1 h2 => hno j (by omega) (by omega))
    unfold locateCheckLoop
    by_cases hp : E.BWTSeqPosHasLocateInfo bwtSeq i = true
    · have heq : E.BWTSeqLocateMatch bwtSeq i = sa.suftab.getD i 0 := by
        by_contra h
        exact hi ⟨hp, h⟩
      simp only [hp, if_true, readAt_getD _ _ (show i < sa.suftab.length by omega), bind,
        Except.bind, heq, ne_eq, not_true_eq_false, if_false, hrest]
    · simp only [hp, Bool.false_eq_true, if_false, hrest]

/-- The locate-value loop stops at the first coordinate that fails. -/
theorem locateCheckLoop_fail (E : VerifyEnv) (bwtSeq : BWTSeq) (sa : Suffixarray) :
    ∀ n i j, j < sa.suftab.length → i ≤ j → j < i + n → sufvalMismatch E bwtSeq sa j →
      (∀ j2, i ≤ j2 → j2 < j → ¬ sufvalMismatch E bwtSeq sa j2) →
      locateCheckLoop E bwtSeq sa.suftab n i
        = .ok (.VERIFY_BWTSEQ_SUFVAL_ERROR,
            [j, E.BWTSeqLocateMatch bwtSeq j, sa.suftab.getD j 0]) := by
  intro n
  induction n with
  | zero => intro i j _ h1 h2; omega
  | succ n ih =>
    intro i j hlen hij hjn hmis hno
    unfold locateCheckLoop
    by_cases hji : j = i
    · subst hji
      simp only [hmis.1, if_true, readAt_getD _ _ hlen, bind, Except.bind, ne_eq, hmis.2,
        not_false_eq_true]
    · have hi := hno i (le_refl _) (by omega)
      have hrest := ih (i + 1) j hlen (by omega) (by omega) hmis
        (fun j2 h1 h2 => hno j2 (by omega) h2)
      by_cases hp : E.BWTSeqPosHasLocateInfo bwtSeq i = true
      · have heq : E.BWTSeqLocateMatch bwtSeq i = sa.suftab.getD i 0 := by
          by_contra h
          exact hi ⟨hp, h⟩
        simp only [hp, if_true, readAt_getD _ _ (show i < sa.suftab.length by omega), bind,
          Except.bind, heq, ne_eq, not_true_eq_false, if_false, hrest]
      · simp only [hp, Bool.false_eq_true, if_false, hrest]

/-- The loop of the LF walk runs through when every comparison holds. -/
theorem lfWalkLoop_pass (E : VerifyEnv) (bwtSeq : BWTSeq) (sa : Suffixarray) :
    ∀ i x,
      (∀ m, m < i → E.EISGetSym bwtSeq.seqIdx (Nat.iterate (E.BWTSeqLFMap bwtSeq) m x)
        = sa.getencodedchar (i - 1 - m)) →
      lfWalkLoop E bwtSeq sa i x = (.VERIFY_BWTSEQ_NO_ERROR, []) := by
  intro i
  induction i with
  | zero => intro x _; rfl
  | succ i ih =>
    intro x h
    have h0 := h 0 (by omega)
    simp only [Function.iterate_zero, id_eq, Nat.add_sub_cancel, Nat.sub_zero] at h0
    have hrest := ih (E.BWTSeqLFMap bwtSeq x) (fun m hm => by
      have := h (m + 1) (by omega)
      rw [Function.iterate_succ_apply] at this
      rw [this]
      congr 1
      omega)
    simp only [lfWalkLoop, h0, ne_eq, not_true_eq_false, if_false, hrest]

/-- The loop of the LF walk stops at the first comparison that fails. -/
theorem lfWalkLoop_fail (E : VerifyEnv) (bwtSeq : BWTSeq) (sa : Suffixarray) :
    ∀ i x m, m < i →
      E.EISGetSym bwtSeq.seqIdx (Nat.iterate (E.BWTSeqLFMap bwtSeq) m x)
        ≠ sa.getencodedchar (i - 1 - m) →
      (∀ m2, m2 < m → E.EISGetSym bwtSeq.seqIdx (Nat.iterate (E.BWTSeqLFMap bwtSeq) m2 x)
        = sa.getencodedchar (i - 1 - m2)) →
      lfWalkLoop E bwtSeq sa i x
        = (.VERIFY_BWTSEQ_LFMAPWALK_ERROR,
            [i - 1 - m, E.EISGetSym bwtSeq.seqIdx (Nat.iterate (E.BWTSeqLFMap bwtSeq) m x),
              sa.getencodedchar (i - 1 - m)]) := by
  intro i
  induction i with
  | zero => intro x m hm; omega
  | succ i ih =>
    intro x m hm hmis hno
    cases m with
    | zero =>
      simp only [Function.iterate_zero, id_eq, Nat.add_sub_cancel, Nat.sub_zero] at hmis ⊢
      simp only [lfWalkLoop, ne_eq, hmis, not_false_eq_true, if_true]
    | succ m =>
      have h0 := hno 0 (by omega)
      simp only [Function.iterate_zero, id_eq, Nat.add_sub_cancel, Nat.sub_zero] at h0
      have hidx : i + 1 - 1 - (m + 1) = i - 1 - m := by omega
      rw [Function.iterate_succ_apply, hidx] at hmis
      have hrest := ih (E.BWTSeqLFMap bwtSeq x) m (by omega) hmis (fun m2 hm2 => by
        have := hno (m2 + 1) (by omega)
        rw [Function.iterate_succ_apply] at this
        rw [this]
        congr 1
        omega)
      rw [Function.iterate_succ_apply, hidx]
      simp only [lfWalkLoop, h0, ne_eq, not_true_eq_false, if_false, hrest]

theorem verifyChecks_length (K : Config) (E : VerifyEnv) (bwtSeq : BWTSeq) (sa : Suffixarray)
    (len : Nat) (h : lengthFails E bwtSeq len) :
    verifyChecks K E bwtSeq sa len = .ok (.VERIFY_BWTSEQ_LENCOMPARE_ERROR, []) := by
  unfold lengthFails at h
  simp only [verifyChecks, ne_eq, h, not_false_eq_true, if_true]

theorem verifyChecks_sufval (K : Config) (E : VerifyEnv) (bwtSeq : BWTSeq) (sa : Suffixarray)
    (len i : Nat) (hL : ¬ lengthFails E bwtSeq len)
    (hloc : E.BWTSeqHasLocateInformation bwtSeq = true) (hi : i < len)
    (hlen : i < sa.suftab.length) (hmis : sufvalMismatch E bwtSeq sa i)
    (hmin : ∀ j, j < i → ¬ sufvalMismatch E bwtSeq sa j) :
    verifyChecks K E bwtSeq sa len
      = .ok (.VERIFY_BWTSEQ_SUFVAL_ERROR,
          [i, E.BWTSeqLocateMatch bwtSeq i, sa.suftab.getD i 0]) := by
  unfold lengthFails at hL
  have hloop := locateCheckLoop_fail E bwtSeq sa len 0 i hlen (Nat.zero_le _) (by omega) hmis
    (fun j _ hj => hmin j hj)
  simp [verifyChecks, locateCheck, hL, hloc, hloop, bind, Except.bind]

/-- The locate-value stage leaves `retval` as it is when it does not apply or
no coordinate fails. -/
theorem locateStage_pass (E : VerifyEnv) (bwtSeq : BWTSeq) (sa : Suffixarray) (len : Nat)
    (hS : ¬ sufvalFails E bwtSeq sa len)
    (hsuf : E.BWTSeqHasLocateInformation bwtSeq = true → len ≤ sa.suftab.length) :
    locateCheck E bwtSeq sa len = .ok (.VERIFY_BWTSEQ_NO_ERROR, []) := by
  unfold locateCheck
  by_cases hloc : E.BWTSeqHasLocateInformation bwtSeq = true
  · rw [if_pos hloc]
    exact locateCheckLoop_pass E bwtSeq sa len 0 (by have := hsuf hloc; omega)
      (fun j _ hj hm => hS ⟨hloc, j, by omega, hm⟩)
  · rw [if_neg hloc]

/-- The statements that follow the locate-value stage when it leaves `retval`
as it is. -/
theorem verifyChecks_after_locate (K : Config) (E : VerifyEnv) (bwtSeq : BWTSeq)
    (sa : Suffixarray) (len : Nat) (hL : ¬ lengthFails E bwtSeq len)
    (hS : ¬ sufvalFails E bwtSeq sa len)
    (hsuf : E.BWTSeqHasLocateInformation bwtSeq = true → len ≤ sa.suftab.length) :
    verifyChecks K E bwtSeq sa len
      = if bwtSeq.featureToggles &&& E.BWTReversiblySorted ≠ 0 ∧ len ≠ 0 then
          if sa.longest.defined = true
              ∧ sa.longest.valueseqpos ≠ E.BWTSeqTerminatorPos bwtSeq then
            .ok (.VERIFY_BWTSEQ_TERMPOS_ERROR,
              [sa.longest.valueseqpos, E.BWTSeqTerminatorPos bwtSeq])
          else if E.EISGetSym bwtSeq.seqIdx (E.BWTSeqTerminatorPos bwtSeq)
              ≠ K.UNDEFBWTCHAR then
            .ok (.VERIFY_BWTSEQ_LFMAPWALK_ERROR,
              [len - 1, E.EISGetSym bwtSeq.seqIdx (E.BWTSeqTerminatorPos bwtSeq),
                K.UNDEFBWTCHAR])
          else
            .ok (lfWalkLoop E bwtSeq sa (len - 1)
              (E.BWTSeqLFMap bwtSeq (E.BWTSeqTerminatorPos bwtSeq)))
        else .ok (.VERIFY_BWTSEQ_NO_ERROR, []) := by
  unfold lengthFails at hL
  have hstage := locateStage_pass E bwtSeq sa len hS hsuf
  unfold verifyChecks
  rw [if_neg hL, hstage]
  rfl

theorem verifyChecks_termpos (K : Config) (E : VerifyEnv) (bwtSeq : BWTSeq) (sa : Suffixarray)
    (len : Nat) (hL : ¬ lengthFails E bwtSeq len) (hS : ¬ sufvalFails E bwtSeq sa len)
    (hsuf : E.BWTSeqHasLocateInformation bwtSeq = true → len ≤ sa.suftab.length)
    (hT : termposFails E bwtSeq sa len) :
    verifyChecks K E bwtSeq sa len
      = .ok (.VERIFY_BWTSEQ_TERMPOS_ERROR,
          [sa.longest.valueseqpos, E.BWTSeqTerminatorPos bwtSeq]) := by
  obtain ⟨hW, hd, hv⟩ := hT
  unfold walkApplies at hW
  rw [verifyChecks_after_locate K E bwtSeq sa len hL hS hsuf, if_pos hW, if_pos ⟨hd, hv⟩]

theorem verifyChecks_skip (K : Config) (E : VerifyEnv) (bwtSeq : BWTSeq) (sa : Suffixarray)
    (len : Nat) (hL : ¬ lengthFails E bwtSeq len) (hS : ¬ sufvalFails E bwtSeq sa len)
    (hsuf : E.BWTSeqHasLocateInformation bwtSeq = true → len ≤ sa.suftab.length)
    (hW : ¬ walkApplies E bwtSeq len) :
    verifyChecks K E bwtSeq sa len = .ok (.VERIFY_BWTSEQ_NO_ERROR, []) := by
  unfold walkApplies at hW
  rw [verifyChecks_after_locate K E bwtSeq sa len hL hS hsuf, if_neg hW]

theorem verifyChecks_lfwalk (K : Config) (E : VerifyEnv) (bwtSeq : BWTSeq) (sa : Suffixarray)
    (len k : Nat) (hL : ¬ lengthFails E bwtSeq len) (hS : ¬ sufvalFails E bwtSeq sa len)
    (hsuf : E.BWTSeqHasLocateInformation bwtSeq = true → len ≤ sa.suftab.length)
    (hT : ¬ termposFails E bwtSeq sa len) (hW : walkApplies E bwtSeq len) (hk : k < len)
    (hmis : lfWalkMismatch K E bwtSeq sa len k)
    (hmin : ∀ j, j < k → ¬ lfWalkMismatch K E bwtSeq sa len j) :
    verifyChecks K E bwtSeq sa len
      = .ok (.VERIFY_BWTSEQ_LFMAPWALK_ERROR,
          [len - 1 - k, E.EISGetSym bwtSeq.seqIdx (lfImage E bwtSeq k),
            lfWalkReference K sa len k]) := by
  have hT2 : ¬ (sa.longest.defined = true
      ∧ sa.longest.valueseqpos ≠ E.BWTSeqTerminatorPos bwtSeq) := fun h => hT ⟨hW, h⟩
  have hW2 := hW
  unfold walkApplies at hW2
  rw [verifyChecks_after_locate K E bwtSeq sa len hL hS hsuf, if_pos hW2, if_neg hT2]
  unfold lfWalkMismatch at hmis
  cases k with
  | zero =>
    simp only [lfImage, lfWalkReference, Function.iterate_zero, id_eq, if_true] at hmis ⊢
    rw [if_pos hmis, Nat.sub_zero]
  | succ k =>
    have h0 := hmin 0 (by omega)
    simp only [lfWalkMismatch, lfImage, lfWalkReference, Function.iterate_zero, id_eq, if_true,
      ne_eq, not_not] at h0
    rw [if_neg (fun h => h h0)]
    have hne : k + 1 ≠ 0 := by omega
    simp only [lfImage, lfWalkReference, if_neg hne, Function.iterate_succ_apply] at hmis ⊢
    have hidx : len - 1 - (k + 1) = len - 1 - 1 - k := by omega
    rw [hidx] at hmis ⊢
    have := lfWalkLoop_fail E bwtSeq sa (len - 1) (E.BWTSeqLFMap bwtSeq
      (E.BWTSeqTerminatorPos bwtSeq)) k (by omega) hmis (fun m2 hm2 => by
        have h2 := hmin (m2 + 1) (by omega)
        have hne2 : m2 + 1 ≠ 0 := by omega
        simp only [lfWalkMismatch, lfImage, lfWalkReference, if_neg hne2,
          Function.iterate_succ_apply, ne_eq, not_not] at h2
        rw [h2]
        congr 1
        omega)
    rw [this]

theorem verifyChecks_pass (K : Config) (E : VerifyEnv) (bwtSeq : BWTSeq) (sa : Suffixarray)
    (len : Nat) (hL : ¬ lengthFails E bwtSeq len) (hS : ¬ sufvalFails E bwtSeq sa len)
    (hsuf : E.BWTSeqHasLocateInformation bwtSeq = true → len ≤ sa.suftab.length)
    (hT : ¬ termposFails E bwtSeq sa len) (hF : ¬ lfwalkFails K E bwtSeq sa len) :
    verifyChecks K E bwtSeq sa len = .ok (.VERIFY_BWTSEQ_NO_ERROR, []) := by
  by_cases hW : walkApplies E bwtSeq len
  · have hT2 : ¬ (sa.longest.defined = true
        ∧ sa.longest.valueseqpos ≠ E.BWTSeqTerminatorPos bwtSeq) := fun h => hT ⟨hW, h⟩
    have hW2 := hW
    unfold walkApplies at hW2
    have hlen : len ≠ 0 := hW2.2
    rw [verifyChecks_after_locate K E bwtSeq sa len hL hS hsuf, if_pos hW2, if_neg hT2]
    have hall : ∀ k, k < len → ¬ lfWalkMismatch K E bwtSeq sa len k :=
      fun k hk hm => hF ⟨hW, k, hk, hm⟩
    have h0 := hall 0 (by omega)
    simp only [lfWalkMismatch, lfImage, lfWalkReference, Function.iterate_zero, id_eq, if_true,
      ne_eq, not_not] at h0
    rw [if_neg (fun h => h h0)]
    have := lfWalkLoop_pass E bwtSeq sa (len - 1) (E.BWTSeqLFMap bwtSeq
      (E.BWTSeqTerminatorPos bwtSeq)) (fun m hm => by
        have h2 := hall (m + 1) (by omega)
        have hne2 : m + 1 ≠ 0 := by omega
        simp only [lfWalkMismatch, lfImage, lfWalkReference, if_neg hne2,
          Function.iterate_succ_apply, ne_eq, not_not] at h2
        rw [h2]
        congr 1
        omega)
    rw [this]
  · exact verifyChecks_skip K E bwtSeq sa len hL hS hsuf hW

/-- With the reference loaded, `BWTSeqVerifyIntegrity` returns what the
checks leave in `retval`, frees the suffix array and does not destruct the
scratch state. -/
theorem verifyIntegrity_loaded (K : Config) (E : VerifyEnv) (bwtSeq : BWTSeq)
    (sa : Suffixarray) (len0 : Nat) (r : verifyBWTSeqErrCode × List Nat)
    (hload : E.mapsuffixarray = some (sa, len0))
    (hr : verifyChecks K E bwtSeq sa ((len0 + 1) % K.seqposMod) = .ok r) :
    BWTSeqVerifyIntegrity K E bwtSeq
      = .ok { retval := r.1
              errorArgs := r.2
              freesuffixarray := true
              destructExtBitsRetrieval := false } := by
  simp only [BWTSeqVerifyIntegrity, hload, hr, bind, Except.bind]

theorem verifyIntegrity_not_loaded (K : Config) (E : VerifyEnv) (bwtSeq : BWTSeq)
    (hload : E.mapsuffixarray = none) :
    BWTSeqVerifyIntegrity K E bwtSeq
      = .ok { retval := .VERIFY_BWTSEQ_REFLOAD_ERROR
              errorArgs := []
              freesuffixarray := false
              destructExtBitsRetrieval := false } := by
  simp only [BWTSeqVerifyIntegrity, hload]

/-- The value the checks leave in `retval` is that of the first check that
fails. -/
theorem verifyChecks_cases (K : Config) (E : VerifyEnv) (bwtSeq : BWTSeq) (sa : Suffixarray)
    (len : Nat)
    (hsuf : E.BWTSeqHasLocateInformation bwtSeq = true → len ≤ sa.suftab.length) :
    ∃ r, verifyChecks K E bwtSeq sa len = .ok r ∧
      (lengthFails E bwtSeq len → r.1 = .VERIFY_BWTSEQ_LENCOMPARE_ERROR) ∧
      (¬ lengthFails E bwtSeq len → sufvalFails E bwtSeq sa len →
        r.1 = .VERIFY_BWTSEQ_SUFVAL_ERROR) ∧
      (¬ lengthFails E bwtSeq len → ¬ sufvalFails E bwtSeq sa len →
        termposFails E bwtSeq sa len → r.1 = .VERIFY_BWTSEQ_TERMPOS_ERROR) ∧
      (¬ lengthFails E bwtSeq len → ¬ sufvalFails E bwtSeq sa len →
        ¬ termposFails E bwtSeq sa len → lfwalkFails K E bwtSeq sa len →
        r.1 = .VERIFY_BWTSEQ_LFMAPWALK_ERROR) ∧
      (¬ lengthFails E bwtSeq len → ¬ sufvalFails E bwtSeq sa len →
        ¬ termposFails E bwtSeq sa len → ¬ lfwalkFails K E bwtSeq sa len →
        r.1 = .VERIFY_BWTSEQ_NO_ERROR) := by
  by_cases hL : lengthFails E bwtSeq len
  · exact ⟨_, verifyChecks_length K E bwtSeq sa len hL, fun _ => rfl, fun h => absurd hL h,
      fun h => absurd hL h, fun h => absurd hL h, fun h => absurd hL h⟩
  by_cases hS : sufvalFails E bwtSeq sa len
  · obtain ⟨i, hi, hmis, hmin⟩ := exists_least_lt len hS.2
    exact ⟨_, verifyChecks_sufval K E bwtSeq sa len i hL hS.1 hi
        (by have := hsuf hS.1; omega) hmis hmin,
      fun h => absurd h hL, fun _ _ => rfl, fun _ h => absurd hS h, fun _ h => absurd hS h,
      fun _ h => absurd hS h⟩
  by_cases hT : termposFails E bwtSeq sa len
  · exact ⟨_, verifyChecks_termpos K E bwtSeq sa len hL hS hsuf hT,
      fun h => absurd h hL, fun _ h => absurd h hS, fun _ _ _ => rfl,
      fun _ _ h => absurd hT h, fun _ _ h => absurd hT h⟩
  by_cases hF : lfwalkFails K E bwtSeq sa len
  · obtain ⟨k, hk, hmis, hmin⟩ := exists_least_lt len hF.2
    exact ⟨_, verifyChecks_lfwalk K E bwtSeq sa len k hL hS hsuf hT hF.1 hk hmis hmin,
      fun h => absurd h hL, fun _ h => absurd h hS, fun _ _ h => absurd h hT,
      fun _ _ _ _ => rfl, fun _ _ _ h => absurd hF h⟩
  · exact ⟨_, verifyChecks_pass K E bwtSeq sa len hL hS hsuf hT hF,
      fun h => absurd h hL, fun _ h => absurd h hS, fun _ _ h => absurd h hT,
      fun _ _ _ h => absurd h hF, fun _ _ _ _ => rfl⟩

/-! ## The LF walk on the index of a text -/

theorem lexLt_irrefl (x : List Nat) : lexLt x x = false := by
  induction x with
  | nil => rfl
  | cons a x ih => simp [lexLt, ih]

theorem lexLt_trichotomy (x y : List Nat) (h1 : lexLt x y = false) (h2 : lexLt y x = false) :
    x = y := by
  induction x generalizing y with
  | nil =>
    cases y with
    | nil => rfl
    | cons b y => simp [lexLt] at h1
  | cons a x ih =>
    cases y with
    | nil => simp [lexLt] at h2
    | cons b y =>
      simp only [lexLt, Bool.or_eq_false_iff, decide_eq_false_iff_not, not_lt,
        Bool.and_eq_false_imp, beq_iff_eq] at h1 h2
      have hab : a = b := by omega
      subst hab
      rw [ih y (h1.2 rfl) (h2.2 rfl)]

/-- The suffixes below a pattern of one code are those that start with a
smaller code. -/
theorem domCount_singleton (c : Nat) (S : List Nat) :
    ∀ p, domCount false [c] S p = S.countP (fun a => decide (a < c)) := by
  induction S with
  | nil => intro p; rfl
  | cons a y ih =>
    intro p
    have h := ih a
    simp only [domCount, prevSuffixPairs, List.countP_cons, dom] at h ⊢
    rw [h]
    cases y <;> simp [dom]

theorem countP_lt_le_domCount (β : Bool) (c : Nat) (P S : List Nat) :
    ∀ p, S.countP (fun a => decide (a < c)) ≤ domCount β (c :: P) S p := by
  induction S with
  | nil => intro p; simp
  | cons a y ih =>
    intro p
    have h := ih a
    simp only [domCount, prevSuffixPairs, List.countP_cons, dom] at h ⊢
    by_cases hac : a < c
    · simp [hac]; omega
    · simp [hac]; omega

theorem suffixArray_nodup (S : List Nat) : (suffixArray S).Nodup :=
  (suffixArray_perm S).nodup_iff.mpr (List.nodup_range _)

theorem suffixArray_getElem_lt (S : List Nat) (j : Nat) (hj : j < (suffixArray S).length) :
    (suffixArray S)[j] < S.length :=
  List.mem_range.mp ((suffixArray_perm S).mem_iff.mp (List.getElem_mem hj))

theorem locateMatch_eq_getElem (S : List Nat) (j : Nat) (hj : j < (suffixArray S).length) :
    BWTSeqLocateMatch S j = (suffixArray S)[j] := by
  unfold BWTSeqLocateMatch
  rw [List.getD_eq_getElem _ _ hj]

/-- The suffix array holds `i` at the row of the suffix starting at `i`. -/
theorem locate_suffixRow (S : List Nat) (f i : Nat) (hi : i < S.length) :
    suffixRow S f i < S.length ∧ BWTSeqLocateMatch S (suffixRow S f i) = i := by
  have hmem : i ∈ suffixArray S := (suffixArray_perm S).mem_iff.mpr (List.mem_range.mpr hi)
  obtain ⟨j, hj, hji⟩ := List.getElem_of_mem hmem
  have hlen := suffixArray_length S
  have hrow : ∀ j2, j2 < S.length →
      (lexLt (S.drop (BWTSeqLocateMatch S j2)) (S.drop i) = true ↔ j2 < suffixRow S f i) := by
    intro j2 hj2
    have := suffixArray_row_dom false (S.drop i) S f j2 hj2
    rw [dom_false_eq_lexLt] at this
    exact this
  have hloc : BWTSeqLocateMatch S j = i := by
    rw [locateMatch_eq_getElem S j hj]
    exact hji
  have h1 : suffixRow S f i ≤ j := by
    by_contra hlt
    have := (hrow j (by omega)).mpr (by omega)
    rw [hloc, lexLt_irrefl] at this
    cases this
  have h2 : ¬ suffixRow S f i < j := by
    intro hlt
    have hr : suffixRow S f i < (suffixArray S).length := by omega
    have hnot : lexLt (S.drop (BWTSeqLocateMatch S (suffixRow S f i))) (S.drop i) = false := by
      cases h : lexLt (S.drop (BWTSeqLocateMatch S (suffixRow S f i))) (S.drop i) with
      | false => rfl
      | true =>
        have := (hrow (suffixRow S f i) (by omega)).mp h
        omega
    have hsorted := List.pairwise_iff_getElem.mp (suffixArray_sorted S) (suffixRow S f i) j hr hj
      hlt
    unfold suffixLe at hsorted
    rw [hji] at hsorted
    rw [locateMatch_eq_getElem S _ hr] at hnot
    have heq := lexLt_trichotomy _ _ hnot hsorted
    have hsr := suffixArray_getElem_lt S _ hr
    have hlens := congrArg List.length heq
    rw [List.length_drop, List.length_drop] at hlens
    have hval : (suffixArray S)[suffixRow S f i] = (suffixArray S)[j] := by
      rw [hji]
      omega
    have := (List.Nodup.getElem_inj_iff (suffixArray_nodup S)).mp hval
    omega
  have hrj : suffixRow S f i = j := by omega
  exact ⟨by omega, by rw [hrj]; exact hloc⟩

/-- Two rows that hold the same text position are the same row. -/
theorem locateMatch_inj (S : List Nat) (j1 j2 : Nat) (h1 : j1 < S.length) (h2 : j2 < S.length)
    (h : BWTSeqLocateMatch S j1 = BWTSeqLocateMatch S j2) : j1 = j2 := by
  have hlen := suffixArray_length S
  rw [locateMatch_eq_getElem S j1 (by omega), locateMatch_eq_getElem S j2 (by omega)] at h
  exact (List.Nodup.getElem_inj_iff (suffixArray_nodup S)).mp h

/-- The terminator position is the row of the whole sequence. -/
theorem terminatorPos_eq (S : List Nat) (f : Nat) (hS : 0 < S.length) :
    BWTSeqTerminatorPos S = suffixRow S f 0 := by
  have hmem : 0 ∈ suffixArray S := (suffixArray_perm S).mem_iff.mpr (List.mem_range.mpr hS)
  have hlen := suffixArray_length S
  have hlt : (suffixArray S).indexOf 0 < (suffixArray S).length := List.indexOf_lt_length.mpr hmem
  have hget : (suffixArray S)[(suffixArray S).indexOf 0] = 0 := List.getElem_indexOf hlt
  obtain ⟨h1, h2⟩ := locate_suffixRow S f 0 hS
  apply locateMatch_inj S _ _ (by unfold BWTSeqTerminatorPos; omega) h1
  rw [h2]
  unfold BWTSeqTerminatorPos
  rw [locateMatch_eq_getElem S _ hlt]
  exact hget

/-- The LF-mapping takes the terminator position to the row of the suffix
that holds the terminator only. -/
theorem lfMap_terminator (K : Config) (alphabet : MRAEnc) (T : List Nat) (a b : Nat)
    (drs : List Nat) (stored : List Nat) (t : Nat) :
    BWTSeqLFMap (builtBWTSeq K alphabet
        (bwtStored (MRAEncGetSize alphabet + 1) (fallbackCode K alphabet) T) a b drs)
        stored t t
      = suffixRow (withTerminator (MRAEncGetSize alphabet + 1) T) (fallbackCode K alphabet)
          T.length := by
  have hdrop : (withTerminator (MRAEncGetSize alphabet + 1) T).drop T.length
      = [MRAEncGetSize alphabet] := by
    unfold withTerminator
    rw [List.drop_left, Nat.add_sub_cancel]
  unfold suffixRow BWTSeqLFMap
  rw [if_pos rfl, hdrop, domCount_singleton]
  simp only [builtBWTSeq, Nat.add_sub_cancel]
  rw [getD_map_range _ _ _ (by omega), countBelow_bwtStored]

/-- The LF-mapping takes the row of the suffix starting at `i` to the row of
the suffix starting at `i - 1`. -/
theorem lfMap_suffixRow (K : Config) (alphabet : MRAEnc) (T : List Nat) (a b : Nat)
    (drs : List Nat) (i : Nat) (hT : ∀ x ∈ T, x < MRAEncGetSize alphabet)
    (hi1 : 1 ≤ i) (hi2 : i ≤ T.length) :
    BWTSeqLFMap (builtBWTSeq K alphabet
        (bwtStored (MRAEncGetSize alphabet + 1) (fallbackCode K alphabet) T) a b drs)
        (bwtStored (MRAEncGetSize alphabet + 1) (fallbackCode K alphabet) T)
        (BWTSeqTerminatorPos (withTerminator (MRAEncGetSize alphabet + 1) T))
        (suffixRow (withTerminator (MRAEncGetSize alphabet + 1) T) (fallbackCode K alphabet) i)
      = suffixRow (withTerminator (MRAEncGetSize alphabet + 1) T) (fallbackCode K alphabet)
          (i - 1) := by
  have hSlen : (withTerminator (MRAEncGetSize alphabet + 1) T).length = T.length + 1 := by
    simp [withTerminator]
  have hlen := suffixArray_length (withTerminator (MRAEncGetSize alphabet + 1) T)
  obtain ⟨hr1, hr2⟩ := locate_suffixRow (withTerminator (MRAEncGetSize alphabet + 1) T)
    (fallbackCode K alphabet) i (by omega)
  obtain ⟨ht1, ht2⟩ := locate_suffixRow (withTerminator (MRAEncGetSize alphabet + 1) T)
    (fallbackCode K alphabet) 0 (by omega)
  have hterm := terminatorPos_eq (withTerminator (MRAEncGetSize alphabet + 1) T)
    (fallbackCode K alphabet) (by omega)
  have hne : suffixRow (withTerminator (MRAEncGetSize alphabet + 1) T)
        (fallbackCode K alphabet) i
      ≠ BWTSeqTerminatorPos (withTerminator (MRAEncGetSize alphabet + 1) T) := by
    intro h
    rw [hterm] at h
    rw [h, ht2] at hr2
    omega
  have hstored : (bwtStored (MRAEncGetSize alphabet + 1) (fallbackCode K alphabet) T).getD
        (suffixRow (withTerminator (MRAEncGetSize alphabet + 1) T)
          (fallbackCode K alphabet) i) 0
      = (withTerminator (MRAEncGetSize alphabet + 1) T).getD (i - 1) 0 := by
    rw [locateMatch_eq_getElem _ _ (by omega)] at hr2
    unfold bwtStored
    rw [List.getD_eq_getElem?_getD, List.getElem?_map,
      List.getElem?_eq_getElem (show _ < (suffixArray _).length by omega), hr2]
    simp only [Option.map_some', Option.getD_some, bwtSymbol]
    rw [if_neg (by omega)]
  have hiT : i - 1 < T.length := by omega
  have hgetS : (withTerminator (MRAEncGetSize alphabet + 1) T).getD (i - 1) 0 = T[i - 1] := by
    unfold withTerminator
    rw [List.getD_eq_getElem?_getD, List.getElem?_append_left hiT,
      List.getElem?_eq_getElem hiT]
    rfl
  have hc : T[i - 1] < MRAEncGetSize alphabet := hT _ (List.getElem_mem hiT)
  have hdrop : (withTerminator (MRAEncGetSize alphabet + 1) T).drop (i - 1)
      = T[i - 1] :: (withTerminator (MRAEncGetSize alphabet + 1) T).drop i := by
    have h := List.drop_eq_getElem_cons (show i - 1 < (withTerminator
      (MRAEncGetSize alphabet + 1) T).length by omega)
    rw [h]
    congr 1
    · have := hgetS
      rw [List.getD_eq_getElem?_getD, List.getElem?_eq_getElem (by omega)] at this
      exact this
    · congr 1
      omega
  have hcount : (builtBWTSeq K alphabet
        (bwtStored (MRAEncGetSize alphabet + 1) (fallbackCode K alphabet) T) a b drs).count.getD
        T[i - 1] 0
      = (withTerminator (MRAEncGetSize alphabet + 1) T).countP
          (fun x => decide (x < T[i - 1])) := by
    simp only [builtBWTSeq]
    rw [getD_map_range _ _ _ (by omega), countBelow_bwtStored]
  have hrank : EISSymTransformedRank (builtBWTSeq K alphabet
        (bwtStored (MRAEncGetSize alphabet + 1) (fallbackCode K alphabet) T) a b drs).seqIdx
        T[i - 1]
        (suffixRow (withTerminator (MRAEncGetSize alphabet + 1) T) (fallbackCode K alphabet) i)
      = (prevSuffixPairs (fallbackCode K alphabet)
          (withTerminator (MRAEncGetSize alphabet + 1) T)).countP
          (fun pr => dom false ((withTerminator (MRAEncGetSize alphabet + 1) T).drop i) pr.2
            && pr.1 == T[i - 1]) := by
    rw [builtBWTSeq_rank]
    exact stored_rank _ _ _ false _
  have haux := domCount_cons_aux false T[i - 1]
    ((withTerminator (MRAEncGetSize alphabet + 1) T).drop i) T
    (MRAEncGetSize alphabet + 1 - 1) (by simp only [Nat.add_sub_cancel]; omega)
    (fallbackCode K alphabet)
  have hge := countP_lt_le_domCount false T[i - 1]
    ((withTerminator (MRAEncGetSize alphabet + 1) T).drop i)
    (withTerminator (MRAEncGetSize alphabet + 1) T) (fallbackCode K alphabet)
  have hdom : dom false ((withTerminator (MRAEncGetSize alphabet + 1) T).drop i)
        (withTerminator (MRAEncGetSize alphabet + 1) T) = true
      ↔ BWTSeqTerminatorPos (withTerminator (MRAEncGetSize alphabet + 1) T)
        < suffixRow (withTerminator (MRAEncGetSize alphabet + 1) T)
            (fallbackCode K alphabet) i := by
    have := suffixArray_row_dom false ((withTerminator (MRAEncGetSize alphabet + 1) T).drop i)
      (withTerminator (MRAEncGetSize alphabet + 1) T) (fallbackCode K alphabet) _ ht1
    rw [ht2, List.drop_zero] at this
    rw [hterm]
    exact this
  unfold BWTSeqLFMap
  rw [if_neg hne, hstored, hgetS, hcount, hrank]
  have hfb : (builtBWTSeq K alphabet
      (bwtStored (MRAEncGetSize alphabet + 1) (fallbackCode K alphabet) T) a b
        drs).bwtTerminatorFallback = fallbackCode K alphabet := rfl
  rw [hfb]
  have hrow : suffixRow (withTerminator (MRAEncGetSize alphabet + 1) T)
        (fallbackCode K alphabet) (i - 1)
      = domCount false (T[i - 1] :: (withTerminator (MRAEncGetSize alphabet + 1) T).drop i)
          (withTerminator (MRAEncGetSize alphabet + 1) T) (fallbackCode K alphabet) := by
    unfold suffixRow
    rw [hdrop]
  rw [hrow]
  unfold withTerminator at haux hge hdom ⊢
  by_cases hcf : T[i - 1] = fallbackCode K alphabet
  · by_cases hd : dom false ((T ++ [MRAEncGetSize alphabet + 1 - 1]).drop i)
        (T ++ [MRAEncGetSize alphabet + 1 - 1]) = true
    · rw [if_pos ⟨hcf.symm, hd⟩] at haux
      rw [if_pos ⟨hcf, hdom.mp hd⟩]
      omega
    · rw [if_neg (fun h => hd h.2)] at haux
      rw [if_neg (fun h => hd (hdom.mpr h.2))]
      omega
  · rw [if_neg (fun h => hcf h.1.symm)] at haux
    rw [if_neg (fun h => hcf h.1)]
    omega

/-- The LF-images of the terminator position on the index of a text: the
`k`-th image is the row of the suffix starting at `n + 1 - k`. -/
theorem textEnv_lfImage (K : Config) (alphabet : MRAEnc) (text : List Nat) (a b : Nat)
    (drs : List Nat) (reversiblySorted : Nat) (sampled : Nat → Bool)
    (hT : ∀ x ∈ text,
      MRAEncMapSymbol (terminatedAlphabet K alphabet) x < MRAEncGetSize alphabet) :
    ∀ k, 1 ≤ k → k ≤ text.length + 1 →
      lfImage (textVerifyEnv K alphabet text reversiblySorted sampled)
        (builtBWTSeq K alphabet
          (bwtStored (MRAEncGetSize alphabet + 1) (fallbackCode K alphabet)
            (text.map (MRAEncMapSymbol (terminatedAlphabet K alphabet)))) a b drs) k
      = suffixRow (textSequence K alphabet text) (fallbackCode K alphabet)
          (text.length + 1 - k) := by
  have hT2 : ∀ x ∈ text.map (MRAEncMapSymbol (terminatedAlphabet K alphabet)),
      x < MRAEncGetSize alphabet := by
    intro x hx
    obtain ⟨y, hy, rfl⟩ := List.mem_map.mp hx
    exact hT y hy
  intro k
  induction k with
  | zero => intro h; omega
  | succ k ih =>
    intro _ hk
    unfold lfImage
    rw [Function.iterate_succ_apply']
    by_cases hk0 : k = 0
    · subst hk0
      simp only [Function.iterate_zero, id_eq]
      have := lfMap_terminator K alphabet
        (text.map (MRAEncMapSymbol (terminatedAlphabet K alphabet))) a b drs
        (bwtStored (MRAEncGetSize alphabet + 1) (fallbackCode K alphabet)
          (text.map (MRAEncMapSymbol (terminatedAlphabet K alphabet))))
        (BWTSeqTerminatorPos (textSequence K alphabet text))
      rw [List.length_map] at this
      exact this
    · have hih := ih (by omega) (by omega)
      unfold lfImage at hih
      rw [hih]
      have := lfMap_suffixRow K alphabet
        (text.map (MRAEncMapSymbol (terminatedAlphabet K alphabet))) a b drs
        (text.length + 1 - k) hT2 (by omega) (by rw [List.length_map]; omega)
      have hidx : text.length + 1 - (k + 1) = text.length + 1 - k - 1 := by omega
      rw [hidx]
      exact this

/-- On the index of a text every comparison of the LF walk holds. -/
theorem textEnv_lfWalk (K : Config) (alphabet : MRAEnc) (text : List Nat) (a b : Nat)
    (drs : List Nat) (reversiblySorted : Nat) (sampled : Nat → Bool)
    (hT : ∀ x ∈ text,
      MRAEncMapSymbol (terminatedAlphabet K alphabet) x < MRAEncGetSize alphabet)
    (k : Nat) (hk : k < text.length + 1) :
    ¬ lfWalkMismatch K (textVerifyEnv K alphabet text reversiblySorted sampled)
        (builtBWTSeq K alphabet
          (bwtStored (MRAEncGetSize alphabet + 1) (fallbackCode K alphabet)
            (text.map (MRAEncMapSymbol (terminatedAlphabet K alphabet)))) a b drs)
        (textReference K alphabet text) (text.length + 1) k := by
  have hSlen : (textSequence K alphabet text).length = text.length + 1 := by
    simp [textSequence, withTerminator]
  unfold lfWalkMismatch
  rw [ne_eq, not_not]
  by_cases hk0 : k = 0
  · subst hk0
    have hterm := terminatorPos_eq (textSequence K alphabet text) (fallbackCode K alphabet)
      (by omega)
    obtain ⟨_, h2⟩ := locate_suffixRow (textSequence K alphabet text) (fallbackCode K alphabet)
      0 (by omega)
    simp only [lfImage, Function.iterate_zero, id_eq, lfWalkReference, if_true, textVerifyEnv,
      hterm, h2, storedSymbol]
  · have himg := textEnv_lfImage K alphabet text a b drs reversiblySorted sampled hT k
      (by omega) (by omega)
    obtain ⟨_, h2⟩ := locate_suffixRow (textSequence K alphabet text) (fallbackCode K alphabet)
      (text.length + 1 - k) (by omega)
    have hne : text.length + 1 - k ≠ 0 := by omega
    have hidx : text.length + 1 - k - 1 = text.length + 1 - 1 - k := by omega
    rw [himg]
    simp only [lfWalkReference, if_neg hk0, textVerifyEnv, textReference, h2, storedSymbol,
      if_neg hne, hidx]

/-! ## The claims -/

/-- C1: for every text `T` (a sequence of codes below the terminator code)
indexed by the BWT sequence that `newBWTSeq` builds over the rank index
holding the BWT of `T` plus terminator, and every non-empty query of regular
symbols whose code sequence is a substring of `T`, `BWTSeqMatchCount` returns
a count of at least 1. -/
theorem C1_substring_is_counted (K : Config) (alphabet : MRAEnc) (T : List Nat) (a b : Nat)
    (drs : List Nat) (query : List Nat) (hr : 1 < MRAEncGetNumRanges alphabet)
    (hT : ∀ x ∈ T, x < MRAEncGetSize alphabet)
    (hf : fallbackCode K alphabet < MRAEncGetSize alphabet)
    (hM : T.length + 1 < K.seqposMod) (hne : query ≠ [])
    (hq : ∀ q ∈ query,
      MRAEncMapSymbol (terminatedAlphabet K alphabet) q < MRAEncGetSize alphabet ∧
      MRAEncMapSymbol (terminatedAlphabet K alphabet) q ≠ fallbackCode K alphabet)
    (hsub : query.map (MRAEncMapSymbol (terminatedAlphabet K alphabet)) <:+: T) :
    ∃ r bwtSeq n,
      newBWTSeq K (encIdxSeqOfSymbols
        (bwtStored (MRAEncGetSize alphabet + 1) (fallbackCode K alphabet) T) a b) alphabet drs
        = .ok r ∧
      r.bwtSeq = some bwtSeq ∧
      BWTSeqMatchCount K bwtSeq query query.length = .ok n ∧ 1 ≤ n := by
  refine ⟨_, _, _, newBWTSeq_text K alphabet T a b drs hr hT hf hM, rfl,
    matchCount_text K alphabet T a b drs query hne hT hf hM hq, ?_⟩
  have hmapne : query.map (MRAEncMapSymbol (terminatedAlphabet K alphabet)) ≠ [] := by
    simpa using hne
  apply (occurrenceCount_pos_iff _ _ hmapne).mpr
  unfold withTerminator
  exact hsub.trans (List.infix_append' [] T _)

/-- C1 at the text `banana` and the query `ana`. -/
theorem C1_substring_is_counted_witness :
    ∃ r bwtSeq n,
      newBWTSeq bananaConfig (encIdxSeqOfSymbols
        (bwtStored (MRAEncGetSize bananaAlphabet + 1)
          (fallbackCode bananaConfig bananaAlphabet) bananaText) 0 0) bananaAlphabet []
        = .ok r ∧
      r.bwtSeq = some bwtSeq ∧
      BWTSeqMatchCount bananaConfig bwtSeq anaQuery anaQuery.length = .ok n ∧ 1 ≤ n :=
  C1_substring_is_counted bananaConfig bananaAlphabet bananaText 0 0 [] anaQuery
    (by decide) (by decide) (by decide) (by decide) (by decide) (by decide)
    ⟨[1], [2, 0], rfl⟩

/-- C2: for every indexed text `T` and every non-empty query of regular
symbols whose code sequence does not occur in `T`, `BWTSeqMatchCount`
returns 0. -/
theorem C2_absent_is_not_counted (K : Config) (alphabet : MRAEnc) (T : List Nat) (a b : Nat)
    (drs : List Nat) (query : List Nat) (hr : 1 < MRAEncGetNumRanges alphabet)
    (hT : ∀ x ∈ T, x < MRAEncGetSize alphabet)
    (hf : fallbackCode K alphabet < MRAEncGetSize alphabet)
    (hM : T.length + 1 < K.seqposMod) (hne : query ≠ [])
    (hq : ∀ q ∈ query,
      MRAEncMapSymbol (terminatedAlphabet K alphabet) q < MRAEncGetSize alphabet ∧
      MRAEncMapSymbol (terminatedAlphabet K alphabet) q ≠ fallbackCode K alphabet)
    (habs : ¬ query.map (MRAEncMapSymbol (terminatedAlphabet K alphabet)) <:+: T) :
    ∃ r bwtSeq,
      newBWTSeq K (encIdxSeqOfSymbols
        (bwtStored (MRAEncGetSize alphabet + 1) (fallbackCode K alphabet) T) a b) alphabet drs
        = .ok r ∧
      r.bwtSeq = some bwtSeq ∧
      BWTSeqMatchCount K bwtSeq query query.length = .ok 0 := by
  refine ⟨_, _, newBWTSeq_text K alphabet T a b drs hr hT hf hM, rfl, ?_⟩
  rw [matchCount_text K alphabet T a b drs query hne hT hf hM hq]
  have hmapne : query.map (MRAEncMapSymbol (terminatedAlphabet K alphabet)) ≠ [] := by
    simpa using hne
  have hterm : MRAEncGetSize alphabet + 1 - 1
      ∉ query.map (MRAEncMapSymbol (terminatedAlphabet K alphabet)) := by
    intro hmem
    obtain ⟨q, hqm, he⟩ := List.mem_map.mp hmem
    have := (hq q hqm).1
    omega
  have hnot : ¬ 0 < occurrenceCount
      (query.map (MRAEncMapSymbol (terminatedAlphabet K alphabet)))
      (withTerminator (MRAEncGetSize alphabet + 1) T) := by
    rw [occurrenceCount_pos_iff _ _ hmapne]
    unfold withTerminator
    rw [infix_append_terminator _ _ _ hmapne hterm]
    exact habs
  have h0 : occurrenceCount (query.map (MRAEncMapSymbol (terminatedAlphabet K alphabet)))
      (withTerminator (MRAEncGetSize alphabet + 1) T) = 0 := by omega
  rw [h0]

/-- C2 at the text `banana` and the query `nab`. -/
theorem C2_absent_is_not_counted_witness :
    ∃ r bwtSeq,
      newBWTSeq bananaConfig (encIdxSeqOfSymbols
        (bwtStored (MRAEncGetSize bananaAlphabet + 1)
          (fallbackCode bananaConfig bananaAlphabet) bananaText) 0 0) bananaAlphabet []
        = .ok r ∧
      r.bwtSeq = some bwtSeq ∧
      BWTSeqMatchCount bananaConfig bwtSeq [110, 97, 98] [110, 97, 98].length = .ok 0 :=
  C2_absent_is_not_counted bananaConfig bananaAlphabet bananaText 0 0 [] [110, 97, 98]
    (by decide) (by decide) (by decide) (by decide) (by decide) (by decide) (by decide)

/-- C3: for every BWT sequence whose table has `alphabetSize + 1`
non-decreasing entries and whose rank is monotone in the position, and every
query of length at least 1 over symbols of the alphabet whose sums stay in
the range of `Seqpos`, `getMatchBound` returns the interval of the
specification: the slot of the code of the last character, narrowed by each
preceding character taken right to left. -/
theorem C3_getMatchBound_is_narrowedBound (K : Config) (bwtSeq : BWTSeq) (query : List Nat)
    (hne : query ≠ [])
    (hlen : bwtSeq.count.length = bwtSeq.alphabetSize + 1)
    (hcount : ∀ i, i < bwtSeq.alphabetSize →
      bwtSeq.count.getD i 0 ≤ bwtSeq.count.getD (i + 1) 0)
    (hrank : ∀ c p q, p ≤ q →
      EISSymTransformedRank bwtSeq.seqIdx c p ≤ EISSymTransformedRank bwtSeq.seqIdx c q)
    (hq : ∀ q ∈ query, MRAEncMapSymbol bwtSeq.alphabet q < bwtSeq.alphabetSize)
    (hwrap : ∀ q ∈ query, ∀ p, bwtSeq.count.getD (MRAEncMapSymbol bwtSeq.alphabet q) 0
      + EISSymTransformedRank bwtSeq.seqIdx (MRAEncMapSymbol bwtSeq.alphabet q) p
      < K.seqposMod) :
    getMatchBound K bwtSeq query query.length = .ok (narrowedBound bwtSeq query) :=
  getMatchBound_eq K bwtSeq query hne ⟨hlen, hcount, hrank, hq, hwrap⟩

/-- C3 at the index of `banana` and the query `ana`. -/
theorem C3_getMatchBound_is_narrowedBound_witness :
    getMatchBound bananaConfig
        (builtBWTSeq bananaConfig bananaAlphabet (bwtStored 5 3 bananaText) 0 0 [])
        anaQuery anaQuery.length
      = .ok (narrowedBound
          (builtBWTSeq bananaConfig bananaAlphabet (bwtStored 5 3 bananaText) 0 0 [])
          anaQuery) :=
  C3_getMatchBound_is_narrowedBound bananaConfig
    (builtBWTSeq bananaConfig bananaAlphabet (bwtStored 5 3 bananaText) 0 0 []) anaQuery
    (by decide) (by decide)
    (searchReady_built bananaConfig bananaAlphabet (bwtStored 5 3 bananaText) 0 0 [] anaQuery
      (by decide) (by decide) (by decide) (by decide)).count_mono
    (searchReady_built bananaConfig bananaAlphabet (bwtStored 5 3 bananaText) 0 0 [] anaQuery
      (by decide) (by decide) (by decide) (by decide)).rank_mono
    (by decide)
    (searchReady_built bananaConfig bananaAlphabet (bwtStored 5 3 bananaText) 0 0 [] anaQuery
      (by decide) (by decide) (by decide) (by decide)).no_wrap

/-- C5: on the index built over `banana` plus terminator, the query `ana` is
counted twice, and the two SA-coordinates of its match bound are the rows of
the suffixes starting at the text positions 1 and 3. -/
theorem C5_banana_ana :
    ∃ r bwtSeq m,
      newBWTSeq bananaConfig (encIdxSeqOfSymbols (bwtStored 5 3 bananaText) 0 0)
        bananaAlphabet [] = .ok r ∧
      r.bwtSeq = some bwtSeq ∧
      BWTSeqMatchCount bananaConfig bwtSeq anaQuery 3 = .ok 2 ∧
      getMatchBound bananaConfig bwtSeq anaQuery 3 = .ok m ∧
      m.end_ = m.start + 2 ∧
      (suffixArray (withTerminator 5 bananaText))[m.start]? = some 1 ∧
      (suffixArray (withTerminator 5 bananaText))[m.start + 1]? = some 3 :=
  ⟨_, _, _, rfl, rfl, rfl, rfl, rfl, rfl, rfl⟩

/-- C6: for every rank index and alphabet that meet the conditions of a
successful construction (every stored code is below `alphabetSize - 1`, the
fallback code occurs, the alphabet has a range 1, the length is a `Seqpos`
and the table has `alphabetSize + 1` entries), `initBWTSeqFromEncSeqIdx`
returns 1 with no assertion failing, and the table satisfies `count[0] == 0`
and `count[alphabetSize] == EISLength(seqIdx)`. -/
theorem C6_count_first_and_last (K : Config) (alphabet : MRAEnc) (syms : List Nat) (a b : Nat)
    (counts drs : List Nat) (hr : 1 < MRAEncGetNumRanges alphabet)
    (hL : ∀ x ∈ syms, x < MRAEncGetSize alphabet) (hf : fallbackCode K alphabet ∈ syms)
    (hM : syms.length < K.seqposMod) (hlen : counts.length = MRAEncGetSize alphabet + 1 + 1) :
    ∃ bwtSeq alphabet1,
      initBWTSeqFromEncSeqIdx K (encIdxSeqOfSymbols syms a b) alphabet counts drs
        = .ok (some bwtSeq, alphabet1) ∧
      bwtSeq.alphabetSize = MRAEncGetSize alphabet + 1 ∧
      bwtSeq.count.length = bwtSeq.alphabetSize + 1 ∧
      bwtSeq.count[0]? = some 0 ∧
      bwtSeq.count[bwtSeq.alphabetSize]? = some (EISLength (encIdxSeqOfSymbols syms a b)) := by
  have hfσ := hL _ hf
  obtain ⟨_, hl2⟩ := countBelow_last (MRAEncGetSize alphabet + 1) (fallbackCode K alphabet)
    syms (by omega) hf (by simpa using hL)
  refine ⟨_, _, init_stored K alphabet syms a b counts drs hr hL hf hM hlen, rfl, ?_, ?_, ?_⟩
  · simp [builtBWTSeq]
  · simp [builtBWTSeq, countBelow]
  · simp only [builtBWTSeq]
    rw [List.getElem?_map, List.getElem?_range (by omega)]
    simp only [Option.map_some', hl2]
    rfl

/-- C6 at the stored BWT of `banana`. -/
theorem C6_count_first_and_last_witness :
    ∃ bwtSeq alphabet1,
      initBWTSeqFromEncSeqIdx bananaConfig (encIdxSeqOfSymbols (bwtStored 5 3 bananaText) 0 0)
        bananaAlphabet (List.replicate 6 0) [] = .ok (some bwtSeq, alphabet1) ∧
      bwtSeq.alphabetSize = MRAEncGetSize bananaAlphabet + 1 ∧
      bwtSeq.count.length = bwtSeq.alphabetSize + 1 ∧
      bwtSeq.count[0]? = some 0 ∧
      bwtSeq.count[bwtSeq.alphabetSize]?
        = some (EISLength (encIdxSeqOfSymbols (bwtStored 5 3 bananaText) 0 0)) :=
  C6_count_first_and_last bananaConfig bananaAlphabet (bwtStored 5 3 bananaText) 0 0
    (List.replicate 6 0) [] (by decide) (by decide) (by decide) (by decide) (by decide)

/-- C7: after construction every entry `count[i]`, `i` in `0..alphabetSize`,
is the number of positions whose true code is strictly less than `i`, the one
position that holds the terminator being counted with the code
`alphabetSize - 1` instead of the fallback code: the slot of the fallback
code has width `rank(fallback, len) - 1`, the last slot has width 1, and
every other slot `i` has width `rank(i, len)`. -/
theorem C7_count_entries (K : Config) (alphabet : MRAEnc) (syms : List Nat) (a b : Nat)
    (counts drs : List Nat) (hr : 1 < MRAEncGetNumRanges alphabet)
    (hL : ∀ x ∈ syms, x < MRAEncGetSize alphabet) (hf : fallbackCode K alphabet ∈ syms)
    (hM : syms.length < K.seqposMod) (hlen : counts.length = MRAEncGetSize alphabet + 1 + 1) :
    ∃ bwtSeq alphabet1,
      initBWTSeqFromEncSeqIdx K (encIdxSeqOfSymbols syms a b) alphabet counts drs
        = .ok (some bwtSeq, alphabet1) ∧
      (∀ i, i ≤ bwtSeq.alphabetSize → bwtSeq.count[i]? = some
        ((syms.erase bwtSeq.bwtTerminatorFallback ++ [bwtSeq.alphabetSize - 1]).countP
          (fun x => decide (x < i)))) ∧
      bwtSeq.count.getD (bwtSeq.bwtTerminatorFallback + 1) 0 + 1
        = bwtSeq.count.getD bwtSeq.bwtTerminatorFallback 0
          + EISSymTransformedRank bwtSeq.seqIdx bwtSeq.bwtTerminatorFallback
              (EISLength bwtSeq.seqIdx) ∧
      bwtSeq.count.getD bwtSeq.alphabetSize 0
        = bwtSeq.count.getD (bwtSeq.alphabetSize - 1) 0 + 1 ∧
      ∀ i, i < bwtSeq.alphabetSize - 1 → i ≠ bwtSeq.bwtTerminatorFallback →
        bwtSeq.count.getD (i + 1) 0
          = bwtSeq.count.getD i 0
            + EISSymTransformedRank bwtSeq.seqIdx i (EISLength bwtSeq.seqIdx) := by
  have hfσ := hL _ hf
  have hL' : ∀ x ∈ syms, x < MRAEncGetSize alphabet + 1 - 1 := by simpa using hL
  obtain ⟨hl1, hl2⟩ := countBelow_last (MRAEncGetSize alphabet + 1) (fallbackCode K alphabet)
    syms (by omega) hf hL'
  refine ⟨_, _, init_stored K alphabet syms a b counts drs hr hL hf hM hlen, ?_, ?_, ?_, ?_⟩
  · intro i hi
    simp only [builtBWTSeq] at hi ⊢
    rw [List.getElem?_map, List.getElem?_range (by omega)]
    rfl
  · simp only [builtBWTSeq]
    rw [getD_map_range _ _ _ (by omega), getD_map_range _ _ _ (by omega), rank_full,
      count_erase_fallback syms _ _ hf, if_pos rfl,
      countBelow_succ _ _ _ _ (by simp only [Nat.add_sub_cancel]; omega)]
    omega
  · simp only [builtBWTSeq, Nat.add_sub_cancel]
    rw [getD_map_range _ _ _ (by omega), getD_map_range _ _ _ (by omega), hl2]
    simp only [Nat.add_sub_cancel] at hl1
    omega
  · intro i hi hne
    simp only [builtBWTSeq, Nat.add_sub_cancel] at hi hne ⊢
    rw [getD_map_range _ _ _ (by omega), getD_map_range _ _ _ (by omega), rank_full,
      count_erase_fallback syms _ _ hf, if_neg hne, add_zero,
      countBelow_succ _ _ _ _ (by simp only [Nat.add_sub_cancel]; omega)]

/-- C7 at the stored BWT of `banana`. -/
theorem C7_count_entries_witness :
    ∃ bwtSeq alphabet1,
      initBWTSeqFromEncSeqIdx bananaConfig (encIdxSeqOfSymbols (bwtStored 5 3 bananaText) 0 0)
        bananaAlphabet (List.replicate 6 0) [] = .ok (some bwtSeq, alphabet1) ∧
      (∀ i, i ≤ bwtSeq.alphabetSize → bwtSeq.count[i]? = some
        (((bwtStored 5 3 bananaText).erase bwtSeq.bwtTerminatorFallback
            ++ [bwtSeq.alphabetSize - 1]).countP (fun x => decide (x < i)))) ∧
      bwtSeq.count.getD (bwtSeq.bwtTerminatorFallback + 1) 0 + 1
        = bwtSeq.count.getD bwtSeq.bwtTerminatorFallback 0
          + EISSymTransformedRank bwtSeq.seqIdx bwtSeq.bwtTerminatorFallback
              (EISLength bwtSeq.seqIdx) ∧
      bwtSeq.count.getD bwtSeq.alphabetSize 0
        = bwtSeq.count.getD (bwtSeq.alphabetSize - 1) 0 + 1 ∧
      ∀ i, i < bwtSeq.alphabetSize - 1 → i ≠ bwtSeq.bwtTerminatorFallback →
        bwtSeq.count.getD (i + 1) 0
          = bwtSeq.count.getD i 0
            + EISSymTransformedRank bwtSeq.seqIdx i (EISLength bwtSeq.seqIdx) :=
  C7_count_entries bananaConfig bananaAlphabet (bwtStored 5 3 bananaText) 0 0
    (List.replicate 6 0) [] (by decide) (by decide) (by decide) (by decide) (by decide)

/-- C8, counterexample: over the empty sequence, which does not hold the
fallback code 3, `initBWTSeqFromEncSeqIdx` returns 1: the subtraction of 1 at
the fallback code wraps to `2^32 - 1`, both assertions hold, and the table
`[0, 0, 0, 0, 2^32 - 1, 0]` is not non-decreasing, `count[4] > count[5]`. -/
theorem C8_count_wraps_without_fallback :
    ∃ bwtSeq alphabet1,
      initBWTSeqFromEncSeqIdx bananaConfig (encIdxSeqOfSymbols [] 0 0) bananaAlphabet
        (List.replicate 6 0) [] = .ok (some bwtSeq, alphabet1) ∧
      bwtSeq.alphabetSize = 5 ∧ bwtSeq.bwtTerminatorFallback = 3 ∧
      bwtSeq.count = [0, 0, 0, 0, 4294967295, 0] ∧
      ¬ bwtSeq.count.getD 4 0 ≤ bwtSeq.count.getD (4 + 1) 0 :=
  ⟨_, _, rfl, rfl, rfl, rfl, by decide⟩

/-- C8, amended: after a successful construction over a sequence that holds
the fallback code and otherwise codes of the input alphabet, the `count` table
is non-decreasing, `count[i] <= count[i + 1]` for every `i < alphabetSize`; in
particular the entry after the fallback code is not below the entry of the
fallback code. -/
theorem C8_count_non_decreasing (K : Config) (alphabet : MRAEnc) (syms : List Nat) (a b : Nat)
    (counts drs : List Nat) (hr : 1 < MRAEncGetNumRanges alphabet)
    (hL : ∀ x ∈ syms, x < MRAEncGetSize alphabet) (hf : fallbackCode K alphabet ∈ syms)
    (hM : syms.length < K.seqposMod) (hlen : counts.length = MRAEncGetSize alphabet + 1 + 1) :
    ∃ bwtSeq alphabet1,
      initBWTSeqFromEncSeqIdx K (encIdxSeqOfSymbols syms a b) alphabet counts drs
        = .ok (some bwtSeq, alphabet1) ∧
      bwtSeq.count.length = bwtSeq.alphabetSize + 1 ∧
      (∀ i, i < bwtSeq.alphabetSize → bwtSeq.count.getD i 0 ≤ bwtSeq.count.getD (i + 1) 0) ∧
      bwtSeq.count.getD bwtSeq.bwtTerminatorFallback 0
        ≤ bwtSeq.count.getD (bwtSeq.bwtTerminatorFallback + 1) 0 := by
  have hfσ := hL _ hf
  have hready := searchReady_built K alphabet syms a b drs [] hL hf hM (by simp)
  refine ⟨_, _, init_stored K alphabet syms a b counts drs hr hL hf hM hlen,
    hready.length_count, hready.count_mono, ?_⟩
  apply hready.count_mono
  simp only [builtBWTSeq]
  omega

/-- C8 at the stored BWT of `banana`. -/
theorem C8_count_non_decreasing_witness :
    ∃ bwtSeq alphabet1,
      initBWTSeqFromEncSeqIdx bananaConfig (encIdxSeqOfSymbols (bwtStored 5 3 bananaText) 0 0)
        bananaAlphabet (List.replicate 6 0) [] = .ok (some bwtSeq, alphabet1) ∧
      bwtSeq.count.length = bwtSeq.alphabetSize + 1 ∧
      (∀ i, i < bwtSeq.alphabetSize → bwtSeq.count.getD i 0 ≤ bwtSeq.count.getD (i + 1) 0) ∧
      bwtSeq.count.getD bwtSeq.bwtTerminatorFallback 0
        ≤ bwtSeq.count.getD (bwtSeq.bwtTerminatorFallback + 1) 0 :=
  C8_count_non_decreasing bananaConfig bananaAlphabet (bwtStored 5 3 bananaText) 0 0
    (List.replicate 6 0) [] (by decide) (by decide) (by decide) (by decide) (by decide)

/-- C9: for every BWT sequence with a non-decreasing `count` table of
`alphabetSize + 1` entries and a rank that is monotone in the position, and
every query of length at least 1 over symbols of the alphabet whose sums stay
in the range of `Seqpos`, `getMatchBound` returns a bound with
`start <= end`; `BWTSeqMatchCount` returns `end - start` through its second
branch, and so does `EMINumMatchesTotal` for every iterator initialised with
the query. -/
theorem C9_bound_is_ordered (K : Config) (bwtSeq : BWTSeq) (query : List Nat)
    (hne : query ≠ [])
    (hlen : bwtSeq.count.length = bwtSeq.alphabetSize + 1)
    (hcount : ∀ i, i < bwtSeq.alphabetSize →
      bwtSeq.count.getD i 0 ≤ bwtSeq.count.getD (i + 1) 0)
    (hrank : ∀ c p q, p ≤ q →
      EISSymTransformedRank bwtSeq.seqIdx c p ≤ EISSymTransformedRank bwtSeq.seqIdx c q)
    (hq : ∀ q ∈ query, MRAEncMapSymbol bwtSeq.alphabet q < bwtSeq.alphabetSize)
    (hwrap : ∀ q ∈ query, ∀ p, bwtSeq.count.getD (MRAEncMapSymbol bwtSeq.alphabet q) 0
      + EISSymTransformedRank bwtSeq.seqIdx (MRAEncMapSymbol bwtSeq.alphabet q) p
      < K.seqposMod) :
    ∃ m, getMatchBound K bwtSeq query query.length = .ok m ∧
      m.start ≤ m.end_ ∧ ¬ m.end_ < m.start ∧ ¬ m.start > m.end_ ∧
      BWTSeqMatchCount K bwtSeq query query.length = .ok (m.end_ - m.start) ∧
      ∀ iter, initEMIterator K bwtSeq query query.length = .ok (some iter) →
        iter.bounds = m ∧ EMINumMatchesTotal iter = m.end_ - m.start := by
  have hready : SearchReady K bwtSeq query := ⟨hlen, hcount, hrank, hq, hwrap⟩
  have hbound := getMatchBound_eq K bwtSeq query hne hready
  have hle := narrowedBound_le K bwtSeq query hready
  refine ⟨narrowedBound bwtSeq query, hbound, hle, by omega, by omega, ?_, ?_⟩
  · simp only [BWTSeqMatchCount, hbound, bind, Except.bind, pure, Except.pure,
      if_neg (Nat.not_lt.mpr hle)]
  · intro iter hiter
    unfold initEMIterator at hiter
    split at hiter
    · simp at hiter
    · simp only [hbound, bind, Except.bind, pure, Except.pure, Except.ok.injEq,
        Option.some.injEq] at hiter
      subst hiter
      refine ⟨rfl, ?_⟩
      simp only [EMINumMatchesTotal, gt_iff_lt, if_neg (Nat.not_lt.mpr hle)]

/-- C9 at the index of `banana` with locate information and the query `ana`. -/
theorem C9_bound_is_ordered_witness :
    ∃ m, getMatchBound bananaConfig
        (builtBWTSeq bananaConfig bananaAlphabet (bwtStored 5 3 bananaText) 1 0 [])
        anaQuery anaQuery.length = .ok m ∧
      m.start ≤ m.end_ ∧ ¬ m.end_ < m.start ∧ ¬ m.start > m.end_ ∧
      BWTSeqMatchCount bananaConfig
        (builtBWTSeq bananaConfig bananaAlphabet (bwtStored 5 3 bananaText) 1 0 [])
        anaQuery anaQuery.length = .ok (m.end_ - m.start) ∧
      ∀ iter, initEMIterator bananaConfig
          (builtBWTSeq bananaConfig bananaAlphabet (bwtStored 5 3 bananaText) 1 0 [])
          anaQuery anaQuery.length = .ok (some iter) →
        iter.bounds = m ∧ EMINumMatchesTotal iter = m.end_ - m.start :=
  C9_bound_is_ordered bananaConfig
    (builtBWTSeq bananaConfig bananaAlphabet (bwtStored 5 3 bananaText) 1 0 []) anaQuery
    (by decide) (by decide)
    (searchReady_built bananaConfig bananaAlphabet (bwtStored 5 3 bananaText) 1 0 [] anaQuery
      (by decide) (by decide) (by decide) (by decide)).count_mono
    (searchReady_built bananaConfig bananaAlphabet (bwtStored 5 3 bananaText) 1 0 [] anaQuery
      (by decide) (by decide) (by decide) (by decide)).rank_mono
    (by decide)
    (searchReady_built bananaConfig bananaAlphabet (bwtStored 5 3 bananaText) 1 0 [] anaQuery
      (by decide) (by decide) (by decide) (by decide)).no_wrap

/-- C10: `newBWTSeq` returns no object exactly when the input alphabet is
empty; in that case the caller's alphabet has not had the terminator inserted
and its rank index is as it was. -/
theorem C10_null_iff_empty_alphabet (K : Config) (seqIdx : encIdxSeq) (alphabet : MRAEnc)
    (drs : List Nat) :
    (∀ r, newBWTSeq K seqIdx alphabet drs = .ok r →
      (r.bwtSeq = none ↔ MRAEncGetSize alphabet = 0)) ∧
    (MRAEncGetSize alphabet = 0 →
      newBWTSeq K seqIdx alphabet drs
        = .ok { bwtSeq := none, alphabet := alphabet, seqIdx := seqIdx }) := by
  constructor
  · intro r hr
    cases hI : initBWTSeqFromEncSeqIdx K seqIdx alphabet
        (List.replicate (MRAEncGetSize alphabet + 1 + 1) 0) drs with
    | error e =>
      simp only [newBWTSeq, hI, bind, Except.bind] at hr
      simp at hr
    | ok v =>
      obtain ⟨r0, a0⟩ := v
      have hiff := init_returns_none_iff K seqIdx alphabet _ drs r0 a0 hI
      simp only [newBWTSeq, hI, bind, Except.bind, pure, Except.pure] at hr
      cases r0 with
      | none =>
        simp only [Except.ok.injEq] at hr
        subst hr
        simpa using hiff
      | some bwtSeq =>
        simp only [Except.ok.injEq] at hr
        subst hr
        simpa using hiff
  · intro h0
    simp only [newBWTSeq, initBWTSeqFromEncSeqIdx, if_pos h0, bind, Except.bind, pure,
      Except.pure]

/-- C11: for every BWT sequence with locate support and every query,
`BWTSeqMatchCount` and `EMINumMatchesTotal` of the iterator initialised with
the query return the same number: `end - start` of the match bound, or 0 if
the bound is inverted; a search that leaves the tables does so in both. -/
theorem C11_matchCount_eq_matchesTotal (K : Config) (bwtSeq : BWTSeq) (query : List Nat)
    (queryLen : Nat) (hloc : bwtSeq.locateSampleInterval ≠ 0) :
    (∀ m, getMatchBound K bwtSeq query queryLen = .ok m →
      ∃ iter, initEMIterator K bwtSeq query queryLen = .ok (some iter) ∧
        iter.bounds = m ∧
        BWTSeqMatchCount K bwtSeq query queryLen = .ok (EMINumMatchesTotal iter) ∧
        EMINumMatchesTotal iter = (if m.end_ < m.start then 0 else m.end_ - m.start)) ∧
    (∀ e, getMatchBound K bwtSeq query queryLen = .error e →
      BWTSeqMatchCount K bwtSeq query queryLen = .error e ∧
      initEMIterator K bwtSeq query queryLen = .error e) := by
  constructor
  · intro m hm
    refine ⟨{ bounds := m, nextMatchBWTPos := m.start, extBits := 0 }, ?_, rfl, ?_, ?_⟩
    · simp only [initEMIterator, if_neg hloc, hm, bind, Except.bind, pure, Except.pure]
    · simp only [BWTSeqMatchCount, hm, bind, Except.bind, pure, Except.pure,
        EMINumMatchesTotal, gt_iff_lt]
      split <;> rfl
    · simp only [EMINumMatchesTotal, gt_iff_lt]
  · intro e he
    constructor
    · simp only [BWTSeqMatchCount, he, bind, Except.bind]
    · simp only [initEMIterator, if_neg hloc, he, bind, Except.bind]

/-- C11 at the index of `banana` with locate information and the query
`ana`. -/
theorem C11_matchCount_eq_matchesTotal_witness :
    (∀ m, getMatchBound bananaConfig
        (builtBWTSeq bananaConfig bananaAlphabet (bwtStored 5 3 bananaText) 1 0 [])
        anaQuery 3 = .ok m →
      ∃ iter, initEMIterator bananaConfig
          (builtBWTSeq bananaConfig bananaAlphabet (bwtStored 5 3 bananaText) 1 0 [])
          anaQuery 3 = .ok (some iter) ∧
        iter.bounds = m ∧
        BWTSeqMatchCount bananaConfig
          (builtBWTSeq bananaConfig bananaAlphabet (bwtStored 5 3 bananaText) 1 0 [])
          anaQuery 3 = .ok (EMINumMatchesTotal iter) ∧
        EMINumMatchesTotal iter = (if m.end_ < m.start then 0 else m.end_ - m.start)) ∧
    (∀ e, getMatchBound bananaConfig
        (builtBWTSeq bananaConfig bananaAlphabet (bwtStored 5 3 bananaText) 1 0 [])
        anaQuery 3 = .error e →
      BWTSeqMatchCount bananaConfig
        (builtBWTSeq bananaConfig bananaAlphabet (bwtStored 5 3 bananaText) 1 0 [])
        anaQuery 3 = .error e ∧
      initEMIterator bananaConfig
        (builtBWTSeq bananaConfig bananaAlphabet (bwtStored 5 3 bananaText) 1 0 [])
        anaQuery 3 = .error e) :=
  C11_matchCount_eq_matchesTotal bananaConfig
    (builtBWTSeq bananaConfig bananaAlphabet (bwtStored 5 3 bananaText) 1 0 []) anaQuery 3
    (by decide)

/-- C12: on every index built by `newBWTSeq`, for every non-empty query `Q`
and every character `c` of the alphabet, the width `end - start` of
`getMatchBound(c·Q)` is at most the width of `getMatchBound(Q)`. -/
theorem C12_prepending_does_not_widen (K : Config) (alphabet : MRAEnc) (syms : List Nat)
    (a b : Nat) (drs : List Nat) (c : Nat) (query : List Nat)
    (hr : 1 < MRAEncGetNumRanges alphabet)
    (hL : ∀ x ∈ syms, x < MRAEncGetSize alphabet) (hf : fallbackCode K alphabet ∈ syms)
    (hM : syms.length < K.seqposMod) (hne : query ≠ [])
    (hq : ∀ q ∈ c :: query,
      MRAEncMapSymbol (terminatedAlphabet K alphabet) q < MRAEncGetSize alphabet + 1) :
    ∃ r bwtSeq m1 m2,
      newBWTSeq K (encIdxSeqOfSymbols syms a b) alphabet drs = .ok r ∧
      r.bwtSeq = some bwtSeq ∧
      getMatchBound K bwtSeq query query.length = .ok m1 ∧
      getMatchBound K bwtSeq (c :: query) (c :: query).length = .ok m2 ∧
      m2.end_ - m2.start ≤ m1.end_ - m1.start := by
  have hready1 := searchReady_built K alphabet syms a b drs query hL hf hM
    (fun q hmem => hq q (List.mem_cons_of_mem _ hmem))
  have hready2 := searchReady_built K alphabet syms a b drs (c :: query) hL hf hM hq
  refine ⟨_, _, _, _, newBWTSeq_built K alphabet syms a b drs hr hL hf hM, rfl,
    getMatchBound_eq K _ query hne hready1,
    getMatchBound_eq K _ (c :: query) (by simp) hready2, ?_⟩
  rw [narrowedBound_cons _ _ _ hne]
  exact narrowStep_width_le K alphabet syms a b drs _ c (narrowedBound_le K _ query hready1)

/-- C12 at the index of `banana`, the query `na` and the character `a`. -/
theorem C12_prepending_does_not_widen_witness :
    ∃ r bwtSeq m1 m2,
      newBWTSeq bananaConfig (encIdxSeqOfSymbols (bwtStored 5 3 bananaText) 0 0)
        bananaAlphabet [] = .ok r ∧
      r.bwtSeq = some bwtSeq ∧
      getMatchBound bananaConfig bwtSeq [110, 97] [110, 97].length = .ok m1 ∧
      getMatchBound bananaConfig bwtSeq (97 :: [110, 97]) (97 :: [110, 97]).length = .ok m2 ∧
      m2.end_ - m2.start ≤ m1.end_ - m1.start :=
  C12_prepending_does_not_widen bananaConfig bananaAlphabet (bwtStored 5 3 bananaText) 0 0 []
    97 [110, 97] (by decide) (by decide) (by decide) (by decide) (by decide) (by decide)


/-- C13: for every indexed text `T`, every non-empty query `Q` of regular
symbols and every SA-coordinate `j` inside `getMatchBound(Q)`, with `p` the
text position located for `j`: the coded query stands in the text at `p`, and
searching again for the substring of the text of the length of `Q` starting
at `p` returns a bound that contains `j`. -/
theorem C13_located_match_round_trip (K : Config) (alphabet : MRAEnc) (T : List Nat)
    (a b : Nat) (drs : List Nat) (query : List Nat) (hr : 1 < MRAEncGetNumRanges alphabet)
    (hT : ∀ x ∈ T, x < MRAEncGetSize alphabet)
    (hf : fallbackCode K alphabet < MRAEncGetSize alphabet)
    (hM : T.length + 1 < K.seqposMod) (hne : query ≠ [])
    (hq : ∀ q ∈ query,
      MRAEncMapSymbol (terminatedAlphabet K alphabet) q < MRAEncGetSize alphabet ∧
      MRAEncMapSymbol (terminatedAlphabet K alphabet) q ≠ fallbackCode K alphabet) :
    ∃ r bwtSeq m,
      newBWTSeq K (encIdxSeqOfSymbols
        (bwtStored (MRAEncGetSize alphabet + 1) (fallbackCode K alphabet) T) a b) alphabet drs
        = .ok r ∧
      r.bwtSeq = some bwtSeq ∧
      getMatchBound K bwtSeq query query.length = .ok m ∧
      ∀ j, m.start ≤ j → j < m.end_ →
        BWTSeqLocateMatch (withTerminator (MRAEncGetSize alphabet + 1) T) j + query.length
          ≤ T.length ∧
        (T.drop (BWTSeqLocateMatch (withTerminator (MRAEncGetSize alphabet + 1) T) j)).take
            query.length
          = query.map (MRAEncMapSymbol (terminatedAlphabet K alphabet)) ∧
        ∀ again : List Nat,
          again.map (MRAEncMapSymbol (terminatedAlphabet K alphabet))
            = (T.drop (BWTSeqLocateMatch (withTerminator (MRAEncGetSize alphabet + 1) T)
                j)).take query.length →
          ∃ m2, getMatchBound K bwtSeq again again.length = .ok m2 ∧
            m2.start ≤ j ∧ j < m2.end_ := by
  refine ⟨_, _, _, newBWTSeq_text K alphabet T a b drs hr hT hf hM, rfl,
    getMatchBound_text K alphabet T a b drs query hne hT hf hM hq, ?_⟩
  intro j hlo hhi
  have hmapne : query.map (MRAEncMapSymbol (terminatedAlphabet K alphabet)) ≠ [] := by
    simpa using hne
  have hpre := row_in_bound_startsWith _ _ _ j hmapne hlo hhi
  have hin := prefix_withTerminator (MRAEncGetSize alphabet + 1) T _ _ hmapne
    (by
      intro c hc
      obtain ⟨q, hqm, rfl⟩ := List.mem_map.mp hc
      have := (hq q hqm).1
      simp only [Nat.add_sub_cancel]
      omega)
    hpre
  rw [List.length_map] at hin
  refine ⟨hin.1, hin.2, ?_⟩
  intro again hagain
  rw [hin.2] at hagain
  have hne2 : again ≠ [] := by
    intro e
    rw [e, List.map_nil] at hagain
    exact hmapne hagain.symm
  have hq2 : ∀ q ∈ again,
      MRAEncMapSymbol (terminatedAlphabet K alphabet) q < MRAEncGetSize alphabet ∧
      MRAEncMapSymbol (terminatedAlphabet K alphabet) q ≠ fallbackCode K alphabet := by
    intro q hqm
    have hmem : MRAEncMapSymbol (terminatedAlphabet K alphabet) q
        ∈ query.map (MRAEncMapSymbol (terminatedAlphabet K alphabet)) := by
      rw [← hagain]
      exact List.mem_map_of_mem _ hqm
    obtain ⟨q0, hq0, he⟩ := List.mem_map.mp hmem
    rw [← he]
    exact hq q0 hq0
  refine ⟨_, getMatchBound_text K alphabet T a b drs again hne2 hT hf hM hq2, ?_, ?_⟩
  · rw [hagain]; exact hlo
  · rw [hagain]; exact hhi

/-- C13 at the text `banana` and the query `ana`. -/
theorem C13_located_match_round_trip_witness :
    ∃ r bwtSeq m,
      newBWTSeq bananaConfig (encIdxSeqOfSymbols
        (bwtStored (MRAEncGetSize bananaAlphabet + 1)
          (fallbackCode bananaConfig bananaAlphabet) bananaText) 0 0) bananaAlphabet []
        = .ok r ∧
      r.bwtSeq = some bwtSeq ∧
      getMatchBound bananaConfig bwtSeq anaQuery anaQuery.length = .ok m ∧
      ∀ j, m.start ≤ j → j < m.end_ →
        BWTSeqLocateMatch (withTerminator (MRAEncGetSize bananaAlphabet + 1) bananaText) j
          + anaQuery.length ≤ bananaText.length ∧
        (bananaText.drop (BWTSeqLocateMatch
            (withTerminator (MRAEncGetSize bananaAlphabet + 1) bananaText) j)).take
            anaQuery.length
          = anaQuery.map (MRAEncMapSymbol (terminatedAlphabet bananaConfig bananaAlphabet)) ∧
        ∀ again : List Nat,
          again.map (MRAEncMapSymbol (terminatedAlphabet bananaConfig bananaAlphabet))
            = (bananaText.drop (BWTSeqLocateMatch
                (withTerminator (MRAEncGetSize bananaAlphabet + 1) bananaText) j)).take
                anaQuery.length →
          ∃ m2, getMatchBound bananaConfig bwtSeq again again.length = .ok m2 ∧
            m2.start ≤ j ∧ j < m2.end_ :=
  C13_located_match_round_trip bananaConfig bananaAlphabet bananaText 0 0 [] anaQuery
    (by decide) (by decide) (by decide) (by decide) (by decide) (by decide)

/-- C14: with a lookup hint that has no effect on the rank returned, the
bound `getMatchBound` returns does not depend on the state of the hint: from
every state of the hint it is the bound determined by the count table, the
rank index and the query, and a second run from the state the first run left
behind returns the same bound. -/
theorem C14_bound_independent_of_hint (K : Config) (bwtSeq : BWTSeq) (R : EISHint)
    (query : List Nat) (queryLen : Nat)
    (hR : ∀ h c p, (R.lookup h c p).1 = EISSymTransformedRank bwtSeq.seqIdx c p) :
    (∀ hint, (getMatchBoundHint K bwtSeq R query queryLen hint).map Prod.fst
      = getMatchBound K bwtSeq query queryLen) ∧
    (∀ hint1 hint2, (getMatchBoundHint K bwtSeq R query queryLen hint1).map Prod.fst
      = (getMatchBoundHint K bwtSeq R query queryLen hint2).map Prod.fst) ∧
    (∀ hint0 m1 hint1, getMatchBoundHint K bwtSeq R query queryLen hint0 = .ok (m1, hint1) →
      ∃ hint2, getMatchBoundHint K bwtSeq R query queryLen hint1 = .ok (m1, hint2)) := by
  have h := getMatchBoundHint_fst K bwtSeq R query queryLen hR
  refine ⟨h, fun hint1 hint2 => by rw [h hint1, h hint2], ?_⟩
  intro hint0 m1 hint1 hrun
  have h0 := h hint0
  have h1 := h hint1
  rw [hrun] at h0
  rw [← h0] at h1
  cases hrun2 : getMatchBoundHint K bwtSeq R query queryLen hint1 with
  | error e => rw [hrun2] at h1; simp [Except.map] at h1
  | ok v =>
    rw [hrun2] at h1
    simp only [Except.map, Except.ok.injEq] at h1
    exact ⟨v.2, by rw [← h1]⟩

/-- C14 at the index of `banana`, the hint that counts lookups and the query
`ana`. -/
theorem C14_bound_independent_of_hint_witness :
    (∀ hint, (getMatchBoundHint bananaConfig
        (builtBWTSeq bananaConfig bananaAlphabet (bwtStored 5 3 bananaText) 1 0 [])
        bananaHint anaQuery 3 hint).map Prod.fst
      = getMatchBound bananaConfig
        (builtBWTSeq bananaConfig bananaAlphabet (bwtStored 5 3 bananaText) 1 0 [])
        anaQuery 3) ∧
    (∀ hint1 hint2, (getMatchBoundHint bananaConfig
        (builtBWTSeq bananaConfig bananaAlphabet (bwtStored 5 3 bananaText) 1 0 [])
        bananaHint anaQuery 3 hint1).map Prod.fst
      = (getMatchBoundHint bananaConfig
        (builtBWTSeq bananaConfig bananaAlphabet (bwtStored 5 3 bananaText) 1 0 [])
        bananaHint anaQuery 3 hint2).map Prod.fst) ∧
    (∀ hint0 m1 hint1, getMatchBoundHint bananaConfig
        (builtBWTSeq bananaConfig bananaAlphabet (bwtStored 5 3 bananaText) 1 0 [])
        bananaHint anaQuery 3 hint0 = .ok (m1, hint1) →
      ∃ hint2, getMatchBoundHint bananaConfig
        (builtBWTSeq bananaConfig bananaAlphabet (bwtStored 5 3 bananaText) 1 0 [])
        bananaHint anaQuery 3 hint1 = .ok (m1, hint2)) :=
  C14_bound_independent_of_hint bananaConfig
    (builtBWTSeq bananaConfig bananaAlphabet (bwtStored 5 3 bananaText) 1 0 [])
    bananaHint anaQuery 3 (fun _ _ _ => rfl)


/-- C15: `initEMIterator` and `newEMIterator` produce no iterator exactly
when the BWT sequence has `locateSampleInterval == 0`; with locate data the
iterator produced has the bounds that `getMatchBound` returns for the query
and its cursor `nextMatchBWTPos` is `bounds.start`. -/
theorem C15_initEMIterator_result (K : Config) (bwtSeq : BWTSeq) (query : List Nat)
    (queryLen : Nat) :
    newEMIterator K bwtSeq query queryLen = initEMIterator K bwtSeq query queryLen ∧
    (∀ r, initEMIterator K bwtSeq query queryLen = .ok r →
      (r = none ↔ bwtSeq.locateSampleInterval = 0)) ∧
    (bwtSeq.locateSampleInterval = 0 →
      initEMIterator K bwtSeq query queryLen = .ok none) ∧
    (∀ m, bwtSeq.locateSampleInterval ≠ 0 → getMatchBound K bwtSeq query queryLen = .ok m →
      ∃ iter, initEMIterator K bwtSeq query queryLen = .ok (some iter) ∧
        iter.bounds = m ∧ iter.nextMatchBWTPos = iter.bounds.start) := by
  refine ⟨?_, ?_, ?_, ?_⟩
  · unfold newEMIterator
    cases h : initEMIterator K bwtSeq query queryLen with
    | error e => rfl
    | ok r => cases r <;> rfl
  · intro r hr
    by_cases hloc : bwtSeq.locateSampleInterval = 0
    · simp only [initEMIterator, if_pos hloc, Except.ok.injEq] at hr
      simp [hloc, hr.symm]
    · simp only [initEMIterator, if_neg hloc, bind, Except.bind, pure, Except.pure] at hr
      cases hm : getMatchBound K bwtSeq query queryLen with
      | error e => rw [hm] at hr; simp at hr
      | ok m =>
        rw [hm] at hr
        simp only [Except.ok.injEq] at hr
        simp [hloc, hr.symm]
  · intro hloc
    simp only [initEMIterator, if_pos hloc]
  · intro m hloc hm
    refine ⟨{ bounds := m, nextMatchBWTPos := m.start, extBits := 0 }, ?_, rfl, rfl⟩
    simp only [initEMIterator, if_neg hloc, hm, bind, Except.bind, pure, Except.pure]

/-- C16: `initEmptyEMIterator` fails exactly when the BWT sequence lacks
locate data; on success `start`, `end` and the cursor are 0, so the cursor
has reached `end` and `EMINumMatchesTotal` returns 0. -/
theorem C16_initEmptyEMIterator_result (K : Config) (bwtSeq : BWTSeq) :
    (initEmptyEMIterator bwtSeq = none ↔ bwtSeq.locateSampleInterval = 0) ∧
    (∀ iter, initEmptyEMIterator bwtSeq = some iter →
      iter.bounds.start = 0 ∧ iter.bounds.end_ = 0 ∧ iter.nextMatchBWTPos = 0 ∧
      ¬ iter.nextMatchBWTPos < iter.bounds.end_ ∧
      EMINumMatchesTotal iter = 0 ∧ EMINumMatchesLeft K iter = 0) := by
  constructor
  · unfold initEmptyEMIterator
    split <;> simp [*]
  · intro iter hiter
    unfold initEmptyEMIterator at hiter
    split at hiter
    · simp at hiter
    · simp only [Option.some.injEq] at hiter
      subst hiter
      simp [EMINumMatchesTotal, EMINumMatchesLeft]

/-- C17: `reinitEMIterator` with a new query leaves the iterator with the
bounds `getMatchBound` returns for the query and the cursor at
`bounds.start`, the same as a fresh `initEMIterator` with that query, and
leaves the `extBits` state as it was; it returns `true`. -/
theorem C17_reinitEMIterator_result (K : Config) (iter : BWTSeqExactMatchesIterator)
    (bwtSeq : BWTSeq) (query : List Nat) (queryLen : Nat) :
    (∀ m, getMatchBound K bwtSeq query queryLen = .ok m →
      reinitEMIterator K iter bwtSeq query queryLen
        = .ok (true, { bounds := m, nextMatchBWTPos := m.start, extBits := iter.extBits })) ∧
    (∀ fresh, initEMIterator K bwtSeq query queryLen = .ok (some fresh) →
      ∃ iter1, reinitEMIterator K iter bwtSeq query queryLen = .ok (true, iter1) ∧
        iter1.bounds = fresh.bounds ∧ iter1.nextMatchBWTPos = fresh.nextMatchBWTPos ∧
        iter1.extBits = iter.extBits) ∧
    (∀ e, getMatchBound K bwtSeq query queryLen = .error e →
      reinitEMIterator K iter bwtSeq query queryLen = .error e) := by
  refine ⟨?_, ?_, ?_⟩
  · intro m hm
    simp only [reinitEMIterator, hm, bind, Except.bind, pure, Except.pure]
  · intro fresh hfresh
    unfold initEMIterator at hfresh
    split at hfresh
    · simp at hfresh
    · simp only [bind, Except.bind, pure, Except.pure] at hfresh
      cases hm : getMatchBound K bwtSeq query queryLen with
      | error e => rw [hm] at hfresh; simp at hfresh
      | ok m =>
        rw [hm] at hfresh
        simp only [Except.ok.injEq, Option.some.injEq] at hfresh
        subst hfresh
        refine ⟨{ bounds := m, nextMatchBWTPos := m.start, extBits := iter.extBits }, ?_,
          rfl, rfl, rfl⟩
        simp only [reinitEMIterator, hm, bind, Except.bind, pure, Except.pure]
  · intro e he
    simp only [reinitEMIterator, he, bind, Except.bind]

/-- C18, the code at the failing inputs: with the bound `[0, 2)` and one of
the two matches consumed (cursor 1) `EMINumMatchesLeft` returns 2, and with
both consumed (cursor 2, the iterator exhausted) it still returns 2. -/
theorem C18_matchesLeft_ignores_cursor :
    EMINumMatchesLeft bananaConfig
      { bounds := { start := 0, end_ := 2 }, nextMatchBWTPos := 1, extBits := 0 } = 2 ∧
    EMINumMatchesLeft bananaConfig
      { bounds := { start := 0, end_ := 2 }, nextMatchBWTPos := 2, extBits := 0 } = 2 := by
  constructor <;> decide


/-- C19: on every index built by `newBWTSeq`, for every non-empty query
scanned first to last, `packedindexuniqueforward` returns the least `k` in
`1..m` such that the interval narrowed by `q[0..k)` holds exactly one
element, provided none of `q[0..k)` is special, and 0 if there is no such
`k`; the result is 0 or lies in `1..m`. -/
theorem C19_uniqueforward_result (K : Config) (alphabet : MRAEnc) (syms : List Nat)
    (a b : Nat) (drs : List Nat) (query : List Nat) (hr : 1 < MRAEncGetNumRanges alphabet)
    (hL : ∀ x ∈ syms, x < MRAEncGetSize alphabet) (hf : fallbackCode K alphabet ∈ syms)
    (hM : syms.length + 1 < K.seqposMod) (hne : query ≠ [])
    (hq : ∀ q ∈ query, K.ISSPECIAL q = false →
      MRAEncMapSymbol (terminatedAlphabet K alphabet) q < MRAEncGetSize alphabet + 1) :
    ∃ r bwtSeq res,
      newBWTSeq K (encIdxSeqOfSymbols syms a b) alphabet drs = .ok r ∧
      r.bwtSeq = some bwtSeq ∧
      packedindexuniqueforward K bwtSeq query = .ok res ∧
      (res = 0 ∨ (1 ≤ res ∧ res ≤ query.length)) ∧
      (∀ k, 1 ≤ k → (res = k ↔ k ≤ query.length ∧ specialFree K query k ∧
        uniqueAt bwtSeq query k ∧ ∀ i, 1 ≤ i → i < k → ¬ uniqueAt bwtSeq query i)) ∧
      (res = 0 ↔ ∀ k, 1 ≤ k → ¬ (k ≤ query.length ∧ specialFree K query k ∧
        uniqueAt bwtSeq query k ∧ ∀ i, 1 ≤ i → i < k → ¬ uniqueAt bwtSeq query i)) := by
  have hready := scanReady_built K alphabet syms a b drs query hL hf hM hq
  obtain ⟨res, hres, hle, hchar⟩ := packedindexuniqueforward_spec K _ query hne hready
  refine ⟨_, _, res, newBWTSeq_built K alphabet syms a b drs hr hL hf (by omega), rfl, hres,
    by omega, hchar, ?_⟩
  constructor
  · intro h0 k hk hrhs
    have := (hchar k hk).mpr hrhs
    omega
  · intro hall
    by_contra hne0
    exact hall res (by omega) ((hchar res (by omega)).mp rfl)

/-- C19 at the index of `banana` and the query `nab`. -/
theorem C19_uniqueforward_result_witness :
    ∃ r bwtSeq res,
      newBWTSeq bananaConfig (encIdxSeqOfSymbols (bwtStored 5 3 bananaText) 0 0)
        bananaAlphabet [] = .ok r ∧
      r.bwtSeq = some bwtSeq ∧
      packedindexuniqueforward bananaConfig bwtSeq [110, 97, 98] = .ok res ∧
      (res = 0 ∨ (1 ≤ res ∧ res ≤ [110, 97, 98].length)) ∧
      (∀ k, 1 ≤ k → (res = k ↔ k ≤ [110, 97, 98].length ∧
        specialFree bananaConfig [110, 97, 98] k ∧
        uniqueAt bwtSeq [110, 97, 98] k ∧
        ∀ i, 1 ≤ i → i < k → ¬ uniqueAt bwtSeq [110, 97, 98] i)) ∧
      (res = 0 ↔ ∀ k, 1 ≤ k → ¬ (k ≤ [110, 97, 98].length ∧
        specialFree bananaConfig [110, 97, 98] k ∧
        uniqueAt bwtSeq [110, 97, 98] k ∧
        ∀ i, 1 ≤ i → i < k → ¬ uniqueAt bwtSeq [110, 97, 98] i)) :=
  C19_uniqueforward_result bananaConfig bananaAlphabet (bwtStored 5 3 bananaText) 0 0 []
    [110, 97, 98] (by decide) (by decide) (by decide) (by decide) (by decide) (by decide)

/-- C20: on every index built by `newBWTSeq`, for every non-empty query,
`packedindexmstatsforward` returns the length of the longest prefix
`q[0..k)` that holds no special character and whose narrowed interval is
not empty; it returns 0 exactly when `q[0]` is special or the interval of
`q[0]` alone is empty.  With a witness output the return value is the same
whenever the function returns. -/
theorem C20_mstatsforward_result (K : Config) (alphabet : MRAEnc) (syms : List Nat)
    (a b : Nat) (drs : List Nat) (query : List Nat) (hr : 1 < MRAEncGetNumRanges alphabet)
    (hL : ∀ x ∈ syms, x < MRAEncGetSize alphabet) (hf : fallbackCode K alphabet ∈ syms)
    (hM : syms.length + 1 < K.seqposMod) (hne : query ≠ [])
    (hq : ∀ q ∈ query, K.ISSPECIAL q = false →
      MRAEncMapSymbol (terminatedAlphabet K alphabet) q < MRAEncGetSize alphabet + 1) :
    ∃ r bwtSeq res,
      newBWTSeq K (encIdxSeqOfSymbols syms a b) alphabet drs = .ok r ∧
      r.bwtSeq = some bwtSeq ∧
      (∀ pck, packedindexmstatsforward K bwtSeq pck none query = .ok (res, none)) ∧
      (∀ pck w v, packedindexmstatsforward K bwtSeq pck w query = .ok v → v.1 = res) ∧
      res ≤ query.length ∧ specialFree K query res ∧
      (1 ≤ res → nonEmptyAt bwtSeq query res) ∧
      (∀ k, k ≤ query.length → specialFree K query k → (1 ≤ k → nonEmptyAt bwtSeq query k) →
        k ≤ res) ∧
      (res = 0 ↔ (K.ISSPECIAL query[0]! = true ∨ ¬ nonEmptyAt bwtSeq query 1)) := by
  have hready := scanReady_built K alphabet syms a b drs query hL hf hM hq
  obtain ⟨res, h1, h2, h3, h4, h5, h6, h7⟩ :=
    packedindexmstatsforward_spec K _ query hne hready
  exact ⟨_, _, res, newBWTSeq_built K alphabet syms a b drs hr hL hf (by omega), rfl,
    h1, h2, h3, h4, h5, h6, h7⟩

/-- C20 at the index of `banana` and the query `nab`. -/
theorem C20_mstatsforward_result_witness :
    ∃ r bwtSeq res,
      newBWTSeq bananaConfig (encIdxSeqOfSymbols (bwtStored 5 3 bananaText) 0 0)
        bananaAlphabet [] = .ok r ∧
      r.bwtSeq = some bwtSeq ∧
      (∀ pck, packedindexmstatsforward bananaConfig bwtSeq pck none [110, 97, 98]
        = .ok (res, none)) ∧
      (∀ pck w v, packedindexmstatsforward bananaConfig bwtSeq pck w [110, 97, 98] = .ok v →
        v.1 = res) ∧
      res ≤ [110, 97, 98].length ∧ specialFree bananaConfig [110, 97, 98] res ∧
      (1 ≤ res → nonEmptyAt bwtSeq [110, 97, 98] res) ∧
      (∀ k, k ≤ [110, 97, 98].length → specialFree bananaConfig [110, 97, 98] k →
        (1 ≤ k → nonEmptyAt bwtSeq [110, 97, 98] k) → k ≤ res) ∧
      (res = 0 ↔ (bananaConfig.ISSPECIAL [110, 97, 98][0]! = true ∨
        ¬ nonEmptyAt bwtSeq [110, 97, 98] 1)) :=
  C20_mstatsforward_result bananaConfig bananaAlphabet (bwtStored 5 3 bananaText) 0 0 []
    [110, 97, 98] (by decide) (by decide) (by decide) (by decide) (by decide) (by decide)


/-- C21: when the suffix table covers the coordinates that the locate-value
check reads, `BWTSeqVerifyIntegrity` returns one status: that of the first
check that fails in the order reference load, length comparison, locate-value
comparison, terminator-position comparison, LF-walk symbol comparison, and
`VERIFY_BWTSEQ_NO_ERROR` if and only if the reference loads and none of the
checks that apply fails. -/
theorem C21_first_failing_check (K : Config) (E : VerifyEnv) (bwtSeq : BWTSeq)
    (hsuf : ∀ sa len0, E.mapsuffixarray = some (sa, len0) →
      E.BWTSeqHasLocateInformation bwtSeq = true →
      (len0 + 1) % K.seqposMod ≤ sa.suftab.length) :
    ∃ run, BWTSeqVerifyIntegrity K E bwtSeq = .ok run ∧
      (∀ run2, BWTSeqVerifyIntegrity K E bwtSeq = .ok run2 → run2 = run) ∧
      (E.mapsuffixarray = none → run.retval = .VERIFY_BWTSEQ_REFLOAD_ERROR) ∧
      (∀ sa len0, E.mapsuffixarray = some (sa, len0) →
        (lengthFails E bwtSeq ((len0 + 1) % K.seqposMod) →
          run.retval = .VERIFY_BWTSEQ_LENCOMPARE_ERROR) ∧
        (¬ lengthFails E bwtSeq ((len0 + 1) % K.seqposMod) →
          sufvalFails E bwtSeq sa ((len0 + 1) % K.seqposMod) →
          run.retval = .VERIFY_BWTSEQ_SUFVAL_ERROR) ∧
        (¬ lengthFails E bwtSeq ((len0 + 1) % K.seqposMod) →
          ¬ sufvalFails E bwtSeq sa ((len0 + 1) % K.seqposMod) →
          termposFails E bwtSeq sa ((len0 + 1) % K.seqposMod) →
          run.retval = .VERIFY_BWTSEQ_TERMPOS_ERROR) ∧
        (¬ lengthFails E bwtSeq ((len0 + 1) % K.seqposMod) →
          ¬ sufvalFails E bwtSeq sa ((len0 + 1) % K.seqposMod) →
          ¬ termposFails E bwtSeq sa ((len0 + 1) % K.seqposMod) →
          lfwalkFails K E bwtSeq sa ((len0 + 1) % K.seqposMod) →
          run.retval = .VERIFY_BWTSEQ_LFMAPWALK_ERROR) ∧
        (run.retval = .VERIFY_BWTSEQ_NO_ERROR ↔
          ¬ lengthFails E bwtSeq ((len0 + 1) % K.seqposMod) ∧
          ¬ sufvalFails E bwtSeq sa ((len0 + 1) % K.seqposMod) ∧
          ¬ termposFails E bwtSeq sa ((len0 + 1) % K.seqposMod) ∧
          ¬ lfwalkFails K E bwtSeq sa ((len0 + 1) % K.seqposMod))) := by
  cases hm : E.mapsuffixarray with
  | none =>
    have hrun := verifyIntegrity_not_loaded K E bwtSeq hm
    refine ⟨_, hrun, ?_, fun _ => rfl, fun sa len0 h => by simp at h⟩
    intro run2 h2
    rw [hrun] at h2
    exact (Except.ok.inj h2).symm
  | some v =>
    obtain ⟨sa, len0⟩ := v
    obtain ⟨r, hr, h1, h2, h3, h4, h5⟩ := verifyChecks_cases K E bwtSeq sa
      ((len0 + 1) % K.seqposMod) (hsuf sa len0 hm)
    have hrun := verifyIntegrity_loaded K E bwtSeq sa len0 r hm hr
    refine ⟨_, hrun, ?_, fun h => by simp at h, ?_⟩
    · intro run2 h2
      rw [hrun] at h2
      exact (Except.ok.inj h2).symm
    · intro sa2 len2 heq
      simp only [Option.some.injEq, Prod.mk.injEq] at heq
      obtain ⟨rfl, rfl⟩ := heq
      refine ⟨h1, h2, h3, h4, ?_⟩
      constructor
      · intro hno
        simp only at hno
        by_cases hL : lengthFails E bwtSeq ((len0 + 1) % K.seqposMod)
        · rw [h1 hL] at hno; cases hno
        by_cases hS : sufvalFails E bwtSeq sa ((len0 + 1) % K.seqposMod)
        · rw [h2 hL hS] at hno; cases hno
        by_cases hT : termposFails E bwtSeq sa ((len0 + 1) % K.seqposMod)
        · rw [h3 hL hS hT] at hno; cases hno
        by_cases hF : lfwalkFails K E bwtSeq sa ((len0 + 1) % K.seqposMod)
        · rw [h4 hL hS hT hF] at hno; cases hno
        exact ⟨hL, hS, hT, hF⟩
      · rintro ⟨hL, hS, hT, hF⟩
        exact h5 hL hS hT hF

/-- C21 at the reference and the index of `banana`. -/
theorem C21_first_failing_check_witness :
    ∃ run, BWTSeqVerifyIntegrity bananaConfig bananaVerifyEnv bananaIndex = .ok run ∧
      (∀ run2, BWTSeqVerifyIntegrity bananaConfig bananaVerifyEnv bananaIndex = .ok run2 →
        run2 = run) ∧
      (bananaVerifyEnv.mapsuffixarray = none →
        run.retval = .VERIFY_BWTSEQ_REFLOAD_ERROR) ∧
      (∀ sa len0, bananaVerifyEnv.mapsuffixarray = some (sa, len0) →
        (lengthFails bananaVerifyEnv bananaIndex ((len0 + 1) % bananaConfig.seqposMod) →
          run.retval = .VERIFY_BWTSEQ_LENCOMPARE_ERROR) ∧
        (¬ lengthFails bananaVerifyEnv bananaIndex ((len0 + 1) % bananaConfig.seqposMod) →
          sufvalFails bananaVerifyEnv bananaIndex sa ((len0 + 1) % bananaConfig.seqposMod) →
          run.retval = .VERIFY_BWTSEQ_SUFVAL_ERROR) ∧
        (¬ lengthFails bananaVerifyEnv bananaIndex ((len0 + 1) % bananaConfig.seqposMod) →
          ¬ sufvalFails bananaVerifyEnv bananaIndex sa ((len0 + 1) % bananaConfig.seqposMod) →
          termposFails bananaVerifyEnv bananaIndex sa ((len0 + 1) % bananaConfig.seqposMod) →
          run.retval = .VERIFY_BWTSEQ_TERMPOS_ERROR) ∧
        (¬ lengthFails bananaVerifyEnv bananaIndex ((len0 + 1) % bananaConfig.seqposMod) →
          ¬ sufvalFails bananaVerifyEnv bananaIndex sa ((len0 + 1) % bananaConfig.seqposMod) →
          ¬ termposFails bananaVerifyEnv bananaIndex sa
            ((len0 + 1) % bananaConfig.seqposMod) →
          lfwalkFails bananaConfig bananaVerifyEnv bananaIndex sa
            ((len0 + 1) % bananaConfig.seqposMod) →
          run.retval = .VERIFY_BWTSEQ_LFMAPWALK_ERROR) ∧
        (run.retval = .VERIFY_BWTSEQ_NO_ERROR ↔
          ¬ lengthFails bananaVerifyEnv bananaIndex ((len0 + 1) % bananaConfig.seqposMod) ∧
          ¬ sufvalFails bananaVerifyEnv bananaIndex sa
            ((len0 + 1) % bananaConfig.seqposMod) ∧
          ¬ termposFails bananaVerifyEnv bananaIndex sa
            ((len0 + 1) % bananaConfig.seqposMod) ∧
          ¬ lfwalkFails bananaConfig bananaVerifyEnv bananaIndex sa
            ((len0 + 1) % bananaConfig.seqposMod))) :=
  C21_first_failing_check bananaConfig bananaVerifyEnv bananaIndex
    (fun sa len0 h _ => by
      simp only [bananaVerifyEnv, textVerifyEnv, Option.some.injEq, Prod.mk.injEq] at h
      obtain ⟨rfl, rfl⟩ := h
      decide)


/-- C22: if the reference suffix array loads and its length plus 1, a
`Seqpos` value, differs from `BWTSeqLength(bwtSeq)`, `BWTSeqVerifyIntegrity`
returns `VERIFY_BWTSEQ_LENCOMPARE_ERROR` whatever the suffix table, the
locate data and the LF-mapping hold; the suffix array is freed. -/
theorem C22_length_mismatch_short_circuits (K : Config) (E : VerifyEnv) (bwtSeq : BWTSeq)
    (sa : Suffixarray) (len0 : Nat) (hload : E.mapsuffixarray = some (sa, len0))
    (hw : len0 + 1 < K.seqposMod) (hne : E.BWTSeqLength bwtSeq ≠ len0 + 1) :
    BWTSeqVerifyIntegrity K E bwtSeq
      = .ok { retval := .VERIFY_BWTSEQ_LENCOMPARE_ERROR
              errorArgs := []
              freesuffixarray := true
              destructExtBitsRetrieval := false } := by
  have hL : lengthFails E bwtSeq ((len0 + 1) % K.seqposMod) := by
    unfold lengthFails
    rw [Nat.mod_eq_of_lt hw]
    exact hne
  exact verifyIntegrity_loaded K E bwtSeq sa len0 _ hload
    (verifyChecks_length K E bwtSeq sa _ hL)

/-- C22 at the index of `banana` and the reference of `banan`. -/
theorem C22_length_mismatch_short_circuits_witness :
    BWTSeqVerifyIntegrity bananaConfig bananVerifyEnv bananaIndex
      = .ok { retval := .VERIFY_BWTSEQ_LENCOMPARE_ERROR
              errorArgs := []
              freesuffixarray := true
              destructExtBitsRetrieval := false } :=
  C22_length_mismatch_short_circuits bananaConfig bananVerifyEnv bananaIndex
    (textReference bananaConfig bananaAlphabet [98, 97, 110, 97, 110]) 5 rfl
    (by decide) (by decide)

/-- C23: when the reference loads, the lengths agree and the suffix table
covers the coordinates below `len`: with locate information present,
`BWTSeqVerifyIntegrity` returns `VERIFY_BWTSEQ_SUFVAL_ERROR` if and only if
some SA-coordinate `i < len` carries locate information whose resolved value
differs from `suftab[i]`, and the error reported is that of the smallest such
coordinate; without locate information that status is not returned. -/
theorem C23_locate_value_check (K : Config) (E : VerifyEnv) (bwtSeq : BWTSeq)
    (sa : Suffixarray) (len0 : Nat) (hload : E.mapsuffixarray = some (sa, len0))
    (hlen : E.BWTSeqLength bwtSeq = (len0 + 1) % K.seqposMod)
    (hsuf : E.BWTSeqHasLocateInformation bwtSeq = true →
      (len0 + 1) % K.seqposMod ≤ sa.suftab.length) :
    ∃ run, BWTSeqVerifyIntegrity K E bwtSeq = .ok run ∧
      (E.BWTSeqHasLocateInformation bwtSeq = true →
        (run.retval = .VERIFY_BWTSEQ_SUFVAL_ERROR ↔
          ∃ i, i < (len0 + 1) % K.seqposMod ∧ sufvalMismatch E bwtSeq sa i) ∧
        ∀ i, i < (len0 + 1) % K.seqposMod → sufvalMismatch E bwtSeq sa i →
          (∀ j, j < i → ¬ sufvalMismatch E bwtSeq sa j) →
          run.retval = .VERIFY_BWTSEQ_SUFVAL_ERROR ∧
          run.errorArgs = [i, E.BWTSeqLocateMatch bwtSeq i, sa.suftab.getD i 0]) ∧
      (E.BWTSeqHasLocateInformation bwtSeq = false →
        run.retval ≠ .VERIFY_BWTSEQ_SUFVAL_ERROR) := by
  have hL : ¬ lengthFails E bwtSeq ((len0 + 1) % K.seqposMod) := fun h => h hlen
  obtain ⟨r, hr, _, h2, h3, h4, h5⟩ := verifyChecks_cases K E bwtSeq sa
    ((len0 + 1) % K.seqposMod) hsuf
  have hrun := verifyIntegrity_loaded K E bwtSeq sa len0 r hload hr
  have hnot : ¬ sufvalFails E bwtSeq sa ((len0 + 1) % K.seqposMod) →
      r.1 ≠ .VERIFY_BWTSEQ_SUFVAL_ERROR := by
    intro hS hno
    by_cases hT : termposFails E bwtSeq sa ((len0 + 1) % K.seqposMod)
    · rw [h3 hL hS hT] at hno; cases hno
    by_cases hF : lfwalkFails K E bwtSeq sa ((len0 + 1) % K.seqposMod)
    · rw [h4 hL hS hT hF] at hno; cases hno
    rw [h5 hL hS hT hF] at hno; cases hno
  refine ⟨_, hrun, ?_, ?_⟩
  · intro hloc
    constructor
    · constructor
      · intro hret
        by_contra hex
        exact hnot (fun hS => hex hS.2) hret
      · intro hex
        exact h2 hL ⟨hloc, hex⟩
    · intro i hi hmis hmin
      have hr2 := verifyChecks_sufval K E bwtSeq sa _ i hL hloc hi
        (by have := hsuf hloc; omega) hmis hmin
      rw [hr] at hr2
      have hr3 := Except.ok.inj hr2
      simp only [hr3, and_self]
  · intro hloc
    apply hnot
    intro hS
    rw [hS.1] at hloc
    cases hloc

/-- C23 at the index of `banana` with locate data that is wrong at row 4. -/
theorem C23_locate_value_check_witness :
    ∃ run, BWTSeqVerifyIntegrity bananaConfig bananaBadLocateEnv bananaIndex = .ok run ∧
      (bananaBadLocateEnv.BWTSeqHasLocateInformation bananaIndex = true →
        (run.retval = .VERIFY_BWTSEQ_SUFVAL_ERROR ↔
          ∃ i, i < (6 + 1) % bananaConfig.seqposMod ∧
            sufvalMismatch bananaBadLocateEnv bananaIndex
              (textReference bananaConfig bananaAlphabet bananaSymbols) i) ∧
        ∀ i, i < (6 + 1) % bananaConfig.seqposMod →
          sufvalMismatch bananaBadLocateEnv bananaIndex
            (textReference bananaConfig bananaAlphabet bananaSymbols) i →
          (∀ j, j < i → ¬ sufvalMismatch bananaBadLocateEnv bananaIndex
            (textReference bananaConfig bananaAlphabet bananaSymbols) j) →
          run.retval = .VERIFY_BWTSEQ_SUFVAL_ERROR ∧
          run.errorArgs = [i, bananaBadLocateEnv.BWTSeqLocateMatch bananaIndex i,
            (textReference bananaConfig bananaAlphabet bananaSymbols).suftab.getD i 0]) ∧
      (bananaBadLocateEnv.BWTSeqHasLocateInformation bananaIndex = false →
        run.retval ≠ .VERIFY_BWTSEQ_SUFVAL_ERROR) :=
  C23_locate_value_check bananaConfig bananaBadLocateEnv bananaIndex
    (textReference bananaConfig bananaAlphabet bananaSymbols) 6 rfl (by decide)
    (fun _ => by decide)

/-- C24: when the reference loads, the length and locate-value checks pass,
the index is reversibly sorted with a sequence that is not empty, and the
terminator position agrees: the LF walk compares the symbol at the terminator
position with the marker `UNDEFBWTCHAR` (comparison 0) and then, for
`k = 1..len-1`, the symbol at the `k`-th LF-image of the terminator position
with the reference character at text position `len-1-k`.
`BWTSeqVerifyIntegrity` returns `VERIFY_BWTSEQ_LFMAPWALK_ERROR` if and only
if one of these comparisons fails, the error reported is that of the first
one that fails, and it returns `VERIFY_BWTSEQ_NO_ERROR` when all `len`
comparisons hold. -/
theorem C24_lf_walk (K : Config) (E : VerifyEnv) (bwtSeq : BWTSeq)
    (sa : Suffixarray) (len0 : Nat) (hload : E.mapsuffixarray = some (sa, len0))
    (hL : ¬ lengthFails E bwtSeq ((len0 + 1) % K.seqposMod))
    (hS : ¬ sufvalFails E bwtSeq sa ((len0 + 1) % K.seqposMod))
    (hsuf : E.BWTSeqHasLocateInformation bwtSeq = true →
      (len0 + 1) % K.seqposMod ≤ sa.suftab.length)
    (hW : walkApplies E bwtSeq ((len0 + 1) % K.seqposMod))
    (hT : ¬ termposFails E bwtSeq sa ((len0 + 1) % K.seqposMod)) :
    ∃ run, BWTSeqVerifyIntegrity K E bwtSeq = .ok run ∧
      lfImage E bwtSeq 0 = E.BWTSeqTerminatorPos bwtSeq ∧
      lfWalkReference K sa ((len0 + 1) % K.seqposMod) 0 = K.UNDEFBWTCHAR ∧
      (∀ k, 1 ≤ k → lfImage E bwtSeq k = E.BWTSeqLFMap bwtSeq (lfImage E bwtSeq (k - 1)) ∧
        lfWalkReference K sa ((len0 + 1) % K.seqposMod) k
          = sa.getencodedchar ((len0 + 1) % K.seqposMod - 1 - k)) ∧
      (run.retval = .VERIFY_BWTSEQ_LFMAPWALK_ERROR ↔
        ∃ k, k < (len0 + 1) % K.seqposMod
          ∧ lfWalkMismatch K E bwtSeq sa ((len0 + 1) % K.seqposMod) k) ∧
      (∀ k, k < (len0 + 1) % K.seqposMod →
        lfWalkMismatch K E bwtSeq sa ((len0 + 1) % K.seqposMod) k →
        (∀ j, j < k → ¬ lfWalkMismatch K E bwtSeq sa ((len0 + 1) % K.seqposMod) j) →
        run.retval = .VERIFY_BWTSEQ_LFMAPWALK_ERROR ∧
        run.errorArgs = [(len0 + 1) % K.seqposMod - 1 - k,
          E.EISGetSym bwtSeq.seqIdx (lfImage E bwtSeq k),
          lfWalkReference K sa ((len0 + 1) % K.seqposMod) k]) ∧
      ((∀ k, k < (len0 + 1) % K.seqposMod →
          ¬ lfWalkMismatch K E bwtSeq sa ((len0 + 1) % K.seqposMod) k) →
        run.retval = .VERIFY_BWTSEQ_NO_ERROR) := by
  obtain ⟨r, hr, _, _, _, h4, h5⟩ := verifyChecks_cases K E bwtSeq sa
    ((len0 + 1) % K.seqposMod) hsuf
  have hrun := verifyIntegrity_loaded K E bwtSeq sa len0 r hload hr
  refine ⟨_, hrun, rfl, by simp [lfWalkReference], ?_, ?_, ?_, ?_⟩
  · intro k hk
    obtain ⟨k2, rfl⟩ : ∃ k2, k = k2 + 1 := ⟨k - 1, by omega⟩
    constructor
    · simp only [lfImage, Nat.add_sub_cancel, Function.iterate_succ_apply']
    · simp [lfWalkReference]
  · constructor
    · intro hret
      by_contra hex
      have hF : ¬ lfwalkFails K E bwtSeq sa ((len0 + 1) % K.seqposMod) := fun h => hex h.2
      simp only at hret
      rw [h5 hL hS hT hF] at hret
      cases hret
    · intro hex
      exact h4 hL hS hT ⟨hW, hex⟩
  · intro k hk hmis hmin
    have hr2 := verifyChecks_lfwalk K E bwtSeq sa _ k hL hS hsuf hT hW hk hmis hmin
    rw [hr] at hr2
    have hr3 := Except.ok.inj hr2
    simp only [hr3, and_self]
  · intro hall
    exact h5 hL hS hT (fun h => by
      obtain ⟨k, hk, hm⟩ := h.2
      exact hall k hk hm)

/-- C24 at the index of `banana` with a rank index that returns a wrong
symbol at row 5, the fourth LF-image of the terminator position. -/
theorem C24_lf_walk_witness :
    ∃ run, BWTSeqVerifyIntegrity bananaConfig bananaBadSymbolEnv bananaIndex = .ok run ∧
      lfImage bananaBadSymbolEnv bananaIndex 0
        = bananaBadSymbolEnv.BWTSeqTerminatorPos bananaIndex ∧
      lfWalkReference bananaConfig (textReference bananaConfig bananaAlphabet bananaSymbols)
        ((6 + 1) % bananaConfig.seqposMod) 0 = bananaConfig.UNDEFBWTCHAR ∧
      (∀ k, 1 ≤ k → lfImage bananaBadSymbolEnv bananaIndex k
          = bananaBadSymbolEnv.BWTSeqLFMap bananaIndex
            (lfImage bananaBadSymbolEnv bananaIndex (k - 1)) ∧
        lfWalkReference bananaConfig (textReference bananaConfig bananaAlphabet bananaSymbols)
            ((6 + 1) % bananaConfig.seqposMod) k
          = (textReference bananaConfig bananaAlphabet bananaSymbols).getencodedchar
            ((6 + 1) % bananaConfig.seqposMod - 1 - k)) ∧
      (run.retval = .VERIFY_BWTSEQ_LFMAPWALK_ERROR ↔
        ∃ k, k < (6 + 1) % bananaConfig.seqposMod
          ∧ lfWalkMismatch bananaConfig bananaBadSymbolEnv bananaIndex
            (textReference bananaConfig bananaAlphabet bananaSymbols)
            ((6 + 1) % bananaConfig.seqposMod) k) ∧
      (∀ k, k < (6 + 1) % bananaConfig.seqposMod →
        lfWalkMismatch bananaConfig bananaBadSymbolEnv bananaIndex
          (textReference bananaConfig bananaAlphabet bananaSymbols)
          ((6 + 1) % bananaConfig.seqposMod) k →
        (∀ j, j < k → ¬ lfWalkMismatch bananaConfig bananaBadSymbolEnv bananaIndex
          (textReference bananaConfig bananaAlphabet bananaSymbols)
          ((6 + 1) % bananaConfig.seqposMod) j) →
        run.retval = .VERIFY_BWTSEQ_LFMAPWALK_ERROR ∧
        run.errorArgs = [(6 + 1) % bananaConfig.seqposMod - 1 - k,
          bananaBadSymbolEnv.EISGetSym bananaIndex.seqIdx
            (lfImage bananaBadSymbolEnv bananaIndex k),
          lfWalkReference bananaConfig
            (textReference bananaConfig bananaAlphabet bananaSymbols)
            ((6 + 1) % bananaConfig.seqposMod) k]) ∧
      ((∀ k, k < (6 + 1) % bananaConfig.seqposMod →
          ¬ lfWalkMismatch bananaConfig bananaBadSymbolEnv bananaIndex
            (textReference bananaConfig bananaAlphabet bananaSymbols)
            ((6 + 1) % bananaConfig.seqposMod) k) →
        run.retval = .VERIFY_BWTSEQ_NO_ERROR) :=
  C24_lf_walk bananaConfig bananaBadSymbolEnv bananaIndex
    (textReference bananaConfig bananaAlphabet bananaSymbols) 6 rfl
    (by decide) (by decide) (fun _ => by decide) (by decide) (by decide)


/-- C25: for every text of regular symbols, with the index that `newBWTSeq`
builds over the BWT of the text, the reference suffix array and encoded
sequence of the same text, and the locate data and LF-mapping of the index,
`BWTSeqVerifyIntegrity` returns `VERIFY_BWTSEQ_NO_ERROR`: the lengths agree,
no SA-coordinate fails the locate-value comparison and no comparison of the
LF walk fails. -/
theorem C25_verification_end_to_end (K : Config) (alphabet : MRAEnc) (text : List Nat)
    (a b : Nat) (drs : List Nat) (reversiblySorted : Nat) (sampled : Nat → Bool)
    (hr : 1 < MRAEncGetNumRanges alphabet)
    (hT : ∀ x ∈ text,
      MRAEncMapSymbol (terminatedAlphabet K alphabet) x < MRAEncGetSize alphabet)
    (hf : fallbackCode K alphabet < MRAEncGetSize alphabet)
    (hM : text.length + 1 < K.seqposMod) :
    ∃ r bwtSeq,
      newBWTSeq K (encIdxSeqOfSymbols
        (bwtStored (MRAEncGetSize alphabet + 1) (fallbackCode K alphabet)
          (text.map (MRAEncMapSymbol (terminatedAlphabet K alphabet)))) a b) alphabet drs
        = .ok r ∧
      r.bwtSeq = some bwtSeq ∧
      BWTSeqVerifyIntegrity K (textVerifyEnv K alphabet text reversiblySorted sampled) bwtSeq
        = .ok { retval := .VERIFY_BWTSEQ_NO_ERROR
                errorArgs := []
                freesuffixarray := true
                destructExtBitsRetrieval := false } ∧
      ¬ lengthFails (textVerifyEnv K alphabet text reversiblySorted sampled) bwtSeq
        (text.length + 1) ∧
      (∀ i, i < text.length + 1 →
        ¬ sufvalMismatch (textVerifyEnv K alphabet text reversiblySorted sampled) bwtSeq
          (textReference K alphabet text) i) ∧
      (∀ k, k < text.length + 1 →
        ¬ lfWalkMismatch K (textVerifyEnv K alphabet text reversiblySorted sampled) bwtSeq
          (textReference K alphabet text) (text.length + 1) k) := by
  have hT2 : ∀ x ∈ text.map (MRAEncMapSymbol (terminatedAlphabet K alphabet)),
      x < MRAEncGetSize alphabet := by
    intro x hx
    obtain ⟨y, hy, rfl⟩ := List.mem_map.mp hx
    exact hT y hy
  have hbuilt := newBWTSeq_text K alphabet
    (text.map (MRAEncMapSymbol (terminatedAlphabet K alphabet))) a b drs hr hT2 hf
    (by rw [List.length_map]; exact hM)
  have hmod : (text.length + 1) % K.seqposMod = text.length + 1 := Nat.mod_eq_of_lt hM
  have hL : ¬ lengthFails (textVerifyEnv K alphabet text reversiblySorted sampled)
      (builtBWTSeq K alphabet
        (bwtStored (MRAEncGetSize alphabet + 1) (fallbackCode K alphabet)
          (text.map (MRAEncMapSymbol (terminatedAlphabet K alphabet)))) a b drs)
      (text.length + 1) := by
    unfold lengthFails
    rw [ne_eq, not_not]
    simp only [textVerifyEnv, builtBWTSeq, EISLength, encIdxSeqOfSymbols, bwtStored_length,
      List.length_map]
  have hloc : ∀ i, i < text.length + 1 →
      ¬ sufvalMismatch (textVerifyEnv K alphabet text reversiblySorted sampled)
        (builtBWTSeq K alphabet
          (bwtStored (MRAEncGetSize alphabet + 1) (fallbackCode K alphabet)
            (text.map (MRAEncMapSymbol (terminatedAlphabet K alphabet)))) a b drs)
        (textReference K alphabet text) i := by
    intro i _ h
    exact h.2 rfl
  have hwalk := textEnv_lfWalk K alphabet text a b drs reversiblySorted sampled hT
  refine ⟨_, _, hbuilt, rfl, ?_, hL, hloc, hwalk⟩
  have hchecks := verifyChecks_pass K (textVerifyEnv K alphabet text reversiblySorted sampled)
    (builtBWTSeq K alphabet
      (bwtStored (MRAEncGetSize alphabet + 1) (fallbackCode K alphabet)
        (text.map (MRAEncMapSymbol (terminatedAlphabet K alphabet)))) a b drs)
    (textReference K alphabet text) (text.length + 1) hL
    (fun h => by
      obtain ⟨i, hi, hm⟩ := h.2
      exact hloc i hi hm)
    (fun _ => by
      simp only [textReference, suffixArray_length, textSequence, withTerminator,
        List.length_append, List.length_map, List.length_singleton, le_refl])
    (fun h => h.2.2 rfl)
    (fun h => by
      obtain ⟨k, hk, hm⟩ := h.2
      exact hwalk k hk hm)
  have := verifyIntegrity_loaded K (textVerifyEnv K alphabet text reversiblySorted sampled)
    (builtBWTSeq K alphabet
      (bwtStored (MRAEncGetSize alphabet + 1) (fallbackCode K alphabet)
        (text.map (MRAEncMapSymbol (terminatedAlphabet K alphabet)))) a b drs)
    (textReference K alphabet text) text.length _ rfl (by rw [hmod]; exact hchecks)
  exact this

/-- C25 at the text `banana`, with the locate sampling interval 2, the
feature bit for reversible sorting set and locate information at the even
rows. -/
theorem C25_verification_end_to_end_witness :
    ∃ r bwtSeq,
      newBWTSeq bananaConfig (encIdxSeqOfSymbols
        (bwtStored (MRAEncGetSize bananaAlphabet + 1) (fallbackCode bananaConfig bananaAlphabet)
          (bananaSymbols.map (MRAEncMapSymbol (terminatedAlphabet bananaConfig bananaAlphabet))))
        2 1) bananaAlphabet []
        = .ok r ∧
      r.bwtSeq = some bwtSeq ∧
      BWTSeqVerifyIntegrity bananaConfig
          (textVerifyEnv bananaConfig bananaAlphabet bananaSymbols 1 (fun pos => pos % 2 == 0))
          bwtSeq
        = .ok { retval := .VERIFY_BWTSEQ_NO_ERROR
                errorArgs := []
                freesuffixarray := true
                destructExtBitsRetrieval := false } ∧
      ¬ lengthFails
        (textVerifyEnv bananaConfig bananaAlphabet bananaSymbols 1 (fun pos => pos % 2 == 0))
        bwtSeq (bananaSymbols.length + 1) ∧
      (∀ i, i < bananaSymbols.length + 1 →
        ¬ sufvalMismatch
          (textVerifyEnv bananaConfig bananaAlphabet bananaSymbols 1 (fun pos => pos % 2 == 0))
          bwtSeq (textReference bananaConfig bananaAlphabet bananaSymbols) i) ∧
      (∀ k, k < bananaSymbols.length + 1 →
        ¬ lfWalkMismatch bananaConfig
          (textVerifyEnv bananaConfig bananaAlphabet bananaSymbols 1 (fun pos => pos % 2 == 0))
          bwtSeq (textReference bananaConfig bananaAlphabet bananaSymbols)
          (bananaSymbols.length + 1) k) :=
  C25_verification_end_to_end bananaConfig bananaAlphabet bananaSymbols 2 1 [] 1
    (fun pos => pos % 2 == 0) (by decide) (by decide) (by decide) (by decide)

/-- C26: `BWTSeqVerifyIntegrity` frees the reference suffix array exactly
when it was loaded, but on no return path does it destruct the scratch state
set up by `initExtBitsRetrieval`: the flag `extBitsAreInitialized` that
guards `destructExtBitsRetrieval` is never set.  The runs on the index of
`banana` against its own reference (success), against the reference of
`banan` (early break) and without a reference (load failure) all return with
the scratch state not destructed. -/
theorem C26_extBits_not_destructed :
    (∀ K E bwtSeq run, BWTSeqVerifyIntegrity K E bwtSeq = .ok run →
      run.destructExtBitsRetrieval = false ∧
      (run.freesuffixarray = true ↔ E.mapsuffixarray.isSome = true)) ∧
    BWTSeqVerifyIntegrity bananaConfig bananaVerifyEnv bananaIndex
      = .ok { retval := .VERIFY_BWTSEQ_NO_ERROR
              errorArgs := []
              freesuffixarray := true
              destructExtBitsRetrieval := false } ∧
    BWTSeqVerifyIntegrity bananaConfig bananVerifyEnv bananaIndex
      = .ok { retval := .VERIFY_BWTSEQ_LENCOMPARE_ERROR
              errorArgs := []
              freesuffixarray := true
              destructExtBitsRetrieval := false } ∧
    BWTSeqVerifyIntegrity bananaConfig bananaNoReferenceEnv bananaIndex
      = .ok { retval := .VERIFY_BWTSEQ_REFLOAD_ERROR
              errorArgs := []
              freesuffixarray := false
              destructExtBitsRetrieval := false } := by
  refine ⟨?_, rfl, rfl, rfl⟩
  intro K E bwtSeq run h
  cases hm : E.mapsuffixarray with
  | none =>
    rw [verifyIntegrity_not_loaded K E bwtSeq hm] at h
    rw [← Except.ok.inj h]
    simp
  | some v =>
    obtain ⟨sa, len0⟩ := v
    cases hv : verifyChecks K E bwtSeq sa ((len0 + 1) % K.seqposMod) with
    | error e =>
      simp [BWTSeqVerifyIntegrity, hm, hv, bind, Except.bind] at h
    | ok r =>
      rw [verifyIntegrity_loaded K E bwtSeq sa len0 r hm hv] at h
      rw [← Except.ok.inj h]
      simp

/-! ## Later steps of a backward search -/

theorem narrowedBound_append (bwtSeq : BWTSeq) (l1 l2 : List Nat) (h : l2 ≠ []) :
    narrowedBound bwtSeq (l1 ++ l2)
      = l1.reverse.foldl (narrowStep bwtSeq) (narrowedBound bwtSeq l2) := by
  induction l1 with
  | nil => rfl
  | cons q t ih =>
    rw [List.cons_append, narrowedBound_cons bwtSeq q (t ++ l2) (by simp [h]), ih,
      List.reverse_cons, List.foldl_append]
    rfl

theorem foldl_narrowStep_of_empty (bwtSeq : BWTSeq) :
    ∀ (l : List Nat) (m : matchBound), m.start = m.end_ →
      (l.foldl (narrowStep bwtSeq) m).start = (l.foldl (narrowStep bwtSeq) m).end_ := by
  intro l
  induction l with
  | nil => intro m hm; exact hm
  | cons a t ih =>
    intro m hm
    rw [List.foldl_cons]
    exact ih _ (narrowStep_of_empty bwtSeq m a hm)

theorem getMatchBoundLoop_of_gt (K : Config) (bwtSeq : BWTSeq) (query : List Nat) (i : Nat)
    (m : matchBound) (h : m.end_ < m.start) :
    getMatchBoundLoop K bwtSeq query i m = .ok m := by
  cases i with
  | zero => rfl
  | succ i => simp only [getMatchBoundLoop, if_neg (Nat.not_le.mpr h)]

/-! ## The witness position of a forward scan -/

/-- A difference of numbers below `2^a` whose subtrahend has been reduced
modulo `2^b`, `a <= b`, is the difference of the integers modulo `2^a`. -/
theorem wrapped_difference (a b last s : Nat) (hab : a ≤ b) (hlast : last < 2 ^ a)
    (hv : (s % 2 ^ b) ≤ last) :
    ((last - s % 2 ^ b : Nat) : Int) = ((last : Int) - (s : Int)) % ((2 ^ a : Nat) : Int) := by
  obtain ⟨c, hc⟩ : ∃ c, b = a + c := ⟨b - a, by omega⟩
  have hs : s = s % 2 ^ b + 2 ^ a * (2 ^ c * (s / 2 ^ b)) := by
    have := Nat.mod_add_div s (2 ^ b)
    rw [hc, pow_add] at this ⊢
    rw [← Nat.mul_assoc]
    omega
  have h1 : ((last : Int) - (s : Int))
      = ((last - s % 2 ^ b : Nat) : Int)
        + ((2 ^ a : Nat) : Int) * (-(2 ^ c * (s / 2 ^ b) : Nat)) := by
    conv_lhs => rw [hs]
    push_cast [Nat.cast_sub hv]
    ring
  rw [h1, Int.add_mul_emod_self_left]
  rw [Int.emod_eq_of_lt (Int.natCast_nonneg _)]
  have : last - s % 2 ^ b < 2 ^ a := by omega
  exact_mod_cast this

/-- The run of `packedindexmstatsforward` under the standing assumptions of
a forward scan: either it returns 0 before the loop and leaves the witness
alone, or the loop ends at an index `res >= 1` with `prevlbound` the lower end
of the interval of the first `res` characters. -/
theorem packedindexmstatsforward_run (K : Config) (bwtSeq : BWTSeq) (query : List Nat)
    (hne : query ≠ []) (h : ScanReady K bwtSeq query) :
    ∃ res,
      (res = 0 → ∀ (pck : BWTSeq → Nat → Nat) (w : Option Nat),
        packedindexmstatsforward K bwtSeq pck w query = .ok (0, w)) ∧
      (1 ≤ res → ∀ (pck : BWTSeq → Nat → Nat) (w : Option Nat),
        packedindexmstatsforward K bwtSeq pck w query =
          (match w with
          | none => .ok (res, none)
          | some _ =>
            if (bwtSeq.seqIdx.seqLen + (K.seqposMod - 1)) % K.seqposMod
                ≥ witnessSum K (pck bwtSeq (forwardBound bwtSeq (query.take res)).start) res then
              .ok (res, some (((bwtSeq.seqIdx.seqLen + (K.seqposMod - 1)) % K.seqposMod
                - witnessSum K (pck bwtSeq (forwardBound bwtSeq (query.take res)).start) res)
                  % K.seqposMod))
            else .error .assertion)) := by
  have hpos : 0 < query.length := List.length_pos.mpr hne
  have hqr : readQuery query 0 = .ok query[0] := by
    simp [readQuery, List.getElem?_eq_getElem hpos]
  have hassert : assertThat (decide (0 < query.length)) = .ok () := by
    simp [assertThat, hpos]
  by_cases hsp : K.ISSPECIAL query[0] = true
  · refine ⟨0, fun _ pck w => ?_, fun h1 => absurd h1 (by omega)⟩
    simp only [packedindexmstatsforward, hassert, hqr, bind, Except.bind, if_pos hsp]
  · have hsp' : K.ISSPECIAL query[0] = false := by simpa using hsp
    have hmem : query[0] ∈ query := List.getElem_mem hpos
    have hin := h.in_table _ hmem hsp'
    have hs := readAt_getD bwtSeq.count (MRAEncMapSymbol bwtSeq.alphabet query[0]) (by omega)
    have he := readAt_getD bwtSeq.count (MRAEncMapSymbol bwtSeq.alphabet query[0] + 1) hin
    have hfree1 : specialFree K query 1 := by
      intro q hq
      have hq' : q = query[0] := by
        cases query with
        | nil => simp at hpos
        | cons x rest => simpa using hq
      rw [hq']
      exact hsp'
    have hone := forwardBound_take_one bwtSeq query hpos
    by_cases hempty : bwtSeq.count.getD (MRAEncMapSymbol bwtSeq.alphabet query[0]) 0
        ≥ bwtSeq.count.getD (MRAEncMapSymbol bwtSeq.alphabet query[0] + 1) 0
    · refine ⟨0, fun _ pck w => ?_, fun h1 => absurd h1 (by omega)⟩
      simp only [packedindexmstatsforward, hassert, hqr, bind, Except.bind, if_neg hsp, hs, he,
        if_pos hempty]
    · obtain ⟨res, prev1, hres, hr1, hr2, _, _, _, hr6⟩ :=
        mstatsLoop_spec K bwtSeq query h (query.length - 1) 1
          (bwtSeq.count.getD (MRAEncMapSymbol bwtSeq.alphabet query[0]) 0)
          (by omega) (le_refl _) hfree1
      rw [hone] at hres
      have hprev : prev1 = (forwardBound bwtSeq (query.take res)).start := by
        rw [hr6]
        split
        · next h1 => rw [h1, hone]
        · rfl
      subst hprev
      refine ⟨res, fun h0 => absurd h0 (by omega), fun _ pck w => ?_⟩
      cases w with
      | none =>
        simp only [packedindexmstatsforward, hassert, hqr, bind, Except.bind, if_neg hsp, hs, he,
          if_neg hempty, hres]
      | some w0 =>
        simp only [packedindexmstatsforward, hassert, hqr, bind, Except.bind, if_neg hsp, hs, he,
          if_neg hempty, hres, witnessSum]
        by_cases hA : (bwtSeq.seqIdx.seqLen + (K.seqposMod - 1)) % K.seqposMod
            ≥ (pck bwtSeq (forwardBound bwtSeq (query.take res)).start % K.seqposMod + res)
              % 2 ^ max K.seqposBits K.ulongBits
        · simp [assertThat, hA]
        · simp [assertThat, hA]

/-- With a 64 bit `Seqpos` and the located position `2^64 - 1` the sum
`startpos + matchlength` wraps to 1: on the index of `banana`, where
`seqLen - 1` is 6, the scan of `anb` returns the length 2 and the witness
5. -/
theorem packedindexmstatsforward_wraps :
    packedindexmstatsforward wideConfig
        (builtBWTSeq wideConfig bananaAlphabet (bwtStored 5 3 bananaText) 2 1 [])
        (fun _ _ => 2 ^ 64 - 1) (some 9) [97, 110, 98] = .ok (2, some 5) := by
  rfl

/-! ## The accesses to the `count` table while it is filled -/

theorem writeAt_fault (a : List Nat) (i v : Nat) (h : a.length ≤ i) :
    writeAt a i v = .error .outOfBounds := by
  simp only [writeAt, if_neg (Nat.not_lt.mpr h)]

theorem countLoopBelow_ok (K : Config) (seqIdx : encIdxSeq) (len : Nat) :
    ∀ (n i : Nat) (count : List Nat), i + n < count.length →
      ∃ count', countLoopBelow K seqIdx len n i count = .ok count' ∧
        count'.length = count.length := by
  intro n
  induction n with
  | zero => intro i count _; exact ⟨count, rfl, rfl⟩
  | succ n ih =>
    intro i count h
    obtain ⟨c', h1, h2⟩ := ih (i + 1)
      (count.set (i + 1) ((count.getD i 0 + EISSymTransformedRank seqIdx i len) % K.seqposMod))
      (by rw [List.length_set]; omega)
    refine ⟨c', ?_, by rw [h2, List.length_set]⟩
    simp only [countLoopBelow, readAt_getD _ _ (show i < count.length by omega),
      writeAt_of_lt _ _ _ (show i + 1 < count.length by omega), bind, Except.bind]
    exact h1

theorem countLoopBelow_fault (K : Config) (seqIdx : encIdxSeq) (len : Nat) :
    ∀ (n i : Nat) (count : List Nat), i < count.length → count.length ≤ i + n →
      countLoopBelow K seqIdx len n i count = .error .outOfBounds := by
  intro n
  induction n with
  | zero => intro i count h1 h2; omega
  | succ n ih =>
    intro i count h1 h2
    by_cases hw : i + 1 < count.length
    · simp only [countLoopBelow, readAt_getD _ _ h1, writeAt_of_lt _ _ _ hw, bind, Except.bind]
      exact ih (i + 1) _ (by rw [List.length_set]; omega) (by rw [List.length_set]; omega)
    · simp only [countLoopBelow, readAt_getD _ _ h1, writeAt_fault _ _ _ (Nat.not_lt.mp hw),
        bind, Except.bind]

theorem countLoopAbove_ok (K : Config) (seqIdx : encIdxSeq) (len : Nat) :
    ∀ (n i : Nat) (count : List Nat), 1 ≤ i → i + n ≤ count.length →
      ∃ count', countLoopAbove K seqIdx len n i count = .ok count' ∧
        count'.length = count.length := by
  intro n
  induction n with
  | zero => intro i count _ _; exact ⟨count, rfl, rfl⟩
  | succ n ih =>
    intro i count hi h
    obtain ⟨c', h1, h2⟩ := ih (i + 1)
      (count.set i ((count.getD (i - 1) 0 + EISSymTransformedRank seqIdx (i - 1) len)
        % K.seqposMod))
      (by omega) (by rw [List.length_set]; omega)
    refine ⟨c', ?_, by rw [h2, List.length_set]⟩
    simp only [countLoopAbove, readAt_getD _ _ (show i - 1 < count.length by omega),
      writeAt_of_lt _ _ _ (show i < count.length by omega), bind, Except.bind]
    exact h1

theorem assertThat_true (c : Prop) [Decidable c] (h : c) : assertThat (decide c) = .ok () := by
  simp [assertThat, h]

theorem assertThat_false (c : Prop) [Decidable c] (h : ¬ c) :
    assertThat (decide c) = .error .assertion := by
  simp [assertThat, h]

/-- With every index up to `alphabetSize` and up to the fallback code plus 2
inside the table, the block that fills the table makes no access outside
it. -/
theorem fillCount_no_fault (K : Config) (seqIdx : encIdxSeq) (σ f : Nat) (counts : List Nat)
    (hσ : σ < counts.length) (hf : f + 2 < counts.length) :
    fillCount K seqIdx σ f counts ≠ .error .outOfBounds := by
  have hw0 : writeAt counts 0 0 = .ok (counts.set 0 0) := writeAt_of_lt _ _ _ (by omega)
  obtain ⟨c1, hc1, hl1⟩ := countLoopBelow_ok K seqIdx (EISLength seqIdx) f 0 (counts.set 0 0)
    (by rw [List.length_set]; omega)
  rw [List.length_set] at hl1
  have hr1 := readAt_getD c1 f (by omega)
  have hw1 := writeAt_of_lt c1 (f + 1)
    ((c1.getD f 0 + EISSymTransformedRank seqIdx f (EISLength seqIdx) + (K.seqposMod - 1))
      % K.seqposMod) (by omega)
  obtain ⟨c2, hc2⟩ : ∃ c2, c2 = c1.set (f + 1)
      ((c1.getD f 0 + EISSymTransformedRank seqIdx f (EISLength seqIdx) + (K.seqposMod - 1))
        % K.seqposMod) := ⟨_, rfl⟩
  rw [← hc2] at hw1
  have hl2 : c2.length = counts.length := by rw [hc2, List.length_set, hl1]
  have hr2 := readAt_getD c2 (f + 1) (by omega)
  have hr3 := readAt_getD c2 f (by omega)
  by_cases hA : c2.getD (f + 1) 0 ≥ c2.getD f 0
  · obtain ⟨c3, hc3, hl3⟩ := countLoopAbove_ok K seqIdx (EISLength seqIdx) (σ - (f + 2)) (f + 2)
      c2 (by omega) (by omega)
    obtain ⟨j, hj⟩ : ∃ j, (if f + 2 < σ then σ else f + 2) = j := ⟨_, rfl⟩
    have hj1 : 1 ≤ j ∧ j < c3.length := by
      rw [← hj]
      split <;> omega
    have hr4 := readAt_getD c3 (j - 1) (by omega)
    have hw4 := writeAt_of_lt c3 j ((c3.getD (j - 1) 0 + 1) % K.seqposMod) hj1.2
    have hr5 := readAt_getD (c3.set j ((c3.getD (j - 1) 0 + 1) % K.seqposMod)) σ
      (by rw [List.length_set]; omega)
    by_cases hB : (c3.set j ((c3.getD (j - 1) 0 + 1) % K.seqposMod)).getD σ 0
        = EISLength seqIdx
    · simp only [fillCount, hw0, hc1, hr1, hw1, hr2, hr3, assertThat_true _ hA, hc3, hj, hr4,
        hw4, hr5, assertThat_true _ hB, bind, Except.bind, pure, Except.pure]
      simp
    · simp only [fillCount, hw0, hc1, hr1, hw1, hr2, hr3, assertThat_true _ hA, hc3, hj, hr4,
        hw4, hr5, assertThat_false _ hB, bind, Except.bind, pure, Except.pure]
      simp
  · simp only [fillCount, hw0, hc1, hr1, hw1, hr2, hr3, assertThat_false _ hA, bind,
      Except.bind]
    simp

/-- With a fallback code of `alphabetSize` or more, the block that fills a
table of `alphabetSize + 1` entries writes behind the table. -/
theorem fillCount_fault_above (K : Config) (seqIdx : encIdxSeq) (σ f : Nat)
    (counts : List Nat) (hlen : counts.length = σ + 1) (hf : σ ≤ f) :
    fillCount K seqIdx σ f counts = .error .outOfBounds := by
  have hw0 : writeAt counts 0 0 = .ok (counts.set 0 0) := writeAt_of_lt _ _ _ (by omega)
  rcases Nat.lt_or_eq_of_le hf with hlt | heq
  · have hc1 := countLoopBelow_fault K seqIdx (EISLength seqIdx) f 0 (counts.set 0 0)
      (by rw [List.length_set]; omega) (by rw [List.length_set]; omega)
    simp only [fillCount, hw0, hc1, bind, Except.bind]
  · subst heq
    obtain ⟨c1, hc1, hl1⟩ := countLoopBelow_ok K seqIdx (EISLength seqIdx) σ 0 (counts.set 0 0)
      (by rw [List.length_set]; omega)
    rw [List.length_set] at hl1
    have hr1 := readAt_getD c1 σ (by omega)
    simp only [fillCount, hw0, hc1, hr1,
      writeAt_fault c1 (σ + 1) _ (show c1.length ≤ σ + 1 by omega), bind, Except.bind]

/-- With the fallback code `alphabetSize - 1`, the block that fills a table
of `alphabetSize + 1` entries makes its last write, after the assertion on
the slot of the fallback code, behind the table. -/
theorem fillCount_fault_last (K : Config) (seqIdx : encIdxSeq) (σ f : Nat)
    (counts : List Nat) (hlen : counts.length = σ + 1) (hf : f + 1 = σ) :
    ∃ c1, countLoopBelow K seqIdx (EISLength seqIdx) f 0 (counts.set 0 0) = .ok c1 ∧
      fillCount K seqIdx σ f counts =
        if c1.getD f 0 ≤ (c1.getD f 0 + EISSymTransformedRank seqIdx f (EISLength seqIdx)
            + (K.seqposMod - 1)) % K.seqposMod then .error .outOfBounds
        else .error .assertion := by
  have hw0 : writeAt counts 0 0 = .ok (counts.set 0 0) := writeAt_of_lt _ _ _ (by omega)
  obtain ⟨c1, hc1, hl1⟩ := countLoopBelow_ok K seqIdx (EISLength seqIdx) f 0 (counts.set 0 0)
    (by rw [List.length_set]; omega)
  rw [List.length_set] at hl1
  refine ⟨c1, hc1, ?_⟩
  have hr1 := readAt_getD c1 f (by omega)
  have hw1 := writeAt_of_lt c1 (f + 1)
    ((c1.getD f 0 + EISSymTransformedRank seqIdx f (EISLength seqIdx) + (K.seqposMod - 1))
      % K.seqposMod) (by omega)
  obtain ⟨v, hv⟩ : ∃ v, v = (c1.getD f 0 + EISSymTransformedRank seqIdx f (EISLength seqIdx)
      + (K.seqposMod - 1)) % K.seqposMod := ⟨_, rfl⟩
  rw [← hv] at hw1 ⊢
  have hl2 : (c1.set (f + 1) v).length = σ + 1 := by rw [List.length_set, hl1, hlen]
  have hr2 := readAt_getD (c1.set (f + 1) v) (f + 1) (by omega)
  have hr3 := readAt_getD (c1.set (f + 1) v) f (by omega)
  have hg2 : (c1.set (f + 1) v).getD (f + 1) 0 = v := by
    rw [List.getD_eq_getElem?_getD, List.getElem?_set_self (by omega)]
    rfl
  have hg3 : (c1.set (f + 1) v).getD f 0 = c1.getD f 0 := by
    rw [List.getD_eq_getElem?_getD, List.getElem?_set_ne (by omega),
      ← List.getD_eq_getElem?_getD]
  rw [hg2] at hr2
  rw [hg3] at hr3
  subst hv
  by_cases hA : c1.getD f 0 ≤ (c1.getD f 0 + EISSymTransformedRank seqIdx f (EISLength seqIdx)
      + (K.seqposMod - 1)) % K.seqposMod
  · have hz : σ - (f + 2) = 0 := by omega
    have hi : (if f + 2 < σ then σ else f + 2) = σ + 1 := by
      rw [if_neg (by omega)]
      omega
    have hr4 := readAt_getD (c1.set (f + 1) ((c1.getD f 0
      + EISSymTransformedRank seqIdx f (EISLength seqIdx) + (K.seqposMod - 1))
        % K.seqposMod)) σ (by omega)
    rw [if_pos hA]
    simp only [fillCount, hw0, hc1, hr1, hw1, hr2, hr3, assertThat_true _ hA,
      hz, countLoopAbove, hi, Nat.add_sub_cancel, hr4,
      writeAt_fault _ (σ + 1) _ (show _ ≤ σ + 1 from Nat.le_of_eq hl2), bind, Except.bind]
  · rw [if_neg hA]
    simp only [fillCount, hw0, hc1, hr1, hw1, hr2, hr3, assertThat_false _ hA,
      bind, Except.bind]

/-- The run of `newBWTSeq` on a non-empty alphabet with a range 1 is the run
of the block that fills the table of `alphabetSize + 1` entries. -/
theorem newBWTSeq_fault_iff (K : Config) (seqIdx : encIdxSeq) (alphabet : MRAEnc)
    (drs : List Nat) (h0 : MRAEncGetSize alphabet ≠ 0) (hr : 1 < MRAEncGetNumRanges alphabet) :
    (∀ e, newBWTSeq K seqIdx alphabet drs = .error e ↔
      fillCount K seqIdx (MRAEncGetSize alphabet + 1) (fallbackCode K alphabet)
        (List.replicate (MRAEncGetSize alphabet + 1 + 1) 0) = .error e) := by
  intro e
  have hadd : MRAEncGetSize (MRAEncAddSymbolToRange alphabet K.bwtTerminatorSym 1)
      = MRAEncGetSize alphabet + 1 := terminatedAlphabet_size K alphabet hr
  have hassert : assertThat (decide (MRAEncGetSize (MRAEncAddSymbolToRange alphabet
      K.bwtTerminatorSym 1) = MRAEncGetSize alphabet + 1)) = .ok () :=
    assertThat_true _ hadd
  unfold fallbackCode terminatedAlphabet
  cases hF : fillCount K seqIdx (MRAEncGetSize alphabet + 1)
      (MRAEncMapSymbol (MRAEncAddSymbolToRange alphabet K.bwtTerminatorSym 1) K.UNDEFBWTCHAR)
      (List.replicate (MRAEncGetSize alphabet + 1 + 1) 0) with
  | error e2 =>
    simp only [newBWTSeq, initBWTSeqFromEncSeqIdx, if_neg h0, hassert, hadd, hF, bind,
      Except.bind, pure, Except.pure]
    simp [assertThat]
  | ok c =>
    simp only [newBWTSeq, initBWTSeqFromEncSeqIdx, if_neg h0, hassert, hadd, hF, bind,
      Except.bind, pure, Except.pure]
    simp [assertThat]

/-! ## The reads of the query in a backward search -/

/-- C31, counterexample: the iterator that `initEMIterator` sets up on the
index of `banana` for the query `bb`, which does not occur, has the bound
`[4, 4)` and the cursor 4: the cursor is not greater than `end`, and
`EMINumMatchesLeft` returns 0. -/
theorem C31_zero_with_cursor_at_end :
    ∃ iter, initEMIterator bananaConfig bananaIndex [98, 98] 2 = .ok (some iter) ∧
      iter.bounds = { start := 4, end_ := 4 } ∧ iter.nextMatchBWTPos = 4 ∧
      ¬ iter.nextMatchBWTPos > iter.bounds.end_ ∧
      EMINumMatchesLeft bananaConfig iter = 0 :=
  ⟨{ bounds := { start := 4, end_ := 4 }, nextMatchBWTPos := 4, extBits := 0 },
    rfl, rfl, rfl, by decide, by decide⟩

/-- C31, amended: for every iterator state whose bound consists of `Seqpos`
values, with the cursor at or before `end` the function `EMINumMatchesLeft`
returns `end - start` taken in `Seqpos` (the difference itself when
`start <= end`), whatever the cursor is; with the cursor after `end` it
returns 0; so it returns 0 exactly when the cursor is after `end` or
`start == end`. -/
theorem C31_matchesLeft_value (K : Config) (iter : BWTSeqExactMatchesIterator)
    (hs : iter.bounds.start < K.seqposMod) (he : iter.bounds.end_ < K.seqposMod) :
    (iter.nextMatchBWTPos ≤ iter.bounds.end_ → iter.bounds.start ≤ iter.bounds.end_ →
      EMINumMatchesLeft K iter = iter.bounds.end_ - iter.bounds.start) ∧
    (iter.nextMatchBWTPos ≤ iter.bounds.end_ → iter.bounds.end_ < iter.bounds.start →
      EMINumMatchesLeft K iter = K.seqposMod - (iter.bounds.start - iter.bounds.end_)) ∧
    (iter.nextMatchBWTPos ≤ iter.bounds.end_ → ∀ cursor, cursor ≤ iter.bounds.end_ →
      EMINumMatchesLeft K { iter with nextMatchBWTPos := cursor } = EMINumMatchesLeft K iter) ∧
    (iter.bounds.end_ < iter.nextMatchBWTPos → EMINumMatchesLeft K iter = 0) ∧
    (EMINumMatchesLeft K iter = 0 ↔
      iter.bounds.end_ < iter.nextMatchBWTPos ∨ iter.bounds.start = iter.bounds.end_) := by
  have hle : ∀ c : Nat, c ≤ iter.bounds.end_ → iter.bounds.start ≤ iter.bounds.end_ →
      (if c > iter.bounds.end_ then 0
        else (iter.bounds.end_ + (K.seqposMod - iter.bounds.start)) % K.seqposMod)
        = iter.bounds.end_ - iter.bounds.start := by
    intro c hc hse
    rw [if_neg (by omega)]
    have h1 : iter.bounds.end_ + (K.seqposMod - iter.bounds.start)
        = (iter.bounds.end_ - iter.bounds.start) + K.seqposMod := by omega
    rw [h1, Nat.add_mod_right, Nat.mod_eq_of_lt (by omega)]
  have hgt : ∀ c : Nat, c ≤ iter.bounds.end_ → iter.bounds.end_ < iter.bounds.start →
      (if c > iter.bounds.end_ then 0
        else (iter.bounds.end_ + (K.seqposMod - iter.bounds.start)) % K.seqposMod)
        = K.seqposMod - (iter.bounds.start - iter.bounds.end_) := by
    intro c hc hse
    rw [if_neg (by omega), Nat.mod_eq_of_lt (by omega)]
    omega
  refine ⟨fun hc hse => hle _ hc hse, fun hc hse => hgt _ hc hse, ?_, ?_, ?_⟩
  · intro hc cursor hcur
    simp only [EMINumMatchesLeft]
    rw [if_neg (by omega), if_neg (by omega)]
  · intro hc
    simp only [EMINumMatchesLeft]
    rw [if_pos hc]
  · by_cases hc : iter.bounds.end_ < iter.nextMatchBWTPos
    · simp only [EMINumMatchesLeft]
      rw [if_pos hc]
      simp [hc]
    · by_cases hse : iter.bounds.start ≤ iter.bounds.end_
      · have := hle iter.nextMatchBWTPos (by omega) hse
        simp only [EMINumMatchesLeft]
        rw [this]
        omega
      · have := hgt iter.nextMatchBWTPos (by omega) (by omega)
        simp only [EMINumMatchesLeft]
        rw [this]
        omega

theorem C31_matchesLeft_value_witness :
    (4 : Nat) < bananaConfig.seqposMod ∧
    EMINumMatchesLeft bananaConfig
      { bounds := { start := 4, end_ := 6 }, nextMatchBWTPos := 5, extBits := 0 } = 2 :=
  ⟨by decide,
    (C31_matchesLeft_value bananaConfig
      { bounds := { start := 4, end_ := 6 }, nextMatchBWTPos := 5, extBits := 0 }
      (by decide) (by decide)).1 (by decide) (by decide)⟩

/-- C32, counterexample: on the index of `banana` the suffix `bn` of the
query `abn` has the empty interval `[4, 4)`, and `getMatchBound` returns
`[0, 0)` for `abn`: the character `a` has been applied to the empty
interval. -/
theorem C32_empty_interval_is_narrowed :
    getMatchBound bananaConfig bananaIndex [98, 110] 2 = .ok { start := 4, end_ := 4 } ∧
    getMatchBound bananaConfig bananaIndex [97, 98, 110] 3 = .ok { start := 0, end_ := 0 } ∧
    narrowStep bananaIndex { start := 4, end_ := 4 } 97 = { start := 0, end_ := 0 } :=
  ⟨rfl, rfl, rfl⟩

/-- C32, amended: under the standing assumptions of a search, the loop of
`getMatchBound` ends before the query is used up only at an interval with
`start > end`, and if the interval of the suffix `q[k..m)` is empty,
`getMatchBound` still applies the characters `q[k-1]` down to `q[0]` to it
and returns the interval of the whole query, and the interval of every longer
suffix and of the whole query is empty, with `start == end`. -/
theorem C32_narrowing_goes_on (K : Config) (bwtSeq : BWTSeq) (query : List Nat)
    (h : SearchReady K bwtSeq query) (k : Nat) (hk : k < query.length)
    (hempty : (narrowedBound bwtSeq (query.drop k)).end_
      ≤ (narrowedBound bwtSeq (query.drop k)).start) :
    getMatchBound K bwtSeq query query.length
      = .ok ((query.take k).reverse.foldl (narrowStep bwtSeq)
          (narrowedBound bwtSeq (query.drop k))) ∧
    (∀ j, j ≤ k → (narrowedBound bwtSeq (query.drop j)).start
      = (narrowedBound bwtSeq (query.drop j)).end_) ∧
    (∀ m, getMatchBound K bwtSeq query query.length = .ok m → m.start = m.end_) ∧
    (∀ i m, m.end_ < m.start → getMatchBoundLoop K bwtSeq query i m = .ok m) ∧
    (∀ i m, m.start ≤ m.end_ → i < query.length →
      getMatchBoundLoop K bwtSeq query (i + 1) m
        = getMatchBoundLoop K bwtSeq query i (narrowStep bwtSeq m query[i]!)) := by
  have hne : query ≠ [] := by
    intro h0
    rw [h0] at hk
    simp at hk
  have hdrop : query.drop k ≠ [] := by
    intro h0
    have := congrArg List.length h0
    simp at this
    omega
  have hsub : SearchReady K bwtSeq (query.drop k) :=
    { length_count := h.length_count
      count_mono := h.count_mono
      rank_mono := h.rank_mono
      in_alphabet := fun q hq => h.in_alphabet q (List.mem_of_mem_drop hq)
      no_wrap := fun q hq => h.no_wrap q (List.mem_of_mem_drop hq) }
  have hk0 : (narrowedBound bwtSeq (query.drop k)).start
      = (narrowedBound bwtSeq (query.drop k)).end_ :=
    Nat.le_antisymm (narrowedBound_le K bwtSeq _ hsub) hempty
  have hsplit : ∀ j, j ≤ k → narrowedBound bwtSeq (query.drop j)
      = ((query.drop j).take (k - j)).reverse.foldl (narrowStep bwtSeq)
          (narrowedBound bwtSeq (query.drop k)) := by
    intro j hj
    have h1 : query.drop j = (query.drop j).take (k - j) ++ query.drop k := by
      conv_lhs => rw [← List.take_append_drop (k - j) (query.drop j)]
      rw [List.drop_drop]
      congr 2
      omega
    conv_lhs => rw [h1]
    exact narrowedBound_append bwtSeq _ _ hdrop
  have hall : ∀ j, j ≤ k → (narrowedBound bwtSeq (query.drop j)).start
      = (narrowedBound bwtSeq (query.drop j)).end_ := by
    intro j hj
    rw [hsplit j hj]
    exact foldl_narrowStep_of_empty bwtSeq _ _ hk0
  have hrun : getMatchBound K bwtSeq query query.length
      = .ok ((query.take k).reverse.foldl (narrowStep bwtSeq)
          (narrowedBound bwtSeq (query.drop k))) := by
    rw [getMatchBound_eq K bwtSeq query hne h]
    have := hsplit 0 (Nat.zero_le _)
    simp only [List.drop_zero, Nat.sub_zero] at this
    rw [this]
  refine ⟨hrun, hall, ?_, ?_, ?_⟩
  · intro m hm
    rw [getMatchBound_eq K bwtSeq query hne h, Except.ok.injEq] at hm
    have := hall 0 (Nat.zero_le _)
    simp only [List.drop_zero] at this
    rw [← hm]
    exact this
  · intro i m hm
    exact getMatchBoundLoop_of_gt K bwtSeq query i m hm
  · intro i m hm hi
    have hq : query[i]? = some query[i] := List.getElem?_eq_getElem hi
    have hq1 : query[i]! = query[i] := by simp [getElem!_pos, hi]
    have hmem : query[i] ∈ query := List.getElem_mem hi
    have hc := h.in_alphabet _ hmem
    have hread : readAt bwtSeq.count (MRAEncMapSymbol bwtSeq.alphabet query[i])
        = .ok (bwtSeq.count.getD (MRAEncMapSymbol bwtSeq.alphabet query[i]) 0) :=
      readAt_getD _ _ (by rw [h.length_count]; omega)
    rw [hq1]
    simp only [getMatchBoundLoop, if_pos hm, readQuery, hq, hread, bind, Except.bind,
      BWTSeqTransformedPosPairOcc, narrowStep]
    rw [Nat.mod_eq_of_lt (h.no_wrap _ hmem _), Nat.mod_eq_of_lt (h.no_wrap _ hmem _)]

theorem C32_narrowing_goes_on_witness :
    getMatchBound bananaConfig bananaIndex [97, 98, 110] 3
      = .ok (([97, 98, 110].take 1).reverse.foldl (narrowStep bananaIndex)
          (narrowedBound bananaIndex ([97, 98, 110].drop 1))) :=
  (C32_narrowing_goes_on bananaConfig bananaIndex [97, 98, 110]
    (searchReady_built bananaConfig bananaAlphabet (bwtStored 5 3 bananaText) 2 1 []
      [97, 98, 110] (by decide) (by decide) (by decide) (by decide))
    1 (by decide) (by decide)).1

/-- C33: on an index that meets the standing assumptions of a forward scan
and holds `seqLen` positions, `1 <= seqLen < 2^w`, a call of
`packedindexmstatsforward` with a witness output that holds `w0` has the
result length `L` of the call without a witness output.  If `L = 0` it
returns 0 and the witness output still holds `w0`.  If `L >= 1`, the interval
of `q[0..L)` is not empty, the scan ended at `L` (the query ends there, or
`q[L]` is special, or the interval of `q[0..L+1)` is empty), and with `s` the
position that `pckfindfirstmatch` locates for the lower end of the interval of
`q[0..L)` and `s + L` as the machine computes it: if `seqLen - 1` is not
below it, the call returns `L` and the witness `(seqLen - 1) - (s + L)`,
which is the integer `(seqLen - 1) - (s + L)` reduced to a `Seqpos`, and is
that integer when `s + L <= seqLen - 1`; else the assertion before the
assignment fails. -/
theorem C33_witness_position (K : Config) (bwtSeq : BWTSeq) (query : List Nat)
    (pck : BWTSeq → Nat → Nat) (w0 : Nat)
    (hne : query ≠ []) (h : ScanReady K bwtSeq query)
    (hlen : 1 ≤ bwtSeq.seqIdx.seqLen) (hM : bwtSeq.seqIdx.seqLen < K.seqposMod) :
    ∃ L, packedindexmstatsforward K bwtSeq pck none query = .ok (L, none) ∧
      (∀ r, packedindexmstatsforward K bwtSeq pck (some w0) query = .ok r → r.1 = L) ∧
      (L = 0 → packedindexmstatsforward K bwtSeq pck (some w0) query = .ok (0, some w0)) ∧
      (1 ≤ L →
        nonEmptyAt bwtSeq query L ∧
        (L < query.length →
          (∃ cc, query[L]? = some cc ∧ K.ISSPECIAL cc = true) ∨
            ¬ nonEmptyAt bwtSeq query (L + 1)) ∧
        (witnessSum K (pck bwtSeq (forwardBound bwtSeq (query.take L)).start) L
            ≤ bwtSeq.seqIdx.seqLen - 1 →
          packedindexmstatsforward K bwtSeq pck (some w0) query
            = .ok (L, some ((bwtSeq.seqIdx.seqLen - 1)
                - witnessSum K (pck bwtSeq (forwardBound bwtSeq (query.take L)).start) L)) ∧
          (((bwtSeq.seqIdx.seqLen - 1)
              - witnessSum K (pck bwtSeq (forwardBound bwtSeq (query.take L)).start) L : Nat)
            : Int)
            = ((bwtSeq.seqIdx.seqLen : Int) - 1
                - ((pck bwtSeq (forwardBound bwtSeq (query.take L)).start % K.seqposMod : Nat)
                  + (L : Int))) % (K.seqposMod : Int)) ∧
        (pck bwtSeq (forwardBound bwtSeq (query.take L)).start % K.seqposMod + L
            ≤ bwtSeq.seqIdx.seqLen - 1 →
          packedindexmstatsforward K bwtSeq pck (some w0) query
            = .ok (L, some ((bwtSeq.seqIdx.seqLen - 1)
                - (pck bwtSeq (forwardBound bwtSeq (query.take L)).start % K.seqposMod
                  + L)))) ∧
        (bwtSeq.seqIdx.seqLen - 1
            < witnessSum K (pck bwtSeq (forwardBound bwtSeq (query.take L)).start) L →
          packedindexmstatsforward K bwtSeq pck (some w0) query = .error .assertion)) := by
  obtain ⟨L, hnone, hall, hLle, hfree, hnonempty, hmax, hzero⟩ :=
    packedindexmstatsforward_spec K bwtSeq query hne h
  obtain ⟨res, hres0, hres1⟩ := packedindexmstatsforward_run K bwtSeq query hne h
  have hlast : (bwtSeq.seqIdx.seqLen + (K.seqposMod - 1)) % K.seqposMod
      = bwtSeq.seqIdx.seqLen - 1 := by
    have h1 : bwtSeq.seqIdx.seqLen + (K.seqposMod - 1)
        = (bwtSeq.seqIdx.seqLen - 1) + K.seqposMod := by omega
    rw [h1, Nat.add_mod_right, Nat.mod_eq_of_lt (by omega)]
  have hLres : L = res := by
    have h1 := hnone pck
    rcases Nat.eq_zero_or_pos res with h0 | h0
    · rw [hres0 h0 pck none, Except.ok.injEq, Prod.mk.injEq] at h1
      omega
    · rw [hres1 h0 pck none, Except.ok.injEq, Prod.mk.injEq] at h1
      exact h1.1.symm
  subst hLres
  have hwitness : 1 ≤ L →
      witnessSum K (pck bwtSeq (forwardBound bwtSeq (query.take L)).start) L
        ≤ bwtSeq.seqIdx.seqLen - 1 →
      packedindexmstatsforward K bwtSeq pck (some w0) query
        = .ok (L, some ((bwtSeq.seqIdx.seqLen - 1)
            - witnessSum K (pck bwtSeq (forwardBound bwtSeq (query.take L)).start) L)) := by
    intro h1 hA
    rw [hres1 h1 pck (some w0)]
    simp only [hlast]
    rw [if_pos hA, Nat.mod_eq_of_lt (by omega)]
  refine ⟨L, hnone pck, fun r hr => hall pck (some w0) r hr, fun hL => hres0 hL pck (some w0),
    fun hL => ⟨hnonempty hL, ?_, ?_, ?_, ?_⟩⟩
  · intro hlt
    by_contra hcon
    have hcon1 : ¬ (∃ cc, query[L]? = some cc ∧ K.ISSPECIAL cc = true) :=
      fun hx => hcon (Or.inl hx)
    have hcon2 : nonEmptyAt bwtSeq query (L + 1) := by
      by_contra hx
      exact hcon (Or.inr hx)
    have hfree1 : specialFree K query (L + 1) := by
      apply specialFree_succ K query L hlt hfree
      cases hq : K.ISSPECIAL query[L] with
      | false => rfl
      | true => exact absurd ⟨query[L], List.getElem?_eq_getElem hlt, hq⟩ hcon1
    have := hmax (L + 1) (by omega) hfree1 (fun _ => hcon2)
    omega
  · intro hA
    refine ⟨hwitness hL hA, ?_⟩
    have hcast : ((bwtSeq.seqIdx.seqLen : Int) - 1) = ((bwtSeq.seqIdx.seqLen - 1 : Nat) : Int) := by
      omega
    have hsum : (((pck bwtSeq (forwardBound bwtSeq (query.take L)).start % K.seqposMod : Nat)
        : Int) + (L : Int))
        = ((pck bwtSeq (forwardBound bwtSeq (query.take L)).start % K.seqposMod + L : Nat)
          : Int) := by
      push_cast
      rfl
    rw [hcast, hsum]
    exact wrapped_difference K.seqposBits (max K.seqposBits K.ulongBits)
      (bwtSeq.seqIdx.seqLen - 1) _ (Nat.le_max_left _ _)
      (by unfold Config.seqposMod at hM; omega) hA
  · intro hA
    have hsmall : pck bwtSeq (forwardBound bwtSeq (query.take L)).start % K.seqposMod + L
        < 2 ^ max K.seqposBits K.ulongBits := by
      have h1 : K.seqposMod ≤ 2 ^ max K.seqposBits K.ulongBits :=
        Nat.pow_le_pow_right (by decide) (Nat.le_max_left _ _)
      omega
    have hsum : witnessSum K (pck bwtSeq (forwardBound bwtSeq (query.take L)).start) L
        = pck bwtSeq (forwardBound bwtSeq (query.take L)).start % K.seqposMod + L := by
      unfold witnessSum
      exact Nat.mod_eq_of_lt hsmall
    have := hwitness hL (by rw [hsum]; exact hA)
    rw [hsum] at this
    exact this
  · intro hA
    rw [hres1 hL pck (some w0)]
    simp only [hlast]
    rw [if_neg (by omega)]

theorem C33_witness_position_witness :
    ∃ L, packedindexmstatsforward bananaConfig bananaIndex (fun _ pos => pos) none [97, 110, 98]
        = .ok (L, none) ∧
      (1 ≤ L →
        (forwardBound bananaIndex ([97, 110, 98].take L)).start % bananaConfig.seqposMod + L
            ≤ bananaIndex.seqIdx.seqLen - 1 →
        packedindexmstatsforward bananaConfig bananaIndex (fun _ pos => pos) (some 9)
            [97, 110, 98]
          = .ok (L, some ((bananaIndex.seqIdx.seqLen - 1)
              - ((forwardBound bananaIndex ([97, 110, 98].take L)).start
                % bananaConfig.seqposMod + L)))) :=
  (C33_witness_position bananaConfig bananaIndex [97, 110, 98] (fun _ pos => pos) 9
    (by decide)
    (scanReady_built bananaConfig bananaAlphabet (bwtStored 5 3 bananaText) 2 1 []
      [97, 110, 98] (by decide) (by decide) (by decide) (by decide))
    (by decide) (by decide)).imp
    (fun _ hL => ⟨hL.1, fun h1 => (hL.2.2.2 h1).2.2.2.1⟩)

/-- C34, counterexample: with the fallback code 4, which is
`alphabetSize - 1`, and the sequence that holds the code 0 once, the run ends
at `assert(count[i + 1] >= count[i])`, `count[5] = 0` lying below
`count[4] = 1`: the writes made, at the indices 0 to 5, lie inside the table
of 6 entries, and the final write is not reached. -/
theorem C34_last_code_stops_at_assertion :
    MRAEncGetSize bananaAlphabet + 1 = 5 ∧
    fallbackCode terminatorFallbackConfig bananaAlphabet = 4 ∧
    fillCount terminatorFallbackConfig (encIdxSeqOfSymbols [0] 0 0) 5 4 (List.replicate 6 0)
      = .error .assertion ∧
    newBWTSeq terminatorFallbackConfig (encIdxSeqOfSymbols [0] 0 0) bananaAlphabet []
      = .error .assertion :=
  ⟨by decide, by decide, rfl, rfl⟩

/-- C34, amended: for a non-empty alphabet with a range 1, with
`alphabetSize` the size of the alphabet plus one and a `count` table of
`alphabetSize + 1` entries as `newBWTSeq` allocates it: if the fallback code
is at most
`alphabetSize - 2`, no access to the table in `initBWTSeqFromEncSeqIdx` lies
outside it; if the fallback code is larger, `newBWTSeq` does not return; if it
is `alphabetSize` or more, a write of the first loop or the write to the slot
after the fallback code lies outside the table; if it is `alphabetSize - 1`,
the run ends at the assertion on the slot of the fallback code or, when that
holds, at the final write, which lies outside the table, and with one more
entry in the table, the entry `alphabetSize + 1`, no access lies outside. -/
theorem C34_count_writes_within_table (K : Config) (seqIdx : encIdxSeq) (alphabet : MRAEnc)
    (drs : List Nat) (h0 : MRAEncGetSize alphabet ≠ 0) (hr : 1 < MRAEncGetNumRanges alphabet) :
    (fallbackCode K alphabet + 2 ≤ MRAEncGetSize alphabet + 1 →
      newBWTSeq K seqIdx alphabet drs ≠ .error .outOfBounds) ∧
    (MRAEncGetSize alphabet + 1 < fallbackCode K alphabet + 2 →
      ∀ r, newBWTSeq K seqIdx alphabet drs ≠ .ok r) ∧
    (MRAEncGetSize alphabet + 1 ≤ fallbackCode K alphabet →
      newBWTSeq K seqIdx alphabet drs = .error .outOfBounds) ∧
    (fallbackCode K alphabet + 1 = MRAEncGetSize alphabet + 1 →
      (∃ c1, countLoopBelow K seqIdx (EISLength seqIdx) (fallbackCode K alphabet) 0
          ((List.replicate (MRAEncGetSize alphabet + 1 + 1) 0).set 0 0) = .ok c1 ∧
        newBWTSeq K seqIdx alphabet drs =
          if c1.getD (fallbackCode K alphabet) 0
              ≤ (c1.getD (fallbackCode K alphabet) 0
                + EISSymTransformedRank seqIdx (fallbackCode K alphabet) (EISLength seqIdx)
                + (K.seqposMod - 1)) % K.seqposMod then .error .outOfBounds
          else .error .assertion) ∧
      ∀ extra, fillCount K seqIdx (MRAEncGetSize alphabet + 1) (fallbackCode K alphabet)
        (List.replicate (MRAEncGetSize alphabet + 1 + 1) 0 ++ [extra]) ≠ .error .outOfBounds) := by
  have hiff := newBWTSeq_fault_iff K seqIdx alphabet drs h0 hr
  have habove : MRAEncGetSize alphabet + 1 ≤ fallbackCode K alphabet →
      newBWTSeq K seqIdx alphabet drs = .error .outOfBounds := by
    intro hf
    exact (hiff _).mpr (fillCount_fault_above K seqIdx _ _ _ (by simp) hf)
  have hlast : fallbackCode K alphabet + 1 = MRAEncGetSize alphabet + 1 →
      ∃ c1, countLoopBelow K seqIdx (EISLength seqIdx) (fallbackCode K alphabet) 0
          ((List.replicate (MRAEncGetSize alphabet + 1 + 1) 0).set 0 0) = .ok c1 ∧
        newBWTSeq K seqIdx alphabet drs =
          if c1.getD (fallbackCode K alphabet) 0
              ≤ (c1.getD (fallbackCode K alphabet) 0
                + EISSymTransformedRank seqIdx (fallbackCode K alphabet) (EISLength seqIdx)
                + (K.seqposMod - 1)) % K.seqposMod then .error .outOfBounds
          else .error .assertion := by
    intro hf
    obtain ⟨c1, hc1, hrun⟩ := fillCount_fault_last K seqIdx (MRAEncGetSize alphabet + 1)
      (fallbackCode K alphabet) (List.replicate (MRAEncGetSize alphabet + 1 + 1) 0)
      (by simp) hf
    refine ⟨c1, hc1, ?_⟩
    split at hrun
    · next hA => rw [if_pos hA]; exact (hiff _).mpr hrun
    · next hA => rw [if_neg hA]; exact (hiff _).mpr hrun
  refine ⟨?_, ?_, habove, fun hf => ⟨hlast hf, fun extra => ?_⟩⟩
  · intro hf hrun
    exact fillCount_no_fault K seqIdx _ _ _ (by simp) (by simp; omega) ((hiff _).mp hrun)
  · intro hf r hrun
    by_cases hge : MRAEncGetSize alphabet + 1 ≤ fallbackCode K alphabet
    · rw [habove hge] at hrun
      exact Except.noConfusion hrun
    · obtain ⟨c1, _, hrun2⟩ := hlast (by omega)
      rw [hrun] at hrun2
      split at hrun2 <;> exact Except.noConfusion hrun2
  · exact fillCount_no_fault K seqIdx _ _ _ (by simp) (by simp; omega)

theorem C34_count_writes_within_table_witness :
    newBWTSeq bananaConfig (encIdxSeqOfSymbols (bwtStored 5 3 bananaText) 0 0) bananaAlphabet []
      ≠ .error .outOfBounds ∧
    ∀ r, newBWTSeq terminatorFallbackConfig (encIdxSeqOfSymbols [4] 0 0) bananaAlphabet []
      ≠ .ok r :=
  ⟨(C34_count_writes_within_table bananaConfig
      (encIdxSeqOfSymbols (bwtStored 5 3 bananaText) 0 0) bananaAlphabet []
      (by decide) (by decide)).1 (by decide),
    (C34_count_writes_within_table terminatorFallbackConfig (encIdxSeqOfSymbols [4] 0 0)
      bananaAlphabet [] (by decide) (by decide)).2.1 (by decide)⟩

end EisBwtSeq

namespace Gtcore

/-! ## Memory accesses -/

theorem load_of_get (mem : List (Option Dlistelem)) (a : Nat) (e : Dlistelem)
    (h : mem[a]? = some (some e)) : load mem (some a) = .ok e := by
  simp only [load, h]

theorem store_of_get (mem : List (Option Dlistelem)) (a : Nat) (e0 e : Dlistelem)
    (h : mem[a]? = some (some e0)) : store mem (some a) e = .ok (mem.set a (some e)) := by
  simp only [store, h]

theorem writeNext_of_get (mem : List (Option Dlistelem)) (a : Nat) (pv nx : Option Nat)
    (d : Nat) (v : Option Nat) (h : mem[a]? = some (some (Dlistelem.mk pv nx d))) :
    writeNext mem (some a) v = .ok (mem.set a (some (Dlistelem.mk pv v d))) := by
  simp only [writeNext, load_of_get mem a _ h, store_of_get mem a _ _ h, bind, Except.bind]

theorem writePrevious_of_get (mem : List (Option Dlistelem)) (a : Nat) (pv nx : Option Nat)
    (d : Nat) (v : Option Nat) (h : mem[a]? = some (some (Dlistelem.mk pv nx d))) :
    writePrevious mem (some a) v = .ok (mem.set a (some (Dlistelem.mk v nx d))) := by
  simp only [writePrevious, load_of_get mem a _ h, store_of_get mem a _ _ h, bind, Except.bind]

theorem writeData_of_get (mem : List (Option Dlistelem)) (a : Nat) (pv nx : Option Nat)
    (d : Nat) (v : Nat) (h : mem[a]? = some (some (Dlistelem.mk pv nx d))) :
    writeData mem (some a) v = .ok (mem.set a (some (Dlistelem.mk pv nx v))) := by
  simp only [writeData, load_of_get mem a _ h, store_of_get mem a _ _ h, bind, Except.bind]

theorem get_lt_length (mem : List (Option Dlistelem)) (a : Nat) (v : Option Dlistelem)
    (h : mem[a]? = some v) : a < mem.length := by
  by_contra hge
  rw [List.getElem?_eq_none (by omega)] at h
  cases h

theorem get_set_self (mem : List (Option Dlistelem)) (a : Nat) (v w : Option Dlistelem)
    (h : mem[a]? = some v) : (mem.set a w)[a]? = some w :=
  List.getElem?_set_self (get_lt_length mem a v h)

theorem get_set_ne (mem : List (Option Dlistelem)) (a b : Nat) (w : Option Dlistelem)
    (h : a ≠ b) : (mem.set a w)[b]? = mem[b]? :=
  List.getElem?_set_ne h

/-- The block that `dlist_add` allocates and fills. -/
theorem alloc_writeData (mem : List (Option Dlistelem)) (data : Nat) :
    writeData (env_ma_calloc mem).2 (some (env_ma_calloc mem).1) data
      = .ok (mem ++ [some { previous := none, next := none, data := data }]) := by
  have hget : (mem ++ [some ({ previous := none, next := none, data := 0 } : Dlistelem)])[
      mem.length]? = some (some { previous := none, next := none, data := 0 }) := by
    rw [List.getElem?_append_right (le_refl _)]
    simp
  simp only [env_ma_calloc]
  rw [writeData_of_get _ _ _ _ _ _ hget]
  congr 1
  rw [List.set_append_right _ _ (le_refl _)]
  simp

/-! ## Linked elements -/

theorem headAddr_append (l1 l2 : List (Nat × Nat)) (nxt : Option Nat) :
    headAddr (l1 ++ l2) nxt = headAddr l1 (headAddr l2 nxt) := by
  cases l1 <;> rfl

theorem lastAddr_nil (prev : Option Nat) : lastAddr [] prev = prev := rfl

theorem lastAddr_cons (x : Nat × Nat) (t : List (Nat × Nat)) (prev : Option Nat) :
    lastAddr (x :: t) prev = lastAddr t (some x.1) := by
  cases t with
  | nil => rfl
  | cons y t =>
    simp only [lastAddr, List.getLast?_cons_cons]
    cases h : (y :: t).getLast? with
    | none => simp at h
    | some z => rfl

theorem lastAddr_append_singleton (l : List (Nat × Nat)) (x : Nat × Nat) (prev : Option Nat) :
    lastAddr (l ++ [x]) prev = some x.1 := by
  simp [lastAddr]

theorem lastAddr_append (l1 l2 : List (Nat × Nat)) (prev : Option Nat) :
    lastAddr (l1 ++ l2) prev = lastAddr l2 (lastAddr l1 prev) := by
  induction l1 generalizing prev with
  | nil => rfl
  | cons x t ih => rw [List.cons_append, lastAddr_cons, lastAddr_cons, ih]

theorem linked_append (mem : List (Option Dlistelem)) (l1 l2 : List (Nat × Nat))
    (prev nxt : Option Nat) :
    Linked mem prev (l1 ++ l2) nxt
      ↔ Linked mem prev l1 (headAddr l2 nxt) ∧ Linked mem (lastAddr l1 prev) l2 nxt := by
  induction l1 generalizing prev with
  | nil => simp [Linked, lastAddr_nil]
  | cons x t ih =>
    simp only [List.cons_append, Linked, List.append_eq, ih, headAddr_append, lastAddr_cons,
      and_assoc]

theorem linked_addr_lt (mem : List (Option Dlistelem)) (l : List (Nat × Nat))
    (prev nxt : Option Nat) (h : Linked mem prev l nxt) : ∀ x ∈ l, x.1 < mem.length := by
  induction l generalizing prev with
  | nil => intro x hx; cases hx
  | cons y t ih =>
    intro x hx
    obtain ⟨h1, h2⟩ := h
    rcases List.mem_cons.mp hx with rfl | hx
    · exact get_lt_length mem _ _ h1
    · exact ih _ h2 x hx

theorem linked_frame_set (mem : List (Option Dlistelem)) (l : List (Nat × Nat))
    (prev nxt : Option Nat) (a : Nat) (v : Option Dlistelem)
    (ha : a ∉ l.map Prod.fst) (h : Linked mem prev l nxt) :
    Linked (mem.set a v) prev l nxt := by
  induction l generalizing prev with
  | nil => trivial
  | cons y t ih =>
    obtain ⟨h1, h2⟩ := h
    simp only [List.map_cons, List.mem_cons, not_or] at ha
    refine ⟨?_, ih _ ha.2 h2⟩
    rw [get_set_ne mem a y.1 v ha.1]
    exact h1

theorem linked_frame_append (mem extra : List (Option Dlistelem)) (l : List (Nat × Nat))
    (prev nxt : Option Nat) (h : Linked mem prev l nxt) :
    Linked (mem ++ extra) prev l nxt := by
  induction l generalizing prev with
  | nil => trivial
  | cons y t ih =>
    obtain ⟨h1, h2⟩ := h
    refine ⟨?_, ih _ h2⟩
    rw [List.getElem?_append_left (get_lt_length mem _ _ h1)]
    exact h1

/-- The last element of a segment points to what follows the segment; a
segment stays linked when what follows changes and its last element is
updated. -/
theorem linked_snoc (mem : List (Option Dlistelem)) (l : List (Nat × Nat)) (x : Nat × Nat)
    (prev nxt : Option Nat) :
    Linked mem prev (l ++ [x]) nxt
      ↔ Linked mem prev l (some x.1)
        ∧ mem[x.1]? = some (some { previous := lastAddr l prev, next := nxt, data := x.2 }) := by
  rw [linked_append]
  simp [Linked, headAddr]

/-- The number of elements of a list is at most the number of blocks. -/
theorem length_le_of_addr_lt (n : Nat) (l : List Nat) (hn : l.Nodup) (h : ∀ a ∈ l, a < n) :
    l.length ≤ n := by
  have hsub : l ⊆ List.range n := fun a ha => List.mem_range.mpr (h a ha)
  have := (List.Nodup.subperm hn hsub).length_le
  simpa using this

theorem wellFormed_length_le (mem : List (Option Dlistelem)) (dlist : Dlist)
    (l : List (Nat × Nat)) (h : WellFormed mem dlist l) : l.length ≤ mem.length := by
  have := length_le_of_addr_lt mem.length (l.map Prod.fst) h.nodup (by
    intro a ha
    obtain ⟨x, hx, rfl⟩ := List.mem_map.mp ha
    exact linked_addr_lt mem l none none h.linked x hx)
  simpa using this

/-! ## Traversal and search -/

theorem get_data_of_get (mem : List (Option Dlistelem)) (a : Nat) (e : Dlistelem)
    (h : mem[a]? = some (some e)) : dlistelem_get_data mem (some a) = .ok e.data := by
  simp only [dlistelem_get_data, load_of_get mem a e h, Except.map]

theorem next_of_get (mem : List (Option Dlistelem)) (a : Nat) (e : Dlistelem)
    (h : mem[a]? = some (some e)) : dlistelem_next mem (some a) = .ok e.next := by
  simp only [dlistelem_next, load_of_get mem a e h, Except.map]

/-- The traversal of linked elements visits them in their order. -/
theorem traverseLoop_linked (mem : List (Option Dlistelem)) (l : List (Nat × Nat)) :
    ∀ (prev : Option Nat) (fuel : Nat), Linked mem prev l none → l.length ≤ fuel →
      traverseLoop mem fuel (headAddr l none) = .ok l := by
  induction l with
  | nil =>
    intro prev fuel _ _
    cases fuel <;> rfl
  | cons x t ih =>
    intro prev fuel h hf
    obtain ⟨h1, h2⟩ := h
    obtain ⟨fuel2, rfl⟩ : ∃ k, fuel = k + 1 := ⟨fuel - 1, by simp at hf; omega⟩
    have hrest := ih (some x.1) fuel2 h2 (by simp at hf; omega)
    simp only [headAddr, traverseLoop, get_data_of_get mem _ _ h1, next_of_get mem _ _ h1, bind,
      Except.bind]
    simp only [headAddr] at hrest
    rw [hrest]

theorem traverse_wellFormed (mem : List (Option Dlistelem)) (dlist : Dlist)
    (l : List (Nat × Nat)) (h : WellFormed mem dlist l) : traverse mem dlist = .ok l := by
  unfold traverse dlist_first
  rw [h.first_eq]
  exact traverseLoop_linked mem l none mem.length h.linked (wellFormed_length_le mem dlist l h)

theorem findLoop_hit (mem : List (Option Dlistelem)) (cmp_func : Option (Nat → Nat → Int))
    (new_data fuel a : Nat) (e : Dlistelem) (h : mem[a]? = some (some e))
    (heq : findEqual cmp_func e.data new_data) :
    dlist_findLoop mem cmp_func new_data (fuel + 1) (some a) = .ok (some a) := by
  simp only [dlist_findLoop, get_data_of_get mem a e h, bind, Except.bind]
  rcases heq with ⟨cmp, hc, h0⟩ | heq
  · subst hc
    simp [h0]
  · cases cmp_func with
    | none => simp [heq]
    | some cmp => by_cases h0 : cmp e.data new_data = 0 <;> simp [h0, heq]

theorem findLoop_miss (mem : List (Option Dlistelem)) (cmp_func : Option (Nat → Nat → Int))
    (new_data fuel a : Nat) (e : Dlistelem) (h : mem[a]? = some (some e))
    (hne : ¬ findEqual cmp_func e.data new_data) :
    dlist_findLoop mem cmp_func new_data (fuel + 1) (some a)
      = dlist_findLoop mem cmp_func new_data fuel e.next := by
  have h1 : e.data ≠ new_data := fun h => hne (Or.inr h)
  simp only [dlist_findLoop, get_data_of_get mem a e h, next_of_get mem a e h, bind,
    Except.bind]
  cases cmp_func with
  | none => simp [h1]
  | some cmp =>
    have h0 : cmp e.data new_data ≠ 0 := fun h => hne (Or.inl ⟨cmp, rfl, h⟩)
    simp [h0, h1]

/-- The search returns `NULL` when no element is equal to the datum. -/
theorem findLoop_none (mem : List (Option Dlistelem)) (cmp_func : Option (Nat → Nat → Int))
    (new_data : Nat) (l : List (Nat × Nat)) :
    ∀ (prev : Option Nat) (fuel : Nat), Linked mem prev l none → l.length ≤ fuel →
      (∀ x ∈ l, ¬ findEqual cmp_func x.2 new_data) →
      dlist_findLoop mem cmp_func new_data fuel (headAddr l none) = .ok none := by
  induction l with
  | nil =>
    intro prev fuel _ _ _
    cases fuel <;> rfl
  | cons x t ih =>
    intro prev fuel h hf hno
    obtain ⟨h1, h2⟩ := h
    obtain ⟨fuel2, rfl⟩ : ∃ k, fuel = k + 1 := ⟨fuel - 1, by simp at hf; omega⟩
    simp only [headAddr]
    rw [findLoop_miss mem cmp_func new_data fuel2 x.1 _ h1 (hno x (List.mem_cons_self _ _))]
    exact ih (some x.1) fuel2 h2 (by simp at hf; omega)
      (fun y hy => hno y (List.mem_cons_of_mem _ hy))

/-- The search returns the first element that is equal to the datum. -/
theorem findLoop_some (mem : List (Option Dlistelem)) (cmp_func : Option (Nat → Nat → Int))
    (new_data : Nat) (l1 : List (Nat × Nat)) (x : Nat × Nat) (l2 : List (Nat × Nat)) :
    ∀ (prev : Option Nat) (fuel : Nat), Linked mem prev (l1 ++ x :: l2) none →
      l1.length + 1 ≤ fuel →
      (∀ y ∈ l1, ¬ findEqual cmp_func y.2 new_data) → findEqual cmp_func x.2 new_data →
      dlist_findLoop mem cmp_func new_data fuel (headAddr (l1 ++ x :: l2) none)
        = .ok (some x.1) := by
  induction l1 with
  | nil =>
    intro prev fuel h hf _ heq
    obtain ⟨h1, _⟩ := h
    obtain ⟨fuel2, rfl⟩ : ∃ k, fuel = k + 1 := ⟨fuel - 1, by simp at hf; omega⟩
    exact findLoop_hit mem cmp_func new_data fuel2 x.1 _ h1 heq
  | cons y t ih =>
    intro prev fuel h hf hno heq
    obtain ⟨h1, h2⟩ := h
    obtain ⟨fuel2, rfl⟩ : ∃ k, fuel = k + 1 := ⟨fuel - 1, by simp at hf; omega⟩
    simp only [List.cons_append, headAddr]
    rw [findLoop_miss mem cmp_func new_data fuel2 y.1 _ h1 (hno y (List.mem_cons_self _ _))]
    exact ih (some y.1) fuel2 h2 (by simp at hf; omega)
      (fun z hz => hno z (List.mem_cons_of_mem _ hz)) heq

/-! ## Linking a new element in -/

/-- The new element linked in before the first one. -/
theorem linkBeforeFirst_spec (mem : List (Option Dlistelem)) (f : Nat × Nat)
    (rest : List (Nat × Nat)) (n data : Nat)
    (hl : Linked mem none (f :: rest) none) (hnd : ((f :: rest).map Prod.fst).Nodup)
    (hn : n ∉ (f :: rest).map Prod.fst)
    (hmem : mem[n]? = some (some (Dlistelem.mk none none data))) :
    ∃ mem2, linkBeforeFirst mem f.1 n = .ok mem2
      ∧ Linked mem2 none ((n, data) :: f :: rest) none ∧ mem2.length = mem.length := by
  obtain ⟨h1, h2⟩ := hl
  simp only [List.map_cons, List.mem_cons, not_or] at hn
  simp only [List.map_cons, List.nodup_cons] at hnd
  have hnf : n ≠ f.1 := hn.1
  have hw1 := writePrevious_of_get mem f.1 _ _ _ (some n) h1
  have hget2 : (mem.set f.1 (some (Dlistelem.mk (some n) (headAddr rest none) f.2)))[n]?
      = some (some (Dlistelem.mk none none data)) := by
    rw [get_set_ne mem f.1 n _ (Ne.symm hnf)]
    exact hmem
  have hw2 := writeNext_of_get _ n _ _ _ (some f.1) hget2
  have hrun : linkBeforeFirst mem f.1 n
      = .ok ((mem.set f.1 (some (Dlistelem.mk (some n) (headAddr rest none) f.2))).set n
          (some (Dlistelem.mk none (some f.1) data))) := by
    simp only [linkBeforeFirst, load_of_get mem f.1 _ h1, assertThat, Option.isNone_none,
      if_true, bind, Except.bind, hw1]
    exact hw2
  refine ⟨_, hrun, ⟨?_, ?_, ?_⟩, by simp⟩
  · rw [get_set_self _ n _ _ hget2]
    rfl
  · rw [get_set_ne _ n f.1 _ hnf, get_set_self mem f.1 _ _ h1]
  · exact linked_frame_set _ _ _ _ _ _ hn.2 (linked_frame_set _ _ _ _ _ _ hnd.1 h2)

/-- The new element linked in after the last one. -/
theorem linkAfterLast_spec (mem : List (Option Dlistelem)) (init : List (Nat × Nat))
    (la : Nat × Nat) (n data : Nat)
    (hl : Linked mem none (init ++ [la]) none) (hnd : ((init ++ [la]).map Prod.fst).Nodup)
    (hn : n ∉ (init ++ [la]).map Prod.fst)
    (hmem : mem[n]? = some (some (Dlistelem.mk none none data))) :
    ∃ mem2, linkAfterLast mem la.1 n = .ok mem2
      ∧ Linked mem2 none (init ++ [la] ++ [(n, data)]) none ∧ mem2.length = mem.length := by
  obtain ⟨h1, h2⟩ := (linked_snoc mem init la none none).mp hl
  simp only [List.map_append, List.map_cons, List.map_nil, List.mem_append, List.mem_singleton,
    not_or] at hn
  have hnd2 : la.1 ∉ init.map Prod.fst := by
    simp only [List.map_append, List.map_cons, List.map_nil] at hnd
    have := List.disjoint_of_nodup_append hnd
    intro hmem2
    exact this hmem2 (List.mem_singleton_self _)
  have hnl : n ≠ la.1 := hn.2
  have hw1 := writeNext_of_get mem la.1 _ _ _ (some n) h2
  have hget2 : (mem.set la.1 (some (Dlistelem.mk (lastAddr init none) (some n) la.2)))[n]?
      = some (some (Dlistelem.mk none none data)) := by
    rw [get_set_ne mem la.1 n _ (Ne.symm hnl)]
    exact hmem
  have hw2 := writePrevious_of_get _ n _ _ _ (some la.1) hget2
  have hrun : linkAfterLast mem la.1 n
      = .ok ((mem.set la.1 (some (Dlistelem.mk (lastAddr init none) (some n) la.2))).set n
          (some (Dlistelem.mk (some la.1) none data))) := by
    simp only [linkAfterLast, load_of_get mem la.1 _ h2, assertThat, Option.isNone_none,
      if_true, bind, Except.bind, hw1]
    exact hw2
  refine ⟨_, hrun, ?_, by simp⟩
  rw [linked_snoc, linked_snoc]
  refine ⟨⟨?_, ?_⟩, ?_⟩
  · exact linked_frame_set _ _ _ _ _ _ hn.1 (linked_frame_set _ _ _ _ _ _ hnd2 h1)
  · rw [get_set_ne _ n la.1 _ hnl, get_set_self mem la.1 _ _ h2]
  · rw [get_set_self _ n _ _ hget2, lastAddr_append_singleton]

/-- The new element linked in between two elements. -/
theorem linkAfter_spec (mem : List (Option Dlistelem)) (l1 : List (Nat × Nat))
    (o p : Nat × Nat) (l2 : List (Nat × Nat)) (n data : Nat)
    (hl : Linked mem none (l1 ++ o :: p :: l2) none)
    (hnd : ((l1 ++ o :: p :: l2).map Prod.fst).Nodup)
    (hn : n ∉ (l1 ++ o :: p :: l2).map Prod.fst)
    (hmem : mem[n]? = some (some (Dlistelem.mk none none data))) :
    ∃ mem2, linkAfter mem o.1 n = .ok mem2
      ∧ Linked mem2 none (l1 ++ o :: (n, data) :: p :: l2) none
      ∧ mem2.length = mem.length := by
  obtain ⟨h1, ho, hp, h2⟩ := (linked_append mem l1 (o :: p :: l2) none none).mp hl
  simp only [headAddr] at h1 ho hp
  simp only [List.map_append, List.map_cons, List.mem_append, List.mem_cons, not_or] at hn
  obtain ⟨hn1, hno, hnp, hn2⟩ := hn
  simp only [List.map_append, List.map_cons] at hnd
  have hdis := List.disjoint_of_nodup_append hnd
  have hnd1 := (List.nodup_append.mp hnd).2.1
  simp only [List.nodup_cons, List.mem_cons, not_or] at hnd1
  obtain ⟨⟨hop, ho2⟩, hp2, _⟩ := hnd1
  have ho1 : o.1 ∉ l1.map Prod.fst := fun h => hdis h (List.mem_cons_self _ _)
  have hp1 : p.1 ∉ l1.map Prod.fst :=
    fun h => hdis h (List.mem_cons_of_mem _ (List.mem_cons_self _ _))
  have hw1 := writeNext_of_get mem n _ _ _ (some p.1) hmem
  have hg1 := get_set_self mem n _ (some (Dlistelem.mk none (some p.1) data)) hmem
  have hw2 := writePrevious_of_get _ n _ _ _ (some o.1) hg1
  have hg2 := get_set_self _ n _ (some (Dlistelem.mk (some o.1) (some p.1) data)) hg1
  have hgo2 : ((mem.set n (some (Dlistelem.mk none (some p.1) data))).set n
      (some (Dlistelem.mk (some o.1) (some p.1) data)))[o.1]?
      = some (some (Dlistelem.mk (lastAddr l1 none) (some p.1) o.2)) := by
    rw [get_set_ne _ n o.1 _ hno, get_set_ne _ n o.1 _ hno]
    exact ho
  have hgp2 : ((mem.set n (some (Dlistelem.mk none (some p.1) data))).set n
      (some (Dlistelem.mk (some o.1) (some p.1) data)))[p.1]?
      = some (some (Dlistelem.mk (some o.1) (headAddr l2 none) p.2)) := by
    rw [get_set_ne _ n p.1 _ hnp, get_set_ne _ n p.1 _ hnp]
    exact hp
  have hw3 := writePrevious_of_get _ p.1 _ _ _ (some n) hgp2
  have hgo3 := hgo2
  rw [← get_set_ne _ p.1 o.1 (some (Dlistelem.mk (some n) (headAddr l2 none) p.2))
    (Ne.symm hop)] at hgo3
  have hw4 := writeNext_of_get _ o.1 _ _ _ (some n) hgo3
  have hrun : linkAfter mem o.1 n
      = .ok (((((mem.set n (some (Dlistelem.mk none (some p.1) data))).set n
          (some (Dlistelem.mk (some o.1) (some p.1) data))).set p.1
          (some (Dlistelem.mk (some n) (headAddr l2 none) p.2))).set o.1
          (some (Dlistelem.mk (lastAddr l1 none) (some n) o.2)))) := by
    simp only [linkAfter, load_of_get mem o.1 _ ho, assertThat, Option.isSome_some, if_true,
      bind, Except.bind, hw1, hw2, load_of_get _ o.1 _ hgo2, hw3]
    exact hw4
  refine ⟨_, hrun, ?_, by simp⟩
  rw [linked_append]
  refine ⟨?_, ?_, ?_, ?_, ?_⟩
  · exact linked_frame_set _ _ _ _ _ _ ho1 (linked_frame_set _ _ _ _ _ _ hp1
      (linked_frame_set _ _ _ _ _ _ hn1 (linked_frame_set _ _ _ _ _ _ hn1 h1)))
  · rw [get_set_self _ o.1 _ _ hgo3]
    rfl
  · rw [get_set_ne _ o.1 n _ (Ne.symm hno), get_set_ne _ p.1 n _ (Ne.symm hnp), hg2]
    rfl
  · rw [get_set_ne _ o.1 p.1 _ hop, get_set_self _ p.1 _ _ hgp2]
  · exact linked_frame_set _ _ _ _ _ _ ho2 (linked_frame_set _ _ _ _ _ _ hp2
      (linked_frame_set _ _ _ _ _ _ hn2 (linked_frame_set _ _ _ _ _ _ hn2 h2)))

/-- The loop of `dlist_add` walks back from the end of `l1` to the last
element that is less than or equal to the datum and links the new element in
after it; the elements `l2` walked over before are greater. -/
theorem dlist_addLoop_spec (mem : List (Option Dlistelem)) (cmp : Nat → Nat → Int)
    (data n : Nat) (hmem : mem[n]? = some (some (Dlistelem.mk none none data)))
    (l1 : List (Nat × Nat)) :
    ∀ (l2 : List (Nat × Nat)) (fuel : Nat), l2 ≠ [] → (∀ e ∈ l2, ¬ cmp e.2 data ≤ 0) →
      Linked mem none (l1 ++ l2) none → ((l1 ++ l2).map Prod.fst).Nodup →
      n ∉ (l1 ++ l2).map Prod.fst → (∃ e ∈ l1, cmp e.2 data ≤ 0) → l1.length ≤ fuel →
      ∃ mem2 A o B, l1 = A ++ o :: B ∧ cmp o.2 data ≤ 0 ∧ (∀ e ∈ B, ¬ cmp e.2 data ≤ 0) ∧
        dlist_addLoop mem cmp data n fuel (lastAddr l1 none) = .ok mem2 ∧
        Linked mem2 none (A ++ o :: (n, data) :: (B ++ l2)) none ∧
        mem2.length = mem.length := by
  induction l1 using List.reverseRecOn with
  | nil =>
    intro l2 fuel _ _ _ _ _ hex _
    obtain ⟨e, he, _⟩ := hex
    cases he
  | append_singleton l1 e ih =>
    intro l2 fuel hl2 hgt hl hnd hn hex hf
    obtain ⟨fuel2, rfl⟩ : ∃ k, fuel = k + 1 := ⟨fuel - 1, by simp at hf; omega⟩
    have hassoc : l1 ++ [e] ++ l2 = l1 ++ e :: l2 := by simp
    rw [hassoc] at hl hnd hn
    obtain ⟨_, he, _⟩ := (linked_append mem l1 (e :: l2) none none).mp hl
    rw [lastAddr_append_singleton]
    simp only [dlist_addLoop, load_of_get mem e.1 _ he]
    by_cases hc : cmp e.2 data ≤ 0
    · rw [if_pos hc]
      obtain ⟨p, l3, rfl⟩ := List.exists_cons_of_ne_nil hl2
      obtain ⟨mem2, hrun, hlinked, hlen⟩ := linkAfter_spec mem l1 e p l3 n data hl hnd hn hmem
      exact ⟨mem2, l1, e, [], rfl, hc, fun x hx => (by cases hx), hrun, hlinked, hlen⟩
    · rw [if_neg hc]
      have hex2 : ∃ x ∈ l1, cmp x.2 data ≤ 0 := by
        obtain ⟨x, hx, hxc⟩ := hex
        rcases List.mem_append.mp hx with h | h
        · exact ⟨x, h, hxc⟩
        · rw [List.mem_singleton] at h
          rw [h] at hxc
          exact absurd hxc hc
      obtain ⟨mem2, A, o, B, hsplit, hoc, hB, hrun, hlinked, hlen⟩ :=
        ih (e :: l2) fuel2 (by simp) (by
          intro x hx
          rcases List.mem_cons.mp hx with h | h
          · rw [h]; exact hc
          · exact hgt x h) hl hnd hn hex2 (by simp at hf; omega)
      refine ⟨mem2, A, o, B ++ [e], by rw [hsplit]; simp, hoc, ?_, hrun, ?_, hlen⟩
      · intro x hx
        rcases List.mem_append.mp hx with h | h
        · exact hB x h
        · rw [List.mem_singleton] at h
          rw [h]; exact hc
      · have : A ++ o :: (n, data) :: (B ++ [e] ++ l2) = A ++ o :: (n, data) :: (B ++ e :: l2) := by
          simp
        rw [this]
        exact hlinked

/-! ## The function `dlist_add` -/

theorem lastAddr_of_ne_nil (l : List (Nat × Nat)) (hl : l ≠ []) (p q : Option Nat) :
    lastAddr l p = lastAddr l q := by
  obtain ⟨init, la, rfl⟩ : ∃ init la, l = init ++ [la] := by
    rcases List.eq_nil_or_concat l with h | ⟨init, la, h⟩
    · exact absurd h hl
    · exact ⟨init, la, by rw [h, List.concat_eq_append]⟩
  rw [lastAddr_append_singleton, lastAddr_append_singleton]

theorem wellFormed_alloc (mem : List (Option Dlistelem)) (dlist : Dlist)
    (l : List (Nat × Nat)) (data : Nat) (h : WellFormed mem dlist l) :
    Linked (mem ++ [some (Dlistelem.mk none none data)]) none l none
      ∧ mem.length ∉ l.map Prod.fst
      ∧ (mem ++ [some (Dlistelem.mk none none data)])[mem.length]?
        = some (some (Dlistelem.mk none none data)) := by
  refine ⟨linked_frame_append mem _ l none none h.linked, ?_, ?_⟩
  · intro hm
    obtain ⟨x, hx, hxe⟩ := List.mem_map.mp hm
    have := linked_addr_lt mem l none none h.linked x hx
    omega
  · rw [List.getElem?_append_right (le_refl _)]
    simp

theorem dlist_add_eq (w : Nat) (mem : List (Option Dlistelem)) (dlist : Dlist) (data : Nat)
    (mem2 : List (Option Dlistelem)) (d2 : Dlist)
    (h : dlist_addLink (mem ++ [some (Dlistelem.mk none none data)]) dlist data mem.length
      = .ok (mem2, d2)) :
    dlist_add w mem dlist data = .ok (mem2, { d2 with size := (d2.size + 1) % 2 ^ w }) := by
  have ha := alloc_writeData mem data
  simp only [env_ma_calloc] at ha
  simp only [dlist_add, env_ma_calloc, ha, h, bind, Except.bind]

theorem addShape_perm (cmp : Nat → Nat → Int) (x : Nat × Nat) (l l2 : List (Nat × Nat))
    (h : addShape cmp x l l2) : l2.Perm (x :: l) := by
  rcases h with ⟨rfl, rfl⟩ | ⟨f, rest, rfl, _, rfl⟩ | ⟨init, la, rfl, _, rfl⟩ |
    ⟨A, o, B, rfl, _, _, _, rfl⟩
  · exact List.Perm.refl _
  · exact List.Perm.refl _
  · exact List.perm_append_singleton _ _
  · have h1 : (A ++ o :: x :: B).Perm (x :: (A ++ [o] ++ B)) := by
      have := @List.perm_middle _ x (A ++ [o]) B
      simpa using this
    simpa using h1

/-- The statement of `dlist_add` that links the new element in, for a list
with a compare function. -/
theorem dlist_addLink_cmp (mem : List (Option Dlistelem)) (dlist : Dlist)
    (l : List (Nat × Nat)) (cmp : Nat → Nat → Int) (data n : Nat)
    (hl : Linked mem none l none) (hfirst : dlist.first = headAddr l none)
    (hlast : dlist.last = lastAddr l none) (hnd : (l.map Prod.fst).Nodup)
    (hn : n ∉ l.map Prod.fst) (hmem : mem[n]? = some (some (Dlistelem.mk none none data)))
    (hc : dlist.cmp_func = some cmp) (hsign : ∀ a b, cmp a b < 0 ↔ 0 < cmp b a)
    (hfuel : l.length ≤ mem.length) :
    ∃ mem2 dlist2 l2, dlist_addLink mem dlist data n = .ok (mem2, dlist2) ∧
      Linked mem2 none l2 none ∧ dlist2.first = headAddr l2 none ∧
      dlist2.last = lastAddr l2 none ∧ dlist2.cmp_func = dlist.cmp_func ∧
      dlist2.size = dlist.size ∧ addShape cmp (n, data) l l2 ∧ mem2.length = mem.length := by
  cases l with
  | nil =>
    simp only [headAddr] at hfirst
    have hlast2 : dlist.last = none := hlast
    refine ⟨mem, { dlist with first := some n, last := some n }, [(n, data)], ?_, ?_, rfl, rfl,
      rfl, rfl, Or.inl ⟨rfl, rfl⟩, rfl⟩
    · simp only [dlist_addLink, hfirst, hlast2]
    · exact ⟨hmem, trivial⟩
  | cons f rest =>
    obtain ⟨init, la, hsplit⟩ : ∃ init la, f :: rest = init ++ [la] := by
      rcases List.eq_nil_or_concat (f :: rest) with h | ⟨init, la, h⟩
      · cases h
      · exact ⟨init, la, by rw [h, List.concat_eq_append]⟩
    have hfirst2 : dlist.first = some f.1 := hfirst
    have hlast2 : dlist.last = some la.1 := by
      rw [hlast, hsplit, lastAddr_append_singleton]
    have hf := hl.1
    have hl2 : Linked mem none (init ++ [la]) none := hsplit ▸ hl
    have hla := ((linked_snoc mem init la none none).mp hl2).2
    by_cases h1 : cmp data f.2 < 0
    · obtain ⟨mem2, hrun, hlinked, hlen⟩ := linkBeforeFirst_spec mem f rest n data hl hnd hn hmem
      refine ⟨mem2, { dlist with first := some n }, (n, data) :: f :: rest, ?_, hlinked, rfl, ?_,
        rfl, rfl, Or.inr (Or.inl ⟨f, rest, rfl, h1, rfl⟩), hlen⟩
      · simp only [dlist_addLink, hfirst2, hlast2, hc, load_of_get mem f.1 _ hf, if_pos h1,
          hrun, Except.map]
      · rw [lastAddr_cons]
        exact hlast.trans (lastAddr_of_ne_nil _ (by simp) _ _)
    · by_cases h2 : cmp la.2 data ≤ 0
      · obtain ⟨mem2, hrun, hlinked, hlen⟩ := linkAfterLast_spec mem init la n data hl2
          (hsplit ▸ hnd) (hsplit ▸ hn) hmem
        refine ⟨mem2, { dlist with last := some n }, init ++ [la] ++ [(n, data)], ?_, hlinked,
          ?_, ?_, rfl, rfl, Or.inr (Or.inr (Or.inl ⟨init, la, hsplit, h2, by rw [hsplit]⟩)),
          hlen⟩
        · simp only [dlist_addLink, hfirst2, hlast2, hc, load_of_get mem f.1 _ hf, if_neg h1,
            load_of_get mem la.1 _ hla, if_pos h2, hrun, Except.map]
        · rw [← hsplit]
          exact hfirst
        · rw [lastAddr_append_singleton]
      · have hfle : cmp f.2 data ≤ 0 := by
          by_contra hgt
          exact h1 ((hsign data f.2).mpr (by omega))
        have hinit : f ∈ init := by
          cases init with
          | nil =>
            simp only [List.nil_append, List.cons.injEq] at hsplit
            rw [← hsplit.1] at h2
            exact absurd hfle h2
          | cons g init2 =>
            simp only [List.cons_append, List.cons.injEq] at hsplit
            rw [hsplit.1]
            exact List.mem_cons_self _ _
        obtain ⟨mem2, A, o, B, hAB, hoc, hB, hrun, hlinked, hlen⟩ :=
          dlist_addLoop_spec mem cmp data n hmem init [la] mem.length (by simp) (by
            intro e he
            rw [List.mem_singleton] at he
            rw [he]; exact h2) hl2 (hsplit ▸ hnd) (hsplit ▸ hn) ⟨f, hinit, hfle⟩ (by
            have : (init ++ [la]).length = (f :: rest).length := by rw [hsplit]
            simp at this
            simp at hfuel
            omega)
        refine ⟨mem2, dlist, A ++ o :: (n, data) :: (B ++ [la]), ?_, hlinked, ?_, ?_, rfl, rfl,
          Or.inr (Or.inr (Or.inr ⟨A, o, B ++ [la], ?_, by simp, hoc, ?_, rfl⟩)), hlen⟩
        · simp only [dlist_addLink, hfirst2, hlast2, hc, load_of_get mem f.1 _ hf, if_neg h1,
            load_of_get mem la.1 _ hla, if_neg h2, hrun, Except.map]
        · rw [hfirst, hsplit, hAB]
          cases A <;> rfl
        · rw [hlast2]
          have : A ++ o :: (n, data) :: (B ++ [la]) = (A ++ o :: (n, data) :: B) ++ [la] := by
            simp
          rw [this, lastAddr_append_singleton]
        · rw [hsplit, hAB]
          simp
        · intro e he
          rcases List.mem_append.mp he with h | h
          · exact hB e h
          · rw [List.mem_singleton] at h
            rw [h]; exact h2

/-- The statement of `dlist_add` that links the new element in, for a list
without a compare function. -/
theorem dlist_addLink_nocmp (mem : List (Option Dlistelem)) (dlist : Dlist)
    (l : List (Nat × Nat)) (data n : Nat)
    (hl : Linked mem none l none) (hfirst : dlist.first = headAddr l none)
    (hlast : dlist.last = lastAddr l none) (hnd : (l.map Prod.fst).Nodup)
    (hn : n ∉ l.map Prod.fst) (hmem : mem[n]? = some (some (Dlistelem.mk none none data)))
    (hc : dlist.cmp_func = none) :
    ∃ mem2 dlist2, dlist_addLink mem dlist data n = .ok (mem2, dlist2) ∧
      Linked mem2 none (l ++ [(n, data)]) none ∧ dlist2.first = headAddr (l ++ [(n, data)]) none ∧
      dlist2.last = lastAddr (l ++ [(n, data)]) none ∧ dlist2.cmp_func = dlist.cmp_func ∧
      dlist2.size = dlist.size ∧ mem2.length = mem.length := by
  cases l with
  | nil =>
    simp only [headAddr] at hfirst
    have hlast2 : dlist.last = none := hlast
    refine ⟨mem, { dlist with first := some n, last := some n }, ?_, ?_, rfl, rfl, rfl, rfl,
      rfl⟩
    · simp only [dlist_addLink, hfirst, hlast2]
    · exact ⟨hmem, trivial⟩
  | cons f rest =>
    obtain ⟨init, la, hsplit⟩ : ∃ init la, f :: rest = init ++ [la] := by
      rcases List.eq_nil_or_concat (f :: rest) with h | ⟨init, la, h⟩
      · cases h
      · exact ⟨init, la, by rw [h, List.concat_eq_append]⟩
    have hfirst2 : dlist.first = some f.1 := hfirst
    have hlast2 : dlist.last = some la.1 := by
      rw [hlast, hsplit, lastAddr_append_singleton]
    have hl2 : Linked mem none (init ++ [la]) none := hsplit ▸ hl
    obtain ⟨mem2, hrun, hlinked, hlen⟩ := linkAfterLast_spec mem init la n data hl2
      (hsplit ▸ hnd) (hsplit ▸ hn) hmem
    refine ⟨mem2, { dlist with last := some n }, ?_, ?_, ?_, ?_, rfl, rfl, hlen⟩
    · simp only [dlist_addLink, hfirst2, hlast2, hc, hrun, Except.map]
    · rw [hsplit]; exact hlinked
    · exact hfirst
    · rw [lastAddr_append_singleton]

theorem wellFormed_new (mem : List (Option Dlistelem))
    (cmp_func : Option (Nat → Nat → Int)) : WellFormed mem (dlist_new cmp_func) [] :=
  ⟨trivial, rfl, rfl, List.nodup_nil, rfl⟩

/-- `dlist_add` on a list with a compare function: the list holds the old
elements and the new one, at one of the places of `addShape`. -/
theorem dlist_add_cmp (w : Nat) (mem : List (Option Dlistelem)) (dlist : Dlist)
    (l : List (Nat × Nat)) (cmp : Nat → Nat → Int) (data : Nat)
    (hwf : WellFormed mem dlist l) (hc : dlist.cmp_func = some cmp)
    (hsign : ∀ a b, cmp a b < 0 ↔ 0 < cmp b a) (hw : l.length + 1 < 2 ^ w) :
    ∃ mem2 dlist2 l2, dlist_add w mem dlist data = .ok (mem2, dlist2) ∧
      WellFormed mem2 dlist2 l2 ∧ dlist2.cmp_func = some cmp ∧
      addShape cmp (mem.length, data) l l2 := by
  obtain ⟨hl1, hn, hmem⟩ := wellFormed_alloc mem dlist l data hwf
  obtain ⟨mem2, d2, l2, hrun, hlinked, hf, hla, hcf, hsz, hshape, hlen⟩ :=
    dlist_addLink_cmp (mem ++ [some (Dlistelem.mk none none data)]) dlist l cmp data mem.length
      hl1 hwf.first_eq hwf.last_eq hwf.nodup hn hmem hc hsign (by
        have := wellFormed_length_le mem dlist l hwf
        simp
        omega)
  have hperm := addShape_perm cmp _ l l2 hshape
  refine ⟨mem2, { d2 with size := (d2.size + 1) % 2 ^ w }, l2,
    dlist_add_eq w mem dlist data mem2 d2 hrun, ⟨hlinked, hf, hla, ?_, ?_⟩, hcf.trans hc,
    hshape⟩
  · have := hperm.map Prod.fst
    rw [this.nodup_iff]
    simp only [List.map_cons, List.nodup_cons]
    exact ⟨hn, hwf.nodup⟩
  · have hlen2 := hperm.length_eq
    simp only [List.length_cons] at hlen2
    show (d2.size + 1) % 2 ^ w = l2.length
    rw [hsz, hwf.size_eq, hlen2, Nat.mod_eq_of_lt hw]

/-- `dlist_add` on a list without a compare function puts the new element
at the end. -/
theorem dlist_add_nocmp (w : Nat) (mem : List (Option Dlistelem)) (dlist : Dlist)
    (l : List (Nat × Nat)) (data : Nat)
    (hwf : WellFormed mem dlist l) (hc : dlist.cmp_func = none) (hw : l.length + 1 < 2 ^ w) :
    ∃ mem2 dlist2, dlist_add w mem dlist data = .ok (mem2, dlist2) ∧
      WellFormed mem2 dlist2 (l ++ [(mem.length, data)]) ∧ dlist2.cmp_func = none := by
  obtain ⟨hl1, hn, hmem⟩ := wellFormed_alloc mem dlist l data hwf
  obtain ⟨mem2, d2, hrun, hlinked, hf, hla, hcf, hsz, hlen⟩ :=
    dlist_addLink_nocmp (mem ++ [some (Dlistelem.mk none none data)]) dlist l data mem.length
      hl1 hwf.first_eq hwf.last_eq hwf.nodup hn hmem hc
  refine ⟨mem2, { d2 with size := (d2.size + 1) % 2 ^ w },
    dlist_add_eq w mem dlist data mem2 d2 hrun, ⟨hlinked, hf, hla, ?_, ?_⟩, hcf.trans hc⟩
  · rw [List.map_append, List.nodup_append]
    refine ⟨hwf.nodup, by simp, ?_⟩
    intro a ha hb
    simp only [List.map_cons, List.map_nil, List.mem_singleton] at hb
    rw [hb] at ha
    exact hn ha
  · show (d2.size + 1) % 2 ^ w = (l ++ [(mem.length, data)]).length
    rw [hsz, hwf.size_eq, List.length_append, List.length_singleton, Nat.mod_eq_of_lt hw]

/-! ## Sorted insertion -/

theorem sortedInsert_nil (cmp : Nat → Nat → Int) (x : Nat) : sortedInsert cmp x [] = [x] := rfl

theorem sortedInsert_cons_lt (cmp : Nat → Nat → Int) (x b : Nat) (t : List Nat)
    (h : cmp x b < 0) : sortedInsert cmp x (b :: t) = x :: b :: t := by
  simp [sortedInsert, List.orderedInsert, h]

theorem sortedInsert_cons_not_lt (cmp : Nat → Nat → Int) (x b : Nat) (t : List Nat)
    (h : ¬ cmp x b < 0) : sortedInsert cmp x (b :: t) = b :: sortedInsert cmp x t := by
  simp [sortedInsert, List.orderedInsert, h]

theorem sortedInsert_append (cmp : Nat → Nat → Int) (x : Nat) (A B : List Nat)
    (h : ∀ e ∈ A, ¬ cmp x e < 0) :
    sortedInsert cmp x (A ++ B) = A ++ sortedInsert cmp x B := by
  induction A with
  | nil => rfl
  | cons a A ih =>
    rw [List.cons_append, sortedInsert_cons_not_lt cmp x a _ (h a (List.mem_cons_self _ _)),
      ih (fun e he => h e (List.mem_cons_of_mem _ he)), List.cons_append]

theorem sortedInsert_perm (cmp : Nat → Nat → Int) (x : Nat) (l : List Nat) :
    (sortedInsert cmp x l).Perm (x :: l) :=
  List.perm_orderedInsert _ x l

theorem not_lt_of_le (cmp : Nat → Nat → Int) (hlaw : TotalPreorder cmp) (e x : Nat)
    (h : cmp e x ≤ 0) : ¬ cmp x e < 0 := by
  intro hlt
  have := (hlaw.sign x e).mp hlt
  omega

theorem le_of_not_lt (cmp : Nat → Nat → Int) (hlaw : TotalPreorder cmp) (e x : Nat)
    (h : ¬ cmp x e < 0) : cmp e x ≤ 0 := by
  by_contra hgt
  exact h ((hlaw.sign x e).mpr (by omega))

theorem lt_of_not_le (cmp : Nat → Nat → Int) (hlaw : TotalPreorder cmp) (e x : Nat)
    (h : ¬ cmp e x ≤ 0) : cmp x e < 0 :=
  (hlaw.sign x e).mpr (by omega)

theorem sortedInsert_pairwise (cmp : Nat → Nat → Int) (hlaw : TotalPreorder cmp) (x : Nat)
    (l : List Nat) (h : l.Pairwise (fun a b => cmp a b ≤ 0)) :
    (sortedInsert cmp x l).Pairwise (fun a b => cmp a b ≤ 0) := by
  induction l with
  | nil => simp [sortedInsert_nil]
  | cons b t ih =>
    rw [List.pairwise_cons] at h
    by_cases hlt : cmp x b < 0
    · rw [sortedInsert_cons_lt cmp x b t hlt, List.pairwise_cons]
      refine ⟨?_, List.pairwise_cons.mpr h⟩
      intro e he
      rcases List.mem_cons.mp he with rfl | he
      · omega
      · exact hlaw.trans x b e (by omega) (h.1 e he)
    · rw [sortedInsert_cons_not_lt cmp x b t hlt, List.pairwise_cons]
      refine ⟨?_, ih h.2⟩
      intro e he
      rcases List.mem_cons.mp ((sortedInsert_perm cmp x t).mem_iff.mp he) with rfl | he
      · exact le_of_not_lt cmp hlaw b e hlt
      · exact h.1 e he

/-- On sorted elements the place `dlist_add` chooses is the place of the
sorted insertion. -/
theorem addShape_sortedInsert (cmp : Nat → Nat → Int) (hlaw : TotalPreorder cmp)
    (x : Nat × Nat) (l l2 : List (Nat × Nat)) (h : addShape cmp x l l2)
    (hs : (l.map Prod.snd).Pairwise (fun a b => cmp a b ≤ 0)) :
    l2.map Prod.snd = sortedInsert cmp x.2 (l.map Prod.snd) := by
  rcases h with ⟨rfl, rfl⟩ | ⟨f, rest, rfl, hlt, rfl⟩ | ⟨init, la, rfl, hle, rfl⟩ |
    ⟨A, o, B, rfl, hB, hoc, hgt, rfl⟩
  · rfl
  · rw [List.map_cons, List.map_cons, sortedInsert_cons_lt cmp x.2 f.2 _ hlt]
  · have hall : ∀ e ∈ (init ++ [la]).map Prod.snd, ¬ cmp x.2 e < 0 := by
      intro e he
      apply not_lt_of_le cmp hlaw
      simp only [List.map_append, List.map_cons, List.map_nil] at he hs
      rcases List.mem_append.mp he with h1 | h1
      · exact hlaw.trans e la.2 x.2
          ((List.pairwise_append.mp hs).2.2 e h1 la.2 (List.mem_singleton_self _)) hle
      · rw [List.mem_singleton] at h1
        rw [h1]; exact hle
    have := sortedInsert_append cmp x.2 ((init ++ [la]).map Prod.snd) [] hall
    rw [List.append_nil, sortedInsert_nil] at this
    rw [this, List.map_append]
    rfl
  · obtain ⟨b, B2, rfl⟩ := List.exists_cons_of_ne_nil hB
    have hsplit : (A ++ o :: b :: B2).map Prod.snd
        = (A.map Prod.snd ++ [o.2]) ++ (b.2 :: B2.map Prod.snd) := by simp
    have hall : ∀ e ∈ A.map Prod.snd ++ [o.2], ¬ cmp x.2 e < 0 := by
      intro e he
      apply not_lt_of_le cmp hlaw
      rw [hsplit] at hs
      have hs1 := (List.pairwise_append.mp hs).1
      rcases List.mem_append.mp he with h1 | h1
      · exact hlaw.trans e o.2 x.2
          ((List.pairwise_append.mp hs1).2.2 e h1 o.2 (List.mem_singleton_self _)) hoc
      · rw [List.mem_singleton] at h1
        rw [h1]; exact hoc
    rw [hsplit, sortedInsert_append cmp x.2 _ _ hall,
      sortedInsert_cons_lt cmp x.2 b.2 _
        (lt_of_not_le cmp hlaw b.2 x.2 (hgt b (List.mem_cons_self _ _)))]
    simp

theorem sortedInserts_foldl_pairwise (cmp : Nat → Nat → Int) (hlaw : TotalPreorder cmp)
    (xs : List Nat) : ∀ acc : List Nat, acc.Pairwise (fun a b => cmp a b ≤ 0) →
      (xs.foldl (fun acc x => sortedInsert cmp x acc) acc).Pairwise
        (fun a b => cmp a b ≤ 0) := by
  induction xs with
  | nil => intro acc h; exact h
  | cons x xs ih =>
    intro acc h
    exact ih _ (sortedInsert_pairwise cmp hlaw x acc h)

theorem sortedInserts_foldl_perm (cmp : Nat → Nat → Int) (xs : List Nat) :
    ∀ acc : List Nat, (xs.foldl (fun acc x => sortedInsert cmp x acc) acc).Perm (acc ++ xs) := by
  induction xs with
  | nil => intro acc; simp
  | cons x xs ih =>
    intro acc
    refine (ih _).trans ?_
    have h1 := (sortedInsert_perm cmp x acc).append_right xs
    refine h1.trans ?_
    simp only [List.cons_append]
    exact (List.perm_middle).symm

/-! ## Sequences of `dlist_add` calls -/

theorem dlist_addAll_cmp (w : Nat) (cmp : Nat → Nat → Int) (hlaw : TotalPreorder cmp)
    (xs : List Nat) :
    ∀ (mem : List (Option Dlistelem)) (dlist : Dlist) (l : List (Nat × Nat)),
      WellFormed mem dlist l → dlist.cmp_func = some cmp →
      (l.map Prod.snd).Pairwise (fun a b => cmp a b ≤ 0) → l.length + xs.length < 2 ^ w →
      ∃ mem2 dlist2 l2, dlist_addAll w mem dlist xs = .ok (mem2, dlist2) ∧
        WellFormed mem2 dlist2 l2 ∧ dlist2.cmp_func = some cmp ∧
        l2.map Prod.snd = xs.foldl (fun acc x => sortedInsert cmp x acc) (l.map Prod.snd) := by
  induction xs with
  | nil =>
    intro mem dlist l hwf hc _ _
    exact ⟨mem, dlist, l, rfl, hwf, hc, rfl⟩
  | cons x xs ih =>
    intro mem dlist l hwf hc hs hw
    simp only [List.length_cons] at hw
    obtain ⟨mem1, d1, l1, hrun, hwf1, hc1, hshape⟩ :=
      dlist_add_cmp w mem dlist l cmp x hwf hc hlaw.sign (by omega)
    have hdata := addShape_sortedInsert cmp hlaw _ l l1 hshape hs
    have hlen := (addShape_perm cmp _ l l1 hshape).length_eq
    simp only [List.length_cons] at hlen
    obtain ⟨mem2, d2, l2, hrun2, hwf2, hc2, hdata2⟩ := ih mem1 d1 l1 hwf1 hc1
      (by rw [hdata]; exact sortedInsert_pairwise cmp hlaw x _ hs) (by omega)
    refine ⟨mem2, d2, l2, ?_, hwf2, hc2, ?_⟩
    · simp only [dlist_addAll, hrun]
      exact hrun2
    · rw [hdata2, hdata]
      rfl

theorem dlist_addAll_nocmp (w : Nat) (xs : List Nat) :
    ∀ (mem : List (Option Dlistelem)) (dlist : Dlist) (l : List (Nat × Nat)),
      WellFormed mem dlist l → dlist.cmp_func = none → l.length + xs.length < 2 ^ w →
      ∃ mem2 dlist2 l2, dlist_addAll w mem dlist xs = .ok (mem2, dlist2) ∧
        WellFormed mem2 dlist2 l2 ∧ dlist2.cmp_func = none ∧
        l2.map Prod.snd = l.map Prod.snd ++ xs := by
  induction xs with
  | nil =>
    intro mem dlist l hwf hc _
    exact ⟨mem, dlist, l, rfl, hwf, hc, by simp⟩
  | cons x xs ih =>
    intro mem dlist l hwf hc hw
    simp only [List.length_cons] at hw
    obtain ⟨mem1, d1, hrun, hwf1, hc1⟩ := dlist_add_nocmp w mem dlist l x hwf hc (by omega)
    obtain ⟨mem2, d2, l2, hrun2, hwf2, hc2, hdata2⟩ := ih mem1 d1 _ hwf1 hc1
      (by simp; omega)
    refine ⟨mem2, d2, l2, ?_, hwf2, hc2, ?_⟩
    · simp only [dlist_addAll, hrun]
      exact hrun2
    · rw [hdata2]
      simp

/-! ## The function `dlist_remove` -/

theorem linked_congr (mem mem2 : List (Option Dlistelem)) (l : List (Nat × Nat))
    (prev nxt : Option Nat) (h : ∀ x ∈ l, mem2[x.1]? = mem[x.1]?)
    (hl : Linked mem prev l nxt) : Linked mem2 prev l nxt := by
  induction l generalizing prev with
  | nil => trivial
  | cons y t ih =>
    obtain ⟨h1, h2⟩ := hl
    refine ⟨?_, ih _ (fun x hx => h x (List.mem_cons_of_mem _ hx)) h2⟩
    rw [h y (List.mem_cons_self _ _)]
    exact h1

theorem checkNextIs_linked (mem : List (Option Dlistelem)) (l1 : List (Nat × Nat)) (a : Nat)
    (h : Linked mem none l1 (some a)) : checkNextIs mem (lastAddr l1 none) a = .ok () := by
  rcases List.eq_nil_or_concat l1 with rfl | ⟨init, p, rfl⟩
  · rfl
  · rw [List.concat_eq_append] at h ⊢
    obtain ⟨_, hp⟩ := (linked_snoc mem init p none (some a)).mp h
    rw [lastAddr_append_singleton]
    simp [checkNextIs, load_of_get mem p.1 _ hp, assertThat, bind, Except.bind]

theorem checkPreviousIs_linked (mem : List (Option Dlistelem)) (l2 : List (Nat × Nat))
    (a : Nat) (h : Linked mem (some a) l2 none) :
    checkPreviousIs mem (headAddr l2 none) a = .ok () := by
  cases l2 with
  | nil => rfl
  | cons q rest =>
    obtain ⟨hq, _⟩ := h
    simp [headAddr, checkPreviousIs, load_of_get mem q.1 _ hq, assertThat, bind, Except.bind]

theorem setNextIf_linked (mem : List (Option Dlistelem)) (l1 : List (Nat × Nat))
    (nxt0 v : Option Nat) (h : Linked mem none l1 nxt0) (hnd : (l1.map Prod.fst).Nodup) :
    ∃ mem2, setNextIf mem (lastAddr l1 none) v = .ok mem2 ∧ Linked mem2 none l1 v ∧
      (∀ a, a ∉ l1.map Prod.fst → mem2[a]? = mem[a]?) ∧ mem2.length = mem.length := by
  rcases List.eq_nil_or_concat l1 with rfl | ⟨init, p, rfl⟩
  · exact ⟨mem, rfl, trivial, fun _ _ => rfl, rfl⟩
  · rw [List.concat_eq_append] at h hnd ⊢
    obtain ⟨hinit, hp⟩ := (linked_snoc mem init p none nxt0).mp h
    have hpn : p.1 ∉ init.map Prod.fst := by
      simp only [List.map_append, List.map_cons, List.map_nil] at hnd
      intro hm
      exact List.disjoint_of_nodup_append hnd hm (List.mem_singleton_self _)
    refine ⟨mem.set p.1 (some (Dlistelem.mk (lastAddr init none) v p.2)), ?_, ?_, ?_, by simp⟩
    · rw [lastAddr_append_singleton]
      exact writeNext_of_get mem p.1 _ _ _ v hp
    · rw [linked_snoc]
      exact ⟨linked_frame_set _ _ _ _ _ _ hpn hinit, get_set_self mem p.1 _ _ hp⟩
    · intro a ha
      simp only [List.map_append, List.map_cons, List.map_nil, List.mem_append,
        List.mem_singleton, not_or] at ha
      exact get_set_ne mem p.1 a _ (Ne.symm ha.2)

theorem setPreviousIf_linked (mem : List (Option Dlistelem)) (l2 : List (Nat × Nat))
    (prev0 v : Option Nat) (h : Linked mem prev0 l2 none) (hnd : (l2.map Prod.fst).Nodup) :
    ∃ mem2, setPreviousIf mem (headAddr l2 none) v = .ok mem2 ∧ Linked mem2 v l2 none ∧
      (∀ a, a ∉ l2.map Prod.fst → mem2[a]? = mem[a]?) ∧ mem2.length = mem.length := by
  cases l2 with
  | nil => exact ⟨mem, rfl, trivial, fun _ _ => rfl, rfl⟩
  | cons q rest =>
    obtain ⟨hq, hrest⟩ := h
    simp only [List.map_cons, List.nodup_cons] at hnd
    refine ⟨mem.set q.1 (some (Dlistelem.mk v (headAddr rest none) q.2)), ?_, ?_, ?_, by simp⟩
    · exact writePrevious_of_get mem q.1 _ _ _ v hq
    · exact ⟨get_set_self mem q.1 _ _ hq, linked_frame_set _ _ _ _ _ _ hnd.1 hrest⟩
    · intro a ha
      simp only [List.map_cons, List.mem_cons, not_or] at ha
      exact get_set_ne mem q.1 a _ (Ne.symm ha.1)

/-- `dlist_remove` of an element of the list gives the list without it. -/
theorem dlist_remove_spec (w : Nat) (mem : List (Option Dlistelem)) (dlist : Dlist)
    (l1 : List (Nat × Nat)) (e : Nat × Nat) (l2 : List (Nat × Nat))
    (hwf : WellFormed mem dlist (l1 ++ e :: l2)) (hw : (l1 ++ e :: l2).length < 2 ^ w) :
    ∃ mem2 dlist2, dlist_remove w mem dlist e.1 = .ok (mem2, dlist2) ∧
      WellFormed mem2 dlist2 (l1 ++ l2) ∧ dlist2.cmp_func = dlist.cmp_func ∧
      mem2[e.1]? = some none := by
  obtain ⟨h1, he, h2⟩ := (linked_append mem l1 (e :: l2) none none).mp hwf.linked
  have hnd := hwf.nodup
  simp only [List.map_append, List.map_cons] at hnd
  have hnd1 := (List.nodup_append.mp hnd).1
  have hnd2 := (List.nodup_append.mp hnd).2.1
  have hdis := List.disjoint_of_nodup_append hnd
  simp only [List.nodup_cons] at hnd2
  have he1 : e.1 ∉ l1.map Prod.fst := fun h => hdis h (List.mem_cons_self _ _)
  have he2 : e.1 ∉ l2.map Prod.fst := hnd2.1
  have hc1 := checkNextIs_linked mem l1 e.1 h1
  have hc2 := checkPreviousIs_linked mem l2 e.1 h2
  obtain ⟨memA, hsA, hlA, hfA, hlenA⟩ :=
    setNextIf_linked mem l1 (some e.1) (headAddr l2 none) h1 hnd1
  have heA : memA[e.1]? = some (some (Dlistelem.mk (lastAddr l1 none) (headAddr l2 none) e.2)) := by
    rw [hfA e.1 he1]
    exact he
  have h2A : Linked memA (some e.1) l2 none :=
    linked_congr mem memA l2 _ _ (fun x hx => hfA x.1 (fun hm =>
      hdis hm (List.mem_cons_of_mem _ (List.mem_map_of_mem _ hx)))) h2
  obtain ⟨memB, hsB, hlB, hfB, hlenB⟩ :=
    setPreviousIf_linked memA l2 (some e.1) (lastAddr l1 none) h2A hnd2.2
  have heB : memB[e.1]? = some (some (Dlistelem.mk (lastAddr l1 none) (headAddr l2 none) e.2)) := by
    rw [hfB e.1 he2]
    exact heA
  have h1B : Linked memB none l1 (headAddr l2 none) :=
    linked_congr memA memB l1 _ _ (fun x hx => hfB x.1 (fun hm =>
      hdis (List.mem_map_of_mem _ hx) (List.mem_cons_of_mem _ hm))) hlA
  have hfree : env_ma_free memB e.1 = .ok (memB.set e.1 none) := by
    simp only [env_ma_free, heB]
  have hrun : dlist_remove w mem dlist e.1
      = .ok (memB.set e.1 none,
          { dlist with
            first := if dlist.first = some e.1 then headAddr l2 none else dlist.first
            last := if dlist.last = some e.1 then lastAddr l1 none else dlist.last
            size := (dlist.size + 2 ^ w - 1) % 2 ^ w }) := by
    simp only [dlist_remove, load_of_get mem e.1 _ he, hc1, hc2, hsA, load_of_get memA e.1 _ heA,
      hsB, load_of_get memB e.1 _ heB, hfree, bind, Except.bind]
  refine ⟨_, _, hrun, ⟨?_, ?_, ?_, ?_, ?_⟩, rfl, get_set_self memB e.1 _ _ heB⟩
  · rw [linked_append]
    refine ⟨linked_frame_set _ _ _ _ _ _ he1 h1B, ?_⟩
    exact linked_frame_set _ _ _ _ _ _ he2 hlB
  · show (if dlist.first = some e.1 then headAddr l2 none else dlist.first)
      = headAddr (l1 ++ l2) none
    rw [hwf.first_eq]
    cases l1 with
    | nil => simp [headAddr]
    | cons p t =>
      have hpe : p.1 ≠ e.1 := by
        intro h
        apply he1
        rw [← h]
        simp
      simp [headAddr, hpe]
  · show (if dlist.last = some e.1 then lastAddr l1 none else dlist.last)
      = lastAddr (l1 ++ l2) none
    rw [hwf.last_eq]
    rcases List.eq_nil_or_concat l2 with rfl | ⟨init, q, rfl⟩
    · have : l1 ++ [e] = l1 ++ [e] := rfl
      rw [lastAddr_append_singleton]
      simp
    · rw [List.concat_eq_append]
      have h3 : l1 ++ e :: (init ++ [q]) = (l1 ++ e :: init) ++ [q] := by simp
      have h4 : l1 ++ (init ++ [q]) = (l1 ++ init) ++ [q] := by simp
      rw [h3, h4, lastAddr_append_singleton, lastAddr_append_singleton]
      have hqe : q.1 ≠ e.1 := by
        intro h
        apply he2
        rw [← h, List.concat_eq_append]
        simp
      simp [hqe]
  · rw [List.map_append, List.nodup_append]
    exact ⟨hnd1, hnd2.2, fun a h1 h2 => hdis h1 (List.mem_cons_of_mem _ h2)⟩
  · show (dlist.size + 2 ^ w - 1) % 2 ^ w = (l1 ++ l2).length
    rw [hwf.size_eq]
    simp only [List.length_append, List.length_cons] at hw ⊢
    have hpos : 0 < 2 ^ w := Nat.two_pow_pos w
    have : l1.length + (l2.length + 1) + 2 ^ w - 1 = (l1.length + l2.length) + 2 ^ w := by omega
    rw [this, Nat.add_mod_right, Nat.mod_eq_of_lt (by omega)]

/-- The first element that satisfies a property splits the elements. -/
theorem exists_first_split (P : Nat × Nat → Prop) (l : List (Nat × Nat))
    (h : ∃ x ∈ l, P x) :
    ∃ l1 x l2, l = l1 ++ x :: l2 ∧ P x ∧ ∀ y ∈ l1, ¬ P y := by
  classical
  induction l with
  | nil =>
    obtain ⟨x, hx, _⟩ := h
    cases hx
  | cons a t ih =>
    by_cases ha : P a
    · exact ⟨[], a, t, rfl, ha, fun y hy => by cases hy⟩
    · obtain ⟨x, hx, hp⟩ := h
      rcases List.mem_cons.mp hx with rfl | hx
      · exact absurd hp ha
      · obtain ⟨l1, y, l2, hsplit, hy, hno⟩ := ih ⟨x, hx, hp⟩
        refine ⟨a :: l1, y, l2, by rw [hsplit]; rfl, hy, ?_⟩
        intro z hz
        rcases List.mem_cons.mp hz with rfl | hz
        · exact ha
        · exact hno z hz

/-! ## The claims on the list -/

theorem intcompare_totalPreorder : TotalPreorder intcompare :=
  ⟨fun a b => by unfold intcompare; omega, fun a b c => by unfold intcompare; omega⟩

theorem sortedInserts_eq_insertionSort (cmp : Nat → Nat → Int) (xs : List Nat) :
    sortedInserts cmp xs = List.insertionSort (fun a b => cmp a b < 0) xs.reverse := by
  induction xs using List.reverseRecOn with
  | nil => rfl
  | append_singleton xs x ih =>
    unfold sortedInserts at ih ⊢
    rw [List.foldl_append, List.foldl_cons, List.foldl_nil, ih, List.reverse_append,
      List.reverse_singleton, List.singleton_append]
    rfl

/-- C27: for a list created with a compare function that is a total
preorder, every sequence of `dlist_add` calls (fewer than `2 ^ w`) runs
through without a failed assertion; the traversal from `dlist_first` through
`dlistelem_next` then visits the data added in non-decreasing order, in the
sequence obtained by inserting each datum after the data less than or equal
to it, and `dlist_size` is the number of calls. -/
theorem C27_sorted_adds (w : Nat) (cmp : Nat → Nat → Int) (hlaw : TotalPreorder cmp)
    (mem : List (Option Dlistelem)) (xs : List Nat) (hw : xs.length < 2 ^ w) :
    ∃ mem2 dlist2 l2,
      dlist_addAll w mem (dlist_new (some cmp)) xs = .ok (mem2, dlist2) ∧
      traverse mem2 dlist2 = .ok l2 ∧
      l2.map Prod.snd = sortedInserts cmp xs ∧
      l2.map Prod.snd = List.insertionSort (fun a b => cmp a b < 0) xs.reverse ∧
      (l2.map Prod.snd).Pairwise (fun a b => cmp a b ≤ 0) ∧
      (l2.map Prod.snd).Perm xs ∧
      dlist_size (some dlist2) = xs.length := by
  obtain ⟨mem2, d2, l2, hrun, hwf, _, hdata⟩ := dlist_addAll_cmp w cmp hlaw xs mem
    (dlist_new (some cmp)) [] (wellFormed_new mem (some cmp)) rfl (by simp) (by simpa using hw)
  have hdata2 : l2.map Prod.snd = sortedInserts cmp xs := hdata
  have hperm : (l2.map Prod.snd).Perm xs := by
    rw [hdata2]
    have := sortedInserts_foldl_perm cmp xs []
    simpa [sortedInserts] using this
  refine ⟨mem2, d2, l2, hrun, traverse_wellFormed mem2 d2 l2 hwf, hdata2, ?_, ?_, hperm, ?_⟩
  · rw [hdata2, sortedInserts_eq_insertionSort]
  · rw [hdata2]
    exact sortedInserts_foldl_pairwise cmp hlaw xs [] List.Pairwise.nil
  · show d2.size = xs.length
    rw [hwf.size_eq, ← hperm.length_eq, List.length_map]

/-- C27 at the compare function `intcompare` and the data 7, 6, 9, 6, 8, 1. -/
theorem C27_sorted_adds_witness :
    ∃ mem2 dlist2 l2,
      dlist_addAll 64 [] (dlist_new (some intcompare)) [7, 6, 9, 6, 8, 1] = .ok (mem2, dlist2) ∧
      traverse mem2 dlist2 = .ok l2 ∧
      l2.map Prod.snd = sortedInserts intcompare [7, 6, 9, 6, 8, 1] ∧
      l2.map Prod.snd
        = List.insertionSort (fun a b => intcompare a b < 0) [7, 6, 9, 6, 8, 1].reverse ∧
      (l2.map Prod.snd).Pairwise (fun a b => intcompare a b ≤ 0) ∧
      (l2.map Prod.snd).Perm [7, 6, 9, 6, 8, 1] ∧
      dlist_size (some dlist2) = [7, 6, 9, 6, 8, 1].length :=
  C27_sorted_adds 64 intcompare intcompare_totalPreorder [] [7, 6, 9, 6, 8, 1] (by decide)

/-- C28: for a list created without a compare function, every sequence of
`dlist_add` calls (fewer than `2 ^ w`) runs through; the traversal from
`dlist_first` then visits the data in the order in which they were added,
and `dlist_size` is the number of calls, 0 for a new list. -/
theorem C28_unsorted_adds (w : Nat) (mem : List (Option Dlistelem)) (xs : List Nat)
    (hw : xs.length < 2 ^ w) :
    ∃ mem2 dlist2 l2,
      dlist_addAll w mem (dlist_new none) xs = .ok (mem2, dlist2) ∧
      traverse mem2 dlist2 = .ok l2 ∧
      l2.map Prod.snd = xs ∧
      dlist_size (some dlist2) = xs.length ∧
      dlist_size (some (dlist_new none)) = 0 := by
  obtain ⟨mem2, d2, l2, hrun, hwf, _, hdata⟩ := dlist_addAll_nocmp w xs mem
    (dlist_new none) [] (wellFormed_new mem none) rfl (by simpa using hw)
  have hdata2 : l2.map Prod.snd = xs := by simpa using hdata
  refine ⟨mem2, d2, l2, hrun, traverse_wellFormed mem2 d2 l2 hwf, hdata2, ?_, rfl⟩
  show d2.size = xs.length
  rw [hwf.size_eq, ← hdata2, List.length_map]

/-- C28 at the data 7, 6, 9, 6, 8, 1. -/
theorem C28_unsorted_adds_witness :
    ∃ mem2 dlist2 l2,
      dlist_addAll 64 [] (dlist_new none) [7, 6, 9, 6, 8, 1] = .ok (mem2, dlist2) ∧
      traverse mem2 dlist2 = .ok l2 ∧
      l2.map Prod.snd = [7, 6, 9, 6, 8, 1] ∧
      dlist_size (some dlist2) = [7, 6, 9, 6, 8, 1].length ∧
      dlist_size (some (dlist_new none)) = 0 :=
  C28_unsorted_adds 64 [] [7, 6, 9, 6, 8, 1] (by decide)

/-- C29: for every list and every datum, `dlist_find` returns the first
element in traversal order whose datum compares equal to the datum under the
compare function of the list or is the same pointer; it returns `NULL` if and
only if there is no such element, so a datum that was added is found. -/
theorem C29_find_first_equal (mem : List (Option Dlistelem)) (dlist : Dlist)
    (l : List (Nat × Nat)) (new_data : Nat) (hwf : WellFormed mem dlist l) :
    ∃ r, dlist_find mem dlist new_data = .ok r ∧
      (r = none ↔ ∀ x ∈ l, ¬ findEqual dlist.cmp_func x.2 new_data) ∧
      (∀ a, r = some a → ∃ l1 d l2, l = l1 ++ (a, d) :: l2 ∧
        findEqual dlist.cmp_func d new_data ∧
        ∀ y ∈ l1, ¬ findEqual dlist.cmp_func y.2 new_data) ∧
      (∀ x ∈ l, x.2 = new_data → r ≠ none) := by
  have hfuel := wellFormed_length_le mem dlist l hwf
  by_cases hex : ∃ x ∈ l, findEqual dlist.cmp_func x.2 new_data
  · obtain ⟨l1, x, l2, hsplit, hx, hno⟩ :=
      exists_first_split (fun x => findEqual dlist.cmp_func x.2 new_data) l hex
    have hrun : dlist_find mem dlist new_data = .ok (some x.1) := by
      unfold dlist_find dlist_first
      rw [hwf.first_eq, hsplit]
      exact findLoop_some mem dlist.cmp_func new_data l1 x l2 none mem.length
        (hsplit ▸ hwf.linked) (by rw [hsplit] at hfuel; simp at hfuel; omega) hno hx
    refine ⟨some x.1, hrun, ?_, ?_, ?_⟩
    · constructor
      · intro h; cases h
      · intro h
        obtain ⟨y, hy, hyp⟩ := hex
        exact absurd hyp (h y hy)
    · intro a ha
      cases ha
      exact ⟨l1, x.2, l2, hsplit, hx, hno⟩
    · intro _ _ _ h
      cases h
  · have hno : ∀ x ∈ l, ¬ findEqual dlist.cmp_func x.2 new_data :=
      fun x hx h => hex ⟨x, hx, h⟩
    have hrun : dlist_find mem dlist new_data = .ok none := by
      unfold dlist_find dlist_first
      rw [hwf.first_eq]
      exact findLoop_none mem dlist.cmp_func new_data l none mem.length hwf.linked hfuel hno
    refine ⟨none, hrun, ⟨fun _ => hno, fun _ => rfl⟩, ?_, ?_⟩
    · intro a ha
      cases ha
    · intro x hx hxe
      exact absurd (Or.inr hxe) (hno x hx)

/-- C29 at the list of the data 6, 7, 9 and the datum 7. -/
theorem C29_find_first_equal_witness :
    ∃ r, dlist_find sevenSixNineMem sevenSixNineList 7 = .ok r ∧
      (r = none ↔ ∀ x ∈ [(1, 6)] ++ (0, 7) :: [(2, 9)],
        ¬ findEqual sevenSixNineList.cmp_func x.2 7) ∧
      (∀ a, r = some a → ∃ l1 d l2, [(1, 6)] ++ (0, 7) :: [(2, 9)] = l1 ++ (a, d) :: l2 ∧
        findEqual sevenSixNineList.cmp_func d 7 ∧
        ∀ y ∈ l1, ¬ findEqual sevenSixNineList.cmp_func y.2 7) ∧
      (∀ x ∈ [(1, 6)] ++ (0, 7) :: [(2, 9)], x.2 = 7 → r ≠ none) :=
  C29_find_first_equal sevenSixNineMem sevenSixNineList ([(1, 6)] ++ (0, 7) :: [(2, 9)]) 7
    ⟨by decide, rfl, rfl, by decide, rfl⟩

/-- C30: for every list (with fewer than `2 ^ w` elements) and every element
`e` of it, first, middle or last, `dlist_remove` returns and leaves the list
with `e` removed: the traversal visits the other elements in their order,
`first` and `last` are the first and the last of them, `dlist_size` is one
less, and the block of `e` is freed.  With `e` the first element the new
first element is the second one of the list, with `e` the last element the
new last element is the last but one. -/
theorem C30_remove_element (w : Nat) (mem : List (Option Dlistelem)) (dlist : Dlist)
    (l1 : List (Nat × Nat)) (e : Nat × Nat) (l2 : List (Nat × Nat))
    (hwf : WellFormed mem dlist (l1 ++ e :: l2)) (hw : (l1 ++ e :: l2).length < 2 ^ w) :
    ∃ mem2 dlist2, dlist_remove w mem dlist e.1 = .ok (mem2, dlist2) ∧
      WellFormed mem2 dlist2 (l1 ++ l2) ∧
      traverse mem2 dlist2 = .ok (l1 ++ l2) ∧
      dlist_first dlist2 = headAddr (l1 ++ l2) none ∧
      dlist_last dlist2 = lastAddr (l1 ++ l2) none ∧
      (l1 = [] → dlist_first dlist2 = headAddr l2 none) ∧
      (l2 = [] → dlist_last dlist2 = lastAddr l1 none) ∧
      dlist_size (some dlist2) + 1 = dlist_size (some dlist) ∧
      mem2[e.1]? = some none := by
  obtain ⟨mem2, d2, hrun, hwf2, _, hfree⟩ := dlist_remove_spec w mem dlist l1 e l2 hwf hw
  refine ⟨mem2, d2, hrun, hwf2, traverse_wellFormed mem2 d2 _ hwf2, hwf2.first_eq, hwf2.last_eq,
    ?_, ?_, ?_, hfree⟩
  · intro h
    rw [h] at hwf2
    exact hwf2.first_eq
  · intro h
    rw [h, List.append_nil] at hwf2
    exact hwf2.last_eq
  · show d2.size + 1 = dlist.size
    rw [hwf2.size_eq, hwf.size_eq]
    simp only [List.length_append, List.length_cons]
    omega

/-- C30 at the list of the data 6, 7, 9 and its middle element. -/
theorem C30_remove_element_witness :
    ∃ mem2 dlist2, dlist_remove 64 sevenSixNineMem sevenSixNineList (0, 7).1 = .ok (mem2, dlist2) ∧
      WellFormed mem2 dlist2 ([(1, 6)] ++ [(2, 9)]) ∧
      traverse mem2 dlist2 = .ok ([(1, 6)] ++ [(2, 9)]) ∧
      dlist_first dlist2 = headAddr ([(1, 6)] ++ [(2, 9)]) none ∧
      dlist_last dlist2 = lastAddr ([(1, 6)] ++ [(2, 9)]) none ∧
      ([(1, 6)] = ([] : List (Nat × Nat)) → dlist_first dlist2 = headAddr [(2, 9)] none) ∧
      ([(2, 9)] = ([] : List (Nat × Nat)) → dlist_last dlist2 = lastAddr [(1, 6)] none) ∧
      dlist_size (some dlist2) + 1 = dlist_size (some sevenSixNineList) ∧
      mem2[(0, 7).1]? = some none :=
  C30_remove_element 64 sevenSixNineMem sevenSixNineList [(1, 6)] (0, 7) [(2, 9)]
    ⟨by decide, rfl, rfl, by decide, rfl⟩ (by decide)

end Gtcore

namespace Gtext

/-! ## Accesses to the table -/

theorem readAt_ok (a : List Int) (i : Nat) (h : i < a.length) :
    readAt a i = .ok (a.getD i 0) := by
  simp only [readAt, List.getD_eq_getElem?_getD, List.getElem?_eq_getElem h, Option.getD_some]

theorem readAt_fault (a : List Int) (i : Nat) (h : a.length ≤ i) :
    readAt a i = .error .outOfBounds := by
  simp only [readAt, List.getElem?_eq_none h]

theorem writeAt_ok (a : List Int) (i : Nat) (v : Int) (h : i < a.length) :
    writeAt a i v = .ok (a.set i v) := by
  simp only [writeAt, if_pos h]

theorem readByte_ok (a : List Nat) (i : Nat) (h : i < a.length) :
    readByte a i = .ok (a.getD i 0) := by
  simp only [readByte, List.getD_eq_getElem?_getD, List.getElem?_eq_getElem h, Option.getD_some]

theorem getD_set_self (a : List Int) (i : Nat) (v : Int) (h : i < a.length) :
    (a.set i v).getD i 0 = v := by
  rw [List.getD_eq_getElem?_getD, List.getElem?_set_self h]
  rfl

theorem getD_set_other (a : List Int) (i j : Nat) (v : Int) (h : i ≠ j) :
    (a.set i v).getD j 0 = a.getD j 0 := by
  rw [List.getD_eq_getElem?_getD, List.getElem?_set_ne h, ← List.getD_eq_getElem?_getD]

theorem countP_set (p : Int → Bool) :
    ∀ (l : List Int) (i : Nat) (x : Int), i < l.length →
      (l.set i x).countP p + (if p (l.getD i 0) = true then 1 else 0)
        = l.countP p + (if p x = true then 1 else 0) := by
  intro l
  induction l with
  | nil => intro i x h; simp at h
  | cons a t ih =>
    intro i x h
    cases i with
    | zero =>
      simp only [List.set_cons_zero, List.getD_cons_zero, List.countP_cons]
      omega
    | succ i =>
      have := ih i x (by simpa using h)
      simp only [List.set_cons_succ, List.getD_cons_succ, List.countP_cons]
      omega

theorem ifZero_ok (s : Counters) (c : Nat) (d : Int) (h : c < s.multiset.length) :
    ifZero s c d = .ok (Counters.mk s.multiset
      (s.exhausted_characters + (if s.multiset.getD c 0 = 0 then d else 0)) s.alphabet_size) := by
  by_cases hz : s.multiset.getD c 0 = 0
  · simp only [ifZero, readAt_ok _ _ h, hz, bind, Except.bind, pure, Except.pure, if_true]
  · simp only [ifZero, readAt_ok _ _ h, bind, Except.bind, pure, Except.pure, if_neg hz,
      add_zero]

theorem ifDefined_ok (L : Limits) (s : Counters) (c : Nat) (d : Int)
    (h : c < s.multiset.length) :
    ifDefined L s c d = .ok (Counters.mk
      (if s.multiset.getD c 0 ≠ L.UNDEF_CHAR then s.multiset.set c (s.multiset.getD c 0 + d)
        else s.multiset) s.exhausted_characters s.alphabet_size) := by
  by_cases hu : s.multiset.getD c 0 = L.UNDEF_CHAR
  · simp only [ifDefined, readAt_ok _ _ h, bind, Except.bind, pure, Except.pure, ne_eq, hu,
      not_true_eq_false, if_false]
  · simp only [ifDefined, readAt_ok _ _ h, bind, Except.bind, pure, Except.pure, ne_eq, hu,
      not_false_eq_true, if_true, writeAt_ok _ _ _ h]

theorem adjust_ok (L : Limits) (s : Counters) (c : Nat) (d : Int) (h : c < s.multiset.length) :
    adjust L s c d = .ok (adjusted L s c d) := by
  have h2 : c < (if s.multiset.getD c 0 ≠ L.UNDEF_CHAR then
      s.multiset.set c (s.multiset.getD c 0 + d) else s.multiset).length := by
    split
    · rw [List.length_set]; exact h
    · exact h
  have e1 := ifZero_ok s c (-1) h
  have e2 := ifDefined_ok L (Counters.mk s.multiset
    (s.exhausted_characters + (if s.multiset.getD c 0 = 0 then -1 else 0)) s.alphabet_size)
    c d h
  have e3 := ifZero_ok (Counters.mk
    (if s.multiset.getD c 0 ≠ L.UNDEF_CHAR then s.multiset.set c (s.multiset.getD c 0 + d)
      else s.multiset)
    (s.exhausted_characters + (if s.multiset.getD c 0 = 0 then -1 else 0)) s.alphabet_size)
    c 1 h2
  simp only [adjust, e1, e2, e3, bind, Except.bind]
  rfl

theorem adjust_fault (L : Limits) (s : Counters) (c : Nat) (d : Int)
    (h : s.multiset.length ≤ c) : adjust L s c d = .error .outOfBounds := by
  simp only [adjust, ifZero, readAt_fault _ _ h, bind, Except.bind]

theorem constructLoop_cons_ok (L : Limits) (s : Counters) (c : Nat) (rest : List Nat)
    (h : c < s.multiset.length) :
    constructLoop L (c :: rest) s = constructLoop L rest (constructed L s c) := by
  have hr := readAt_ok s.multiset c h
  by_cases hu : s.multiset.getD c 0 = L.UNDEF_CHAR
  · have hw := writeAt_ok s.multiset c 0 h
    have hr2 := readAt_ok (s.multiset.set c 0) c (by rw [List.length_set]; exact h)
    rw [getD_set_self _ _ _ h] at hr2
    have hw2 := writeAt_ok (s.multiset.set c 0) c (0 + 1) (by rw [List.length_set]; exact h)
    simp only [constructLoop, defineChar, addOne, hr, if_pos hu, hw, hr2, hw2, bind,
      Except.bind, pure, Except.pure, constructed, List.set_set]
  · have hw := writeAt_ok s.multiset c (s.multiset.getD c 0 + 1) h
    simp only [constructLoop, defineChar, addOne, hr, if_neg hu, hw, bind, Except.bind, pure,
      Except.pure, constructed]

theorem constructLoop_cons_fault (L : Limits) (s : Counters) (c : Nat) (rest : List Nat)
    (h : s.multiset.length ≤ c) :
    constructLoop L (c :: rest) s = .error .outOfBounds := by
  simp only [constructLoop, defineChar, readAt_fault _ _ h, bind, Except.bind]

/-! ## The invariants of the two loops -/

theorem assertThat_holds (c : Prop) [Decidable c] (h : c) : assertThat (decide c) = .ok () := by
  simp [assertThat, h]

theorem getD_mem (a : List Int) (i : Nat) (h : i < a.length) : a.getD i 0 ∈ a := by
  rw [List.getD_eq_getElem?_getD, List.getElem?_eq_getElem h]
  exact List.getElem_mem h

theorem zeros_set (l : List Int) (i : Nat) (x : Int) (h : i < l.length) :
    zeros (l.set i x) = zeros l - (if l.getD i 0 = 0 then 1 else 0) + (if x = 0 then 1 else 0) := by
  have := countP_set (fun x => decide (x = 0)) l i x h
  simp only [decide_eq_true_eq] at this
  unfold zeros
  by_cases h1 : l.getD i 0 = 0
  · by_cases h2 : x = 0
    · rw [if_pos h1, if_pos h2] at this
      rw [if_pos h1, if_pos h2]
      omega
    · rw [if_pos h1, if_neg h2] at this
      rw [if_pos h1, if_neg h2]
      omega
  · by_cases h2 : x = 0
    · rw [if_neg h1, if_pos h2] at this
      rw [if_neg h1, if_pos h2]
      omega
    · rw [if_neg h1, if_neg h2] at this
      rw [if_neg h1, if_neg h2]
      omega

theorem defined_set (L : Limits) (l : List Int) (i : Nat) (x : Int) (h : i < l.length) :
    defined L (l.set i x) = defined L l - (if l.getD i 0 ≠ L.UNDEF_CHAR then 1 else 0)
      + (if x ≠ L.UNDEF_CHAR then 1 else 0) := by
  have := countP_set (fun x => decide (x ≠ L.UNDEF_CHAR)) l i x h
  simp only [decide_eq_true_eq] at this
  unfold defined
  by_cases h1 : l.getD i 0 ≠ L.UNDEF_CHAR
  · by_cases h2 : x ≠ L.UNDEF_CHAR
    · rw [if_pos h1, if_pos h2] at this
      rw [if_pos h1, if_pos h2]
      omega
    · rw [if_pos h1, if_neg h2] at this
      rw [if_pos h1, if_neg h2]
      omega
  · by_cases h2 : x ≠ L.UNDEF_CHAR
    · rw [if_neg h1, if_pos h2] at this
      rw [if_neg h1, if_pos h2]
      omega
    · rw [if_neg h1, if_neg h2] at this
      rw [if_neg h1, if_neg h2]
      omega

theorem zeros_le_defined (L : Limits) (l : List Int) (hU : L.UNDEF_CHAR ≠ 0) :
    zeros l ≤ defined L l := by
  unfold zeros defined
  have : l.countP (fun x => decide (x = 0)) ≤ l.countP (fun x => decide (x ≠ L.UNDEF_CHAR)) := by
    apply List.countP_mono_left
    intro x _ hx
    simp only [decide_eq_true_eq] at hx ⊢
    rw [hx]
    exact fun h => hU h.symm
  exact_mod_cast this

theorem adjusted_counted (L : Limits) (s : Counters) (c : Nat) (d : Int)
    (h : c < s.multiset.length) (hc : Counted L s) : Counted L (adjusted L s c d) := by
  by_cases hu : s.multiset.getD c 0 = L.UNDEF_CHAR
  · have hm : (adjusted L s c d).multiset = s.multiset := by
      simp only [adjusted, ne_eq, hu, not_true_eq_false, if_false]
    refine ⟨by rw [hm]; exact hc.length_eq, ?_, by rw [hm]; exact hc.defined_le⟩
    rw [hm]
    simp only [adjusted, ne_eq, hu, not_true_eq_false, if_false, hc.exhausted_eq]
    split <;> omega
  · have hm : (adjusted L s c d).multiset = s.multiset.set c (s.multiset.getD c 0 + d) := by
      simp only [adjusted, ne_eq, hu, not_false_eq_true, if_true]
    refine ⟨by rw [hm, List.length_set]; exact hc.length_eq, ?_, ?_⟩
    · rw [hm, zeros_set _ _ _ h]
      simp only [adjusted, ne_eq, hu, not_false_eq_true, if_true, hc.exhausted_eq,
        getD_set_self _ _ _ h]
      split <;> split <;> omega
    · rw [hm, defined_set L _ _ _ h]
      have := hc.defined_le
      have ha : (adjusted L s c d).alphabet_size = s.alphabet_size := rfl
      rw [ha]
      rw [if_pos hu]
      split <;> omega

theorem counted_assert (L : Limits) (s : Counters) (hU : L.UNDEF_CHAR ≠ 0) (hc : Counted L s) :
    s.exhausted_characters ≤ s.alphabet_size := by
  rw [hc.exhausted_eq]
  exact le_trans (zeros_le_defined L _ hU) hc.defined_le

theorem constructed_built (L : Limits) (s : Counters) (c : Nat) (h : c < s.multiset.length)
    (hb : Built L s) : Built L (constructed L s c) := by
  have hv := hb.fresh _ (getD_mem s.multiset c h)
  refine ⟨by simp only [constructed, List.length_set]; exact hb.length_eq, ?_, hb.exhausted_eq,
    ?_⟩
  · intro x hx
    rcases List.mem_or_eq_of_mem_set hx with h1 | h1
    · exact hb.fresh x h1
    · right
      rw [h1]
      split
      · omega
      · next hu =>
        rcases hv with h2 | h2
        · exact absurd h2 hu
        · omega
  · have hd := hb.defined_le
    simp only [constructed]
    rw [defined_set L _ _ _ h]
    by_cases hu : s.multiset.getD c 0 = L.UNDEF_CHAR
    · simp only [hu, ne_eq, not_true_eq_false, if_false, if_true]
      split <;> omega
    · simp only [hu, ne_eq, not_false_eq_true, if_true, if_false]
      split <;> omega

theorem built_counted (L : Limits) (s : Counters) (hU : L.UNDEF_CHAR ≠ 0) (hb : Built L s) :
    Counted L s := by
  refine ⟨hb.length_eq, ?_, hb.defined_le⟩
  rw [hb.exhausted_eq]
  unfold zeros
  have : s.multiset.countP (fun x => decide (x = 0)) = 0 := by
    rw [List.countP_eq_zero]
    intro x hx
    simp only [decide_eq_true_eq]
    intro h0
    rcases hb.fresh x hx with h1 | h1
    · exact hU (h1.symm.trans h0)
    · omega
  rw [this]
  rfl

theorem built_initial (L : Limits) :
    Built L (Counters.mk (List.replicate L.UCHAR_MAX L.UNDEF_CHAR) 0 0) := by
  refine ⟨by simp, ?_, rfl, ?_⟩
  · intro x hx
    exact Or.inl (List.eq_of_mem_replicate hx)
  · unfold defined
    have : (List.replicate L.UCHAR_MAX L.UNDEF_CHAR).countP
        (fun x => decide (x ≠ L.UNDEF_CHAR)) = 0 := by
      rw [List.countP_eq_zero]
      intro x hx
      simp [List.eq_of_mem_replicate hx]
    rw [this]
    rfl

theorem constructLoop_ok (L : Limits) :
    ∀ (ms : List Nat) (s : Counters), (∀ c ∈ ms, c < L.UCHAR_MAX) → Built L s →
      ∃ s1, constructLoop L ms s = .ok s1 ∧ Built L s1 := by
  intro ms
  induction ms with
  | nil => intro s _ hb; exact ⟨s, rfl, hb⟩
  | cons c rest ih =>
    intro s hms hb
    have hc : c < s.multiset.length := by
      rw [hb.length_eq]
      exact hms c (List.mem_cons_self _ _)
    rw [constructLoop_cons_ok L s c rest hc]
    exact ih _ (fun x hx => hms x (List.mem_cons_of_mem _ hx)) (constructed_built L s c hc hb)

theorem constructLoop_fault (L : Limits) :
    ∀ (ms : List Nat) (s : Counters), s.multiset.length = L.UCHAR_MAX →
      (∃ c ∈ ms, L.UCHAR_MAX ≤ c) → constructLoop L ms s = .error .outOfBounds := by
  intro ms
  induction ms with
  | nil => intro s _ h; obtain ⟨c, hc, _⟩ := h; simp at hc
  | cons c rest ih =>
    intro s hlen hbad
    by_cases hc : c < L.UCHAR_MAX
    · rw [constructLoop_cons_ok L s c rest (by omega)]
      apply ih
      · simp only [constructed, List.length_set]
        exact hlen
      · obtain ⟨x, hx, hxb⟩ := hbad
        rcases List.mem_cons.mp hx with h1 | h1
        · omega
        · exact ⟨x, h1, hxb⟩
    · exact constructLoop_cons_fault L s c rest (by omega)

theorem matchLoop_ok (L : Limits) (m : Nat) (text : List Nat) (hU : L.UNDEF_CHAR ≠ 0)
    (htext : ∀ c ∈ text, c < L.UCHAR_MAX) :
    ∀ (n i : Nat) (s : Counters) (calls : List Nat), i + n = text.length → Counted L s →
      ∃ calls1, matchLoop L m text n i s calls = .ok calls1 := by
  intro n
  induction n with
  | zero => intro i s calls _ _; exact ⟨calls, rfl⟩
  | succ n ih =>
    intro i s calls hi hc
    have hlt : i < text.length := by omega
    have hgood : ∀ k, k < text.length → text.getD k 0 < L.UCHAR_MAX := by
      intro k hk
      apply htext
      rw [List.getD_eq_getElem?_getD, List.getElem?_eq_getElem hk]
      exact List.getElem_mem hk
    obtain ⟨s1, hs1, hc1⟩ : ∃ s1, undoFirst L m text i s = .ok s1 ∧ Counted L s1 := by
      by_cases hm : i ≥ m
      · have hb := hgood (i - m) (by omega)
        have hb2 : text.getD (i - m) 0 < s.multiset.length := by rw [hc.length_eq]; exact hb
        refine ⟨_, ?_, adjusted_counted L s _ 1 hb2 hc⟩
        simp only [undoFirst, if_pos hm, readByte_ok text (i - m) (by omega), bind,
          Except.bind, adjust_ok L s _ 1 hb2]
      · exact ⟨s, by simp only [undoFirst, if_neg hm], hc⟩
    have hb := hgood i hlt
    have hb2 : text.getD i 0 < s1.multiset.length := by rw [hc1.length_eq]; exact hb
    have hc2 := adjusted_counted L s1 _ (-1) hb2 hc1
    have hassert : assertThat (decide ((adjusted L s1 (text.getD i 0) (-1)).exhausted_characters
        ≤ (adjusted L s1 (text.getD i 0) (-1)).alphabet_size)) = .ok () :=
      assertThat_holds _ (counted_assert L _ hU hc2)
    obtain ⟨calls1, h1⟩ := ih (i + 1) (adjusted L s1 (text.getD i 0) (-1))
      (report L m i (adjusted L s1 (text.getD i 0) (-1)) calls) (by omega) hc2
    refine ⟨calls1, ?_⟩
    simp only [matchLoop, hs1, readByte_ok text i hlt, adjust_ok L s1 _ (-1) hb2, hassert, bind,
      Except.bind]
    exact h1

theorem matchLoop_fault (L : Limits) (m : Nat) (text : List Nat) (hU : L.UNDEF_CHAR ≠ 0) :
    ∀ (n i : Nat) (s : Counters) (calls : List Nat), i + n = text.length → Counted L s →
      (∀ k, k < i → text.getD k 0 < L.UCHAR_MAX) →
      (∃ k, i ≤ k ∧ k < text.length ∧ L.UCHAR_MAX ≤ text.getD k 0) →
      matchLoop L m text n i s calls = .error .outOfBounds := by
  intro n
  induction n with
  | zero =>
    intro i s calls hi _ _ hbad
    obtain ⟨k, h1, h2, _⟩ := hbad
    omega
  | succ n ih =>
    intro i s calls hi hc hpre hbad
    have hlt : i < text.length := by omega
    by_cases hundo : i ≥ m ∧ L.UCHAR_MAX ≤ text.getD (i - m) 0
    · have hb2 : s.multiset.length ≤ text.getD (i - m) 0 := by rw [hc.length_eq]; exact hundo.2
      simp only [matchLoop, undoFirst, if_pos hundo.1, readByte_ok text (i - m) (by omega),
        adjust_fault L s _ 1 hb2, bind, Except.bind]
    · obtain ⟨s1, hs1, hc1⟩ : ∃ s1, undoFirst L m text i s = .ok s1 ∧ Counted L s1 := by
        by_cases hm : i ≥ m
        · have hb : text.getD (i - m) 0 < L.UCHAR_MAX := by
            by_contra hx
            exact hundo ⟨hm, by omega⟩
          have hb2 : text.getD (i - m) 0 < s.multiset.length := by rw [hc.length_eq]; exact hb
          refine ⟨_, ?_, adjusted_counted L s _ 1 hb2 hc⟩
          simp only [undoFirst, if_pos hm, readByte_ok text (i - m) (by omega), bind,
            Except.bind, adjust_ok L s _ 1 hb2]
        · exact ⟨s, by simp only [undoFirst, if_neg hm], hc⟩
      by_cases hb : text.getD i 0 < L.UCHAR_MAX
      · have hb2 : text.getD i 0 < s1.multiset.length := by rw [hc1.length_eq]; exact hb
        have hc2 := adjusted_counted L s1 _ (-1) hb2 hc1
        have hassert : assertThat (decide
            ((adjusted L s1 (text.getD i 0) (-1)).exhausted_characters
              ≤ (adjusted L s1 (text.getD i 0) (-1)).alphabet_size)) = .ok () :=
          assertThat_holds _ (counted_assert L _ hU hc2)
        simp only [matchLoop, hs1, readByte_ok text i hlt, adjust_ok L s1 _ (-1) hb2, hassert,
          bind, Except.bind]
        apply ih (i + 1) _ _ (by omega) hc2
        · intro k hk
          rcases Nat.lt_or_eq_of_le (Nat.lt_succ_iff.mp hk) with h1 | h1
          · exact hpre k h1
          · rw [h1]; exact hb
        · obtain ⟨k, h1, h2, h3⟩ := hbad
          refine ⟨k, ?_, h2, h3⟩
          rcases Nat.lt_or_eq_of_le h1 with h4 | h4
          · omega
          · rw [← h4] at h3
            omega
      · have hb2 : s1.multiset.length ≤ text.getD i 0 := by rw [hc1.length_eq]; omega
        simp only [matchLoop, hs1, readByte_ok text i hlt, adjust_fault L s1 _ (-1) hb2, bind,
          Except.bind]

/-! ## Tables given by a function of the index -/

theorem map_range_set (n c : Nat) (f g : Nat → Int) (x : Int) (hc : c < n) (hx : g c = x)
    (hother : ∀ j, j < n → j ≠ c → g j = f j) :
    ((List.range n).map f).set c x = (List.range n).map g := by
  apply List.ext_getElem?
  intro j
  by_cases hj : j = c
  · subst hj
    rw [List.getElem?_set_self (by simpa using hc), List.getElem?_map,
      List.getElem?_range hc, Option.map_some', hx]
  · rw [List.getElem?_set_ne (fun h => hj h.symm), List.getElem?_map, List.getElem?_map]
    by_cases hjn : j < n
    · rw [List.getElem?_range hjn, Option.map_some', Option.map_some', hother j hjn hj]
    · rw [List.getElem?_eq_none (by simpa using hjn)]
      rfl

theorem map_range_congr (n : Nat) (f g : Nat → Int) (h : ∀ j, j < n → g j = f j) :
    (List.range n).map f = (List.range n).map g := by
  apply List.map_congr_left
  intro j hj
  exact (h j (List.mem_range.mp hj)).symm

theorem tableOf_length (L : Limits) (ms W : List Nat) :
    (tableOf L ms W).length = L.UCHAR_MAX := by
  simp [tableOf]

theorem tableOf_getD (L : Limits) (ms W : List Nat) (c : Nat) (hc : c < L.UCHAR_MAX) :
    (tableOf L ms W).getD c 0
      = if c ∈ ms then (ms.count c : Int) - (W.count c : Int) else L.UNDEF_CHAR := by
  rw [List.getD_eq_getElem?_getD]
  simp only [tableOf, List.getElem?_map, List.getElem?_range hc, Option.map_some',
    Option.getD_some]

theorem countP_eq_iff (p q : Nat → Bool) :
    ∀ (l : List Nat), (∀ x ∈ l, p x = true → q x = true) →
      (l.countP p = l.countP q ↔ ∀ x ∈ l, q x = true → p x = true) := by
  intro l
  induction l with
  | nil => intro _; simp
  | cons a t ih =>
    intro himp
    have ht := ih (fun x hx => himp x (List.mem_cons_of_mem _ hx))
    have hle : t.countP p ≤ t.countP q :=
      List.countP_mono_left (fun x hx => himp x (List.mem_cons_of_mem _ hx))
    have ha := himp a (List.mem_cons_self _ _)
    cases hp : p a with
    | true =>
      have hq : q a = true := ha hp
      simp only [List.countP_cons, hp, hq, if_true, Nat.add_right_cancel_iff, List.mem_cons,
        forall_eq_or_imp, implies_true, true_and]
      exact ht
    | false =>
      cases hq : q a with
      | true =>
        simp only [List.countP_cons, hp, hq, if_true, List.mem_cons, forall_eq_or_imp]
        constructor
        · intro h
          simp at h
          omega
        · intro h
          have := h.1 trivial
          simp at this
      | false =>
        simp only [List.countP_cons, hp, hq, List.mem_cons, forall_eq_or_imp]
        simp only [Bool.false_eq_true, if_false, Nat.add_zero, false_implies, true_and]
        exact ht

/-! ## The table of the multiset string and the window -/

theorem entry_ne_marker (L : Limits) (ms W : List Nat)
    (hcount : ∀ c ∈ ms, (ms.count c : Int) < L.UNDEF_CHAR) (c : Nat) (hc : c ∈ ms) :
    (ms.count c : Int) - (W.count c : Int) ≠ L.UNDEF_CHAR := by
  have := hcount c hc
  omega

theorem marker_pos (L : Limits) (ms : List Nat) (hne : ms ≠ [])
    (hcount : ∀ c ∈ ms, (ms.count c : Int) < L.UNDEF_CHAR) : 0 < L.UNDEF_CHAR := by
  obtain ⟨c, hc⟩ := List.exists_mem_of_ne_nil ms hne
  have := hcount c hc
  omega

/-- Taking a character into the window (`d = -1`) or out of it (`d = 1`)
turns the table of the window before into the table of the window after. -/
theorem adjusted_table (L : Limits) (ms W W1 : List Nat) (s : Counters) (c : Nat) (d : Int)
    (hc : c < L.UCHAR_MAX) (hcount : ∀ c ∈ ms, (ms.count c : Int) < L.UNDEF_CHAR)
    (hs : s.multiset = tableOf L ms W)
    (hW : ∀ x, (W1.count x : Int) = (W.count x : Int) - (if x = c then d else 0)) :
    (adjusted L s c d).multiset = tableOf L ms W1 := by
  have hv := tableOf_getD L ms W c hc
  by_cases hmem : c ∈ ms
  · rw [if_pos hmem] at hv
    have hne : s.multiset.getD c 0 ≠ L.UNDEF_CHAR := by
      rw [hs, hv]
      exact entry_ne_marker L ms W hcount c hmem
    simp only [adjusted, if_pos hne]
    rw [hs, hv]
    unfold tableOf
    apply map_range_set _ _ _ _ _ hc
    · rw [if_pos hmem, hW c, if_pos rfl]
      omega
    · intro j _ hj
      rw [hW j, if_neg hj, sub_zero]
  · rw [if_neg hmem] at hv
    have hu : ¬ s.multiset.getD c 0 ≠ L.UNDEF_CHAR := by
      rw [hs, hv]
      simp
    simp only [adjusted, if_neg hu]
    rw [hs]
    unfold tableOf
    apply map_range_congr
    intro j _
    by_cases hj : j ∈ ms
    · have hjc : j ≠ c := fun h => hmem (h ▸ hj)
      rw [if_pos hj, if_pos hj, hW j, if_neg hjc, sub_zero]
    · rw [if_neg hj, if_neg hj]

theorem defined_tableOf (L : Limits) (ms W : List Nat)
    (hcount : ∀ c ∈ ms, (ms.count c : Int) < L.UNDEF_CHAR) :
    defined L (tableOf L ms W)
      = ((List.range L.UCHAR_MAX).countP (fun c => decide (c ∈ ms)) : Nat) := by
  unfold defined tableOf
  rw [List.countP_map]
  congr 1
  apply List.countP_congr
  intro c _
  simp only [Function.comp, decide_eq_true_eq]
  by_cases hc : c ∈ ms
  · simp only [if_pos hc, hc, iff_true]
    exact entry_ne_marker L ms W hcount c hc
  · simp [if_neg hc, hc]

theorem adjusted_tracked (L : Limits) (ms W W1 : List Nat) (s : Counters) (c : Nat) (d : Int)
    (hc : c < L.UCHAR_MAX) (hcount : ∀ c ∈ ms, (ms.count c : Int) < L.UNDEF_CHAR)
    (ht : Tracked L ms W s)
    (hW : ∀ x, (W1.count x : Int) = (W.count x : Int) - (if x = c then d else 0)) :
    Tracked L ms W1 (adjusted L s c d) := by
  have hlen : c < s.multiset.length := by rw [ht.counted.length_eq]; exact hc
  have htab := adjusted_table L ms W W1 s c d hc hcount ht.table_eq hW
  refine ⟨adjusted_counted L s c d hlen ht.counted, htab, ?_⟩
  have ha : (adjusted L s c d).alphabet_size = s.alphabet_size := rfl
  rw [ha, ht.alphabet_eq, htab, ht.table_eq, defined_tableOf L ms W hcount,
    defined_tableOf L ms W1 hcount]

/-- The test `exhausted_characters == alphabet_size` holds exactly when the
window holds every character of the multiset string as often as the multiset
string does. -/
theorem tracked_match (L : Limits) (ms W : List Nat) (s : Counters)
    (hms : ∀ c ∈ ms, c < L.UCHAR_MAX) (hne : ms ≠ [])
    (hcount : ∀ c ∈ ms, (ms.count c : Int) < L.UNDEF_CHAR) (ht : Tracked L ms W s) :
    s.exhausted_characters = s.alphabet_size ↔ ∀ c ∈ ms, W.count c = ms.count c := by
  have hU := marker_pos L ms hne hcount
  rw [ht.counted.exhausted_eq, ht.alphabet_eq, ht.table_eq]
  unfold zeros defined tableOf
  rw [List.countP_map, List.countP_map, Nat.cast_inj]
  rw [countP_eq_iff _ _ _ (by
    intro c _ h
    simp only [Function.comp, decide_eq_true_eq] at h ⊢
    rw [h]
    omega)]
  constructor
  · intro h c hc
    have := h c (List.mem_range.mpr (hms c hc)) (by
      simp only [Function.comp, decide_eq_true_eq, if_pos hc]
      exact entry_ne_marker L ms W hcount c hc)
    simp only [Function.comp, decide_eq_true_eq, if_pos hc] at this
    omega
  · intro h c _ hq
    simp only [Function.comp, decide_eq_true_eq] at hq ⊢
    by_cases hc : c ∈ ms
    · rw [if_pos hc, h c hc]
      omega
    · rw [if_neg hc] at hq
      exact absurd rfl hq

theorem perm_iff_counts (ms W : List Nat) (hlen : W.length ≤ ms.length) :
    (∀ c ∈ ms, W.count c = ms.count c) ↔ List.Perm W ms := by
  constructor
  · intro h
    have hsub : List.Subperm ms W := by
      rw [List.subperm_ext_iff]
      intro c hc
      rw [h c hc]
    exact (hsub.perm_of_length_le hlen).symm
  · intro h c _
    exact h.count_eq c

/-! ## The window -/

theorem window_length_le (m : Nat) (text : List Nat) (i : Nat) :
    (window m text i).length ≤ m := by
  simp only [window, List.length_drop, List.length_take]
  omega

theorem window_cons (m : Nat) (text : List Nat) (i : Nat) (hm : 1 ≤ m) (him : m ≤ i)
    (hi : i ≤ text.length) :
    window m text i = text.getD (i - m) 0 :: window (m - 1) text i := by
  have hlt : i - m < (text.take i).length := by
    rw [List.length_take]
    omega
  unfold window
  rw [List.drop_eq_getElem_cons hlt, List.getElem_take,
    List.getD_eq_getElem?_getD, List.getElem?_eq_getElem (by omega), Option.getD_some]
  congr 2
  omega

theorem window_small (m : Nat) (text : List Nat) (i : Nat) (him : i < m) :
    window m text i = window (m - 1) text i := by
  unfold window
  rw [show i - m = 0 by omega, show i - (m - 1) = 0 by omega]

theorem window_succ (m : Nat) (text : List Nat) (i : Nat) (hm : 1 ≤ m) (hi : i < text.length) :
    window m text (i + 1) = window (m - 1) text i ++ [text.getD i 0] := by
  unfold window
  rw [List.take_succ, List.getElem?_eq_getElem hi, Option.toList,
    List.drop_append_of_le_length (by rw [List.length_take]; omega),
    List.getD_eq_getElem?_getD, List.getElem?_eq_getElem hi, Option.getD_some]
  congr 2
  omega

theorem window_eq_take_drop (m : Nat) (text : List Nat) (i : Nat) (him : m ≤ i) :
    window m text i = (text.drop (i - m)).take m := by
  unfold window
  rw [List.drop_take]
  congr 1
  omega

/-! ## The two loops on a multiset string whose counts stay below the marker -/

theorem count_snoc (l : List Nat) (c x : Nat) :
    (l ++ [c]).count x = l.count x + (if x = c then 1 else 0) := by
  rw [List.count_append, List.count_singleton]
  by_cases h : x = c
  · subst h
    simp
  · have : ¬ (c == x) = true := by
      simpa using fun h1 => h h1.symm
    rw [if_neg this, if_neg h]

theorem count_cons_if (l : List Nat) (c x : Nat) :
    (c :: l).count x = l.count x + (if x = c then 1 else 0) := by
  rw [List.count_cons]
  by_cases h : x = c
  · subst h
    simp
  · have : ¬ (c == x) = true := by
      simpa using fun h1 => h h1.symm
    rw [if_neg this, if_neg h]

theorem tableOf_nil (L : Limits) :
    List.replicate L.UCHAR_MAX L.UNDEF_CHAR = tableOf L [] [] := by
  apply List.ext_getElem?
  intro j
  by_cases hj : j < L.UCHAR_MAX
  · simp [tableOf, List.getElem?_replicate, hj, List.getElem?_range hj]
  · rw [List.getElem?_eq_none (by simpa using hj),
      List.getElem?_eq_none (by rw [tableOf_length]; omega)]

theorem constructLoop_tracked (L : Limits) (ms : List Nat) (hms : ∀ c ∈ ms, c < L.UCHAR_MAX)
    (hcount : ∀ c ∈ ms, (ms.count c : Int) < L.UNDEF_CHAR) :
    ∀ (rest P : List Nat) (s : Counters), P ++ rest = ms → s.multiset = tableOf L P [] →
      s.alphabet_size = defined L s.multiset → Built L s →
      ∃ s1, constructLoop L rest s = .ok s1 ∧ s1.multiset = tableOf L ms [] ∧
        s1.alphabet_size = defined L s1.multiset ∧ Built L s1 := by
  intro rest
  induction rest with
  | nil =>
    intro P s hP hs ha hb
    rw [List.append_nil] at hP
    subst hP
    exact ⟨s, rfl, hs, ha, hb⟩
  | cons c rest ih =>
    intro P s hP hs ha hb
    have hcm : c ∈ ms := by rw [← hP]; simp
    have hc : c < L.UCHAR_MAX := hms c hcm
    have hlen : c < s.multiset.length := by rw [hb.length_eq]; exact hc
    have hsub : List.Sublist (P ++ [c]) ms := by
      rw [← hP, show P ++ c :: rest = (P ++ [c]) ++ rest by simp]
      exact List.sublist_append_left _ _
    have hnew : ((P ++ [c]).count c : Int) < L.UNDEF_CHAR := by
      have h1 : (P ++ [c]).count c ≤ ms.count c := hsub.count_le c
      have h2 := hcount c hcm
      omega
    have hcnt : (P ++ [c]).count c = P.count c + 1 := by
      rw [count_snoc, if_pos rfl]
    have hv : s.multiset.getD c 0 = if c ∈ P then (P.count c : Int) else L.UNDEF_CHAR := by
      rw [hs, tableOf_getD L P [] c hc]
      simp
    have hold : c ∈ P → (P.count c : Int) ≠ L.UNDEF_CHAR := by
      intro _
      rw [hcnt] at hnew
      omega
    have hval : (if s.multiset.getD c 0 = L.UNDEF_CHAR then 0 else s.multiset.getD c 0) + 1
        = ((P ++ [c]).count c : Int) := by
      rw [hv, hcnt]
      by_cases hcP : c ∈ P
      · rw [if_pos hcP, if_neg (hold hcP)]
        push_cast
        rfl
      · rw [if_neg hcP, if_pos rfl, List.count_eq_zero_of_not_mem hcP]
        simp
    have htab : (constructed L s c).multiset = tableOf L (P ++ [c]) [] := by
      simp only [constructed]
      rw [hval, hs]
      unfold tableOf
      apply map_range_set _ _ _ _ _ hc
      · rw [if_pos (by simp)]
        simp
      · intro j _ hj
        have hjm : j ∈ P ++ [c] ↔ j ∈ P := by
          simp only [List.mem_append, List.mem_singleton, hj, or_false]
        have hjc : (P ++ [c]).count j = P.count j := by
          rw [count_snoc, if_neg hj, Nat.add_zero]
        by_cases hjP : j ∈ P
        · rw [if_pos (hjm.mpr hjP), if_pos hjP, hjc]
        · rw [if_neg (fun h => hjP (hjm.mp h)), if_neg hjP]
    have hx : (if s.multiset.getD c 0 = L.UNDEF_CHAR then 0 else s.multiset.getD c 0) + 1
        ≠ L.UNDEF_CHAR := by
      rw [hval]
      omega
    have hal : (constructed L s c).alphabet_size = defined L (constructed L s c).multiset := by
      simp only [constructed]
      rw [defined_set L _ _ _ hlen, if_pos hx]
      by_cases hu : s.multiset.getD c 0 = L.UNDEF_CHAR
      · rw [if_pos hu, if_neg (fun h => h hu), ha]
        omega
      · rw [if_neg hu, if_pos hu, ha]
        omega
    rw [constructLoop_cons_ok L s c rest hlen]
    exact ih (P ++ [c]) _ (by rw [← hP]; simp) htab hal (constructed_built L s c hlen hb)

theorem size_pos_eq (w i m : Nat) (h1 : 1 ≤ m) (hm : m ≤ i + 1) (hi : i < 2 ^ w)
    (hmw : m ≤ 2 ^ w) :
    (i + (2 ^ w - m) + 1) % 2 ^ w = i + 1 - m := by
  generalize 2 ^ w = M at *
  have h : i + (M - m) + 1 = (i + 1 - m) + M := by omega
  rw [h, Nat.add_mod_right, Nat.mod_eq_of_lt (by omega)]

theorem matchLoop_tracked (L : Limits) (ms text : List Nat)
    (hms : ∀ c ∈ ms, c < L.UCHAR_MAX) (htext : ∀ c ∈ text, c < L.UCHAR_MAX) (hne : ms ≠ [])
    (hcount : ∀ c ∈ ms, (ms.count c : Int) < L.UNDEF_CHAR)
    (hw : text.length < 2 ^ L.ulongBits) (hmw : ms.length < 2 ^ L.ulongBits) :
    ∀ (n i : Nat) (s : Counters) (calls : List Nat), i + n = text.length →
      Tracked L ms (window ms.length text i) s → Reported ms text i calls →
      ∃ calls1, matchLoop L ms.length text n i s calls = .ok calls1 ∧
        Reported ms text text.length calls1 := by
  have hm1 : 1 ≤ ms.length := List.length_pos.mpr hne
  have hU : L.UNDEF_CHAR ≠ 0 := by
    have := marker_pos L ms hne hcount
    omega
  intro n
  induction n with
  | zero =>
    intro i s calls hi _ hr
    have : i = text.length := by omega
    subst this
    exact ⟨calls, rfl, hr⟩
  | succ n ih =>
    intro i s calls hi ht hr
    have hlt : i < text.length := by omega
    have hgood : ∀ k, k < text.length → text.getD k 0 < L.UCHAR_MAX := by
      intro k hk
      apply htext
      rw [List.getD_eq_getElem?_getD, List.getElem?_eq_getElem hk]
      exact List.getElem_mem hk
    -- undo the first character of the window
    obtain ⟨s1, hs1, ht1⟩ : ∃ s1, undoFirst L ms.length text i s = .ok s1 ∧
        Tracked L ms (window (ms.length - 1) text i) s1 := by
      by_cases hm : i ≥ ms.length
      · have hb := hgood (i - ms.length) (by omega)
        have hb2 : text.getD (i - ms.length) 0 < s.multiset.length := by
          rw [ht.counted.length_eq]; exact hb
        refine ⟨_, ?_, adjusted_tracked L ms _ _ s _ 1 hb hcount ht ?_⟩
        · simp only [undoFirst, if_pos hm, readByte_ok text (i - ms.length) (by omega), bind,
            Except.bind, adjust_ok L s _ 1 hb2]
        · intro x
          rw [window_cons ms.length text i hm1 hm (by omega), count_cons_if]
          by_cases hx : x = text.getD (i - ms.length) 0
          · rw [if_pos hx, if_pos hx]
            push_cast
            omega
          · rw [if_neg hx, if_neg hx]
            push_cast
            omega
      · refine ⟨s, by simp only [undoFirst, if_neg hm], ?_⟩
        rw [← window_small ms.length text i (by omega)]
        exact ht
    -- match the next character
    have hb := hgood i hlt
    have hb2 : text.getD i 0 < s1.multiset.length := by
      rw [ht1.counted.length_eq]; exact hb
    have ht2 : Tracked L ms (window ms.length text (i + 1))
        (adjusted L s1 (text.getD i 0) (-1)) := by
      apply adjusted_tracked L ms _ _ s1 _ (-1) hb hcount ht1
      intro x
      rw [window_succ ms.length text i hm1 hlt, count_snoc]
      by_cases hx : x = text.getD i 0
      · rw [if_pos hx, if_pos hx]
        push_cast
        omega
      · rw [if_neg hx, if_neg hx]
        push_cast
        omega
    have hassert : assertThat (decide ((adjusted L s1 (text.getD i 0) (-1)).exhausted_characters
        ≤ (adjusted L s1 (text.getD i 0) (-1)).alphabet_size)) = .ok () :=
      assertThat_holds _ (counted_assert L _ hU ht2.counted)
    have hmatch := (tracked_match L ms _ _ hms hne hcount ht2).trans
      (perm_iff_counts ms _ (window_length_le ms.length text (i + 1)))
    have hrep : Reported ms text (i + 1)
        (report L ms.length i (adjusted L s1 (text.getD i 0) (-1)) calls) := by
      obtain ⟨hpw, hmem⟩ := hr
      by_cases hperm : List.Perm (window ms.length text (i + 1)) ms
      · have hge : ms.length ≤ i + 1 := by
          have h1 := hperm.length_eq
          simp only [window, List.length_drop, List.length_take] at h1
          omega
        have hwin := window_eq_take_drop ms.length text (i + 1) hge
        simp only [report, if_pos (hmatch.mpr hperm),
          size_pos_eq L.ulongBits i ms.length hm1 hge (by omega) (by omega)]
        constructor
        · rw [List.pairwise_append]
          refine ⟨hpw, List.pairwise_singleton _ _, ?_⟩
          intro a ha b hb
          have := ((hmem a).mp ha).1
          have hb' : b = i + 1 - ms.length := by simpa using hb
          omega
        · intro p
          rw [List.mem_append, List.mem_singleton, hmem p]
          constructor
          · rintro (⟨h1, h2⟩ | h1)
            · exact ⟨by omega, h2⟩
            · subst h1
              exact ⟨by omega, by rw [← hwin]; exact hperm⟩
          · rintro ⟨h1, h2⟩
            by_cases h3 : p + ms.length ≤ i
            · exact Or.inl ⟨h3, h2⟩
            · exact Or.inr (by omega)
      · simp only [report, if_neg (fun h => hperm (hmatch.mp h))]
        refine ⟨hpw, ?_⟩
        intro p
        rw [hmem p]
        constructor
        · rintro ⟨h1, h2⟩
          exact ⟨by omega, h2⟩
        · rintro ⟨h1, h2⟩
          refine ⟨?_, h2⟩
          by_contra h3
          have hp : p = i + 1 - ms.length := by omega
          have hge : ms.length ≤ i + 1 := by omega
          rw [window_eq_take_drop ms.length text (i + 1) hge, ← hp] at hperm
          exact hperm h2
    obtain ⟨calls1, h1, h2⟩ := ih (i + 1) (adjusted L s1 (text.getD i 0) (-1))
      (report L ms.length i (adjusted L s1 (text.getD i 0) (-1)) calls) (by omega) ht2 hrep
    refine ⟨calls1, ?_, h2⟩
    simp only [matchLoop, hs1, readByte_ok text i hlt, adjust_ok L s1 _ (-1) hb2, hassert, bind,
      Except.bind]
    exact h1

/-! ## The claims on multiset matching -/

/-- C36: for a multiset string of `m >= 1` bytes below `UCHAR_MAX` in which
every byte occurs fewer times than the value of the marker `UNDEF_CHAR`, and a
text of `n` bytes below `UCHAR_MAX`, both lengths being `unsigned long`
values: `multiset_matching` runs to its end, so the assertion holds in every
pass, and the positions it passes to `procmatchfunc`, in the order of the
calls, rise strictly and are the positions `p` with `p + m <= n` at which
`text[p..p+m)` is a permutation of the multiset string. -/
theorem C36_reports_the_permutations (L : Limits) (ms text : List Nat)
    (hne : ms ≠ []) (hms : ∀ c ∈ ms, c < L.UCHAR_MAX) (htext : ∀ c ∈ text, c < L.UCHAR_MAX)
    (hcount : ∀ c ∈ ms, (ms.count c : Int) < L.UNDEF_CHAR)
    (hw : text.length < 2 ^ L.ulongBits) (hmw : ms.length < 2 ^ L.ulongBits) :
    ∃ calls, multiset_matching L ms text = .ok calls ∧
      calls.Pairwise (fun a b => a < b) ∧
      (∀ p, p ∈ calls ↔
        (p + ms.length ≤ text.length ∧ List.Perm ((text.drop p).take ms.length) ms)) ∧
      calls.Nodup := by
  have hU : L.UNDEF_CHAR ≠ 0 := by
    have := marker_pos L ms hne hcount
    omega
  obtain ⟨s1, hs1, htab, hal, hb⟩ := constructLoop_tracked L ms hms hcount ms []
    (Counters.mk (List.replicate L.UCHAR_MAX L.UNDEF_CHAR) 0 0) rfl (tableOf_nil L)
    (by
      have := (built_initial L).defined_le
      have h0 : (0 : Int) ≤ defined L (List.replicate L.UCHAR_MAX L.UNDEF_CHAR) := by
        unfold defined
        exact Int.natCast_nonneg _
      simp only at this ⊢
      omega)
    (built_initial L)
  have ht : Tracked L ms (window ms.length text 0) s1 :=
    ⟨built_counted L s1 hU hb, by simpa [window] using htab, hal⟩
  have hr : Reported ms text 0 [] := by
    refine ⟨List.Pairwise.nil, ?_⟩
    intro p
    have := List.length_pos.mpr hne
    simp only [List.not_mem_nil, false_iff, not_and]
    intro h
    omega
  obtain ⟨calls, hcalls, hpw, hmem⟩ := matchLoop_tracked L ms text hms htext hne hcount hw hmw
    text.length 0 s1 [] (by omega) ht hr
  refine ⟨calls, ?_, hpw, hmem, ?_⟩
  · simp only [multiset_matching, hs1, bind, Except.bind]
    exact hcalls
  · exact hpw.imp (fun h => Nat.ne_of_lt h)

theorem C36_reports_the_permutations_witness :
    ∃ calls, multiset_matching byteLimits [1, 2, 1] [2, 1, 1, 2, 3, 1, 1, 2, 1] = .ok calls ∧
      (∀ p, p ∈ calls ↔
        (p + [1, 2, 1].length ≤ [2, 1, 1, 2, 3, 1, 1, 2, 1].length ∧
          List.Perm (([2, 1, 1, 2, 3, 1, 1, 2, 1].drop p).take [1, 2, 1].length) [1, 2, 1])) :=
  (C36_reports_the_permutations byteLimits [1, 2, 1] [2, 1, 1, 2, 3, 1, 1, 2, 1]
    (by decide) (by decide) (by decide) (by decide) (by decide) (by decide)).imp
    (fun _ h => ⟨h.1, h.2.2.1⟩)

/-- C37: when the marker `UNDEF_CHAR` is not 0, `multiset_matching` makes an
access outside the counting table, which has `UCHAR_MAX` entries, exactly when
a byte of the multiset string or of the text is `UCHAR_MAX` or more, that is,
for bytes up to `UCHAR_MAX`, exactly when the byte `UCHAR_MAX` occurs; without
such a byte it runs to its end, no assertion failing. -/
theorem C37_table_accesses_in_bounds (L : Limits) (ms text : List Nat)
    (hU : L.UNDEF_CHAR ≠ 0) :
    (List.replicate L.UCHAR_MAX L.UNDEF_CHAR).length = L.UCHAR_MAX ∧
    (multiset_matching L ms text = .error .outOfBounds ↔
      ∃ b ∈ ms ++ text, L.UCHAR_MAX ≤ b) ∧
    ((∀ b ∈ ms ++ text, b < L.UCHAR_MAX) → ∃ calls, multiset_matching L ms text = .ok calls) ∧
    ((∀ b ∈ ms ++ text, b ≤ L.UCHAR_MAX) →
      (multiset_matching L ms text ≠ .error .outOfBounds ↔ L.UCHAR_MAX ∉ ms ++ text)) := by
  have hok : (∀ b ∈ ms ++ text, b < L.UCHAR_MAX) →
      ∃ calls, multiset_matching L ms text = .ok calls := by
    intro hall
    obtain ⟨s1, hs1, hb1⟩ := constructLoop_ok L ms _
      (fun c hc => hall c (List.mem_append_left _ hc)) (built_initial L)
    obtain ⟨calls, hcalls⟩ := matchLoop_ok L ms.length text hU
      (fun c hc => hall c (List.mem_append_right _ hc)) text.length 0 s1 [] (by omega)
      (built_counted L s1 hU hb1)
    exact ⟨calls, by simp only [multiset_matching, hs1, bind, Except.bind]; exact hcalls⟩
  have hfault : (∃ b ∈ ms ++ text, L.UCHAR_MAX ≤ b) →
      multiset_matching L ms text = .error .outOfBounds := by
    rintro ⟨b, hb, hbad⟩
    by_cases hms : ∃ c ∈ ms, L.UCHAR_MAX ≤ c
    · have := constructLoop_fault L ms (Counters.mk (List.replicate L.UCHAR_MAX L.UNDEF_CHAR) 0 0)
        (by simp) hms
      simp only [multiset_matching, this, bind, Except.bind]
    · have hgood : ∀ c ∈ ms, c < L.UCHAR_MAX := by
        intro c hc
        by_contra hx
        exact hms ⟨c, hc, by omega⟩
      obtain ⟨s1, hs1, hb1⟩ := constructLoop_ok L ms _ hgood (built_initial L)
      have hbt : b ∈ text := by
        rcases List.mem_append.mp hb with h1 | h1
        · exact absurd (hgood b h1) (by omega)
        · exact h1
      obtain ⟨k, hk, hkb⟩ := List.mem_iff_getElem.mp hbt
      have := matchLoop_fault L ms.length text hU text.length 0 s1 [] (by omega)
        (built_counted L s1 hU hb1) (fun k hk => absurd hk (by omega))
        ⟨k, by omega, hk, by
          rw [List.getD_eq_getElem?_getD, List.getElem?_eq_getElem hk, Option.getD_some, hkb]
          exact hbad⟩
      simp only [multiset_matching, hs1, bind, Except.bind]
      exact this
  have hiff : multiset_matching L ms text = .error .outOfBounds ↔
      ∃ b ∈ ms ++ text, L.UCHAR_MAX ≤ b := by
    constructor
    · intro hrun
      by_contra hno
      obtain ⟨calls, hcalls⟩ := hok (by
        intro b hb
        by_contra hx
        exact hno ⟨b, hb, by omega⟩)
      rw [hcalls] at hrun
      exact Except.noConfusion hrun
    · exact hfault
  refine ⟨by simp, hiff, hok, ?_⟩
  intro hle
  rw [Ne, hiff]
  constructor
  · intro hno hmem
    exact hno ⟨_, hmem, le_refl _⟩
  · rintro hno ⟨b, hb, hbad⟩
    have : b = L.UCHAR_MAX := Nat.le_antisymm (hle b hb) hbad
    rw [this] at hb
    exact hno hb

theorem C37_table_accesses_in_bounds_witness :
    multiset_matching byteLimits [1, 2] [2, 1, 255, 2] = .error .outOfBounds ∧
    ∃ calls, multiset_matching byteLimits [1, 2] [2, 1, 254, 2] = .ok calls :=
  ⟨(C37_table_accesses_in_bounds byteLimits [1, 2] [2, 1, 255, 2] (by decide)).2.1.mpr
      ⟨255, by decide, by decide⟩,
    (C37_table_accesses_in_bounds byteLimits [1, 2] [2, 1, 254, 2] (by decide)).2.2.1
      (by decide)⟩

end Gtext

namespace Match

/-! ## Loops -/

theorem forLoop_inv {S : Type} (P : Nat → S → Prop) (body : Nat → S → S) :
    ∀ (k i : Nat) (s : S), P i s →
      (∀ j s, i ≤ j → j < i + k → P j s → P (j + 1) (body j s)) →
      P (i + k) (forLoop body k i s) := by
  intro k
  induction k with
  | zero => intro i s h _; exact h
  | succ k ih =>
    intro i s h hstep
    have h1 := ih (i + 1) (body i s) (hstep i s (le_refl _) (by omega) h)
      (fun j s hj1 hj2 hp => hstep j s (by omega) (by omega) hp)
    rw [show i + (k + 1) = i + 1 + k by omega]
    exact h1

theorem forLoopM_inv {S : Type} (P : Nat → S → Prop) (body : Nat → S → Except Fault S) :
    ∀ (k i : Nat) (s : S), P i s →
      (∀ j s, i ≤ j → j < i + k → P j s → ∃ s1, body j s = .ok s1 ∧ P (j + 1) s1) →
      ∃ s1, forLoopM body k i s = .ok s1 ∧ P (i + k) s1 := by
  intro k
  induction k with
  | zero => intro i s h _; exact ⟨s, rfl, h⟩
  | succ k ih =>
    intro i s h hstep
    obtain ⟨s1, hs1, hp1⟩ := hstep i s (le_refl _) (by omega) h
    obtain ⟨s2, hs2, hp2⟩ := ih (i + 1) s1 hp1
      (fun j s hj1 hj2 hp => hstep j s (by omega) (by omega) hp)
    refine ⟨s2, ?_, ?_⟩
    · simp only [forLoopM, hs1, bind, Except.bind]
      exact hs2
    · rw [show i + (k + 1) = i + 1 + k by omega]
      exact hp2

/-! ## Runs that do not end at an assertion on `hardworktodo` -/

theorem spared_ok {α : Type} (a : α) : Spared (Except.ok a : Except Fault α) := by
  intro h
  cases h

theorem spared_assertion {α : Type} : Spared (Except.error Fault.assertion : Except Fault α) := by
  intro h
  cases h

theorem spared_outOfBounds {α : Type} :
    Spared (Except.error Fault.outOfBounds : Except Fault α) := by
  intro h
  cases h

theorem ok_bind {α β : Type} (a : α) (f : α → Except Fault β) :
    ((Except.ok a : Except Fault α) >>= f) = f a := rfl

theorem bind_eq_ok {α β : Type} {x : Except Fault α} {f : α → Except Fault β} {r : β}
    (h : (x >>= f) = .ok r) : ∃ a, x = .ok a ∧ f a = .ok r := by
  cases x with
  | error e => cases h
  | ok a => exact ⟨a, rfl, h⟩

theorem spared_bind {α β : Type} {x : Except Fault α} {f : α → Except Fault β}
    (hx : Spared x) (hf : ∀ a, x = .ok a → Spared (f a)) : Spared (x >>= f) := by
  cases x with
  | error e =>
    intro h
    apply hx
    cases h
    rfl
  | ok a => exact hf a rfl

theorem spared_assertThat (c : Bool) : Spared (assertThat c) := by
  unfold assertThat
  split
  · exact spared_ok _
  · exact spared_assertion

theorem spared_readAt (a : List Nat) (i : Nat) : Spared (readAt a i) := by
  unfold readAt
  split
  · exact spared_ok _
  · exact spared_outOfBounds

theorem spared_writeAt (a : List Nat) (i v : Nat) : Spared (writeAt a i v) := by
  unfold writeAt
  split
  · exact spared_ok _
  · exact spared_outOfBounds

theorem forLoopM_spared {S : Type} (body : Nat → S → Except Fault S)
    (h : ∀ j s, Spared (body j s)) : ∀ (k i : Nat) (s : S), Spared (forLoopM body k i s) := by
  intro k
  induction k with
  | zero => intro i s; exact spared_ok _
  | succ k ih =>
    intro i s
    exact spared_bind (h i s) (fun s1 _ => ih (i + 1) s1)

theorem forLoopM_spared_inv {S : Type} (P : Nat → S → Prop)
    (body : Nat → S → Except Fault S) :
    ∀ (k i : Nat) (s : S), P i s →
      (∀ j s, i ≤ j → j < i + k → P j s →
        Spared (body j s) ∧ ∀ s1, body j s = .ok s1 → P (j + 1) s1) →
      Spared (forLoopM body k i s) ∧ ∀ s1, forLoopM body k i s = .ok s1 → P (i + k) s1 := by
  intro k
  induction k with
  | zero =>
    intro i s h _
    refine ⟨spared_ok _, fun s1 h1 => ?_⟩
    cases h1
    exact h
  | succ k ih =>
    intro i s h hstep
    obtain ⟨hsp, hnext⟩ := hstep i s (le_refl _) (by omega) h
    have hrest : ∀ s1, body i s = .ok s1 →
        Spared (forLoopM body k (i + 1) s1) ∧
          ∀ s2, forLoopM body k (i + 1) s1 = .ok s2 → P (i + 1 + k) s2 :=
      fun s1 h1 => ih (i + 1) s1 (hnext s1 h1)
        (fun j s hj1 hj2 hp => hstep j s (by omega) (by omega) hp)
    refine ⟨spared_bind hsp (fun s1 h1 => (hrest s1 h1).1), fun s2 h2 => ?_⟩
    obtain ⟨s1, h1, h3⟩ := bind_eq_ok h2
    rw [show i + (k + 1) = i + 1 + k by omega]
    exact (hrest s1 h1).2 s2 h3

/-! ## Bucket ends -/

theorem assertThat_ok (c : Prop) [Decidable c] (h : c) : assertThat (decide c) = .ok () := by
  simp [assertThat, h]

theorem getstartidx_ok (b : GtBucketspec2) (first second : Nat) (h1 : first < b.numofchars)
    (h2 : second ≤ b.numofchars) : getstartidx b first second = .ok (startidx b first second) := by
  simp only [getstartidx, assertThat_ok _ h1, assertThat_ok _ h2, bind, Except.bind, pure,
    Except.pure, startidx]
  split
  · rfl
  · split <;> rfl

theorem getendidx_ok (b : GtBucketspec2) (first second : Nat) (h1 : first < b.numofchars)
    (h2 : second ≤ b.numofchars) : getendidx b first second = .ok (endidx b first second) := by
  simp only [getendidx, assertThat_ok _ h1, assertThat_ok _ h2, bind, Except.bind, pure,
    Except.pure, endidx]
  split <;> rfl

theorem sameEnds_refl (b : GtBucketspec2) : SameEnds b b :=
  ⟨rfl, rfl, fun _ => rfl, fun _ _ => rfl⟩

theorem sameEnds_trans {b0 b1 b2 : GtBucketspec2} (h1 : SameEnds b0 b1) (h2 : SameEnds b1 b2) :
    SameEnds b0 b2 :=
  ⟨h2.numofchars_eq.trans h1.numofchars_eq, h2.order_eq.trans h1.order_eq,
    fun i => (h2.super_eq i).trans (h1.super_eq i),
    fun i j => (h2.sub_eq i j).trans (h1.sub_eq i j)⟩

theorem sameEnds_startidx {b0 b : GtBucketspec2} (h : SameEnds b0 b) (x y : Nat) :
    startidx b x y = startidx b0 x y := by
  simp only [startidx, h.sub_eq, h.super_eq]

theorem sameEnds_endidx {b0 b : GtBucketspec2} (h : SameEnds b0 b) (x y : Nat) :
    endidx b x y = endidx b0 x y := by
  simp only [endidx, h.sub_eq, h.super_eq, h.numofchars_eq]

theorem sameEnds_emptyBucket {b0 b : GtBucketspec2} (h : SameEnds b0 b) (x y : Nat) :
    emptyBucket b x y = emptyBucket b0 x y := by
  simp only [emptyBucket, sameEnds_startidx h, sameEnds_endidx h]

theorem sameEnds_setSubSorted (b : GtBucketspec2) (i j : Nat) (v : Bool) :
    SameEnds b (setSubSorted b i j v) := by
  refine ⟨rfl, rfl, fun _ => rfl, fun x y => ?_⟩
  simp only [setSubSorted]
  split <;> rfl

theorem sameEnds_setSubHardwork (b : GtBucketspec2) (i j : Nat) (v : Bool) :
    SameEnds b (setSubHardwork b i j v) := by
  refine ⟨rfl, rfl, fun _ => rfl, fun x y => ?_⟩
  simp only [setSubHardwork]
  split <;> rfl

theorem sameEnds_setSuperSorted (b : GtBucketspec2) (i : Nat) (v : Bool) :
    SameEnds b (setSuperSorted b i v) := by
  refine ⟨rfl, rfl, fun x => ?_, fun _ _ => rfl⟩
  simp only [setSuperSorted]
  split <;> rfl

/-! ## Assignments to the flags -/

theorem setSubSorted_sorted (b : GtBucketspec2) (i j : Nat) (v : Bool) (x y : Nat) :
    ((setSubSorted b i j v).subbuckettab x y).sorted
      = if x = i ∧ y = j then v else (b.subbuckettab x y).sorted := by
  simp only [setSubSorted]
  split <;> rfl

theorem setSubSorted_hardwork (b : GtBucketspec2) (i j : Nat) (v : Bool) (x y : Nat) :
    ((setSubSorted b i j v).subbuckettab x y).hardworktodo
      = (b.subbuckettab x y).hardworktodo := by
  simp only [setSubSorted]
  split <;> rfl

theorem setSubHardwork_sorted (b : GtBucketspec2) (i j : Nat) (v : Bool) (x y : Nat) :
    ((setSubHardwork b i j v).subbuckettab x y).sorted = (b.subbuckettab x y).sorted := by
  simp only [setSubHardwork]
  split <;> rfl

theorem setSubHardwork_hardwork (b : GtBucketspec2) (i j : Nat) (v : Bool) (x y : Nat) :
    ((setSubHardwork b i j v).subbuckettab x y).hardworktodo
      = if x = i ∧ y = j then v else (b.subbuckettab x y).hardworktodo := by
  simp only [setSubHardwork]
  split <;> rfl

theorem setSuperSorted_sub (b : GtBucketspec2) (i : Nat) (v : Bool) :
    (setSuperSorted b i v).subbuckettab = b.subbuckettab := rfl

/-! ## The function `resetsorted` -/

/-- After `resetsorted` the flag `sorted` of a subbucket says whether the
subbucket is empty; the flags `hardworktodo` and the bucket ends are as
before. -/
theorem resetsorted_spec (b0 : GtBucketspec2) :
    ∃ b, resetsorted b0 = .ok b ∧ SameEnds b0 b ∧
      (∀ x y, (b.subbuckettab x y).hardworktodo = (b0.subbuckettab x y).hardworktodo) ∧
      (∀ x y, x < b0.numofchars → y < b0.numofchars →
        (b.subbuckettab x y).sorted = emptyBucket b0 x y) := by
  have h := forLoopM_inv
    (fun i b => SameEnds b0 b ∧
      (∀ x y, (b.subbuckettab x y).hardworktodo = (b0.subbuckettab x y).hardworktodo) ∧
      (∀ x y, x < i → y < b0.numofchars → (b.subbuckettab x y).sorted = emptyBucket b0 x y))
    resetsortedRow b0.numofchars 0 b0
    ⟨sameEnds_refl b0, fun _ _ => rfl, fun x y hx _ => absurd hx (by omega)⟩
    (by
      intro idx b _ hidx ⟨hse, hhw, hso⟩
      have hrow := forLoopM_inv
        (fun j b1 => SameEnds b0 b1 ∧
          (∀ x y, (b1.subbuckettab x y).hardworktodo = (b0.subbuckettab x y).hardworktodo) ∧
          (∀ x y, (x < idx ∧ y < b0.numofchars) ∨ (x = idx ∧ y < j) →
            (b1.subbuckettab x y).sorted = emptyBucket b0 x y))
        (resetsortedEntry idx) b0.numofchars 0 (setSuperSorted b idx false)
        ⟨sameEnds_trans hse (sameEnds_setSuperSorted b idx false), hhw, by
          intro x y hxy
          rcases hxy with ⟨hx, hy⟩ | ⟨_, hy⟩
          · exact hso x y hx hy
          · omega⟩
        (by
          intro j b1 _ hj ⟨hse1, hhw1, hso1⟩
          have hn : b1.numofchars = b0.numofchars := hse1.numofchars_eq
          have hs := getstartidx_ok b1 idx j (by omega) (by omega)
          have he := getendidx_ok b1 idx j (by omega) (by omega)
          have hrun : resetsortedEntry idx j b1 = .ok (setSubSorted b1 idx j
              (if startidx b1 idx j < endidx b1 idx j then false else true)) := by
            simp only [resetsortedEntry, hs, he, bind, Except.bind, pure, Except.pure]
          refine ⟨_, hrun, sameEnds_trans hse1 (sameEnds_setSubSorted b1 idx j _), ?_, ?_⟩
          · intro x y
            rw [setSubSorted_hardwork]
            exact hhw1 x y
          · intro x y hxy
            rw [setSubSorted_sorted]
            by_cases hc : x = idx ∧ y = j
            · rw [if_pos hc, hc.1, hc.2, ← sameEnds_emptyBucket hse1]
              simp only [emptyBucket]
              split <;> simp [*]
            · rw [if_neg hc]
              apply hso1
              rcases hxy with h1 | ⟨h1, h2⟩
              · exact Or.inl h1
              · exact Or.inr ⟨h1, by
                  rcases Nat.lt_or_eq_of_le (Nat.lt_succ_iff.mp h2) with h3 | h3
                  · exact h3
                  · exact absurd ⟨h1, h3⟩ hc⟩)
      obtain ⟨b2, hb2, hse2, hhw2, hso2⟩ := hrow
      refine ⟨b2, ?_, hse2, hhw2, ?_⟩
      · simp only [resetsortedRow, hse.numofchars_eq]
        exact hb2
      · intro x y hx hy
        apply hso2
        rcases Nat.lt_or_eq_of_le (Nat.lt_succ_iff.mp hx) with h3 | h3
        · exact Or.inl ⟨h3, hy⟩
        · exact Or.inr ⟨h3, by omega⟩)
  obtain ⟨b, hb, hse, hhw, hso⟩ := h
  exact ⟨b, hb, hse, hhw, fun x y hx hy => hso x y (by omega) hy⟩

/-! ## Positions in `order` -/

theorem getD_eq_getElem_nat (l : List Nat) (k : Nat) (hk : k < l.length) : l.getD k 0 = l[k] := by
  rw [List.getD_eq_getElem?_getD, List.getElem?_eq_getElem hk, Option.getD_some]

theorem mem_take_succ_iff (l : List Nat) (k : Nat) (hk : k < l.length) (x : Nat) :
    x ∈ l.take (k + 1) ↔ x ∈ l.take k ∨ x = l[k] := by
  rw [List.take_succ, List.getElem?_eq_getElem hk]
  simp only [Option.toList, List.mem_append, List.mem_singleton]

theorem not_mem_take_self (l : List Nat) (hnd : l.Nodup) (k : Nat) (hk : k < l.length) :
    l[k] ∉ l.take k := by
  intro hmem
  obtain ⟨i, hi, heq⟩ := List.mem_iff_getElem.mp hmem
  rw [List.length_take] at hi
  rw [List.getElem_take] at heq
  have := (List.Nodup.getElem_inj_iff hnd).mp heq
  omega

theorem mem_take_iff_indexOf_lt (l : List Nat) :
    ∀ (k : Nat) (y : Nat), k ≤ l.length → (y ∈ l.take k ↔ l.indexOf y < k) := by
  induction l with
  | nil => intro k y hk; simp at hk; subst hk; simp
  | cons a t ih =>
    intro k y hk
    cases k with
    | zero => simp
    | succ k =>
      rw [List.take_succ_cons, List.mem_cons]
      by_cases hay : a = y
      · subst hay
        simp
      · rw [List.indexOf_cons_ne _ hay]
        have := ih k y (by simpa using hk)
        constructor
        · rintro (h | h)
          · exact absurd h.symm hay
          · have := this.mp h
            omega
        · intro h
          exact Or.inr (this.mpr (by omega))

/-- The facts on a pass `k` of a loop over `order`: the character at index
`k`, which is below `numofchars`, is not among the first `k`, and makes up
the first `k + 1` together with them. -/
theorem order_facts (b0 : GtBucketspec2)
    (hperm : List.Perm b0.order (List.range b0.numofchars)) (k : Nat)
    (hk : k < b0.numofchars) :
    b0.order.getD k 0 < b0.numofchars ∧
    b0.order.getD k 0 ∉ b0.order.take k ∧
    b0.order.indexOf (b0.order.getD k 0) = k ∧
    ∀ x, x ∈ b0.order.take (k + 1) ↔ x ∈ b0.order.take k ∨ x = b0.order.getD k 0 := by
  have hlen : b0.order.length = b0.numofchars := by
    rw [hperm.length_eq, List.length_range]
  have hnd : b0.order.Nodup := hperm.nodup_iff.mpr (List.nodup_range _)
  have hkl : k < b0.order.length := by omega
  rw [getD_eq_getElem_nat _ _ hkl]
  refine ⟨?_, not_mem_take_self _ hnd k hkl, List.indexOf_getElem hnd k hkl,
    fun x => mem_take_succ_iff _ k hkl x⟩
  exact List.mem_range.mp (hperm.mem_iff.mp (List.getElem_mem hkl))

/-! ## The loops over the subbuckets of a character -/

/-- The loop that marks the subbuckets `(idx, source)` as sorted. -/
theorem markSorted_spec (b1 : GtBucketspec2) (source n : Nat) :
    SameEnds b1 (forLoop (markSorted source) n 0 b1) ∧
    ∀ x y,
      ((forLoop (markSorted source) n 0 b1).subbuckettab x y).hardworktodo
        = (b1.subbuckettab x y).hardworktodo ∧
      ((forLoop (markSorted source) n 0 b1).subbuckettab x y).sorted
        = if y = source ∧ x < n then true else (b1.subbuckettab x y).sorted := by
  have h2 := forLoop_inv
    (fun j b2 => SameEnds b1 b2 ∧ ∀ x y,
      (b2.subbuckettab x y).hardworktodo = (b1.subbuckettab x y).hardworktodo ∧
      (b2.subbuckettab x y).sorted
        = if y = source ∧ x < j then true else (b1.subbuckettab x y).sorted)
    (markSorted source) n 0 b1
    ⟨sameEnds_refl b1, fun x y => ⟨rfl, by rw [if_neg (fun h => by omega)]⟩⟩
    (by
      intro j b2 _ _ ⟨hse2, hq⟩
      refine ⟨sameEnds_trans hse2 (sameEnds_setSubSorted b2 j source true), ?_⟩
      intro x y
      simp only [markSorted]
      rw [setSubSorted_hardwork, setSubSorted_sorted]
      refine ⟨(hq x y).1, ?_⟩
      by_cases hc : x = j ∧ y = source
      · rw [if_pos hc, if_pos ⟨hc.2, by omega⟩]
      · rw [if_neg hc, (hq x y).2]
        by_cases hc2 : y = source ∧ x < j
        · rw [if_pos hc2, if_pos ⟨hc2.1, by omega⟩]
        · rw [if_neg hc2, if_neg (fun h => by
            apply hc2
            refine ⟨h.1, ?_⟩
            rcases Nat.lt_or_eq_of_le (Nat.lt_succ_iff.mp h.2) with h3 | h3
            · exact h3
            · exact absurd ⟨h3, h.1⟩ hc)])
  rw [Nat.zero_add] at h2
  exact h2

/-- The flags `sorted` after a pass of a loop over `order`, from the flags
before the pass, those after the loop over `second` and those after the loop
over `idx`. -/
theorem sorted_after_pass (b0 : GtBucketspec2) (k source : Nat)
    (htake : ∀ x, x ∈ b0.order.take (k + 1) ↔ x ∈ b0.order.take k ∨ x = source)
    (sOld sMid sNew : Nat → Nat → Bool)
    (hOld : ∀ x y, x < b0.numofchars → y < b0.numofchars → sOld x y = sortedValue b0 k x y)
    (hMid1 : ∀ x y, x ≠ source → sMid x y = sOld x y)
    (hMid2 : ∀ y, y < b0.numofchars → sMid source y = true ∨ source = y)
    (hNew : ∀ x y, sNew x y = if y = source ∧ x < b0.numofchars then true else sMid x y) :
    ∀ x y, x < b0.numofchars → y < b0.numofchars → sNew x y = sortedValue b0 (k + 1) x y := by
  intro x y hx hy
  rw [hNew]
  simp only [sortedValue]
  by_cases hys : y = source
  · rw [if_pos ⟨hys, hx⟩]
    have : y ∈ b0.order.take (k + 1) := (htake y).mpr (Or.inr hys)
    simp [this]
  · rw [if_neg (fun h => hys h.1)]
    have hy1 : y ∈ b0.order.take (k + 1) ↔ y ∈ b0.order.take k := by
      rw [htake y]
      exact ⟨fun h => h.resolve_right hys, Or.inl⟩
    by_cases hxs : x = source
    · have hx1 : x ∈ b0.order.take (k + 1) := (htake x).mpr (Or.inr hxs)
      rcases hMid2 y hy with h3 | h3
      · rw [hxs, h3]
        rw [hxs] at hx1
        simp [hx1]
      · exact absurd h3.symm hys
    · have hx1 : x ∈ b0.order.take (k + 1) ↔ x ∈ b0.order.take k := by
        rw [htake x]
        exact ⟨fun h => h.resolve_right hxs, Or.inl⟩
      rw [hMid1 x y hxs, hOld x y hx hy]
      simp only [sortedValue, hx1, hy1]

/-! ## The function `determinehardwork` -/

/-- One pass of the loop over `idxsource` in `determinehardwork`. -/
theorem hardworkSource_spec (b0 b : GtBucketspec2)
    (hperm : List.Perm b0.order (List.range b0.numofchars)) (k : Nat)
    (hk : k < b0.numofchars) (hse : SameEnds b0 b)
    (hinv : ∀ x y, x < b0.numofchars → y < b0.numofchars →
      (b.subbuckettab x y).sorted = sortedValue b0 k x y ∧
      (x ∈ b0.order.take k → (b.subbuckettab x y).hardworktodo = hardworkValue b0 x y)) :
    SameEnds b0 (hardworkSource k b) ∧
    ∀ x y, x < b0.numofchars → y < b0.numofchars →
      ((hardworkSource k b).subbuckettab x y).sorted = sortedValue b0 (k + 1) x y ∧
      (x ∈ b0.order.take (k + 1) →
        ((hardworkSource k b).subbuckettab x y).hardworktodo = hardworkValue b0 x y) := by
  obtain ⟨hsn, hnot, hidx, htake⟩ := order_facts b0 hperm k hk
  obtain ⟨source, hsource⟩ : ∃ source, source = b0.order.getD k 0 := ⟨_, rfl⟩
  rw [← hsource] at hsn hnot hidx htake
  have hget : b.order.getD k 0 = source := by rw [hse.order_eq, hsource]
  -- the loop over `second`
  have h1 := forLoop_inv
    (fun j b1 => SameEnds b0 b1 ∧ ∀ x y,
      (x ≠ source → (b1.subbuckettab x y).sorted = (b.subbuckettab x y).sorted ∧
        (b1.subbuckettab x y).hardworktodo = (b.subbuckettab x y).hardworktodo) ∧
      (x = source → y < j →
        (b1.subbuckettab x y).sorted = true ∨ source = y ∧
          (b1.subbuckettab x y).sorted = (b.subbuckettab x y).sorted) ∧
      (x = source → y < j →
        (b1.subbuckettab x y).hardworktodo
          = (!(b.subbuckettab x y).sorted && decide (source ≠ y))) ∧
      (x = source → j ≤ y → (b1.subbuckettab x y).sorted = (b.subbuckettab x y).sorted))
    (hardworkEntry source) b0.numofchars 0 b
    ⟨hse, fun x y => ⟨fun _ => ⟨rfl, rfl⟩, fun _ h => absurd h (by omega),
      fun _ h => absurd h (by omega), fun _ _ => rfl⟩⟩
    (by
      intro j b1 _ _ ⟨hse1, hq⟩
      have hcur : (b1.subbuckettab source j).sorted = (b.subbuckettab source j).sorted :=
        (hq source j).2.2.2 rfl (le_refl _)
      by_cases hcond : (!(b1.subbuckettab source j).sorted && source != j) = true
      · have hs : (b1.subbuckettab source j).sorted = false := by
          simp only [Bool.and_eq_true, Bool.not_eq_true'] at hcond
          exact hcond.1
        have hne : source ≠ j := by
          simp only [Bool.and_eq_true, bne_iff_ne] at hcond
          exact hcond.2
        simp only [hardworkEntry, if_pos hcond]
        refine ⟨sameEnds_trans hse1 (sameEnds_trans (sameEnds_setSubHardwork b1 source j true)
          (sameEnds_setSubSorted _ source j true)), ?_⟩
        intro x y
        rw [setSubSorted_sorted, setSubSorted_hardwork, setSubHardwork_sorted,
          setSubHardwork_hardwork]
        refine ⟨?_, ?_, ?_, ?_⟩
        · intro hx
          rw [if_neg (fun h => hx h.1), if_neg (fun h => hx h.1)]
          exact (hq x y).1 hx
        · intro hx hy
          by_cases hyj : y = j
          · rw [if_pos ⟨hx, hyj⟩]
            exact Or.inl rfl
          · rw [if_neg (fun h => hyj h.2)]
            exact (hq x y).2.1 hx (by omega)
        · intro hx hy
          by_cases hyj : y = j
          · rw [if_pos ⟨hx, hyj⟩, hx, hyj, ← hcur, hs]
            simp [hne]
          · rw [if_neg (fun h => hyj h.2)]
            exact (hq x y).2.2.1 hx (by omega)
        · intro hx hy
          rw [if_neg (fun h => by omega)]
          exact (hq x y).2.2.2 hx (by omega)
      · simp only [hardworkEntry, if_neg hcond]
        refine ⟨sameEnds_trans hse1 (sameEnds_setSubHardwork b1 source j false), ?_⟩
        intro x y
        rw [setSubHardwork_sorted, setSubHardwork_hardwork]
        refine ⟨?_, ?_, ?_, ?_⟩
        · intro hx
          rw [if_neg (fun h => hx h.1)]
          exact (hq x y).1 hx
        · intro hx hy
          by_cases hyj : y = j
          · subst hx
            subst hyj
            by_cases hs : (b1.subbuckettab x y).sorted = true
            · exact Or.inl hs
            · right
              refine ⟨?_, hcur⟩
              by_contra hne
              apply hcond
              simp only [Bool.and_eq_true, Bool.not_eq_true', bne_iff_ne]
              exact ⟨by simpa using hs, hne⟩
          · exact (hq x y).2.1 hx (by omega)
        · intro hx hy
          by_cases hyj : y = j
          · rw [if_pos ⟨hx, hyj⟩, hx, hyj, ← hcur]
            symm
            simpa using hcond
          · rw [if_neg (fun h => hyj h.2)]
            exact (hq x y).2.2.1 hx (by omega)
        · intro hx hy
          exact (hq x y).2.2.2 hx (by omega))
  obtain ⟨b1, hb1⟩ : ∃ b1, b1 = forLoop (hardworkEntry source) b0.numofchars 0 b := ⟨_, rfl⟩
  rw [← hb1] at h1
  obtain ⟨hse1, hq1⟩ := h1
  -- the loop over `idx`
  obtain ⟨hse2, hq2⟩ := markSorted_spec (setSuperSorted b1 source true) source b0.numofchars
  have hrun : hardworkSource k b
      = forLoop (markSorted source) b0.numofchars 0 (setSuperSorted b1 source true) := by
    simp only [hardworkSource, hget, hse.numofchars_eq, hb1]
  rw [← hrun] at hse2 hq2
  refine ⟨sameEnds_trans hse1 (sameEnds_trans (sameEnds_setSuperSorted b1 source true) hse2),
    ?_⟩
  intro x y hx hy
  constructor
  · exact sorted_after_pass b0 k source htake
      (fun x y => (b.subbuckettab x y).sorted) (fun x y => (b1.subbuckettab x y).sorted)
      (fun x y => ((hardworkSource k b).subbuckettab x y).sorted)
      (fun x y hx hy => (hinv x y hx hy).1)
      (fun x y hxs => ((hq1 x y).1 hxs).1)
      (fun y hy => ((hq1 source y).2.1 rfl (by omega)).imp id (fun h => h.1))
      (fun x y => (hq2 x y).2) x y hx hy
  · intro hxm
    obtain ⟨hsb, hwb⟩ := hinv x y hx hy
    rw [(hq2 x y).1, setSuperSorted_sub]
    by_cases hxs : x = source
    · rw [(hq1 x y).2.2.1 hxs (by omega), hsb]
      simp only [sortedValue, hardworkValue]
      rw [hxs, hidx]
      have : decide (source ∈ b0.order.take k) = false := by simpa using hnot
      rw [this]
      cases emptyBucket b0 source y <;> cases decide (y ∈ b0.order.take k) <;>
        cases decide (source ≠ y) <;> rfl
    · rw [((hq1 x y).1 hxs).2]
      exact hwb (((htake x).mp hxm).resolve_right hxs)

/-- After `determinehardwork` on an object whose flags `sorted` say which
subbuckets are empty, the flags `hardworktodo` have the values of
`hardworkValue`. -/
theorem determinehardwork_spec (b0 : GtBucketspec2)
    (hperm : List.Perm b0.order (List.range b0.numofchars))
    (hs0 : ∀ x y, x < b0.numofchars → y < b0.numofchars →
      (b0.subbuckettab x y).sorted = emptyBucket b0 x y) :
    SameEnds b0 (determinehardwork b0) ∧
    ∀ x y, x < b0.numofchars → y < b0.numofchars →
      ((determinehardwork b0).subbuckettab x y).hardworktodo = hardworkValue b0 x y := by
  have h := forLoop_inv
    (fun k b => SameEnds b0 b ∧ ∀ x y, x < b0.numofchars → y < b0.numofchars →
      (b.subbuckettab x y).sorted = sortedValue b0 k x y ∧
      (x ∈ b0.order.take k → (b.subbuckettab x y).hardworktodo = hardworkValue b0 x y))
    hardworkSource b0.numofchars 0 b0
    ⟨sameEnds_refl b0, fun x y hx hy => ⟨by
      rw [hs0 x y hx hy]
      simp [sortedValue], fun h => by simp at h⟩⟩
    (by
      intro k b _ hk ⟨hse, hinv⟩
      exact hardworkSource_spec b0 b hperm k (by omega) hse hinv)
  rw [Nat.zero_add] at h
  obtain ⟨hse, hinv⟩ := h
  refine ⟨hse, fun x y hx hy => (hinv x y hx hy).2 ?_⟩
  have hlen : b0.order.length = b0.numofchars := by
    rw [hperm.length_eq, List.length_range]
  rw [← hlen, List.take_length]
  exact hperm.mem_iff.mpr (List.mem_range.mpr hx)

/-! ## The functions `gt_copysort_new` and `gt_copysort_derivesorting` -/

theorem hardworkValue_congr {b0 b : GtBucketspec2} (h : SameEnds b0 b) (x y : Nat) :
    hardworkValue b x y = hardworkValue b0 x y := by
  simp only [hardworkValue, sameEnds_emptyBucket h, h.order_eq]

theorem sortedValue_congr {b0 b : GtBucketspec2} (h : SameEnds b0 b) (k x y : Nat) :
    sortedValue b k x y = sortedValue b0 k x y := by
  simp only [sortedValue, sameEnds_emptyBucket h, h.order_eq]

/-- The value of `hardworkValue` in the words of the order. -/
theorem hardworkValue_iff (b : GtBucketspec2)
    (hperm : List.Perm b.order (List.range b.numofchars)) (x y : Nat)
    (hx : x < b.numofchars) (hy : y < b.numofchars) :
    hardworkValue b x y = true ↔
      x ≠ y ∧ startidx b x y < endidx b x y ∧ precedes b.order x y := by
  have hxm : x ∈ b.order := hperm.mem_iff.mpr (List.mem_range.mpr hx)
  have hym : y ∈ b.order := hperm.mem_iff.mpr (List.mem_range.mpr hy)
  have hmem := mem_take_iff_indexOf_lt b.order (b.order.indexOf x) y List.indexOf_le_length
  simp only [hardworkValue, emptyBucket, precedes, Bool.and_eq_true, decide_eq_true_eq,
    Bool.not_eq_true', decide_eq_false_iff_not, Bool.not_not, hmem]
  constructor
  · rintro ⟨⟨h1, h2⟩, h3⟩
    refine ⟨h1, h2, ?_⟩
    have hne : b.order.indexOf x ≠ b.order.indexOf y :=
      fun h => h1 ((List.indexOf_inj hxm hym).mp h)
    omega
  · rintro ⟨h1, h2, h3⟩
    exact ⟨⟨h1, h2⟩, by omega⟩

/-- The object that `gt_copysort_new` returns. -/
theorem gt_copysort_new_spec (gt_qsort_r : List Nat → (Nat → Nat → Int) → List Nat) (w : Nat)
    (filled : GtBucketspec2) (hn : 0 < filled.numofchars)
    (hperm : List.Perm
      (gt_qsort_r (List.range filled.numofchars)
        (comparesuperbucketsizes w { filled with order := List.range filled.numofchars }))
      (List.range filled.numofchars)) :
    ∃ b, gt_copysort_new gt_qsort_r w filled = .ok b ∧
      b.numofchars = filled.numofchars ∧
      b.order = gt_qsort_r (List.range filled.numofchars)
        (comparesuperbucketsizes w { filled with order := List.range filled.numofchars }) ∧
      (∀ i, (b.superbuckettab i).bucketend = (filled.superbuckettab i).bucketend) ∧
      (∀ i j, (b.subbuckettab i j).bucketend = (filled.subbuckettab i j).bucketend) ∧
      (∀ x y, x < b.numofchars → y < b.numofchars →
        (b.subbuckettab x y).sorted = emptyBucket b x y ∧
        (b.subbuckettab x y).hardworktodo = hardworkValue b x y) := by
  obtain ⟨ba, hba⟩ : ∃ ba, ba = GtBucketspec2.mk filled.numofchars
      (gt_qsort_r (List.range filled.numofchars)
        (comparesuperbucketsizes w { filled with order := List.range filled.numofchars }))
      filled.superbuckettab filled.subbuckettab := ⟨_, rfl⟩
  have hna : ba.numofchars = filled.numofchars := by rw [hba]
  have hpa : List.Perm ba.order (List.range ba.numofchars) := by rw [hba]; exact hperm
  obtain ⟨b1, hb1, hse1, _, hso1⟩ := resetsorted_spec ba
  have hp1 : List.Perm b1.order (List.range b1.numofchars) := by
    rw [hse1.order_eq, hse1.numofchars_eq]; exact hpa
  obtain ⟨hse2, hhw2⟩ := determinehardwork_spec b1 hp1 (by
    intro x y hx hy
    rw [hse1.numofchars_eq] at hx hy
    rw [hso1 x y hx hy, sameEnds_emptyBucket hse1])
  obtain ⟨b3, hb3, hse3, hhw3, hso3⟩ := resetsorted_spec (determinehardwork b1)
  have hse13 := sameEnds_trans hse2 hse3
  have hsea := sameEnds_trans hse1 hse13
  refine ⟨b3, ?_, by rw [hsea.numofchars_eq, hna], by rw [hsea.order_eq, hba], ?_, ?_, ?_⟩
  · have hassert : assertThat (decide (filled.numofchars > 0)) = .ok () := assertThat_ok _ hn
    simp only [gt_copysort_new, hassert, bind, Except.bind]
    rw [← hba, hb1]
    simp only []
    exact hb3
  · intro i
    rw [hsea.super_eq, hba]
  · intro i j
    rw [hsea.sub_eq, hba]
  · intro x y hx hy
    rw [hse13.numofchars_eq] at hx hy
    constructor
    · rw [hso3 x y (by rw [hse2.numofchars_eq]; exact hx) (by rw [hse2.numofchars_eq]; exact hy),
        sameEnds_emptyBucket hse3]
    · rw [hhw3, hhw2 x y hx hy, hardworkValue_congr hse13]

/-- The loop over `second` in one pass of `gt_copysort_derivesorting`: both
assertions on `hardworktodo` hold at every subbucket, and the loop marks the
subbuckets of `source` as sorted. -/
theorem derivesortingEntries_spec (w : Nat) (b : GtBucketspec2)
    (hperm : List.Perm b.order (List.range b.numofchars))
    (hflags : ∀ x y, x < b.numofchars → y < b.numofchars →
      (b.subbuckettab x y).hardworktodo = hardworkValue b x y)
    (k : Nat) (hk : k < b.numofchars) (source : Nat) (hsource : source = b.order.getD k 0)
    (st : GtBucketspec2 × Nat) (hse : SameEnds b st.1)
    (hhw : ∀ x y, (st.1.subbuckettab x y).hardworktodo = (b.subbuckettab x y).hardworktodo)
    (hso : ∀ x y, x < b.numofchars → y < b.numofchars →
      (st.1.subbuckettab x y).sorted = sortedValue b k x y) :
    ∃ st1, forLoopM (derivesortingEntry w source) b.numofchars 0 st = .ok st1 ∧
      SameEnds b st1.1 ∧
      (∀ x y, (st1.1.subbuckettab x y).hardworktodo = (b.subbuckettab x y).hardworktodo) ∧
      ∀ x y,
        (x ≠ source → (st1.1.subbuckettab x y).sorted = (st.1.subbuckettab x y).sorted) ∧
        (x = source → y < b.numofchars →
          (st1.1.subbuckettab x y).sorted = true ∨ source = y) ∧
        (x = source → b.numofchars ≤ y →
          (st1.1.subbuckettab x y).sorted = (st.1.subbuckettab x y).sorted) := by
  obtain ⟨hsn, hnot, hidx, _⟩ := order_facts b hperm k hk
  rw [← hsource] at hsn hnot hidx
  have hnotd : decide (source ∈ b.order.take k) = false := by simpa using hnot
  have h1 := forLoopM_inv
    (fun j (st1 : GtBucketspec2 × Nat) => SameEnds b st1.1 ∧
      (∀ x y, (st1.1.subbuckettab x y).hardworktodo = (b.subbuckettab x y).hardworktodo) ∧
      ∀ x y,
        (x ≠ source → (st1.1.subbuckettab x y).sorted = (st.1.subbuckettab x y).sorted) ∧
        (x = source → y < j → (st1.1.subbuckettab x y).sorted = true ∨ source = y) ∧
        (x = source → j ≤ y →
          (st1.1.subbuckettab x y).sorted = (st.1.subbuckettab x y).sorted))
    (derivesortingEntry w source) b.numofchars 0 st
    ⟨hse, hhw, fun x y => ⟨fun _ => rfl, fun _ h => absurd h (by omega), fun _ _ => rfl⟩⟩
    (by
      intro j st1 _ hj ⟨hse1, hhw1, hq⟩
      have hjn : j < b.numofchars := by omega
      have hcur : (st1.1.subbuckettab source j).sorted = sortedValue b k source j := by
        rw [(hq source j).2.2 rfl (le_refl _)]
        exact hso source j hsn hjn
      have hval : (st1.1.subbuckettab source j).hardworktodo = hardworkValue b source j := by
        rw [hhw1]
        exact hflags source j hsn hjn
      by_cases hcond : (!(st1.1.subbuckettab source j).sorted && source != j) = true
      · have hs : (st1.1.subbuckettab source j).sorted = false := by
          simp only [Bool.and_eq_true, Bool.not_eq_true'] at hcond
          exact hcond.1
        have hne : source ≠ j := by
          simp only [Bool.and_eq_true, bne_iff_ne] at hcond
          exact hcond.2
        have htrue : (st1.1.subbuckettab source j).hardworktodo = true := by
          rw [hval]
          rw [hs] at hcur
          simp only [sortedValue, hnotd, Bool.or_false] at hcur
          simp only [hardworkValue, hidx]
          have h2 : emptyBucket b source j = false := by
            cases h : emptyBucket b source j
            · rfl
            · rw [h] at hcur; simp at hcur
          have h3 : decide (j ∈ b.order.take k) = false := by
            cases h : decide (j ∈ b.order.take k)
            · rfl
            · rw [h] at hcur; simp at hcur
          rw [h2, h3]
          simp [hne]
        have he := getendidx_ok st1.1 source j (by rw [hse1.numofchars_eq]; exact hsn)
          (by rw [hse1.numofchars_eq]; omega)
        have hst := getstartidx_ok st1.1 source j (by rw [hse1.numofchars_eq]; exact hsn)
          (by rw [hse1.numofchars_eq]; omega)
        have hrun : derivesortingEntry w source j st1
            = .ok (setSubSorted st1.1 source j true,
              (st1.2 + (endidx st1.1 source j + (2 ^ w - startidx st1.1 source j)) % 2 ^ w)
                % 2 ^ w) := by
          simp only [derivesortingEntry, if_pos hcond, htrue, assertHardwork, he, hst, bind,
            Except.bind, pure, Except.pure, if_true]
        refine ⟨_, hrun, sameEnds_trans hse1 (sameEnds_setSubSorted st1.1 source j true), ?_, ?_⟩
        · intro x y
          simp only [setSubSorted_hardwork]
          exact hhw1 x y
        · intro x y
          simp only [setSubSorted_sorted]
          refine ⟨?_, ?_, ?_⟩
          · intro hx
            rw [if_neg (fun h => hx h.1)]
            exact (hq x y).1 hx
          · intro hx hy
            by_cases hyj : y = j
            · rw [if_pos ⟨hx, hyj⟩]
              exact Or.inl rfl
            · rw [if_neg (fun h => hyj h.2)]
              exact (hq x y).2.1 hx (by omega)
          · intro hx hy
            rw [if_neg (fun h => by omega)]
            exact (hq x y).2.2 hx (by omega)
      · have hfalse : (st1.1.subbuckettab source j).hardworktodo = false := by
          rw [hval]
          simp only [hardworkValue, hidx]
          by_cases hne : source = j
          · simp [hne]
          · have hs : (st1.1.subbuckettab source j).sorted = true := by
              cases h : (st1.1.subbuckettab source j).sorted
              · exfalso
                apply hcond
                simp only [h, Bool.not_false, Bool.true_and, bne_iff_ne]
                exact hne
              · rfl
            rw [hs] at hcur
            simp only [sortedValue, hnotd, Bool.or_false] at hcur
            cases h2 : emptyBucket b source j
            · rw [h2] at hcur
              simp only [Bool.false_or] at hcur
              rw [← hcur]
              simp
            · simp
        have hrun : derivesortingEntry w source j st1 = .ok st1 := by
          simp only [derivesortingEntry, if_neg hcond, hfalse, assertHardwork, bind, Except.bind,
            pure, Except.pure, Bool.not_false, if_true]
        refine ⟨_, hrun, hse1, hhw1, ?_⟩
        intro x y
        refine ⟨(hq x y).1, ?_, ?_⟩
        · intro hx hy
          by_cases hyj : y = j
          · subst hx
            subst hyj
            by_cases hs : (st1.1.subbuckettab x y).sorted = true
            · exact Or.inl hs
            · right
              by_contra hne
              apply hcond
              simp only [Bool.and_eq_true, Bool.not_eq_true', bne_iff_ne]
              exact ⟨by simpa using hs, hne⟩
          · exact (hq x y).2.1 hx (by omega)
        · intro hx hy
          exact (hq x y).2.2 hx (by omega))
  rw [Nat.zero_add] at h1
  exact h1

/-! ## The blocks of `gt_copysort_derivesorting` that derive the order -/

theorem spared_getstartidx (b : GtBucketspec2) (first second : Nat) :
    Spared (getstartidx b first second) := by
  unfold getstartidx
  refine spared_bind (spared_assertThat _)
    (fun _ _ => spared_bind (spared_assertThat _) (fun _ _ => ?_))
  split
  · exact spared_ok _
  · split <;> exact spared_ok _

theorem spared_getendidx (b : GtBucketspec2) (first second : Nat) :
    Spared (getendidx b first second) := by
  unfold getendidx
  refine spared_bind (spared_assertThat _)
    (fun _ _ => spared_bind (spared_assertThat _) (fun _ _ => ?_))
  split <;> exact spared_ok _

theorem spared_forwardderiveBody {S : Type} (C : DeriveCalls S) (w : Nat) (b : GtBucketspec2)
    (idx : Nat) (st : S × List Nat) : Spared (forwardderiveBody C w b idx st) := by
  unfold forwardderiveBody
  split
  · split
    · split
      · split
        · exact spared_bind (spared_readAt _ _)
            (fun _ _ => spared_bind (spared_writeAt _ _ _) (fun _ _ => spared_ok _))
        · exact spared_ok _
      · exact spared_outOfBounds
    · exact spared_ok _
  · exact spared_ok _

theorem spared_backwardderiveBody {S : Type} (C : DeriveCalls S) (w : Nat) (b : GtBucketspec2)
    (idx : Nat) (st : S × List Nat) : Spared (backwardderiveBody C w b idx st) := by
  unfold backwardderiveBody
  split
  · split
    · split
      · split
        · exact spared_bind (spared_readAt _ _)
            (fun _ _ => spared_bind (spared_writeAt _ _ _) (fun _ _ => spared_ok _))
        · exact spared_ok _
      · exact spared_outOfBounds
    · exact spared_ok _
  · exact spared_ok _

theorem spared_forwardderiveLoop {S : Type} (C : DeriveCalls S) (w : Nat) (b : GtBucketspec2)
    (source : Nat) :
    ∀ (n idx : Nat) (st : S × List Nat), Spared (forwardderiveLoop C w b source n idx st) := by
  intro n
  induction n with
  | zero => intro idx st; exact spared_ok _
  | succ n ih =>
    intro idx st
    unfold forwardderiveLoop
    refine spared_bind (spared_readAt _ _) (fun t _ => ?_)
    split
    · exact spared_bind (spared_forwardderiveBody C w b idx st) (fun st1 _ => ih (idx + 1) st1)
    · exact spared_ok _

theorem spared_backwardderiveLoop {S : Type} (C : DeriveCalls S) (w : Nat) (b : GtBucketspec2)
    (source : Nat) :
    ∀ (idx : Nat) (st : S × List Nat), Spared (backwardderiveLoop C w b source idx st) := by
  intro idx
  induction idx with
  | zero =>
    intro st
    unfold backwardderiveLoop
    refine spared_bind (spared_readAt _ _) (fun t _ => ?_)
    split
    · exact spared_backwardderiveBody C w b 0 st
    · exact spared_ok _
  | succ idx ih =>
    intro st
    unfold backwardderiveLoop
    refine spared_bind (spared_readAt _ _) (fun t _ => ?_)
    split
    · exact spared_bind (spared_backwardderiveBody C w b (idx + 1) st) (fun st1 _ => ih st1)
    · exact spared_ok _

theorem spared_forwardderive {S : Type} (C : DeriveCalls S) (w : Nat) (b : GtBucketspec2)
    (st : S × List Nat) (source idx : Nat) : Spared (forwardderive C w b st source idx) := by
  unfold forwardderive
  exact spared_bind (spared_readAt _ _) (fun _ _ =>
    spared_bind (spared_assertThat _) (fun _ _ => spared_forwardderiveLoop C w b source _ _ _))

theorem spared_backwardderive {S : Type} (C : DeriveCalls S) (w : Nat) (b : GtBucketspec2)
    (st : S × List Nat) (source idx : Nat) : Spared (backwardderive C w b st source idx) := by
  unfold backwardderive
  exact spared_bind (spared_readAt _ _) (fun _ _ =>
    spared_bind (spared_assertThat _) (fun _ _ => spared_backwardderiveLoop C w b source _ _))

theorem spared_forwardTarget (b : GtBucketspec2) (source idx : Nat) (targetoffset : List Nat) :
    Spared (forwardTarget b source idx targetoffset) := by
  unfold forwardTarget
  exact spared_bind (spared_getstartidx _ _ _) (fun _ _ => spared_writeAt _ _ _)

theorem spared_backwardTarget (b : GtBucketspec2) (source idx : Nat) (targetoffset : List Nat) :
    Spared (backwardTarget b source idx targetoffset) := by
  unfold backwardTarget
  exact spared_bind (spared_getendidx _ _ _) (fun _ _ =>
    spared_bind (spared_assertThat _) (fun _ _ => spared_writeAt _ _ _))

theorem spared_forwardBlock {S : Type} (C : DeriveCalls S) (w : Nat) (b : GtBucketspec2)
    (source : Nat) (st : S × List Nat) : Spared (forwardBlock C w b source st) := by
  unfold forwardBlock
  refine spared_bind (spared_getstartidx _ _ _) (fun _ _ =>
    spared_bind (spared_getstartidx _ _ _) (fun _ _ => ?_))
  split
  · exact spared_bind (forLoopM_spared _ (spared_forwardTarget b source) _ _ _) (fun _ _ =>
      spared_bind (spared_getstartidx _ _ _) (fun _ _ => spared_forwardderive C w b _ _ _))
  · exact spared_ok _

theorem spared_backwardBlock {S : Type} (C : DeriveCalls S) (w : Nat) (b : GtBucketspec2)
    (source : Nat) (st : S × List Nat) : Spared (backwardBlock C w b source st) := by
  unfold backwardBlock
  refine spared_bind (spared_getendidx _ _ _) (fun _ _ =>
    spared_bind (spared_getendidx _ _ _) (fun _ _ => ?_))
  split
  · exact spared_bind (forLoopM_spared _ (spared_backwardTarget b source) _ _ _) (fun _ _ =>
      spared_bind (spared_getendidx _ _ _) (fun _ _ =>
        spared_bind (spared_assertThat _) (fun _ _ =>
          spared_bind (spared_getendidx _ _ _) (fun _ _ => spared_backwardderive C w b _ _ _))))
  · exact spared_ok _

/-! ## The passes that `forwardderive` allows for -/

/-- A pass of the loop of `forwardderive` keeps the number of entries of
`targetoffset` and keeps the entries below `2^w`. -/
theorem forwardderiveBody_targets {S : Type} (C : DeriveCalls S) (w : Nat)
    (b : GtBucketspec2) (idx : Nat) (st st1 : S × List Nat)
    (h : forwardderiveBody C w b idx st = .ok st1) (hb : ∀ x ∈ st.2, x < 2 ^ w) :
    st1.2.length = st.2.length ∧ ∀ x ∈ st1.2, x < 2 ^ w := by
  unfold forwardderiveBody at h
  split at h
  · split at h
    · split at h
      · split at h
        · obtain ⟨t, _, h1⟩ := bind_eq_ok h
          obtain ⟨targetoffset, h2, h3⟩ := bind_eq_ok h1
          cases h3
          unfold writeAt at h2
          split at h2
          · cases h2
            refine ⟨List.length_set _ _ _, fun x hx => ?_⟩
            rcases List.mem_or_eq_of_mem_set hx with hx1 | hx1
            · exact hb x hx1
            · rw [hx1]
              exact Nat.mod_lt _ (Nat.two_pow_pos w)
          · cases h2
        · cases h
          exact ⟨rfl, hb⟩
      · cases h
    · cases h
      exact ⟨rfl, hb⟩
  · cases h
    exact ⟨rfl, hb⟩

/-- The `2^w - idx` passes that `forwardderive` allows its loop are enough:
with entries of `targetoffset` below `2^w`, more passes give the same
result. -/
theorem forwardderiveLoop_fuel {S : Type} (C : DeriveCalls S) (w : Nat) (b : GtBucketspec2)
    (source : Nat) :
    ∀ (n idx : Nat) (st : S × List Nat), source < st.2.length → (∀ x ∈ st.2, x < 2 ^ w) →
      2 ^ w ≤ idx + n → ∀ m, n ≤ m →
        forwardderiveLoop C w b source m idx st = forwardderiveLoop C w b source n idx st := by
  intro n
  induction n with
  | zero =>
    intro idx st hs hb hfuel m _
    cases m with
    | zero => rfl
    | succ m =>
      have hread : readAt st.2 source = .ok (st.2[source]) := by
        simp only [readAt, List.getElem?_eq_getElem hs]
      have ht : st.2[source] < 2 ^ w := hb _ (List.getElem_mem hs)
      simp only [forwardderiveLoop, hread, ok_bind]
      rw [if_neg (by omega)]
      rfl
  | succ n ih =>
    intro idx st hs hb hfuel m hm
    cases m with
    | zero => omega
    | succ m =>
      have hread : readAt st.2 source = .ok (st.2[source]) := by
        simp only [readAt, List.getElem?_eq_getElem hs]
      simp only [forwardderiveLoop, hread, ok_bind]
      by_cases hlt : idx < st.2[source]
      · rw [if_pos hlt, if_pos hlt]
        cases hbody : forwardderiveBody C w b idx st with
        | error e => rfl
        | ok st1 =>
          obtain ⟨hl, hb1⟩ := forwardderiveBody_targets C w b idx st st1 hbody hb
          simp only [ok_bind]
          exact ih (idx + 1) st1 (by rw [hl]; exact hs) hb1 (by omega) m (by omega)
      · rw [if_neg hlt, if_neg hlt]

/-! ## The function `gt_copysort_derivesorting` -/

/-- One pass of the loop over `idxsource` in `gt_copysort_derivesorting`: it
does not end at an assertion on `hardworktodo`, and when it completes, the
flags `sorted` are those after `k + 1` passes. -/
theorem derivesortingSource_spec {S : Type} (C : DeriveCalls S) (w : Nat) (b : GtBucketspec2)
    (hperm : List.Perm b.order (List.range b.numofchars))
    (hflags : ∀ x y, x < b.numofchars → y < b.numofchars →
      (b.subbuckettab x y).hardworktodo = hardworkValue b x y)
    (k : Nat) (hk : k < b.numofchars) (st : (GtBucketspec2 × Nat) × (S × List Nat))
    (hse : SameEnds b st.1.1)
    (hhw : ∀ x y, (st.1.1.subbuckettab x y).hardworktodo = (b.subbuckettab x y).hardworktodo)
    (hso : ∀ x y, x < b.numofchars → y < b.numofchars →
      (st.1.1.subbuckettab x y).sorted = sortedValue b k x y) :
    Spared (derivesortingSource C w k st) ∧
    ∀ st1, derivesortingSource C w k st = .ok st1 →
      SameEnds b st1.1.1 ∧
      (∀ x y, (st1.1.1.subbuckettab x y).hardworktodo = (b.subbuckettab x y).hardworktodo) ∧
      (∀ x y, x < b.numofchars → y < b.numofchars →
        (st1.1.1.subbuckettab x y).sorted = sortedValue b (k + 1) x y) := by
  obtain ⟨_, _, _, htake⟩ := order_facts b hperm k hk
  obtain ⟨flagged, hflagged, hse1, hhw1, hq1⟩ :=
    derivesortingEntries_spec w b hperm hflags k hk (b.order.getD k 0) rfl st.1 hse hhw hso
  obtain ⟨hse2, hq2⟩ := markSorted_spec flagged.1 (b.order.getD k 0) b.numofchars
  have hrun : derivesortingSource C w k st
      = (forwardBlock C w flagged.1 (b.order.getD k 0) st.2 >>= fun derived =>
          backwardBlock C w flagged.1 (b.order.getD k 0) derived >>= fun derived =>
            pure ((setSuperSorted
              (forLoop (markSorted (b.order.getD k 0)) b.numofchars 0 flagged.1)
              (b.order.getD k 0) true, flagged.2), derived)) := by
    unfold derivesortingSource
    simp only [hse.order_eq, hse.numofchars_eq, hflagged, ok_bind, hse1.numofchars_eq]
  rw [hrun]
  constructor
  · exact spared_bind (spared_forwardBlock C w _ _ _) (fun _ _ =>
      spared_bind (spared_backwardBlock C w _ _ _) (fun _ _ => spared_ok _))
  · intro st1 hst1
    obtain ⟨d1, _, h1⟩ := bind_eq_ok hst1
    obtain ⟨d2, _, h2⟩ := bind_eq_ok h1
    cases h2
    refine ⟨sameEnds_trans hse1 (sameEnds_trans hse2 (sameEnds_setSuperSorted _ _ _)), ?_, ?_⟩
    · intro x y
      simp only [setSuperSorted_sub]
      rw [(hq2 x y).1]
      exact hhw1 x y
    · simp only [setSuperSorted_sub]
      exact sorted_after_pass b k (b.order.getD k 0) htake
        (fun x y => (st.1.1.subbuckettab x y).sorted)
        (fun x y => (flagged.1.subbuckettab x y).sorted)
        (fun x y =>
          ((forLoop (markSorted (b.order.getD k 0)) b.numofchars 0 flagged.1).subbuckettab
            x y).sorted)
        hso (fun x y hxs => (hq1 x y).1 hxs)
        (fun y hy => (hq1 (b.order.getD k 0) y).2.1 rfl hy)
        (fun x y => (hq2 x y).2)

/-- On an object with the flags that `gt_copysort_new` leaves, no assertion
on `hardworktodo` in `gt_copysort_derivesorting` fails, whatever the suffix
sort space and the encoded sequence hold; when the function returns, the
object has the bucket ends and the flags `hardworktodo` it had. -/
theorem gt_copysort_derivesorting_spec {S : Type} (C : DeriveCalls S) (w : Nat)
    (b : GtBucketspec2) (hperm : List.Perm b.order (List.range b.numofchars))
    (hflags : ∀ x y, x < b.numofchars → y < b.numofchars →
      (b.subbuckettab x y).sorted = emptyBucket b x y ∧
      (b.subbuckettab x y).hardworktodo = hardworkValue b x y)
    (suffixsortspace : S) :
    Spared (gt_copysort_derivesorting C w b suffixsortspace) ∧
    ∀ r, gt_copysort_derivesorting C w b suffixsortspace = .ok r →
      SameEnds b r.1 ∧
      ∀ x y, (r.1.subbuckettab x y).hardworktodo = (b.subbuckettab x y).hardworktodo := by
  have h := forLoopM_spared_inv
    (fun k (st : (GtBucketspec2 × Nat) × (S × List Nat)) => SameEnds b st.1.1 ∧
      (∀ x y, (st.1.1.subbuckettab x y).hardworktodo = (b.subbuckettab x y).hardworktodo) ∧
      (∀ x y, x < b.numofchars → y < b.numofchars →
        (st.1.1.subbuckettab x y).sorted = sortedValue b k x y))
    (derivesortingSource C w) b.numofchars 0
    ((b, 0), (suffixsortspace, List.replicate b.numofchars 0))
    ⟨sameEnds_refl b, fun _ _ => rfl, fun x y hx hy => by
      rw [(hflags x y hx hy).1]
      simp [sortedValue]⟩
    (by
      intro k st _ hk ⟨hse, hhw, hso⟩
      exact derivesortingSource_spec C w b hperm (fun x y hx hy => (hflags x y hx hy).2) k
        (by omega) st hse hhw hso)
  obtain ⟨hsp, hok⟩ := h
  unfold gt_copysort_derivesorting
  constructor
  · exact spared_bind hsp (fun _ _ => spared_ok _)
  · intro r hr
    obtain ⟨st, hst, h1⟩ := bind_eq_ok hr
    cases h1
    obtain ⟨hse, hhw, _⟩ := hok st hst
    exact ⟨hse, hhw⟩

/-- The run of `gt_copysort_derivesorting` on the object of two characters:
both blocks that derive the order run, and the function returns with the
counter `hardwork` at 2. -/
theorem derivesorting_two_chars :
    ∃ b r, gt_copysort_new insertionQsort 64 twoCharBuckets = .ok b ∧
      gt_copysort_derivesorting listCalls 64 b [7, 0, 3, 10, 8, 2, 1, 4, 5, 9] = .ok r ∧
      r.2.1 = 2 ∧ r.2.2 = [7, 0, 3, 10, 2, 9, 1, 4, 5, 9] :=
  ⟨_, _, rfl, rfl, rfl, rfl⟩

/-- With a subbucket that ends at 0 the run ends at `gt_assert(endidx > 0)`. -/
theorem derivesorting_zero_end :
    ∃ b, gt_copysort_new insertionQsort 64 zeroEndBuckets = .ok b ∧
      gt_copysort_derivesorting listCalls 64 b [7, 0, 3, 10, 8, 2, 1, 4, 5, 9]
        = .error .assertion :=
  ⟨_, rfl, rfl⟩

/-- With the flag of the subbucket `(0, 1)` cleared the first assertion on
`hardworktodo` fails. -/
theorem derivesorting_wrong_flag :
    ∃ b, gt_copysort_new insertionQsort 64 twoCharBuckets = .ok b ∧
      gt_copysort_derivesorting listCalls 64 (setSubHardwork b 0 1 false)
        [7, 0, 3, 10, 8, 2, 1, 4, 5, 9] = .error .hardworkAssertion :=
  ⟨_, rfl, rfl⟩

/-! ## Set and get -/

theorem assertThat_passes (c : Prop) [Decidable c] (h : c) : assertThat (decide c) = .ok () := by
  simp [assertThat, h]

theorem listStore_holds (b : List Nat) (n maxvalue : Nat) (h : b.length = n) :
    StoreHolds listStore n maxvalue b := by
  intro i v hi _
  constructor
  · simp only [listStore]
    rw [List.getD_eq_getElem?_getD, List.getElem?_set_self (by omega)]
    rfl
  · intro j _ hji
    simp only [listStore]
    rw [List.getD_eq_getElem?_getD, List.getElem?_set_ne (by omega),
      ← List.getD_eq_getElem?_getD]

/-! ## The claims on the copy sort and on the table of suffixes -/

/-- C38: when the array that `gt_qsort_r` returns for the characters
`0..numofchars-1` is a permutation of them, as it is for a sort,
`gt_copysort_new` returns an object with that array as `order` in which, for
all characters `a` and `b`: `getstartidx` and `getendidx` return the bucket
ends, and the subbucket `(a, b)` is flagged `hardworktodo` exactly if
`a != b`, `getstartidx(a, b) < getendidx(a, b)` and `a` comes before `b` in
`order`.  So for `a != b` not both of `(a, b)` and `(b, a)` are flagged, no
subbucket `(a, a)` is flagged, and a run of `gt_copysort_derivesorting` on the
object, with any suffix sort space and encoded sequence, does not end at an
assertion on `hardworktodo`. -/
theorem C38_hardwork_flags (gt_qsort_r : List Nat → (Nat → Nat → Int) → List Nat) (w : Nat)
    (filled : GtBucketspec2) (hn : 0 < filled.numofchars)
    (hperm : List.Perm
      (gt_qsort_r (List.range filled.numofchars)
        (comparesuperbucketsizes w { filled with order := List.range filled.numofchars }))
      (List.range filled.numofchars)) :
    ∃ b, gt_copysort_new gt_qsort_r w filled = .ok b ∧
      b.numofchars = filled.numofchars ∧
      b.order = gt_qsort_r (List.range filled.numofchars)
        (comparesuperbucketsizes w { filled with order := List.range filled.numofchars }) ∧
      (∀ x y, x < b.numofchars → y < b.numofchars →
        getstartidx b x y = .ok (startidx b x y) ∧ getendidx b x y = .ok (endidx b x y) ∧
        ((b.subbuckettab x y).hardworktodo = true ↔
          x ≠ y ∧ startidx b x y < endidx b x y ∧ precedes b.order x y)) ∧
      (∀ x y, x < b.numofchars → y < b.numofchars → x ≠ y →
        ¬ ((b.subbuckettab x y).hardworktodo = true ∧
          (b.subbuckettab y x).hardworktodo = true)) ∧
      (∀ x, x < b.numofchars → (b.subbuckettab x x).hardworktodo = false) ∧
      ∀ (S : Type) (C : DeriveCalls S) (suffixsortspace : S),
        gt_copysort_derivesorting C w b suffixsortspace ≠ .error .hardworkAssertion := by
  obtain ⟨b, hb, hnb, hob, _, _, hflags⟩ := gt_copysort_new_spec gt_qsort_r w filled hn hperm
  have hpb : List.Perm b.order (List.range b.numofchars) := by
    rw [hob, hnb]
    exact hperm
  have hiff : ∀ x y, x < b.numofchars → y < b.numofchars →
      ((b.subbuckettab x y).hardworktodo = true ↔
        x ≠ y ∧ startidx b x y < endidx b x y ∧ precedes b.order x y) := by
    intro x y hx hy
    rw [(hflags x y hx hy).2]
    exact hardworkValue_iff b hpb x y hx hy
  refine ⟨b, hb, hnb, hob, ?_, ?_, ?_,
    fun S C suffixsortspace => (gt_copysort_derivesorting_spec C w b hpb hflags suffixsortspace).1⟩
  · intro x y hx hy
    exact ⟨getstartidx_ok b x y hx (by omega), getendidx_ok b x y hx (by omega), hiff x y hx hy⟩
  · intro x y hx hy _ hboth
    have h1 := ((hiff x y hx hy).mp hboth.1).2.2
    have h2 := ((hiff y x hy hx).mp hboth.2).2.2
    unfold precedes at h1 h2
    omega
  · intro x hx
    cases h : (b.subbuckettab x x).hardworktodo
    · rfl
    · exact absurd rfl ((hiff x x hx hx).mp h).1

theorem C38_hardwork_flags_witness :
    ∃ b, gt_copysort_new insertionQsort 64 twoCharBuckets = .ok b ∧
      ((b.subbuckettab 0 1).hardworktodo = true ↔
        0 ≠ 1 ∧ startidx b 0 1 < endidx b 0 1 ∧ precedes b.order 0 1) ∧
      gt_copysort_derivesorting listCalls 64 b [7, 0, 3, 10, 8, 2, 1, 4, 5, 9]
        ≠ .error .hardworkAssertion :=
  (C38_hardwork_flags insertionQsort 64 twoCharBuckets (by decide)
    (List.perm_insertionSort _ _)).imp
    (fun _ h => ⟨h.1, (h.2.2.2.1 0 1 (by rw [h.2.1]; decide) (by rw [h.2.1]; decide)).2.2,
      h.2.2.2.2.2.2 (List Nat) listCalls [7, 0, 3, 10, 8, 2, 1, 4, 5, 9]⟩)

/-- C40: for a table that is set up, in either storage mode, and an index
`idx` with `partoffset <= idx < partoffset + numofentries` and a value
`v <= maxvalue`, in the plain-array mode also `v <= UINT32_MAX`:
`gt_spmsuftab_set` completes, it changes the entry `idx - partoffset` of the
store in use and nothing else, and on the table after it `gt_spmsuftab_get`
returns `v` at `idx` and at every other valid index what it returns on the
table before. -/
theorem C40_set_then_get {S : Type} (A : CompactUlongstoreCalls S) (t : GtSpmsuftab S)
    (idx v : Nat) (hset : SetUp A t) (h1 : t.partoffset ≤ idx)
    (h2 : idx < t.partoffset + t.numofentries) (hv : v ≤ t.maxvalue)
    (hv32 : t.bitpackarray = none → v ≤ UINT32_MAX) :
    ∃ t1, gt_spmsuftab_set A t idx v = .ok t1 ∧
      gt_spmsuftab_get A t1 idx = .ok v ∧
      (∀ j, t.partoffset ≤ j → j < t.partoffset + t.numofentries → j ≠ idx →
        gt_spmsuftab_get A t1 j = gt_spmsuftab_get A t j) ∧
      t1.partoffset = t.partoffset ∧ t1.numofentries = t.numofentries ∧
      t1.maxvalue = t.maxvalue ∧
      (∀ b, t.bitpackarray = some b →
        t1.bitpackarray = some (A.gt_GtCompactulongstore_update b (idx - t.partoffset) v) ∧
        t1.suftab = t.suftab) ∧
      (t.bitpackarray = none → ∀ a, t.suftab = some a →
        t1.bitpackarray = none ∧ t1.suftab = some (a.set (idx - t.partoffset) v)) := by
  have ha1 : assertThat (decide (idx ≥ t.partoffset)) = .ok () := assertThat_passes _ h1
  have ha2 : assertThat (decide (idx - t.partoffset < t.numofentries ∧ v ≤ t.maxvalue))
      = .ok () := assertThat_passes _ ⟨by omega, hv⟩
  have hget : ∀ (t1 : GtSpmsuftab S) (j : Nat), t1.partoffset = t.partoffset →
      t1.numofentries = t.numofentries → t.partoffset ≤ j →
      j < t.partoffset + t.numofentries →
      gt_spmsuftab_get A t1 j =
        (match t1.bitpackarray with
        | some b => .ok (A.gt_GtCompactulongstore_get b (j - t.partoffset))
        | none => loadPlain t1 (j - t.partoffset)) := by
    intro t1 j hp hn hj1 hj2
    have hb1 : assertThat (decide (j ≥ t.partoffset)) = .ok () := assertThat_passes _ hj1
    have hb2 : assertThat (decide (j - t.partoffset < t.numofentries)) = .ok () :=
      assertThat_passes _ (by omega)
    simp only [gt_spmsuftab_get, hp, hn, hb1, hb2, bind, Except.bind]
  cases hb : t.bitpackarray with
  | some b =>
    have hst : StoreHolds A t.numofentries t.maxvalue b := by
      simpa only [SetUp, hb] using hset
    obtain ⟨hsame, hother⟩ := hst (idx - t.partoffset) v (by omega) hv
    obtain ⟨t1, ht1⟩ : ∃ t1, t1 = GtSpmsuftab.mk t.partoffset t.numofentries t.maxvalue
        (some (A.gt_GtCompactulongstore_update b (idx - t.partoffset) v)) t.suftab := ⟨_, rfl⟩
    have hp : t1.partoffset = t.partoffset := by rw [ht1]
    have hn : t1.numofentries = t.numofentries := by rw [ht1]
    have hb1 : t1.bitpackarray
        = some (A.gt_GtCompactulongstore_update b (idx - t.partoffset) v) := by rw [ht1]
    refine ⟨t1, ?_, ?_, ?_, hp, hn, by rw [ht1], ?_, ?_⟩
    · simp only [gt_spmsuftab_set, ha1, ha2, hb, bind, Except.bind, ht1]
    · rw [hget t1 idx hp hn h1 h2]
      simp only [hb1, hsame]
    · intro j hj1 hj2 hne
      rw [hget t1 j hp hn hj1 hj2, hget t j rfl rfl hj1 hj2]
      simp only [hb, hb1]
      rw [hother (j - t.partoffset) (by omega) (by omega)]
    · intro b2 hb2
      rw [Option.some.injEq] at hb2
      subst hb2
      exact ⟨hb1, by rw [ht1]⟩
    · intro h
      exact absurd h (by simp)
  | none =>
    obtain ⟨a, ha, hlen⟩ : ∃ a, t.suftab = some a ∧ a.length = t.numofentries := by
      simpa only [SetUp, hb] using hset
    have hv2 : v ≤ UINT32_MAX := hv32 hb
    have hmod : v % 2 ^ 32 = v := Nat.mod_eq_of_lt (by unfold UINT32_MAX at hv2; omega)
    have ha3 : assertThat (decide (v ≤ UINT32_MAX)) = .ok () := assertThat_passes _ hv2
    obtain ⟨t1, ht1⟩ : ∃ t1, t1 = GtSpmsuftab.mk t.partoffset t.numofentries t.maxvalue
        t.bitpackarray (some (a.set (idx - t.partoffset) v)) := ⟨_, rfl⟩
    have hp : t1.partoffset = t.partoffset := by rw [ht1]
    have hn : t1.numofentries = t.numofentries := by rw [ht1]
    have hb1 : t1.bitpackarray = none := by rw [ht1]; exact hb
    have hs1 : t1.suftab = some (a.set (idx - t.partoffset) v) := by rw [ht1]
    refine ⟨t1, ?_, ?_, ?_, hp, hn, by rw [ht1], ?_, ?_⟩
    · simp only [gt_spmsuftab_set, ha1, ha2, hb, storePlain, ha, ha3, hmod,
        if_pos (show idx - t.partoffset < a.length by omega), bind, Except.bind, ht1]
    · rw [hget t1 idx hp hn h1 h2]
      simp only [hb1, loadPlain, hs1,
        List.getElem?_set_self (show idx - t.partoffset < a.length by omega)]
    · intro j hj1 hj2 hne
      rw [hget t1 j hp hn hj1 hj2, hget t j rfl rfl hj1 hj2]
      simp only [hb, hb1, loadPlain, ha, hs1,
        List.getElem?_set_ne (show idx - t.partoffset ≠ j - t.partoffset by omega)]
    · intro b2 hb2
      exact absurd hb2 (by simp)
    · intro _ a2 ha2'
      rw [ha, Option.some.injEq] at ha2'
      subst ha2'
      exact ⟨hb1, hs1⟩

theorem C40_set_then_get_witness :
    (∃ t1, gt_spmsuftab_set listStore packedTable 11 42 = .ok t1 ∧
      gt_spmsuftab_get listStore t1 11 = .ok 42 ∧
      gt_spmsuftab_get listStore t1 12 = gt_spmsuftab_get listStore packedTable 12) ∧
    (∃ t1, gt_spmsuftab_set listStore plainTable 11 42 = .ok t1 ∧
      gt_spmsuftab_get listStore t1 11 = .ok 42 ∧
      gt_spmsuftab_get listStore t1 12 = gt_spmsuftab_get listStore plainTable 12) :=
  ⟨(C40_set_then_get listStore packedTable 11 42 (listStore_holds [5, 6, 7] 3 100 rfl)
      (by decide) (by decide) (by decide) (fun h => absurd h (by decide))).imp
      (fun _ h => ⟨h.1, h.2.1, h.2.2.1 12 (by decide) (by decide) (by decide)⟩),
    (C40_set_then_get listStore plainTable 11 42 ⟨[5, 6, 7], rfl, rfl⟩
      (by decide) (by decide) (by decide) (fun _ => by decide)).imp
      (fun _ h => ⟨h.1, h.2.1, h.2.2.1 12 (by decide) (by decide) (by decide)⟩)⟩

end Match

namespace Annotationsketch

/-! ## The result of sketching a line -/

/-- After the loop `had_err` holds the result of the sketch of the last
block, whatever the sketches of the blocks before it returned. -/
theorem sketchBlocks_append {σ : Type} (E : SketchCalls σ) :
    ∀ (blocks : List Nat) (had_err : Int) (canvas : σ) (block : Nat),
      sketchBlocks E (blocks ++ [block]) had_err canvas
        = ((E.gt_block_sketch block (sketchBlocks E blocks had_err canvas).2).1,
            (E.gt_block_sketch block (sketchBlocks E blocks had_err canvas).2).2) := by
  intro blocks
  induction blocks with
  | nil => intro had_err canvas block; rfl
  | cons b rest ih =>
    intro had_err canvas block
    exact ih _ _ block

/-- A failing pre-visit of the line is returned, and neither a block is
sketched nor the post-visit made. -/
theorem gt_line_sketch_of_pre_error {σ : Type} (E : SketchCalls σ) (line : GtLine) (canvas : σ)
    (h : (E.gt_canvas_visit_line_pre canvas line).1 ≠ 0) :
    gt_line_sketch E line canvas = E.gt_canvas_visit_line_pre canvas line := by
  simp only [gt_line_sketch, sketchBlocksUnlessError, if_neg h]

/-- C39, the code at the failing input: on a line with the blocks 1 and 2,
where the sketch of block 1 returns -1 and the sketch of block 2 returns 0,
`gt_line_sketch` returns 0 and calls the post-visit of the line. -/
theorem C39_later_block_overwrites_error :
    (blockOneFails.gt_block_sketch 1 [SketchEvent.linePre]).1 = -1 ∧
    gt_line_sketch blockOneFails { has_captions := false, blocks := [1, 2] } []
      = (0, [.linePre, .blockSketch 1, .blockSketch 2, .linePost]) := by
  constructor <;> rfl

end Annotationsketch
